import Mathlib

/-!
# Byte: scanner and single-pass expression compiler

A shallow embedding of `src/core/scanner.c`, `src/core/scanner.h`,
`src/core/compiler.c` and `src/core/compiler.h`.

* The source buffer is a `List Char`; a `const char*` into it is a `Nat`
  offset, and reading at or past the end of the list reads the terminating
  NUL.
* The scanner loops walk the buffer one character at a time; each is a
  structural recursion whose counter is the length of the buffer, which
  bounds the number of iterations of every one of them (`skipDigits_stops`,
  `skipAlnum_stops`, `skipComment_stops`, `skipWhitespace_stops`,
  `stringLoop_stops`: each loop ends because its condition fails, not because
  the counter ran out).
* The parser's `advance` loop and the mutual recursion of the Pratt parser are
  not bounded by anything in the source, so they take an explicit `fuel`.
* An access to `interpolating` outside its slots is undefined in C. It is
  recorded in the scanner's `outOfBounds`; the statements about whole runs of
  the scanner are about runs on which that flag stays clear, as it does on
  every source without `$` (`scanTokens_plain_source`).
-/

namespace Byte

/-! ## common.h -/

def MAX_INTERPOLATION_NESTING : Nat := 8

/-! ## Characters the scanner names -/

/-- The terminator of a C string. -/
def NUL : Char := Char.ofNat 0
/-- Line feed. -/
def LF : Char := Char.ofNat 10
/-- Carriage return. -/
def CR : Char := Char.ofNat 13
/-- Horizontal tab. -/
def TAB : Char := Char.ofNat 9
/-- Double quote. -/
def DQUOTE : Char := Char.ofNat 34
/-- Single quote. -/
def SQUOTE : Char := Char.ofNat 39
/-- Backslash. -/
def BSLASH : Char := Char.ofNat 92
/-- Left brace. -/
def LBRACE : Char := Char.ofNat 123
/-- Right brace. -/
def RBRACE : Char := Char.ofNat 125

/-! ## scanner.h -/

inductive TokenType where
  | TOKEN_LEFT_PAREN
  | TOKEN_RIGHT_PAREN
  | TOKEN_LEFT_BRACKET
  | TOKEN_RIGHT_BRACKET
  | TOKEN_LEFT_BRACE
  | TOKEN_RIGHT_BRACE
  | TOKEN_COMMA
  | TOKEN_COLON
  | TOKEN_SEMICOLON
  | TOKEN_HASH
  | TOKEN_DOT
  | TOKEN_DOT_DOT
  | TOKEN_PLUS
  | TOKEN_MINUS
  | TOKEN_STAR
  | TOKEN_SLASH
  | TOKEN_PERCENT
  | TOKEN_STAR_STAR
  | TOKEN_SLASH_SLASH
  | TOKEN_EQUAL
  | TOKEN_GREATER_THAN
  | TOKEN_LESS_THAN
  | TOKEN_BANG
  | TOKEN_TILDE
  | TOKEN_PIPE
  | TOKEN_AMP
  | TOKEN_CARET
  | TOKEN_PLUS_EQUAL
  | TOKEN_MINUS_EQUAL
  | TOKEN_STAR_EQUAL
  | TOKEN_SLASH_EQUAL
  | TOKEN_PERCENT_EQUAL
  | TOKEN_STAR_STAR_EQUAL
  | TOKEN_SLASH_SLASH_EQUAL
  | TOKEN_EQUAL_EQUAL
  | TOKEN_GREATER_EQUAL
  | TOKEN_LESS_EQUAL
  | TOKEN_BANG_EQUAL
  | TOKEN_TILDE_EQUAL
  | TOKEN_PIPE_EQUAL
  | TOKEN_AMP_EQUAL
  | TOKEN_CARET_EQUAL
  | TOKEN_IDENTIFIER
  | TOKEN_STRING
  | TOKEN_INTERPOLATION
  | TOKEN_NUMBER
  | TOKEN_AND
  | TOKEN_OR
  | TOKEN_NOT
  | TOKEN_NIL
  | TOKEN_IN
  | TOKEN_IMPORT
  | TOKEN_CLASS
  | TOKEN_IS
  | TOKEN_SUPER
  | TOKEN_IF
  | TOKEN_ELSE
  | TOKEN_TRUE
  | TOKEN_FALSE
  | TOKEN_FN
  | TOKEN_FOR
  | TOKEN_PRINT
  | TOKEN_RETURN
  | TOKEN_THIS
  | TOKEN_LET
  | TOKEN_WHILE
  | TOKEN_NEWLINE
  | TOKEN_EOF
  | TOKEN_ERROR
  deriving DecidableEq, Repr

open TokenType

/-- One row of the reserved-word table; `length` is the length of
`identifier`. -/
structure Keyword where
  identifier : List Char
  length : Nat
  tokenType : TokenType
  deriving DecidableEq, Repr

/-- The table of reserved words, in the order of `scanner.h`; the sentinel
row that ends the C array is the end of the list. -/
def keywords : List Keyword :=
  [ ⟨"and".toList, 3, TOKEN_AND⟩, ⟨"or".toList, 2, TOKEN_OR⟩,
    ⟨"not".toList, 3, TOKEN_NOT⟩, ⟨"nil".toList, 3, TOKEN_NIL⟩,
    ⟨"in".toList, 2, TOKEN_IN⟩, ⟨"is".toList, 2, TOKEN_IS⟩,
    ⟨['i', 'm', 'p', 'o', 'r', 't'], 6, TOKEN_IMPORT⟩, ⟨"class".toList, 5, TOKEN_CLASS⟩,
    ⟨"if".toList, 2, TOKEN_IF⟩, ⟨"else".toList, 4, TOKEN_ELSE⟩,
    ⟨"true".toList, 4, TOKEN_TRUE⟩, ⟨"false".toList, 5, TOKEN_FALSE⟩,
    ⟨"fn".toList, 2, TOKEN_FN⟩, ⟨"for".toList, 3, TOKEN_FOR⟩,
    ⟨"print".toList, 5, TOKEN_PRINT⟩, ⟨"return".toList, 6, TOKEN_RETURN⟩,
    ⟨"super".toList, 5, TOKEN_SUPER⟩, ⟨"this".toList, 4, TOKEN_THIS⟩,
    ⟨"let".toList, 3, TOKEN_LET⟩, ⟨"while".toList, 5, TOKEN_WHILE⟩ ]

/-- Where `Token.start` points: into the source buffer, or at a message that
`errorToken` formatted on the heap. -/
inductive TokenStart where
  | src (offset : Nat)
  | heap (text : List Char)
  deriving DecidableEq, Repr

structure Token where
  type : TokenType
  start : TokenStart
  length : Nat
  line : Int
  deriving DecidableEq, Repr

/-- The scanner. `source` is the buffer both pointers point into.
`interpolating` has `MAX_INTERPOLATION_NESTING` slots. `outOfBounds` is not a
field of the C struct: it records that some access `interpolating[i]` was made
with `i` outside `0 .. MAX_INTERPOLATION_NESTING - 1`. Such an access is
undefined in C, and once the flag is set the other fields say nothing about
the program. -/
structure Scanner where
  source : List Char
  start : Nat
  current : Nat
  line : Int
  interpolatingCount : Int
  interpolating : List Int
  outOfBounds : Bool
  deriving DecidableEq, Repr

/-- The `length` characters a token's `start` points at. -/
def Token.text (source : List Char) (t : Token) : List Char :=
  match t.start with
  | .src offset => (source.drop offset).take t.length
  | .heap text => text.take t.length

/-! ## scanner.c -/

namespace Scanner

/-- The character at offset `i` of the buffer. -/
def charAt (s : Scanner) (i : Nat) : Char := s.source.getD i NUL

/-- Whether `i` is an index of the `interpolating` array. -/
def inBounds (i : Int) : Bool := decide (0 ≤ i) && decide (i < MAX_INTERPOLATION_NESTING)

/-- The assignment `s->interpolating[i] = v`. With `i` outside the array it
is undefined in C: the array is left as it is and the access is recorded in
`outOfBounds`. -/
def writeInterpolating (s : Scanner) (i : Int) (v : Int) : Scanner :=
  if inBounds i then { s with interpolating := s.interpolating.set i.toNat v }
  else { s with outOfBounds := true }

/-- The read `s->interpolating[i]`. With `i` outside the array it is undefined
in C: the access is recorded in `outOfBounds`, and the 0 returned stands for
no value of the program. -/
def readInterpolating (s : Scanner) (i : Int) : Int × Scanner :=
  if inBounds i then (s.interpolating.getD i.toNat 0, s)
  else (0, { s with outOfBounds := true })

end Scanner

/-- The function `initScanner`. It does not assign `interpolating`; the slots
are taken to hold 0. -/
def initScanner (source : List Char) : Scanner :=
  { source := source
    start := 0
    current := 0
    line := 1
    interpolatingCount := -1
    interpolating := List.replicate MAX_INTERPOLATION_NESTING 0
    outOfBounds := false }

namespace Scanner

/-- The function `current`; the field of that name is the pointer. -/
def current_ (s : Scanner) : Char := s.charAt s.current

def isAtEnd (s : Scanner) : Bool := s.current_ == NUL

def makeToken (s : Scanner) (type : TokenType) : Token :=
  { type := type
    start := .src s.start
    length := s.current - s.start
    line := s.line }

/-- The token `errorToken` builds from the already formatted message. -/
def errorToken (s : Scanner) (message : List Char) : Token :=
  { type := TOKEN_ERROR
    start := .heap message
    length := message.length
    line := s.line }

def isDigit (c : Char) : Bool := decide ('0' ≤ c) && decide (c ≤ '9')

def isAlpha (c : Char) : Bool :=
  (decide ('a' ≤ c) && decide (c ≤ 'z')) || (decide ('A' ≤ c) && decide (c ≤ 'Z')) || c == '_'

def advance (s : Scanner) : Char × Scanner :=
  let s1 := { s with current := s.current + 1 }
  let c := s1.charAt (s1.current - 1)
  (c, if c == LF then { s1 with line := s1.line + 1 } else s1)

/-- The function `match`, a reserved word here. -/
def matchChar (s : Scanner) (expected : Char) : Bool × Scanner :=
  if s.isAtEnd then (false, s)
  else if s.current_ != expected then (false, s)
  else
    let s1 := { s with current := s.current + 1 }
    (true, if s1.charAt (s1.current - 1) == LF then { s1 with line := s1.line + 1 } else s1)

def previous (s : Scanner) : Char := s.charAt (s.current - 1)

def next (s : Scanner) : Char :=
  if s.isAtEnd then NUL else s.charAt (s.current + 1)

/-- The loop `while (current(s) != LF && !isAtEnd(s)) advance(s);` of the
line-comment case. -/
def skipComment : Nat → Scanner → Scanner
  | 0, s => s
  | n + 1, s =>
    if s.current_ != LF && !s.isAtEnd then skipComment n (s.advance).2 else s

/-- The `while (true)` loop of `skipWhitespace`. -/
def skipWhitespaceLoop : Nat → Scanner → Scanner
  | 0, s => s
  | n + 1, s =>
    let c := s.current_
    if c == ' ' || c == CR || c == TAB then skipWhitespaceLoop n (s.advance).2
    else if c == '#' then skipWhitespaceLoop n (skipComment s.source.length s)
    else s

def skipWhitespace (s : Scanner) : Scanner :=
  skipWhitespaceLoop s.source.length s

/-- The decimal text `%d` prints. -/
def fmtInt (i : Int) : List Char := (toString i).toList

/-- The loop of `string`: `none` when the loop condition fails, the token
returned from inside the loop otherwise. -/
def stringLoop : Nat → Char → Scanner → Option Token × Scanner
  | 0, _, s => (none, s)
  | n + 1, quote, s =>
    if s.current_ != quote && !s.isAtEnd then
      if s.current_ == '$' && s.next == LBRACE && s.previous != BSLASH then
        if s.interpolatingCount - 1 < (MAX_INTERPOLATION_NESTING : Int) then
          let s1 := { s with interpolatingCount := s.interpolatingCount + 1 }
          let s2 := s1.writeInterpolating s1.interpolatingCount (quote.toNat : Int)
          let s3 := { s2 with current := s2.current + 1 }
          let tkn := s3.makeToken TOKEN_INTERPOLATION
          (some tkn, { s3 with current := s3.current + 1 })
        else
          (some (s.errorToken
            ("maximum interpolation nesting of ".toList
              ++ fmtInt (MAX_INTERPOLATION_NESTING : Int) ++ " exceeded by ".toList
              ++ fmtInt ((MAX_INTERPOLATION_NESTING : Int) - s.interpolatingCount + 1))), s)
      else
        let s1 :=
          if s.current_ == BSLASH && (s.next == quote || s.next == BSLASH) then (s.advance).2
          else s
        stringLoop n quote (s1.advance).2
    else (none, s)

def string (s : Scanner) (quote : Char) : Token × Scanner :=
  match stringLoop s.source.length quote s with
  | (some tkn, s1) => (tkn, s1)
  | (none, s1) =>
    if s1.isAtEnd then
      (s1.errorToken "unterminated string (opening quote not matched)".toList, s1)
    else
      let s2 := (s1.matchChar quote).2
      (s2.makeToken TOKEN_STRING, s2)

/-- The loop `while (isDigit(current(s))) advance(s);`. -/
def skipDigits : Nat → Scanner → Scanner
  | 0, s => s
  | n + 1, s => if isDigit s.current_ then skipDigits n (s.advance).2 else s

def number (s : Scanner) : Token × Scanner :=
  let s1 := skipDigits s.source.length s
  let s2 :=
    if s1.current_ == '.' && isDigit s1.next then skipDigits s1.source.length (s1.advance).2
    else s1
  let m := if (s2.matchChar 'e').1 then s2.matchChar 'e' else s2.matchChar 'E'
  if m.1 then
    let p := m.2.matchChar '+'
    let s3 := if !p.1 then (p.2.matchChar '-').2 else p.2
    if !isDigit s3.current_ then
      (s3.errorToken "unterminated scientific notation".toList, s3)
    else
      let s4 := skipDigits s3.source.length s3
      (s4.makeToken TOKEN_NUMBER, s4)
  else
    (m.2.makeToken TOKEN_NUMBER, m.2)

/-- The loop `while (isAlpha(current(s)) || isDigit(current(s))) advance(s);`. -/
def skipAlnum : Nat → Scanner → Scanner
  | 0, s => s
  | n + 1, s =>
    if isAlpha s.current_ || isDigit s.current_ then skipAlnum n (s.advance).2 else s

/-- The `for` loop of `identifier` over the keyword table: the type of the
first row whose length and bytes equal the lexeme, `TOKEN_IDENTIFIER` when
there is none. -/
def keywordType (lexeme : List Char) : List Keyword → TokenType
  | [] => TOKEN_IDENTIFIER
  | k :: ks =>
    if lexeme.length = k.length && lexeme == k.identifier.take lexeme.length then k.tokenType
    else keywordType lexeme ks

def identifier (s : Scanner) : Token × Scanner :=
  let s1 := skipAlnum s.source.length s
  let length := s1.current - s1.start
  let type := keywordType ((s1.source.drop s1.start).take length) keywords
  (s1.makeToken type, s1)

end Scanner

open Scanner in
def scanToken (s0 : Scanner) : Token × Scanner :=
  let s1 := s0.skipWhitespace
  let s2 := { s1 with start := s1.current }
  if s2.isAtEnd then (s2.makeToken TOKEN_EOF, s2)
  else
    let (c, s) := s2.advance
    if isDigit c then s.number
    else if isAlpha c then s.identifier
    else if c == '(' then (s.makeToken TOKEN_LEFT_PAREN, s)
    else if c == ')' then (s.makeToken TOKEN_RIGHT_PAREN, s)
    else if c == '[' then (s.makeToken TOKEN_LEFT_BRACKET, s)
    else if c == ']' then (s.makeToken TOKEN_RIGHT_BRACKET, s)
    else if c == LBRACE then (s.makeToken TOKEN_LEFT_BRACE, s)
    else if c == RBRACE then
      if s.interpolatingCount > -1 then
        let (q, sr) := s.readInterpolating s.interpolatingCount
        let (token, s3) := sr.string (Char.ofNat (q % 256).toNat)
        (token, { s3 with interpolatingCount := s3.interpolatingCount - 1 })
      else (s.makeToken TOKEN_RIGHT_BRACE, s)
    else if c == ',' then (s.makeToken TOKEN_COMMA, s)
    else if c == ':' then (s.makeToken TOKEN_COLON, s)
    else if c == '.' then
      let m := s.matchChar '.'
      (m.2.makeToken (if m.1 then TOKEN_DOT_DOT else TOKEN_DOT), m.2)
    else if c == '+' then
      let m := s.matchChar '='
      (m.2.makeToken (if m.1 then TOKEN_PLUS_EQUAL else TOKEN_PLUS), m.2)
    else if c == '-' then
      let m := s.matchChar '='
      (m.2.makeToken (if m.1 then TOKEN_MINUS_EQUAL else TOKEN_MINUS), m.2)
    else if c == '*' then
      let m := s.matchChar '*'
      if m.1 then
        let m2 := m.2.matchChar '='
        (m2.2.makeToken (if m2.1 then TOKEN_STAR_STAR_EQUAL else TOKEN_STAR_STAR), m2.2)
      else
        let m2 := m.2.matchChar '='
        (m2.2.makeToken (if m2.1 then TOKEN_STAR_EQUAL else TOKEN_STAR), m2.2)
    else if c == '/' then
      let m := s.matchChar '/'
      if m.1 then
        let m2 := m.2.matchChar '='
        (m2.2.makeToken (if m2.1 then TOKEN_SLASH_SLASH_EQUAL else TOKEN_SLASH_SLASH), m2.2)
      else
        let m2 := m.2.matchChar '='
        (m2.2.makeToken (if m2.1 then TOKEN_SLASH_EQUAL else TOKEN_SLASH), m2.2)
    else if c == '%' then
      let m := s.matchChar '='
      (m.2.makeToken (if m.1 then TOKEN_PERCENT_EQUAL else TOKEN_PERCENT), m.2)
    else if c == '=' then
      let m := s.matchChar '='
      (m.2.makeToken (if m.1 then TOKEN_EQUAL_EQUAL else TOKEN_EQUAL), m.2)
    else if c == '>' then
      let m := s.matchChar '='
      (m.2.makeToken (if m.1 then TOKEN_GREATER_EQUAL else TOKEN_GREATER_THAN), m.2)
    else if c == '<' then
      let m := s.matchChar '='
      (m.2.makeToken (if m.1 then TOKEN_LESS_EQUAL else TOKEN_LESS_THAN), m.2)
    else if c == '!' then
      let m := s.matchChar '='
      (m.2.makeToken (if m.1 then TOKEN_BANG_EQUAL else TOKEN_BANG), m.2)
    else if c == '~' then
      let m := s.matchChar '='
      (m.2.makeToken (if m.1 then TOKEN_TILDE_EQUAL else TOKEN_TILDE), m.2)
    else if c == '|' then
      let m := s.matchChar '='
      (m.2.makeToken (if m.1 then TOKEN_PIPE_EQUAL else TOKEN_PIPE), m.2)
    else if c == '&' then
      let m := s.matchChar '='
      (m.2.makeToken (if m.1 then TOKEN_AMP_EQUAL else TOKEN_AMP), m.2)
    else if c == '^' then
      let m := s.matchChar '='
      (m.2.makeToken (if m.1 then TOKEN_CARET_EQUAL else TOKEN_CARET), m.2)
    else if c == LF then (s.makeToken TOKEN_NEWLINE, s)
    else if c == DQUOTE then s.string DQUOTE
    else if c == SQUOTE then s.string SQUOTE
    else (s.errorToken ("unexpected character ".toList ++ [c]), s)

/-! ## The chunk and `strtod`

`chunk.h` is not among the sources and `strtod` comes from the C library. -/

/-- Modelled from the spec: the opcodes of `chunk.h`, which is not among the
sources ("load-constant (operand: one-byte pool index), negate, add,
subtract, multiply, divide, return"), under the names `compiler.c` uses. -/
inductive OpCode where
  | OP_CONSTANT
  | OP_NEGATE
  | OP_ADD
  | OP_SUBTRACT
  | OP_MULTIPLY
  | OP_DIVIDE
  | OP_RETURN
  deriving DecidableEq, Repr

open OpCode

/-- One `uint8_t` of the instruction stream. The numbering of the opcodes is
in `chunk.h`, so a byte is kept as what `compiler.c` wrote: an opcode, or the
operand of `OP_CONSTANT`. -/
inductive CodeByte where
  | op (code : OpCode)
  | operand (index : Nat)
  deriving DecidableEq, Repr

/-- A `double`, kept as the numeral `strtod` converted. -/
structure Value where
  numeral : List Char
  deriving DecidableEq, Repr

/-- Modelled from the spec: the `Chunk` of `chunk.h`, which is not among the
sources: "append-only sequence of instruction bytes with a parallel
line-number array, plus a constant pool (ordered sequence of values, not
deduplicated". -/
structure Chunk where
  code : List CodeByte
  lines : List Int
  constants : List Value
  deriving DecidableEq, Repr

/-- Modelled from the spec: `initChunk` of `chunk.h`: the empty chunk. -/
def initChunk : Chunk := { code := [], lines := [], constants := [] }

/-- Modelled from the spec: `writeChunk` of `chunk.h`: "`append(byte,
sourceLine)` records one instruction/operand byte plus its originating
line". -/
def writeChunk (chunk : Chunk) (byte : CodeByte) (line : Int) : Chunk :=
  { chunk with code := chunk.code ++ [byte], lines := chunk.lines ++ [line] }

/-- Modelled from the spec: `addConstant` of `chunk.h`: "`addConstant(value)
-> index` appends to the constant pool and returns its index". -/
def addConstant (chunk : Chunk) (value : Value) : Nat × Chunk :=
  (chunk.constants.length, { chunk with constants := chunk.constants ++ [value] })

def isHex (c : Char) : Bool :=
  (decide ('0' ≤ c) && decide (c ≤ '9')) || (decide ('a' ≤ c) && decide (c ≤ 'f'))
    || (decide ('A' ≤ c) && decide (c ≤ 'F'))

/-- The exponent part of a numeral: the marker, an optional sign and a
nonempty run of decimal digits; empty when `text` does not start with one. -/
def exponentPart (marker : Char → Bool) (text : List Char) : List Char :=
  match text with
  | [] => []
  | m :: rest =>
    if marker m then
      match rest with
      | [] => []
      | c :: rest1 =>
        if c == '+' || c == '-' then
          (if (rest1.takeWhile Scanner.isDigit).isEmpty then []
           else m :: c :: rest1.takeWhile Scanner.isDigit)
        else
          (if ((c :: rest1).takeWhile Scanner.isDigit).isEmpty then []
           else m :: (c :: rest1).takeWhile Scanner.isDigit)
    else []

/-- A run of digits, then an optional point and run of digits, then an
optional exponent part. -/
def numeralOf (digit : Char → Bool) (marker : Char → Bool) (text : List Char) : List Char :=
  let whole := text.takeWhile digit
  let rest := text.drop whole.length
  let mantissa :=
    match rest with
    | '.' :: rest1 => whole ++ '.' :: rest1.takeWhile digit
    | _ => whole
  mantissa ++ exponentPart marker (text.drop mantissa.length)

/-- Modelled from the C standard (7.22.1.3): the subject sequence that
`strtod` converts when the text starts with a decimal digit, which every
`TOKEN_NUMBER` lexeme does: a hexadecimal numeral after `0x`, a decimal
numeral otherwise. The conversion never looks at a token's `length`. -/
def strtod (text : List Char) : Value :=
  match text with
  | '0' :: x :: rest =>
    if (x == 'x' || x == 'X') &&
        (match rest with
         | c :: d :: _ => isHex c || (c == '.' && isHex d)
         | [c] => isHex c
         | [] => false) then
      ⟨'0' :: x :: numeralOf isHex (fun c => c == 'p' || c == 'P') rest⟩
    else ⟨numeralOf Scanner.isDigit (fun c => c == 'e' || c == 'E') text⟩
  | _ => ⟨numeralOf Scanner.isDigit (fun c => c == 'e' || c == 'E') text⟩

/-- Modelled from the C standard (7.22.1.3): the value of one digit of a
numeral; a letter is a hexadecimal digit. -/
def digitValue (c : Char) : Nat :=
  if '0' ≤ c ∧ c ≤ '9' then c.toNat - '0'.toNat
  else if 'a' ≤ c ∧ c ≤ 'f' then c.toNat - 'a'.toNat + 10
  else if 'A' ≤ c ∧ c ≤ 'F' then c.toNat - 'A'.toNat + 10
  else 0

/-- The number a run of digits denotes in `base`. -/
def digitsValue (base : Nat) (digits : List Char) : Nat :=
  digits.foldl (fun acc c => acc * base + digitValue c) 0

/-- Modelled from the C standard (7.22.1.3): the number a numeral of the shape
`numeralOf` returns denotes: the digits before and after the point in `base`,
scaled by `radix` to the power of the signed decimal exponent. -/
def numeralValue (base radix : Nat) (digit : Char → Bool) (text : List Char) : ℚ :=
  let whole := text.takeWhile digit
  let rest := text.drop whole.length
  let fraction :=
    match rest with
    | '.' :: rest1 => rest1.takeWhile digit
    | _ => []
  let tail :=
    match rest with
    | '.' :: rest1 => rest1.drop fraction.length
    | _ => rest
  let mantissa : ℚ := (digitsValue base (whole ++ fraction) : ℚ) / (base : ℚ) ^ fraction.length
  match tail with
  | [] => mantissa
  | _ :: '-' :: digits => mantissa / (radix : ℚ) ^ digitsValue 10 digits
  | _ :: '+' :: digits => mantissa * (radix : ℚ) ^ digitsValue 10 digits
  | _ :: digits => mantissa * (radix : ℚ) ^ digitsValue 10 digits

/-- The number a `Value` stands for, before it is rounded to a `double`:
hexadecimal with a binary exponent after `0x`, decimal otherwise. -/
def Value.toRat (v : Value) : ℚ :=
  match v.numeral with
  | '0' :: x :: rest =>
    if x == 'x' || x == 'X' then numeralValue 16 2 isHex rest
    else numeralValue 10 10 Scanner.isDigit v.numeral
  | _ => numeralValue 10 10 Scanner.isDigit v.numeral

/-! ## compiler.h -/

structure Parser where
  scanner : Scanner
  panicMode : Bool
  hadError : Bool
  current : Token
  previous : Token
  deriving DecidableEq, Repr

inductive Precedence where
  | PREC_NONE
  | PREC_ASSIGNMENT
  | PREC_OR
  | PREC_AND
  | PREC_EQUALITY
  | PREC_COMPARISON
  | PREC_BIT_OR
  | PREC_BIT_XOR
  | PREC_BIT_AND
  | PREC_RANGE
  | PREC_TERM
  | PREC_FACTOR
  | PREC_UNARY
  | PREC_CALL
  | PREC_PRIMARY
  deriving DecidableEq, Repr

open Precedence

/-- The integer value of the enumerator. -/
def Precedence.toNat : Precedence → Nat
  | PREC_NONE => 0
  | PREC_ASSIGNMENT => 1
  | PREC_OR => 2
  | PREC_AND => 3
  | PREC_EQUALITY => 4
  | PREC_COMPARISON => 5
  | PREC_BIT_OR => 6
  | PREC_BIT_XOR => 7
  | PREC_BIT_AND => 8
  | PREC_RANGE => 9
  | PREC_TERM => 10
  | PREC_FACTOR => 11
  | PREC_UNARY => 12
  | PREC_CALL => 13
  | PREC_PRIMARY => 14

/-- The functions a `ParseFn` of the rule table points at. -/
inductive ParseFn where
  | grouping
  | unary
  | binary
  | number
  deriving DecidableEq, Repr

/-- A row of the rule table; `none` is the `NULL` handler. The fields are the
C fields `prefix`, `infix` and `precedence`. -/
structure ParseRule where
  prefixRule : Option ParseFn
  infixRule : Option ParseFn
  precedence : Precedence
  deriving DecidableEq, Repr

/-! ## compiler.c -/

/-- What stops a run of the model short of returning. -/
inductive Fault where
  | outOfFuel
  | nullHandler
  | nullVaList
  deriving DecidableEq, Repr

/-- The state the parser functions act on: the `Parser`, the process-wide
`compilingChunk`, and the lines written to `stderr`. -/
structure State where
  parser : Parser
  compilingChunk : Chunk
  stderr : List (List Char)
  deriving DecidableEq, Repr

/-- The C string a token's `start` points at: the characters up to the next
NUL. -/
def Token.cString (source : List Char) (t : Token) : List Char :=
  match t.start with
  | .src offset => (source.drop offset).takeWhile (fun c => c != NUL)
  | .heap text => text.takeWhile (fun c => c != NUL)

/-- The characters from a token's `start` on, which is what `strtod` is
handed. -/
def Token.chars (source : List Char) (t : Token) : List Char :=
  match t.start with
  | .src offset => source.drop offset
  | .heap text => text

/-- The rule table `rules`, indexed by token type. -/
def getRule : TokenType → ParseRule
  | TOKEN_LEFT_PAREN => ⟨some .grouping, none, PREC_NONE⟩
  | TOKEN_PLUS => ⟨none, some .binary, PREC_TERM⟩
  | TOKEN_MINUS => ⟨some .unary, some .binary, PREC_TERM⟩
  | TOKEN_STAR => ⟨none, some .binary, PREC_FACTOR⟩
  | TOKEN_SLASH => ⟨none, some .binary, PREC_FACTOR⟩
  | TOKEN_NUMBER => ⟨some .number, none, PREC_NONE⟩
  | _ => ⟨none, none, PREC_NONE⟩

/-- The initializer of the array `rules`: each designator with its row, in the
order of the source. -/
def rules : List (TokenType × ParseRule) :=
  [
    (TOKEN_LEFT_PAREN, ⟨some .grouping, none, PREC_NONE⟩),
    (TOKEN_RIGHT_PAREN, ⟨none, none, PREC_NONE⟩),
    (TOKEN_LEFT_BRACKET, ⟨none, none, PREC_NONE⟩),
    (TOKEN_RIGHT_BRACKET, ⟨none, none, PREC_NONE⟩),
    (TOKEN_LEFT_BRACE, ⟨none, none, PREC_NONE⟩),
    (TOKEN_RIGHT_BRACE, ⟨none, none, PREC_NONE⟩),
    (TOKEN_COMMA, ⟨none, none, PREC_NONE⟩),
    (TOKEN_COLON, ⟨none, none, PREC_NONE⟩),
    (TOKEN_SEMICOLON, ⟨none, none, PREC_NONE⟩),
    (TOKEN_HASH, ⟨none, none, PREC_NONE⟩),
    (TOKEN_DOT, ⟨none, none, PREC_NONE⟩),
    (TOKEN_DOT_DOT, ⟨none, none, PREC_NONE⟩),
    (TOKEN_PLUS, ⟨none, some .binary, PREC_TERM⟩),
    (TOKEN_MINUS, ⟨some .unary, some .binary, PREC_TERM⟩),
    (TOKEN_STAR, ⟨none, some .binary, PREC_FACTOR⟩),
    (TOKEN_SLASH, ⟨none, some .binary, PREC_FACTOR⟩),
    (TOKEN_PERCENT, ⟨none, none, PREC_NONE⟩),
    (TOKEN_STAR_STAR, ⟨none, none, PREC_NONE⟩),
    (TOKEN_SLASH_SLASH, ⟨none, none, PREC_NONE⟩),
    (TOKEN_EQUAL, ⟨none, none, PREC_NONE⟩),
    (TOKEN_GREATER_THAN, ⟨none, none, PREC_NONE⟩),
    (TOKEN_LESS_THAN, ⟨none, none, PREC_NONE⟩),
    (TOKEN_BANG, ⟨none, none, PREC_NONE⟩),
    (TOKEN_TILDE, ⟨none, none, PREC_NONE⟩),
    (TOKEN_PIPE, ⟨none, none, PREC_NONE⟩),
    (TOKEN_AMP, ⟨none, none, PREC_NONE⟩),
    (TOKEN_CARET, ⟨none, none, PREC_NONE⟩),
    (TOKEN_PLUS_EQUAL, ⟨none, none, PREC_NONE⟩),
    (TOKEN_MINUS_EQUAL, ⟨none, none, PREC_NONE⟩),
    (TOKEN_STAR_EQUAL, ⟨none, none, PREC_NONE⟩),
    (TOKEN_SLASH_EQUAL, ⟨none, none, PREC_NONE⟩),
    (TOKEN_PERCENT_EQUAL, ⟨none, none, PREC_NONE⟩),
    (TOKEN_STAR_STAR_EQUAL, ⟨none, none, PREC_NONE⟩),
    (TOKEN_SLASH_SLASH_EQUAL, ⟨none, none, PREC_NONE⟩),
    (TOKEN_EQUAL_EQUAL, ⟨none, none, PREC_NONE⟩),
    (TOKEN_GREATER_EQUAL, ⟨none, none, PREC_NONE⟩),
    (TOKEN_LESS_EQUAL, ⟨none, none, PREC_NONE⟩),
    (TOKEN_BANG_EQUAL, ⟨none, none, PREC_NONE⟩),
    (TOKEN_TILDE_EQUAL, ⟨none, none, PREC_NONE⟩),
    (TOKEN_PIPE_EQUAL, ⟨none, none, PREC_NONE⟩),
    (TOKEN_AMP_EQUAL, ⟨none, none, PREC_NONE⟩),
    (TOKEN_CARET_EQUAL, ⟨none, none, PREC_NONE⟩),
    (TOKEN_IDENTIFIER, ⟨none, none, PREC_NONE⟩),
    (TOKEN_STRING, ⟨none, none, PREC_NONE⟩),
    (TOKEN_INTERPOLATION, ⟨none, none, PREC_NONE⟩),
    (TOKEN_NUMBER, ⟨some .number, none, PREC_NONE⟩),
    (TOKEN_AND, ⟨none, none, PREC_NONE⟩),
    (TOKEN_OR, ⟨none, none, PREC_NONE⟩),
    (TOKEN_NOT, ⟨none, none, PREC_NONE⟩),
    (TOKEN_NIL, ⟨none, none, PREC_NONE⟩),
    (TOKEN_IN, ⟨none, none, PREC_NONE⟩),
    (TOKEN_IMPORT, ⟨none, none, PREC_NONE⟩),
    (TOKEN_CLASS, ⟨none, none, PREC_NONE⟩),
    (TOKEN_IS, ⟨none, none, PREC_NONE⟩),
    (TOKEN_SUPER, ⟨none, none, PREC_NONE⟩),
    (TOKEN_IF, ⟨none, none, PREC_NONE⟩),
    (TOKEN_ELSE, ⟨none, none, PREC_NONE⟩),
    (TOKEN_TRUE, ⟨none, none, PREC_NONE⟩),
    (TOKEN_FALSE, ⟨none, none, PREC_NONE⟩),
    (TOKEN_FN, ⟨none, none, PREC_NONE⟩),
    (TOKEN_FOR, ⟨none, none, PREC_NONE⟩),
    (TOKEN_PRINT, ⟨none, none, PREC_NONE⟩),
    (TOKEN_RETURN, ⟨none, none, PREC_NONE⟩),
    (TOKEN_THIS, ⟨none, none, PREC_NONE⟩),
    (TOKEN_LET, ⟨none, none, PREC_NONE⟩),
    (TOKEN_WHILE, ⟨none, none, PREC_NONE⟩),
    (TOKEN_NEWLINE, ⟨none, none, PREC_NONE⟩),
    (TOKEN_EOF, ⟨none, none, PREC_NONE⟩),
    (TOKEN_ERROR, ⟨none, none, PREC_NONE⟩)
  ]

namespace Compiler

/-- The function `errorAt`: `message` is printed as it stands (none of the
messages of `compiler.c` has a conversion). Each diagnostic is one line of
`stderr`. -/
def errorAt (st : State) (token : Token) (message : List Char) : State :=
  if st.parser.panicMode then st
  else
    let location : List Char :=
      if token.type = TOKEN_EOF then " at end".toList
      else if token.type = TOKEN_ERROR then []
      else if token.length = 1 ∧ (token.cString st.parser.scanner.source).head? = some LF then
        " at newline".toList
      else " at ".toList ++ [SQUOTE] ++ token.text st.parser.scanner.source ++ [SQUOTE]
    { st with
      parser := { st.parser with panicMode := true, hadError := true }
      stderr := st.stderr ++ ["SyntaxError".toList ++ location ++ ": ".toList ++ message ++ [LF]] }

def errorAtCurrent (st : State) (message : List Char) : State :=
  errorAt st st.parser.current message

/-- The function `error`. It hands `errorAt` `NULL` for the `va_list`. In
panic mode `errorAt` returns before it uses it; otherwise it passes it to
`vfprintf`, which is undefined in C: the run stops with `Fault.nullVaList`. -/
def error (st : State) (message : List Char) : Except Fault State :=
  if st.parser.panicMode then .ok (errorAt st st.parser.previous message)
  else .error .nullVaList

/-- The `while (true)` loop of `advance`. -/
def advanceLoop : Nat → State → Except Fault State
  | 0, _ => .error .outOfFuel
  | fuel + 1, st =>
    let r := scanToken st.parser.scanner
    let st1 := { st with parser := { st.parser with current := r.1, scanner := r.2 } }
    if st1.parser.current.type ≠ TOKEN_EOF then .ok st1
    else
      advanceLoop fuel
        (errorAtCurrent st1 (st1.parser.current.cString st1.parser.scanner.source))

def advance (fuel : Nat) (st : State) : Except Fault State :=
  advanceLoop fuel { st with parser := { st.parser with previous := st.parser.current } }

def consume (fuel : Nat) (st : State) (type : TokenType) (message : List Char) :
    Except Fault State :=
  if st.parser.current.type = type then advance fuel st
  else .ok (errorAtCurrent st message)

def emitByte (st : State) (byte : CodeByte) : State :=
  { st with compilingChunk := writeChunk st.compilingChunk byte st.parser.previous.line }

def emitBytes (st : State) (byte1 byte2 : CodeByte) : State :=
  emitByte (emitByte st byte1) byte2

def emitReturn (st : State) : State := emitByte st (.op OP_RETURN)

def UINT8_MAX : Nat := 255

def makeConstant (st : State) (value : Value) : Except Fault (Nat × State) :=
  let r := addConstant st.compilingChunk value
  let st1 := { st with compilingChunk := r.2 }
  if r.1 > UINT8_MAX then
    match error st1 "Too many constants in one chunk.".toList with
    | .error e => .error e
    | .ok st2 => .ok (0, st2)
  else .ok (r.1 % 256, st1)

def endCompiler (st : State) : State := emitReturn st

def emitConstant (st : State) (value : Value) : Except Fault State :=
  match makeConstant st value with
  | .error e => .error e
  | .ok r => .ok (emitBytes r.2 (.op OP_CONSTANT) (.operand r.1))

def number (st : State) : Except Fault State :=
  let value := strtod (st.parser.previous.chars st.parser.scanner.source)
  emitConstant st value

mutual

def parsePrecedence : Nat → Nat → State → Except Fault State
  | 0, _, _ => .error .outOfFuel
  | fuel + 1, precedence, st =>
    match advance fuel st with
    | .error e => .error e
    | .ok st1 =>
      match (getRule st1.parser.previous.type).prefixRule with
      | none => .ok (errorAtCurrent st1 "Expect expression.".toList)
      | some prefixRule =>
        match callRule fuel prefixRule st1 with
        | .error e => .error e
        | .ok st2 => parsePrecedenceLoop fuel precedence st2

/-- The `while` loop of `parsePrecedence`. A `NULL` `infixRule` cannot be
called: the run stops with `Fault.nullHandler`. -/
def parsePrecedenceLoop : Nat → Nat → State → Except Fault State
  | 0, _, _ => .error .outOfFuel
  | fuel + 1, precedence, st =>
    if precedence ≤ (getRule st.parser.current.type).precedence.toNat then
      match advance fuel st with
      | .error e => .error e
      | .ok st1 =>
        match (getRule st1.parser.previous.type).infixRule with
        | none => .error .nullHandler
        | some infixRule =>
          match callRule fuel infixRule st1 with
          | .error e => .error e
          | .ok st2 => parsePrecedenceLoop fuel precedence st2
    else .ok st

/-- The call through a `ParseFn` pointer. -/
def callRule : Nat → ParseFn → State → Except Fault State
  | 0, _, _ => .error .outOfFuel
  | fuel + 1, .grouping, st => grouping fuel st
  | fuel + 1, .unary, st => unary fuel st
  | fuel + 1, .binary, st => binary fuel st
  | _ + 1, .number, st => number st

def binary : Nat → State → Except Fault State
  | 0, _ => .error .outOfFuel
  | fuel + 1, st =>
    let operatorType := st.parser.previous.type
    let rule := getRule operatorType
    match parsePrecedence fuel (rule.precedence.toNat + 1) st with
    | .error e => .error e
    | .ok st1 =>
      match operatorType with
      | TOKEN_PLUS => .ok (emitByte st1 (.op OP_ADD))
      | TOKEN_MINUS => .ok (emitByte st1 (.op OP_SUBTRACT))
      | TOKEN_STAR => .ok (emitByte st1 (.op OP_MULTIPLY))
      | TOKEN_SLASH => .ok (emitByte st1 (.op OP_DIVIDE))
      | _ => .ok st1

def grouping : Nat → State → Except Fault State
  | 0, _ => .error .outOfFuel
  | fuel + 1, st =>
    match expression fuel st with
    | .error e => .error e
    | .ok st1 => consume fuel st1 TOKEN_RIGHT_PAREN "Expect ')' after expression.".toList

def unary : Nat → State → Except Fault State
  | 0, _ => .error .outOfFuel
  | fuel + 1, st =>
    let operatorType := st.parser.previous.type
    match parsePrecedence fuel PREC_UNARY.toNat st with
    | .error e => .error e
    | .ok st1 =>
      match operatorType with
      | TOKEN_MINUS => .ok (emitByte st1 (.op OP_NEGATE))
      | _ => .ok st1

def expression : Nat → State → Except Fault State
  | 0, _ => .error .outOfFuel
  | fuel + 1, st => parsePrecedence fuel PREC_ASSIGNMENT.toNat st

end

end Compiler

/-- The contents of `Parser parser;` before anything is assigned to its
tokens: the two tokens are indeterminate, and `advance` overwrites both before
any handler reads them. -/
def uninitialized : Token := { type := TOKEN_LEFT_PAREN, start := .src 0, length := 0, line := 0 }

/-- The state `compile` sets up before its first `advance`: the scanner at
the start of `source`, both flags clear, `chunk` as the compiling chunk and
nothing on `stderr`. -/
def compileStart (source : List Char) (chunk : Chunk) : State :=
  { parser :=
      { scanner := initScanner source
        panicMode := false
        hadError := false
        current := uninitialized
        previous := uninitialized }
    compilingChunk := chunk
    stderr := [] }

/-- The function `compile`; the result is the returned flag and the state the
call leaves behind. -/
def compile (fuel : Nat) (source : List Char) (chunk : Chunk) : Except Fault (Bool × State) :=
  let st0 := compileStart source chunk
  match Compiler.advance fuel st0 with
  | .error e => .error e
  | .ok st1 =>
    match Compiler.expression fuel st1 with
    | .error e => .error e
    | .ok st2 =>
      let st3 := Compiler.endCompiler st2
      .ok (!st3.parser.hadError, st3)

/-! ## Vocabulary of the statements -/

/-- The scanner has nothing but blanks and comments left before the
terminator. -/
def Scanner.exhausted (s : Scanner) : Bool := s.skipWhitespace.isAtEnd

/-- The state `scanToken` leaves when it returns `TOKEN_EOF`. -/
def Scanner.atEof (s : Scanner) : Scanner :=
  { s.skipWhitespace with start := s.skipWhitespace.current }

/-- The run `g` does not return, whatever fuel it is given. -/
def Diverges {α : Type} (g : Nat → Except Fault α) : Prop :=
  ∀ fuel, g fuel = .error .outOfFuel

/-- The state a run returned, `d` when it did not return. -/
def outcome (r : Except Fault State) (d : State) : State :=
  match r with
  | .ok st => st
  | .error _ => d

open Compiler in
/-- Adding fuel does not change a run that did not run out of it. -/
def Compiler.MonoAt (n : Nat) : Prop :=
  (∀ p st, parsePrecedence n p st ≠ .error .outOfFuel →
      parsePrecedence (n + 1) p st = parsePrecedence n p st) ∧
  (∀ p st, parsePrecedenceLoop n p st ≠ .error .outOfFuel →
      parsePrecedenceLoop (n + 1) p st = parsePrecedenceLoop n p st) ∧
  (∀ fn st, callRule n fn st ≠ .error .outOfFuel → callRule (n + 1) fn st = callRule n fn st) ∧
  (∀ st, binary n st ≠ .error .outOfFuel → binary (n + 1) st = binary n st) ∧
  (∀ st, grouping n st ≠ .error .outOfFuel → grouping (n + 1) st = grouping n st) ∧
  (∀ st, unary n st ≠ .error .outOfFuel → unary (n + 1) st = unary n st) ∧
  (∀ st, expression n st ≠ .error .outOfFuel → expression (n + 1) st = expression n st)

/-- The state read off a run that is known to have returned. -/
def returned (r : Except Fault State) : State :=
  outcome r (compileStart [] initChunk)

/-- At most one diagnostic has been written, and none while `panicMode` is
clear. -/
def OneDiagnostic (st : State) : Prop :=
  st.stderr.length ≤ 1 ∧ (st.parser.panicMode = false → st.stderr = [])

open Compiler in
/-- Every returning run of the parser functions, at fuel `n`, keeps the
property `P` of states. -/
def Compiler.Preserves (P : State → Prop) (n : Nat) : Prop :=
  (∀ p st st1, parsePrecedence n p st = .ok st1 → P st → P st1) ∧
  (∀ p st st1, parsePrecedenceLoop n p st = .ok st1 → P st → P st1) ∧
  (∀ fn st st1, callRule n fn st = .ok st1 → P st → P st1) ∧
  (∀ st st1, binary n st = .ok st1 → P st → P st1) ∧
  (∀ st st1, grouping n st = .ok st1 → P st → P st1) ∧
  (∀ st st1, unary n st = .ok st1 → P st → P st1) ∧
  (∀ st st1, expression n st = .ok st1 → P st → P st1)

/-- The tokens of `n` successive calls of `scanToken`, and the scanner they
leave. -/
def scanTokens : Nat → Scanner → List Token × Scanner
  | 0, s => ([], s)
  | n + 1, s =>
    let r := scanToken s
    let rs := scanTokens n r.2
    (r.1 :: rs.1, rs.2)

/-- The run returns at no fuel: at every fuel it runs out of it or stops at
another fault. -/
def NeverReturns {α : Type} (g : Nat → Except Fault α) : Prop :=
  ∀ fuel, (g fuel).toOption = none

/-- The fault a run stopped with, if it did not return. -/
def faultOf {α : Type} (r : Except Fault α) : Option Fault :=
  match r with
  | .error e => some e
  | .ok _ => none

/-- A chunk whose constant pool is full: 256 constants `0`. -/
def fullPool : Chunk := { code := [], lines := [], constants := List.replicate 256 ⟨['0']⟩ }

/-- The state after the first `advance` of `compile` on the source `1`, line
feed, with the full pool as the chunk. -/
def fullPoolStart : State := returned (Compiler.advance 5 (compileStart ['1', LF] fullPool))

/-- The opening of `n` nested interpolations: `n` times a double quote, a
dollar and a left brace. -/
def nestedInterpolation (n : Nat) : List Char :=
  (List.replicate n [DQUOTE, '$', LBRACE]).flatten

/-- The scanner's cursor stands between `pre`, the part of the buffer behind
it, and `rest`, the part to come. -/
def Scanner.At (s : Scanner) (pre rest : List Char) : Prop :=
  s.source = pre ++ rest ∧ s.current = pre.length

/-- A character of a plain literal segment of a string delimited by `quote`:
not the quote, not the terminator, not a dollar and not a backslash. -/
def Scanner.plain (quote c : Char) : Bool :=
  c != quote && c != NUL && c != '$' && c != BSLASH

/-- The sum of `k + 1` literals `1`: `1`, `1+1`, `1+1+1`, ... -/
def literalSum : Nat → List Char
  | 0 => ['1']
  | k + 1 => '1' :: '+' :: literalSum k

/-- The operands of the `OP_CONSTANT` instructions of a code sequence. -/
def operands : List CodeByte → List Nat
  | [] => []
  | .operand i :: rest => i :: operands rest
  | .op _ :: rest => operands rest

/-- The line feeds among the first `n` characters of the buffer. -/
def newlinesBefore (source : List Char) (n : Nat) : Nat := (source.take n).count LF

/-- The buffer holds no NUL before its terminator, and the cursor is not past
the terminator. -/
def Scanner.Within (s : Scanner) : Prop :=
  NUL ∉ s.source ∧ s.current ≤ s.source.length

/-- No access outside the array `interpolating` has been made, the array has
its slots, `interpolatingCount` is -1 or an index of the array, and the cells
`0 .. interpolatingCount` hold quote characters. -/
def Scanner.StackOK (s : Scanner) : Prop :=
  MAX_INTERPOLATION_NESTING ≤ s.interpolating.length ∧ -1 ≤ s.interpolatingCount ∧
    (∀ i : Nat, (i : Int) ≤ s.interpolatingCount →
      s.interpolating.getD i 0 = (DQUOTE.toNat : Int) ∨
        s.interpolating.getD i 0 = (SQUOTE.toNat : Int)) ∧
    s.interpolatingCount < MAX_INTERPOLATION_NESTING ∧ s.outOfBounds = false

/-- The scanner `t` is `s` with the cursor moved forward over the same buffer,
the line counter having counted the line feeds that were passed. -/
def Scanner.Moves (s t : Scanner) : Prop :=
  t.source = s.source ∧ t.start = s.start ∧ s.current ≤ t.current ∧
    t.line + (newlinesBefore s.source s.current : Int) =
      s.line + (newlinesBefore s.source t.current : Int)

/-- A move that leaves the interpolation stack alone and keeps the cursor
within the buffer. -/
def Scanner.Walks (s t : Scanner) : Prop :=
  s.Moves t ∧ t.interpolatingCount = s.interpolatingCount ∧
    t.interpolating = s.interpolating ∧ t.outOfBounds = s.outOfBounds ∧
    (s.Within → t.Within)

/-- The scanner `t` comes from `s` by calls of `match` whose expected
character is not a line feed. -/
inductive Scanner.Matched (s : Scanner) : Scanner → Prop where
  | refl : Matched s s
  | step (t : Scanner) (e : Char) : Matched s t → e ≠ LF → Matched s (t.matchChar e).2

/-- The token `tok` was made at the cursor of `t`: it is on the line of `t`
and, unless it is an error token, its text starts at `t.start` and ends at
the cursor, or one character before the cursor when it is a
`TOKEN_INTERPOLATION`. -/
def Scanner.Made (t : Scanner) (tok : Token) : Prop :=
  tok.line = t.line ∧
    (tok.type ≠ TOKEN_ERROR →
      tok.start = .src t.start ∧
        t.start + tok.length + (if tok.type = TOKEN_INTERPOLATION then 1 else 0) = t.current)

/-- What `scanToken` does once the whitespace is skipped and `start` is set
(`s2`), when it returns `r`: the cursor has moved forward over the buffer, the
token was made there, the stack is still in order unless the call left the
array, the cursor is still within
the buffer, it has moved unless `s2` was at the end, and the line counter has
not changed, or has changed by one for a `TOKEN_NEWLINE`, unless the token is a
string, an interpolation, a number or an error. -/
def Scanner.Scans (s2 : Scanner) (r : Token × Scanner) : Prop :=
  s2.Moves r.2 ∧ r.2.Made r.1 ∧ (r.2.outOfBounds = false → r.2.StackOK) ∧
    (s2.Within → r.2.Within) ∧
    (s2.isAtEnd = false → s2.current < r.2.current) ∧
    (r.1.type ≠ TOKEN_STRING → r.1.type ≠ TOKEN_INTERPOLATION → r.1.type ≠ TOKEN_NUMBER →
      r.1.type ≠ TOKEN_ERROR → r.1.type ≠ TOKEN_NEWLINE → r.2.line = s2.line) ∧
    (r.1.type = TOKEN_NEWLINE → r.2.line = s2.line + 1)

/-- The punctuation and operator spellings as the specification lists them,
each with its token type. -/
def specOperators : List (List Char × TokenType) :=
  [ (['('], TOKEN_LEFT_PAREN),
    ([')'], TOKEN_RIGHT_PAREN),
    (['['], TOKEN_LEFT_BRACKET),
    ([']'], TOKEN_RIGHT_BRACKET),
    ([LBRACE], TOKEN_LEFT_BRACE),
    ([RBRACE], TOKEN_RIGHT_BRACE),
    ([','], TOKEN_COMMA),
    ([':'], TOKEN_COLON),
    (['.'], TOKEN_DOT),
    (['.', '.'], TOKEN_DOT_DOT),
    (['+'], TOKEN_PLUS),
    (['+', '='], TOKEN_PLUS_EQUAL),
    (['-'], TOKEN_MINUS),
    (['-', '='], TOKEN_MINUS_EQUAL),
    (['*'], TOKEN_STAR),
    (['*', '='], TOKEN_STAR_EQUAL),
    (['*', '*'], TOKEN_STAR_STAR),
    (['*', '*', '='], TOKEN_STAR_STAR_EQUAL),
    (['/'], TOKEN_SLASH),
    (['/', '='], TOKEN_SLASH_EQUAL),
    (['/', '/'], TOKEN_SLASH_SLASH),
    (['/', '/', '='], TOKEN_SLASH_SLASH_EQUAL),
    (['%'], TOKEN_PERCENT),
    (['%', '='], TOKEN_PERCENT_EQUAL),
    (['='], TOKEN_EQUAL),
    (['=', '='], TOKEN_EQUAL_EQUAL),
    (['>'], TOKEN_GREATER_THAN),
    (['>', '='], TOKEN_GREATER_EQUAL),
    (['<'], TOKEN_LESS_THAN),
    (['<', '='], TOKEN_LESS_EQUAL),
    (['!'], TOKEN_BANG),
    (['!', '='], TOKEN_BANG_EQUAL),
    (['~'], TOKEN_TILDE),
    (['~', '='], TOKEN_TILDE_EQUAL),
    (['|'], TOKEN_PIPE),
    (['|', '='], TOKEN_PIPE_EQUAL),
    (['&'], TOKEN_AMP),
    (['&', '='], TOKEN_AMP_EQUAL),
    (['^'], TOKEN_CARET),
    (['^', '='], TOKEN_CARET_EQUAL) ]

/-- A run that returns `st1` at every fuel from some fuel on. -/
def Returns (g : Nat → Except Fault State) (st1 : State) : Prop :=
  ∃ N, ∀ n, N ≤ n → g n = .ok st1

/-- The scanner `s` returns the tokens `ts`, one call of `scanToken` each, and
is then `t`. -/
def Yields : Scanner → List Token → Scanner → Prop
  | s, [], t => t = s
  | s, tok :: ts, t => (scanToken s).1 = tok ∧ Yields (scanToken s).2 ts t

/-- The syntax tree of an arithmetic expression, with the tokens it was
written with at its nodes. -/
inductive Expr where
  | lit (t : Token)
  | neg (op : Token) (e : Expr)
  | bin (l : Expr) (op : Token) (r : Expr)
  | paren (lp : Token) (e : Expr) (rp : Token)
  deriving Repr

namespace Expr

/-- The first token of the expression. -/
def first : Expr → Token
  | lit t => t
  | neg op _ => op
  | bin l _ _ => l.first
  | paren lp _ _ => lp

/-- The tokens of the expression after the first, in source order. -/
def rest : Expr → List Token
  | lit _ => []
  | neg _ e => e.first :: e.rest
  | bin l op r => l.rest ++ op :: r.first :: r.rest
  | paren _ e rp => e.first :: e.rest ++ [rp]

/-- The tokens of the expression, in source order. -/
def tokens (e : Expr) : List Token := e.first :: e.rest

/-- The last token of the expression. -/
def last : Expr → Token
  | lit t => t
  | neg _ e => e.last
  | bin _ _ r => r.last
  | paren _ _ rp => rp

/-- How tightly the expression holds together: the precedence of its operator
when it is a binary operation, `PREC_UNARY` otherwise. -/
def tier : Expr → Nat
  | bin _ op _ => (getRule op.type).precedence.toNat
  | _ => PREC_UNARY.toNat

/-- The tree is one of the usual grammar, in which `*` and `/` bind tighter
than `+` and `-`, unary minus tighter than both, and binary operators of equal
precedence associate to the left: the tokens are of the kinds of their nodes,
the operand of a unary minus is no binary operation, the left operand of a
binary operator holds together at least as tightly as the operator, the right
operand more tightly. -/
def ok : Expr → Bool
  | lit t => t.type == TOKEN_NUMBER
  | neg op e => op.type == TOKEN_MINUS && e.ok && decide (PREC_UNARY.toNat ≤ e.tier)
  | bin l op r =>
    (op.type == TOKEN_PLUS || op.type == TOKEN_MINUS || op.type == TOKEN_STAR ||
        op.type == TOKEN_SLASH) &&
      l.ok && r.ok && decide ((getRule op.type).precedence.toNat ≤ l.tier) &&
      decide ((getRule op.type).precedence.toNat + 1 ≤ r.tier)
  | paren lp e rp => lp.type == TOKEN_LEFT_PAREN && rp.type == TOKEN_RIGHT_PAREN && e.ok

/-- The number of literals of the expression. -/
def lits : Expr → Nat
  | lit _ => 1
  | neg _ e => e.lits
  | bin l _ r => l.lits + r.lits
  | paren _ e _ => e.lits

/-- The number of operators of the expression, unary and binary. -/
def operators : Expr → Nat
  | lit _ => 0
  | neg _ e => e.operators + 1
  | bin l _ r => l.operators + r.operators + 1
  | paren _ e _ => e.operators

/-- The opcode of a binary operator. -/
def opcodeOf : TokenType → OpCode
  | TOKEN_PLUS => OP_ADD
  | TOKEN_MINUS => OP_SUBTRACT
  | TOKEN_STAR => OP_MULTIPLY
  | _ => OP_DIVIDE

/-- The post-order traversal of the tree: the operands before their operator,
a literal as `OP_CONSTANT` with the index of its constant, the first literal
having the index `base`. -/
def postorder : Expr → Nat → List CodeByte
  | lit _, base => [.op OP_CONSTANT, .operand base]
  | neg _ e, base => e.postorder base ++ [.op OP_NEGATE]
  | bin l op r, base =>
    l.postorder base ++ r.postorder (base + l.lits) ++ [.op (opcodeOf op.type)]
  | paren _ e _, base => e.postorder base

/-- The values of the literals, in source order: what `strtod` converts at
the start of each literal in `source`. -/
def values (source : List Char) : Expr → List Value
  | lit t => [strtod (t.chars source)]
  | neg _ e => e.values source
  | bin l _ r => l.values source ++ r.values source
  | paren _ e _ => e.values source

/-- The lines recorded with the bytes of `postorder`: each byte is written
with the line of the last token read before it. -/
def codeLines : Expr → List Int
  | lit t => [t.line, t.line]
  | neg _ e => e.codeLines ++ [e.last.line]
  | bin l _ r => l.codeLines ++ r.codeLines ++ [r.last.line]
  | paren _ e _ => e.codeLines

end Expr

/-- The number of opcodes of a code sequence that are not `OP_CONSTANT`. -/
def operatorCount : List CodeByte → Nat
  | [] => 0
  | .op c :: rest => (if c = OP_CONSTANT then 0 else 1) + operatorCount rest
  | .operand _ :: rest => operatorCount rest

/-- The state after the expression `e` was compiled from the state `st`, with
the token `f` that follows it read and the scanner at `s1`. -/
def afterExpr (e : Expr) (f : Token) (s1 : Scanner) (st : State) : State :=
  { parser := { st.parser with scanner := s1, current := f, previous := e.last }
    compilingChunk :=
      { code := st.compilingChunk.code ++ e.postorder st.compilingChunk.constants.length
        lines := st.compilingChunk.lines ++ e.codeLines
        constants := st.compilingChunk.constants ++ e.values st.parser.scanner.source }
    stderr := st.stderr }

/-- The source `1 - 2 - 3` and a line feed. -/
def subtractionSource : List Char := ['1', ' ', '-', ' ', '2', ' ', '-', ' ', '3', LF]

/-- The tree of `1 - 2 - 3` in the usual grammar, `(1 - 2) - 3`, over the
tokens of `subtractionSource`. -/
def subtractionTree : Expr :=
  .bin
    (.bin (.lit ⟨TOKEN_NUMBER, .src 0, 1, 1⟩) ⟨TOKEN_MINUS, .src 2, 1, 1⟩
      (.lit ⟨TOKEN_NUMBER, .src 4, 1, 1⟩))
    ⟨TOKEN_MINUS, .src 6, 1, 1⟩ (.lit ⟨TOKEN_NUMBER, .src 8, 1, 1⟩)

/-- The state of the parser after the first `advance` of `compile` on
`subtractionSource`, with an empty chunk. -/
def subtractionStart : State :=
  { parser :=
      { scanner := (scanToken (initScanner subtractionSource)).2
        panicMode := false
        hadError := false
        current := (scanToken (initScanner subtractionSource)).1
        previous := uninitialized }
    compilingChunk := initChunk
    stderr := [] }

open Compiler in
/-- No run of the parser functions, at fuel `n`, stops at a `NULL` infix
handler, provided `parsePrecedence` is entered with a precedence of at least
`PREC_ASSIGNMENT`. -/
def Compiler.NoNullCall (n : Nat) : Prop :=
  (∀ p st, PREC_ASSIGNMENT.toNat ≤ p → parsePrecedence n p st ≠ .error .nullHandler) ∧
  (∀ p st, PREC_ASSIGNMENT.toNat ≤ p → parsePrecedenceLoop n p st ≠ .error .nullHandler) ∧
  (∀ fn st, callRule n fn st ≠ .error .nullHandler) ∧
  (∀ st, binary n st ≠ .error .nullHandler) ∧
  (∀ st, grouping n st ≠ .error .nullHandler) ∧
  (∀ st, unary n st ≠ .error .nullHandler) ∧
  (∀ st, expression n st ≠ .error .nullHandler)

/-- How the body of a string literal ends, in the spec's words: at the
matching quote, `offset` characters into the body; at a `${` that starts an
interpolation; or not before the end of input. -/
inductive StringEnd where
  | closed (offset : Nat)
  | interpolation (offset : Nat)
  | unterminated
  deriving DecidableEq, Repr

/-- The same end, seen from `n` characters earlier. -/
def StringEnd.shift (n : Nat) : StringEnd → StringEnd
  | .closed k => .closed (k + n)
  | .interpolation k => .interpolation (k + n)
  | .unterminated => .unterminated

/-- The end of a string body after the spec's words, not after the code: "a
backslash before the matching quote or another backslash is treated as an
escape pass-through (consumed as two characters, not decoded)", a `${` "with
the preceding character not an escaping backslash" starts an interpolation,
and the first quote `q` that is not passed through closes the string.
`escaping` says that the character before the body is a backslash that was
not itself passed through. -/
def specStringEnd (q : Char) : Bool → List Char → StringEnd
  | _, [] => .unterminated
  | _, [c] => if c = q then .closed 0 else .unterminated
  | escaping, c :: x :: rest =>
    if c = q then .closed 0
    else if c = '$' ∧ x = LBRACE ∧ escaping = false then .interpolation 0
    else if c = BSLASH ∧ (x = q ∨ x = BSLASH) then (specStringEnd q false rest).shift 2
    else (specStringEnd q (c == BSLASH) (x :: rest)).shift 1

/-- What the loop of `string` has done when it leaves `r` on a body that ends
as the last argument says: no token yet, and the cursor on the closing quote
or at the end of input. -/
def Scanner.EndsAs (q : Char) (pre body : List Char) (r : Option Token × Scanner) :
    StringEnd → Prop
  | .unterminated => r.1 = none ∧ r.2.At (pre ++ body) []
  | .closed k => r.1 = none ∧ ∃ rest, body.drop k = q :: rest ∧ r.2.At (pre ++ body.take k) (q :: rest)
  | .interpolation _ => True

/-! # Theorems -/

/-! ## The scanner at the end of input -/

namespace Scanner

theorem skipWhitespaceLoop_atEnd (n : Nat) (s : Scanner) (h : s.isAtEnd = true) :
    skipWhitespaceLoop n s = s := by
  cases n with
  | zero => rfl
  | succ n =>
    have hc : s.current_ = NUL := by simpa [isAtEnd] using h
    simp [skipWhitespaceLoop, hc, NUL, CR, TAB]

theorem skipWhitespace_atEnd (s : Scanner) (h : s.isAtEnd = true) : s.skipWhitespace = s :=
  skipWhitespaceLoop_atEnd _ s h

end Scanner

theorem scanToken_exhausted (s : Scanner) (h : s.exhausted = true) :
    scanToken s = (s.atEof.makeToken TOKEN_EOF, s.atEof) := by
  unfold Scanner.exhausted at h
  have h2 : Scanner.isAtEnd { s.skipWhitespace with start := s.skipWhitespace.current } = true := h
  simp only [scanToken, h2, if_true, Scanner.atEof]

theorem atEof_exhausted (s : Scanner) (h : s.exhausted = true) : s.atEof.exhausted = true := by
  unfold Scanner.exhausted at h ⊢
  have h2 : s.atEof.isAtEnd = true := h
  rw [Scanner.skipWhitespace_atEnd _ h2]; exact h2

namespace Compiler

theorem errorAt_scanner (st : State) (t : Token) (m : List Char) :
    (errorAt st t m).parser.scanner = st.parser.scanner := by
  unfold errorAt; split <;> rfl

theorem advanceLoop_exhausted (fuel : Nat) : ∀ st : State,
    st.parser.scanner.exhausted = true → advanceLoop fuel st = .error .outOfFuel := by
  induction fuel with
  | zero => intro st _; rfl
  | succ n ih =>
    intro st h
    rw [advanceLoop]
    simp only [scanToken_exhausted _ h, Scanner.makeToken, ne_eq, not_true_eq_false, if_false]
    apply ih
    rw [errorAtCurrent, errorAt_scanner]
    exact atEof_exhausted _ h

theorem advance_exhausted (fuel : Nat) (st : State)
    (h : st.parser.scanner.exhausted = true) : advance fuel st = .error .outOfFuel :=
  advanceLoop_exhausted fuel _ h

end Compiler

/-! ## Fuel -/

namespace Compiler

theorem advanceLoop_succ (n : Nat) (st : State) :
    advanceLoop (n + 1) st =
      if (scanToken st.parser.scanner).1.type ≠ TOKEN_EOF then
        .ok { st with parser :=
                { st.parser with current := (scanToken st.parser.scanner).1,
                                 scanner := (scanToken st.parser.scanner).2 } }
      else
        advanceLoop n
          (errorAtCurrent
            { st with parser :=
                { st.parser with current := (scanToken st.parser.scanner).1,
                                 scanner := (scanToken st.parser.scanner).2 } }
            ((scanToken st.parser.scanner).1.cString (scanToken st.parser.scanner).2.source)) := by
  rw [advanceLoop]

theorem parsePrecedence_succ (n p : Nat) (st : State) :
    parsePrecedence (n + 1) p st =
      match advance n st with
      | .error e => .error e
      | .ok st1 =>
        match (getRule st1.parser.previous.type).prefixRule with
        | none => .ok (errorAtCurrent st1 "Expect expression.".toList)
        | some prefixRule =>
          match callRule n prefixRule st1 with
          | .error e => .error e
          | .ok st2 => parsePrecedenceLoop n p st2 := by
  rw [parsePrecedence]

theorem parsePrecedenceLoop_succ (n p : Nat) (st : State) :
    parsePrecedenceLoop (n + 1) p st =
      if p ≤ (getRule st.parser.current.type).precedence.toNat then
        match advance n st with
        | .error e => .error e
        | .ok st1 =>
          match (getRule st1.parser.previous.type).infixRule with
          | none => .error .nullHandler
          | some infixRule =>
            match callRule n infixRule st1 with
            | .error e => .error e
            | .ok st2 => parsePrecedenceLoop n p st2
      else .ok st := by
  rw [parsePrecedenceLoop]

theorem binary_succ (n : Nat) (st : State) :
    binary (n + 1) st =
      match parsePrecedence n ((getRule st.parser.previous.type).precedence.toNat + 1) st with
      | .error e => .error e
      | .ok st1 =>
        match st.parser.previous.type with
        | TOKEN_PLUS => .ok (emitByte st1 (.op OP_ADD))
        | TOKEN_MINUS => .ok (emitByte st1 (.op OP_SUBTRACT))
        | TOKEN_STAR => .ok (emitByte st1 (.op OP_MULTIPLY))
        | TOKEN_SLASH => .ok (emitByte st1 (.op OP_DIVIDE))
        | _ => .ok st1 := by
  rw [binary]

theorem grouping_succ (n : Nat) (st : State) :
    grouping (n + 1) st =
      match expression n st with
      | .error e => .error e
      | .ok st1 => consume n st1 TOKEN_RIGHT_PAREN "Expect ')' after expression.".toList := by
  rw [grouping]

theorem unary_succ (n : Nat) (st : State) :
    unary (n + 1) st =
      match parsePrecedence n PREC_UNARY.toNat st with
      | .error e => .error e
      | .ok st1 =>
        match st.parser.previous.type with
        | TOKEN_MINUS => .ok (emitByte st1 (.op OP_NEGATE))
        | _ => .ok st1 := by
  rw [unary]

theorem expression_succ (n : Nat) (st : State) :
    expression (n + 1) st = parsePrecedence n PREC_ASSIGNMENT.toNat st := by
  rw [expression]

theorem advanceLoop_mono (n : Nat) : ∀ st : State,
    advanceLoop n st ≠ .error .outOfFuel → advanceLoop (n + 1) st = advanceLoop n st := by
  induction n with
  | zero => intro st h; exact absurd rfl h
  | succ n ih =>
    intro st h
    rw [advanceLoop_succ] at h
    rw [advanceLoop_succ (n + 1) st, advanceLoop_succ n st]
    split
    · rfl
    · rename_i hne
      rw [if_neg hne] at h
      exact ih _ h

theorem advance_mono (n : Nat) (st : State) (h : advance n st ≠ .error .outOfFuel) :
    advance (n + 1) st = advance n st :=
  advanceLoop_mono n _ h

theorem consume_mono (n : Nat) (st : State) (t : TokenType) (m : List Char)
    (h : consume n st t m ≠ .error .outOfFuel) : consume (n + 1) st t m = consume n st t m := by
  unfold consume at h ⊢
  split
  · rename_i ht; rw [if_pos ht] at h; exact advance_mono n st h
  · rfl

theorem monoAt (n : Nat) : MonoAt n := by
  induction n with
  | zero =>
    refine ⟨?_, ?_, ?_, ?_, ?_, ?_, ?_⟩ <;> intros <;> rename_i h <;> exact absurd rfl h
  | succ n ih =>
    obtain ⟨ihP, ihL, ihC, ihB, ihG, ihU, ihE⟩ := ih
    refine ⟨?_, ?_, ?_, ?_, ?_, ?_, ?_⟩
    · intro p st h
      rw [parsePrecedence_succ] at h
      rw [parsePrecedence_succ (n + 1) p st, parsePrecedence_succ n p st]
      by_cases ha : advance n st = .error .outOfFuel
      · rw [ha] at h; exact absurd rfl h
      · rw [advance_mono n st ha]
        cases hadv : advance n st with
        | error e => rfl
        | ok st1 =>
          simp only [hadv] at h ⊢
          cases hr : (getRule st1.parser.previous.type).prefixRule with
          | none => rfl
          | some fn =>
            simp only [hr] at h ⊢
            by_cases hc : callRule n fn st1 = .error .outOfFuel
            · rw [hc] at h; exact absurd rfl h
            · rw [ihC fn st1 hc]
              cases hcall : callRule n fn st1 with
              | error e => rfl
              | ok st2 =>
                simp only [hcall] at h ⊢
                exact ihL p st2 h
    · intro p st h
      rw [parsePrecedenceLoop_succ] at h
      rw [parsePrecedenceLoop_succ (n + 1) p st, parsePrecedenceLoop_succ n p st]
      split
      · rename_i hp
        rw [if_pos hp] at h
        by_cases ha : advance n st = .error .outOfFuel
        · rw [ha] at h; exact absurd rfl h
        · rw [advance_mono n st ha]
          cases hadv : advance n st with
          | error e => rfl
          | ok st1 =>
            simp only [hadv] at h ⊢
            cases hr : (getRule st1.parser.previous.type).infixRule with
            | none => rfl
            | some fn =>
              simp only [hr] at h ⊢
              by_cases hc : callRule n fn st1 = .error .outOfFuel
              · rw [hc] at h; exact absurd rfl h
              · rw [ihC fn st1 hc]
                cases hcall : callRule n fn st1 with
                | error e => rfl
                | ok st2 =>
                  simp only [hcall] at h ⊢
                  exact ihL p st2 h
      · rfl
    · intro fn st h
      cases fn with
      | grouping => simp only [callRule] at h ⊢; exact ihG st h
      | unary => simp only [callRule] at h ⊢; exact ihU st h
      | binary => simp only [callRule] at h ⊢; exact ihB st h
      | number => rfl
    · intro st h
      rw [binary_succ] at h
      rw [binary_succ (n + 1) st, binary_succ n st]
      by_cases hc : parsePrecedence n ((getRule st.parser.previous.type).precedence.toNat + 1) st
          = .error .outOfFuel
      · rw [hc] at h; exact absurd rfl h
      · rw [ihP _ st hc]
    · intro st h
      rw [grouping_succ] at h
      rw [grouping_succ (n + 1) st, grouping_succ n st]
      by_cases hc : expression n st = .error .outOfFuel
      · rw [hc] at h; exact absurd rfl h
      · rw [ihE st hc]
        cases he : expression n st with
        | error e => rfl
        | ok st1 =>
          simp only [he] at h ⊢
          exact consume_mono n st1 _ _ h
    · intro st h
      rw [unary_succ] at h
      rw [unary_succ (n + 1) st, unary_succ n st]
      by_cases hc : parsePrecedence n PREC_UNARY.toNat st = .error .outOfFuel
      · rw [hc] at h; exact absurd rfl h
      · rw [ihP _ st hc]
    · intro st h
      rw [expression_succ] at h
      rw [expression_succ (n + 1) st, expression_succ n st]
      exact ihP _ st h

end Compiler


/-- A run that gains nothing from one more unit of fuel, unless it ran out,
gives at every fuel either the fault `outOfFuel` or the result it gave
once. -/
theorem settled {α : Type} (g : Nat → Except Fault α)
    (step : ∀ n, g n ≠ .error .outOfFuel → g (n + 1) = g n)
    (N : Nat) (a : α) (h : g N = .ok a) (fuel : Nat) :
    g fuel = .error .outOfFuel ∨ g fuel = .ok a := by
  have up : ∀ n, g n ≠ .error .outOfFuel → ∀ k, g (n + k) = g n := by
    intro n hn k
    induction k with
    | zero => rfl
    | succ k ih =>
      have : g (n + k) ≠ .error .outOfFuel := by rw [ih]; exact hn
      rw [← Nat.add_assoc, step _ this, ih]
  by_cases hf : g fuel = .error .outOfFuel
  · exact Or.inl hf
  · right
    rcases Nat.le_total fuel N with hle | hle
    · obtain ⟨k, rfl⟩ := Nat.exists_eq_add_of_le hle
      rw [← up fuel hf k, h]
    · obtain ⟨k, rfl⟩ := Nat.exists_eq_add_of_le hle
      rw [up N (by rw [h]; exact fun hh => by cases hh) k, h]

namespace Compiler

theorem advance_settled {st st1 : State} (N : Nat) (h : advance N st = .ok st1) (fuel : Nat) :
    advance fuel st = .error .outOfFuel ∨ advance fuel st = .ok st1 :=
  settled (fun n => advance n st) (fun n => advance_mono n st) N st1 h fuel

theorem callRule_settled {fn : ParseFn} {st st1 : State} (N : Nat)
    (h : callRule N fn st = .ok st1) (fuel : Nat) :
    callRule fuel fn st = .error .outOfFuel ∨ callRule fuel fn st = .ok st1 :=
  settled (fun n => callRule n fn st) (fun n => (monoAt n).2.2.1 fn st) N st1 h fuel

theorem expression_settled {st st1 : State} (N : Nat)
    (h : expression N st = .ok st1) (fuel : Nat) :
    expression fuel st = .error .outOfFuel ∨ expression fuel st = .ok st1 :=
  settled (fun n => expression n st) (fun n => (monoAt n).2.2.2.2.2.2 st) N st1 h fuel

/-! ## How a run fails to return -/

theorem parsePrecedence_diverges_advance {st : State} (p : Nat)
    (h : Diverges (fun f => advance f st)) : Diverges (fun f => parsePrecedence f p st) := by
  intro fuel
  cases fuel with
  | zero => rfl
  | succ n => simp only [parsePrecedence_succ, h n]

theorem parsePrecedence_diverges_call {st st1 : State} (p N : Nat) (fn : ParseFn)
    (ha : advance N st = .ok st1)
    (hr : (getRule st1.parser.previous.type).prefixRule = some fn)
    (hc : Diverges (fun f => callRule f fn st1)) :
    Diverges (fun f => parsePrecedence f p st) := by
  intro fuel
  cases fuel with
  | zero => rfl
  | succ n =>
    simp only [parsePrecedence_succ]
    rcases advance_settled N ha n with h | h
    · rw [h]
    · rw [h]; simp only [hr, hc n]

theorem parsePrecedence_diverges_loop {st st1 st2 : State} (p N M : Nat) (fn : ParseFn)
    (ha : advance N st = .ok st1)
    (hr : (getRule st1.parser.previous.type).prefixRule = some fn)
    (hc : callRule M fn st1 = .ok st2)
    (hl : Diverges (fun f => parsePrecedenceLoop f p st2)) :
    Diverges (fun f => parsePrecedence f p st) := by
  intro fuel
  cases fuel with
  | zero => rfl
  | succ n =>
    simp only [parsePrecedence_succ]
    rcases advance_settled N ha n with h | h
    · rw [h]
    · rw [h]; simp only [hr]
      rcases callRule_settled M hc n with h2 | h2
      · rw [h2]
      · rw [h2]; exact hl n

theorem parsePrecedenceLoop_diverges_advance {st : State} (p : Nat)
    (hp : p ≤ (getRule st.parser.current.type).precedence.toNat)
    (h : Diverges (fun f => advance f st)) :
    Diverges (fun f => parsePrecedenceLoop f p st) := by
  intro fuel
  cases fuel with
  | zero => rfl
  | succ n => simp only [parsePrecedenceLoop_succ, if_pos hp, h n]

theorem parsePrecedenceLoop_diverges_call {st st1 : State} (p N : Nat) (fn : ParseFn)
    (hp : p ≤ (getRule st.parser.current.type).precedence.toNat)
    (ha : advance N st = .ok st1)
    (hr : (getRule st1.parser.previous.type).infixRule = some fn)
    (hc : Diverges (fun f => callRule f fn st1)) :
    Diverges (fun f => parsePrecedenceLoop f p st) := by
  intro fuel
  cases fuel with
  | zero => rfl
  | succ n =>
    simp only [parsePrecedenceLoop_succ, if_pos hp]
    rcases advance_settled N ha n with h | h
    · rw [h]
    · rw [h]; simp only [hr, hc n]

theorem parsePrecedenceLoop_diverges_loop {st st1 st2 : State} (p N M : Nat) (fn : ParseFn)
    (hp : p ≤ (getRule st.parser.current.type).precedence.toNat)
    (ha : advance N st = .ok st1)
    (hr : (getRule st1.parser.previous.type).infixRule = some fn)
    (hc : callRule M fn st1 = .ok st2)
    (hl : Diverges (fun f => parsePrecedenceLoop f p st2)) :
    Diverges (fun f => parsePrecedenceLoop f p st) := by
  intro fuel
  cases fuel with
  | zero => rfl
  | succ n =>
    simp only [parsePrecedenceLoop_succ, if_pos hp]
    rcases advance_settled N ha n with h | h
    · rw [h]
    · rw [h]; simp only [hr]
      rcases callRule_settled M hc n with h2 | h2
      · rw [h2]
      · rw [h2]; exact hl n

theorem binary_diverges {st : State}
    (h : Diverges (fun f =>
      parsePrecedence f ((getRule st.parser.previous.type).precedence.toNat + 1) st)) :
    Diverges (fun f => binary f st) := by
  intro fuel
  cases fuel with
  | zero => rfl
  | succ n => simp only [binary_succ, h n]

theorem unary_diverges {st : State}
    (h : Diverges (fun f => parsePrecedence f PREC_UNARY.toNat st)) :
    Diverges (fun f => unary f st) := by
  intro fuel
  cases fuel with
  | zero => rfl
  | succ n => simp only [unary_succ, h n]

theorem expression_diverges {st : State}
    (h : Diverges (fun f => parsePrecedence f PREC_ASSIGNMENT.toNat st)) :
    Diverges (fun f => expression f st) := by
  intro fuel
  cases fuel with
  | zero => rfl
  | succ n => simp only [expression_succ, h n]

theorem grouping_diverges_expression {st : State}
    (h : Diverges (fun f => expression f st)) : Diverges (fun f => grouping f st) := by
  intro fuel
  cases fuel with
  | zero => rfl
  | succ n => simp only [grouping_succ, h n]

theorem grouping_diverges_consume {st st1 : State} (N : Nat)
    (he : expression N st = .ok st1)
    (hc : Diverges (fun f =>
      consume f st1 TOKEN_RIGHT_PAREN "Expect ')' after expression.".toList)) :
    Diverges (fun f => grouping f st) := by
  intro fuel
  cases fuel with
  | zero => rfl
  | succ n =>
    simp only [grouping_succ]
    rcases expression_settled N he n with h | h
    · rw [h]
    · rw [h]; exact hc n

theorem callRule_diverges_binary {st : State} (h : Diverges (fun f => binary f st)) :
    Diverges (fun f => callRule f .binary st) := by
  intro fuel
  cases fuel with
  | zero => rfl
  | succ n => simp only [callRule, h n]

theorem callRule_diverges_unary {st : State} (h : Diverges (fun f => unary f st)) :
    Diverges (fun f => callRule f .unary st) := by
  intro fuel
  cases fuel with
  | zero => rfl
  | succ n => simp only [callRule, h n]

theorem callRule_diverges_grouping {st : State} (h : Diverges (fun f => grouping f st)) :
    Diverges (fun f => callRule f .grouping st) := by
  intro fuel
  cases fuel with
  | zero => rfl
  | succ n => simp only [callRule, h n]

theorem neverReturns_of_diverges {α : Type} {g : Nat → Except Fault α} (h : Diverges g) :
    NeverReturns g := by
  intro fuel
  rw [h fuel]
  rfl

theorem callRule_number_neverReturns {st : State} (e : Fault) (h : number st = .error e) :
    NeverReturns (fun f => callRule f .number st) := by
  intro fuel
  cases fuel with
  | zero => rfl
  | succ n =>
    show (callRule (n + 1) .number st).toOption = none
    simp only [callRule, h]
    rfl

theorem callRule_binary_neverReturns {st : State}
    (h : NeverReturns (fun f => binary f st)) :
    NeverReturns (fun f => callRule f .binary st) := by
  intro fuel
  cases fuel with
  | zero => rfl
  | succ n =>
    show (callRule (n + 1) .binary st).toOption = none
    simp only [callRule]
    exact h n

theorem binary_neverReturns {st : State}
    (h : NeverReturns (fun f =>
      parsePrecedence f ((getRule st.parser.previous.type).precedence.toNat + 1) st)) :
    NeverReturns (fun f => binary f st) := by
  intro fuel
  cases fuel with
  | zero => rfl
  | succ n =>
    show (binary (n + 1) st).toOption = none
    rw [binary_succ]
    have hn : (parsePrecedence n
      ((getRule st.parser.previous.type).precedence.toNat + 1) st).toOption = none := h n
    cases hp : parsePrecedence n ((getRule st.parser.previous.type).precedence.toNat + 1) st with
    | error e => rfl
    | ok a => rw [hp] at hn; cases hn

theorem expression_neverReturns {st : State}
    (h : NeverReturns (fun f => parsePrecedence f PREC_ASSIGNMENT.toNat st)) :
    NeverReturns (fun f => expression f st) := by
  intro fuel
  cases fuel with
  | zero => rfl
  | succ n =>
    show (expression (n + 1) st).toOption = none
    rw [expression_succ]
    exact h n

theorem parsePrecedence_neverReturns_call {st st1 : State} (p N : Nat) (fn : ParseFn)
    (ha : advance N st = .ok st1)
    (hr : (getRule st1.parser.previous.type).prefixRule = some fn)
    (hc : NeverReturns (fun f => callRule f fn st1)) :
    NeverReturns (fun f => parsePrecedence f p st) := by
  intro fuel
  cases fuel with
  | zero => rfl
  | succ n =>
    show (parsePrecedence (n + 1) p st).toOption = none
    simp only [parsePrecedence_succ]
    rcases advance_settled N ha n with h | h
    · rw [h]; rfl
    · rw [h]; simp only [hr]
      have hn : (callRule n fn st1).toOption = none := hc n
      cases hcall : callRule n fn st1 with
      | error e => rfl
      | ok a => rw [hcall] at hn; cases hn

theorem parsePrecedence_neverReturns_loop {st st1 st2 : State} (p N M : Nat) (fn : ParseFn)
    (ha : advance N st = .ok st1)
    (hr : (getRule st1.parser.previous.type).prefixRule = some fn)
    (hc : callRule M fn st1 = .ok st2)
    (hl : NeverReturns (fun f => parsePrecedenceLoop f p st2)) :
    NeverReturns (fun f => parsePrecedence f p st) := by
  intro fuel
  cases fuel with
  | zero => rfl
  | succ n =>
    show (parsePrecedence (n + 1) p st).toOption = none
    simp only [parsePrecedence_succ]
    rcases advance_settled N ha n with h | h
    · rw [h]; rfl
    · rw [h]; simp only [hr]
      rcases callRule_settled M hc n with h2 | h2
      · rw [h2]; rfl
      · rw [h2]; exact hl n

theorem parsePrecedenceLoop_neverReturns_call {st st1 : State} (p N : Nat) (fn : ParseFn)
    (hp : p ≤ (getRule st.parser.current.type).precedence.toNat)
    (ha : advance N st = .ok st1)
    (hr : (getRule st1.parser.previous.type).infixRule = some fn)
    (hc : NeverReturns (fun f => callRule f fn st1)) :
    NeverReturns (fun f => parsePrecedenceLoop f p st) := by
  intro fuel
  cases fuel with
  | zero => rfl
  | succ n =>
    show (parsePrecedenceLoop (n + 1) p st).toOption = none
    simp only [parsePrecedenceLoop_succ, if_pos hp]
    rcases advance_settled N ha n with h | h
    · rw [h]; rfl
    · rw [h]; simp only [hr]
      have hn : (callRule n fn st1).toOption = none := hc n
      cases hcall : callRule n fn st1 with
      | error e => rfl
      | ok a => rw [hcall] at hn; cases hn

theorem parsePrecedenceLoop_neverReturns_loop {st st1 st2 : State} (p N M : Nat)
    (fn : ParseFn)
    (hp : p ≤ (getRule st.parser.current.type).precedence.toNat)
    (ha : advance N st = .ok st1)
    (hr : (getRule st1.parser.previous.type).infixRule = some fn)
    (hc : callRule M fn st1 = .ok st2)
    (hl : NeverReturns (fun f => parsePrecedenceLoop f p st2)) :
    NeverReturns (fun f => parsePrecedenceLoop f p st) := by
  intro fuel
  cases fuel with
  | zero => rfl
  | succ n =>
    show (parsePrecedenceLoop (n + 1) p st).toOption = none
    simp only [parsePrecedenceLoop_succ, if_pos hp]
    rcases advance_settled N ha n with h | h
    · rw [h]; rfl
    · rw [h]; simp only [hr]
      rcases callRule_settled M hc n with h2 | h2
      · rw [h2]; rfl
      · rw [h2]; exact hl n

end Compiler

open Compiler in
theorem compile_neverReturns_expression (source : List Char) (chunk : Chunk) {st1 : State}
    (N : Nat) (ha : advance N (compileStart source chunk) = .ok st1)
    (he : NeverReturns (fun f => expression f st1)) :
    NeverReturns (fun f => compile f source chunk) := by
  intro fuel
  show (compile fuel source chunk).toOption = none
  simp only [compile]
  rcases advance_settled N ha fuel with h | h
  · rw [h]; rfl
  · rw [h]
    have hn : (expression fuel st1).toOption = none := he fuel
    cases hex : expression fuel st1 with
    | error e => simp only [hex]; rfl
    | ok a => rw [hex] at hn; cases hn

open Compiler in
theorem compile_diverges_advance (source : List Char) (chunk : Chunk)
    (h : Diverges (fun f => advance f (compileStart source chunk))) :
    Diverges (fun f => compile f source chunk) := by
  intro fuel
  simp only [compile, h fuel]

open Compiler in
theorem compile_diverges_expression (source : List Char) (chunk : Chunk) {st1 : State} (N : Nat)
    (ha : advance N (compileStart source chunk) = .ok st1)
    (he : Diverges (fun f => expression f st1)) :
    Diverges (fun f => compile f source chunk) := by
  intro fuel
  simp only [compile]
  rcases advance_settled N ha fuel with h | h
  · rw [h]
  · rw [h]; simp only [he fuel]

open Compiler

theorem advance_diverges_exhausted {st : State} (h : st.parser.scanner.exhausted = true) :
    Diverges (fun f => advance f st) := fun f => advance_exhausted f st h

theorem ok_of_toBool {α : Type} (x : Except Fault α) (h : x.toBool = true) :
    ∃ r, x = .ok r := by
  cases x with
  | error e => cases h
  | ok r => exact ⟨r, rfl⟩

theorem ok_returned (r : Except Fault State) (h : r.toBool = true) : r = .ok (returned r) := by
  cases r with
  | error e => cases h
  | ok st => rfl

/-! ## What every returning run keeps -/

namespace Compiler

/-- What `number` does: with room in the pool it appends the constant and
emits its index; with a full pool it appends the constant and calls `error`,
which in panic mode returns, so that the placeholder 0 is emitted, and
otherwise stops the run. -/
theorem number_eq (st : State) :
    number st =
      if st.compilingChunk.constants.length > UINT8_MAX then
        if st.parser.panicMode then
          .ok (emitBytes { st with compilingChunk :=
              (addConstant st.compilingChunk
                (strtod (st.parser.previous.chars st.parser.scanner.source))).2 }
            (.op OP_CONSTANT) (.operand 0))
        else .error .nullVaList
      else
        .ok (emitBytes { st with compilingChunk :=
            (addConstant st.compilingChunk
              (strtod (st.parser.previous.chars st.parser.scanner.source))).2 }
          (.op OP_CONSTANT) (.operand (st.compilingChunk.constants.length % 256))) := by
  unfold number emitConstant makeConstant error errorAt
  simp only [addConstant]
  by_cases h : st.compilingChunk.constants.length > UINT8_MAX
  · rw [if_pos h, if_pos h]
    by_cases hp : st.parser.panicMode = true
    · simp only [hp, if_true]
    · simp only [hp, if_false, Bool.false_eq_true]
  · rw [if_neg h, if_neg h]

/-- Whenever `number` returns, it has appended the constant and emitted
`OP_CONSTANT` with an operand, and changed nothing else. -/
theorem number_ok (st st1 : State) (h : number st = .ok st1) :
    ∃ k, st1 = emitBytes { st with compilingChunk :=
        (addConstant st.compilingChunk
          (strtod (st.parser.previous.chars st.parser.scanner.source))).2 }
      (.op OP_CONSTANT) (.operand k) := by
  rw [number_eq] at h
  split at h
  · split at h
    · cases h; exact ⟨_, rfl⟩
    · cases h
  · cases h; exact ⟨_, rfl⟩

/-- With room in the pool `number` returns. -/
theorem number_room (st : State) (h : st.compilingChunk.constants.length ≤ UINT8_MAX) :
    number st =
      .ok (emitBytes { st with compilingChunk :=
          (addConstant st.compilingChunk
            (strtod (st.parser.previous.chars st.parser.scanner.source))).2 }
        (.op OP_CONSTANT) (.operand st.compilingChunk.constants.length)) := by
  rw [number_eq, if_neg (by omega)]
  have : st.compilingChunk.constants.length % 256 = st.compilingChunk.constants.length := by
    unfold UINT8_MAX at h
    omega
  rw [this]

/-- The function `number` returns when the pool has room, and in panic
mode. -/
theorem number_returns (st : State)
    (h : st.compilingChunk.constants.length ≤ UINT8_MAX ∨ st.parser.panicMode = true) :
    ∃ st1, number st = .ok st1 := by
  rw [number_eq]
  by_cases hf : st.compilingChunk.constants.length > UINT8_MAX
  · rw [if_pos hf]
    rcases h with h | h
    · omega
    · rw [if_pos h]
      exact ⟨_, rfl⟩
  · rw [if_neg hf]
    exact ⟨_, rfl⟩

theorem errorAt_chunk (st : State) (t : Token) (m : List Char) :
    (errorAt st t m).compilingChunk = st.compilingChunk := by
  unfold errorAt; split <;> rfl

theorem advanceLoop_chunk (n : Nat) : ∀ st st1 : State,
    advanceLoop n st = .ok st1 → st1.compilingChunk = st.compilingChunk := by
  induction n with
  | zero => intro st st1 h; cases h
  | succ n ih =>
    intro st st1 h
    rw [advanceLoop_succ] at h
    split at h
    · cases h; rfl
    · rw [ih _ _ h, errorAtCurrent, errorAt_chunk]

/-- The function `advance` does not touch the chunk. -/
theorem advance_chunk (n : Nat) (st st1 : State) (h : advance n st = .ok st1) :
    st1.compilingChunk = st.compilingChunk :=
  advanceLoop_chunk n { st with parser := { st.parser with previous := st.parser.current } }
    st1 h

/-- A property of states that `errorAt`, a change of the chunk and every
returning `advance` keep is kept by every returning run of the parser
functions. -/
theorem preserves (P : State → Prop)
    (hErr : ∀ st t m, P st → P (errorAt st t m))
    (hChunk : ∀ (st : State) c, P st → P { st with compilingChunk := c })
    (hAdv : ∀ n st st1, advance n st = .ok st1 → P st → P st1) (n : Nat) : Preserves P n := by
  have hEmit : ∀ st b, P st → P (emitByte st b) := fun st b h => hChunk st _ h
  have hNum : ∀ st st1, number st = .ok st1 → P st → P st1 := by
    intro st st1 h hi
    obtain ⟨k, rfl⟩ := number_ok st st1 h
    exact hEmit _ _ (hEmit _ _ (hChunk st _ hi))
  have hCons : ∀ n st st1 t m, consume n st t m = .ok st1 → P st → P st1 := by
    intro n st st1 t m h hi
    unfold consume at h
    split at h
    · exact hAdv n _ _ h hi
    · cases h; exact hErr _ _ _ hi
  induction n with
  | zero =>
    refine ⟨?_, ?_, ?_, ?_, ?_, ?_, ?_⟩ <;> intros <;> rename_i h _ <;> cases h
  | succ n ih =>
    obtain ⟨ihP, ihL, ihC, ihB, ihG, ihU, ihE⟩ := ih
    refine ⟨?_, ?_, ?_, ?_, ?_, ?_, ?_⟩
    · intro p st st1 h hi
      rw [parsePrecedence_succ] at h
      cases hadv : advance n st with
      | error e => rw [hadv] at h; cases h
      | ok sa =>
        have hia := hAdv n st sa hadv hi
        simp only [hadv] at h
        cases hr : (getRule sa.parser.previous.type).prefixRule with
        | none => simp only [hr] at h; cases h; exact hErr _ _ _ hia
        | some fn =>
          simp only [hr] at h
          cases hcall : callRule n fn sa with
          | error e => rw [hcall] at h; cases h
          | ok sb =>
            simp only [hcall] at h
            exact ihL p sb st1 h (ihC fn sa sb hcall hia)
    · intro p st st1 h hi
      rw [parsePrecedenceLoop_succ] at h
      split at h
      · cases hadv : advance n st with
        | error e => rw [hadv] at h; cases h
        | ok sa =>
          have hia := hAdv n st sa hadv hi
          simp only [hadv] at h
          cases hr : (getRule sa.parser.previous.type).infixRule with
          | none => simp only [hr] at h; cases h
          | some fn =>
            simp only [hr] at h
            cases hcall : callRule n fn sa with
            | error e => rw [hcall] at h; cases h
            | ok sb =>
              simp only [hcall] at h
              exact ihL p sb st1 h (ihC fn sa sb hcall hia)
      · cases h; exact hi
    · intro fn st st1 h hi
      cases fn with
      | grouping => simp only [callRule] at h; exact ihG st st1 h hi
      | unary => simp only [callRule] at h; exact ihU st st1 h hi
      | binary => simp only [callRule] at h; exact ihB st st1 h hi
      | number => simp only [callRule] at h; exact hNum st st1 h hi
    · intro st st1 h hi
      rw [binary_succ] at h
      cases hp : parsePrecedence n ((getRule st.parser.previous.type).precedence.toNat + 1) st with
      | error e => rw [hp] at h; cases h
      | ok sa =>
        have hia := ihP _ st sa hp hi
        simp only [hp] at h
        split at h <;> cases h <;> first | exact hEmit _ _ hia | exact hia
    · intro st st1 h hi
      rw [grouping_succ] at h
      cases he : expression n st with
      | error e => rw [he] at h; cases h
      | ok sa =>
        simp only [he] at h
        exact hCons n sa st1 _ _ h (ihE st sa he hi)
    · intro st st1 h hi
      rw [unary_succ] at h
      cases hp : parsePrecedence n PREC_UNARY.toNat st with
      | error e => rw [hp] at h; cases h
      | ok sa =>
        have hia := ihP _ st sa hp hi
        simp only [hp] at h
        split at h <;> cases h <;> first | exact hEmit _ _ hia | exact hia
    · intro st st1 h hi
      rw [expression_succ] at h
      exact ihP _ st st1 h hi

/-- Every returning `advance` leaves a token that is not `TOKEN_EOF` as
`parser.current`. -/
theorem advanceLoop_current (n : Nat) : ∀ st st1 : State,
    advanceLoop n st = .ok st1 → st1.parser.current.type ≠ TOKEN_EOF := by
  induction n with
  | zero => intro st st1 h; cases h
  | succ n ih =>
    intro st st1 h
    rw [advanceLoop_succ] at h
    split at h
    · rename_i hne; cases h; exact hne
    · exact ih _ _ h

theorem errorAt_current (st : State) (t : Token) (m : List Char) :
    (errorAt st t m).parser.current = st.parser.current := by
  unfold errorAt; split <;> rfl

end Compiler

/-! ## C1: `compile` does not return on a source of at most one token -/

/-- C1 (the code departs from it). The claim is that `compile` returns on
every source. In the code the loop of the parser's `advance` is left only on a
token that is not `TOKEN_EOF`, and the scanner keeps returning `TOKEN_EOF` at
the end of input. So when nothing but blanks is left after the first token of
the source (the empty source, `1`, ...), `compile` returns at no fuel. -/
theorem compile_diverges_at_most_one_token (source : List Char) (chunk : Chunk)
    (h : (scanToken (initScanner source)).2.exhausted = true) (fuel : Nat) :
    compile fuel source chunk = .error .outOfFuel := by
  by_cases ht : (scanToken (initScanner source)).1.type = TOKEN_EOF
  · cases fuel with
    | zero => rfl
    | succ n =>
      simp only [compile, advance, advanceLoop_succ]
      rw [if_neg (by simpa [compileStart] using ht)]
      rw [advanceLoop_exhausted]
      rw [errorAtCurrent, errorAt_scanner]
      exact h
  · have ha : advance 1 (compileStart source chunk) =
        .ok (outcome (advance 1 (compileStart source chunk)) (compileStart source chunk)) := by
      simp only [advance, advanceLoop_succ]
      rw [if_pos (by simpa [compileStart] using ht)]
      rfl
    refine compile_diverges_expression source chunk 1 ha
      (expression_diverges (parsePrecedence_diverges_advance _
        (advance_diverges_exhausted ?_))) fuel
    simp only [advance, advanceLoop_succ]
    rw [if_pos (by simpa [compileStart] using ht)]
    exact h

/-- C1, at the sources `1` and the empty source. -/
theorem compile_diverges_at_most_one_token_witness :
    ((scanToken (initScanner ['1'])).2.exhausted = true ∧
        compile 1000 ['1'] initChunk = .error .outOfFuel) ∧
      ((scanToken (initScanner [])).2.exhausted = true ∧
        compile 1000 [] initChunk = .error .outOfFuel) :=
  ⟨⟨by decide, compile_diverges_at_most_one_token ['1'] initChunk (by decide) 1000⟩,
   ⟨by decide, compile_diverges_at_most_one_token [] initChunk (by decide) 1000⟩⟩

/-- Whenever `compile` returns, the token it leaves as `parser.current` is not
`TOKEN_EOF`: no call of `compile` returns after the scanner has reached the
end of input. -/
theorem compile_returns_before_eof (fuel : Nat) (source : List Char) (chunk : Chunk)
    (r : Bool × State) (h : compile fuel source chunk = .ok r) :
    r.2.parser.current.type ≠ TOKEN_EOF := by
  unfold compile at h
  simp only at h
  cases ha : advance fuel (compileStart source chunk) with
  | error e => rw [ha] at h; cases h
  | ok sa =>
    simp only [ha] at h
    cases he : expression fuel sa with
    | error e => rw [he] at h; cases h
    | ok sb =>
      simp only [he] at h
      cases h
      exact (preserves (fun st => st.parser.current.type ≠ TOKEN_EOF)
        (fun st t m hi => by
          show (errorAt st t m).parser.current.type ≠ TOKEN_EOF
          rw [errorAt_current]; exact hi)
        (fun _ _ hi => hi)
        (fun n st st1 hadv _ => advanceLoop_current n _ st1 hadv) fuel).2.2.2.2.2.2 sa sb he
        (advanceLoop_current fuel _ sa ha)

/-! ## C2, C3, C4: the three sample expressions -/

/-- With a token of precedence `PREC_NONE` after it (here a newline), the
expression `1 + 2 * 3` compiles to what the claim C2 gives: the multiplication
is emitted before the addition. -/
theorem compile_precedence_with_newline :
    (compile 40 "1 + 2 * 3\n".toList initChunk).toOption.map
        (fun r => (r.1, r.2.compilingChunk.code, r.2.compilingChunk.constants)) =
      some (true,
        [.op OP_CONSTANT, .operand 0, .op OP_CONSTANT, .operand 1, .op OP_CONSTANT, .operand 2,
          .op OP_MULTIPLY, .op OP_ADD, .op OP_RETURN],
        [⟨['1']⟩, ⟨['2']⟩, ⟨['3']⟩]) := by
  decide!

/-- C2 (the code departs from it). The claim is that compiling `1 + 2 * 3`
into an empty chunk returns success with the constants `[1, 2, 3]` and the
code `CONSTANT 0, CONSTANT 1, CONSTANT 2, MULTIPLY, ADD, RETURN`. In the code
the call does not return at any fuel: the `advance` that takes `3` as the
right operand of `*` scans `TOKEN_EOF` and never leaves its loop. -/
theorem compile_precedence_source_diverges (fuel : Nat) :
    compile fuel "1 + 2 * 3".toList initChunk = .error .outOfFuel :=
  compile_diverges_expression _ _ 1 (ok_returned (advance 1 _) (by decide!))
    (expression_diverges
      (parsePrecedence_diverges_loop _ 1 1 .number (ok_returned (advance 1 _) (by decide!))
        (by decide!) (ok_returned (callRule 1 _ _) (by decide!))
        (parsePrecedenceLoop_diverges_call _ 1 .binary (by decide!)
          (ok_returned (advance 1 _) (by decide!)) (by decide!)
          (callRule_diverges_binary (binary_diverges
            (parsePrecedence_diverges_loop _ 1 1 .number (ok_returned (advance 1 _) (by decide!))
              (by decide!) (ok_returned (callRule 1 _ _) (by decide!))
              (parsePrecedenceLoop_diverges_call _ 1 .binary (by decide!)
                (ok_returned (advance 1 _) (by decide!)) (by decide!)
                (callRule_diverges_binary (binary_diverges
                  (parsePrecedence_diverges_advance _
                    (advance_diverges_exhausted (by decide!)))))))))))) fuel

/-- C3 (the code departs from it). The claim is that compiling `(1 + 2) * 3`
into an empty chunk returns success with the code `CONSTANT 1, CONSTANT 2, ADD,
CONSTANT 3, MULTIPLY, RETURN`. In the code the group is parsed and its `)`
consumed, and then the call does not return at any fuel: the `advance` that
takes `3` as the right operand of `*` scans `TOKEN_EOF` and never leaves its
loop. -/
theorem compile_grouping_source_diverges (fuel : Nat) :
    compile fuel "(1 + 2) * 3".toList initChunk = .error .outOfFuel :=
  compile_diverges_expression _ _ 1 (ok_returned (advance 1 _) (by decide!))
    (expression_diverges
      (parsePrecedence_diverges_loop _ 1 20 .grouping (ok_returned (advance 1 _) (by decide!))
        (by decide!) (ok_returned (callRule 20 _ _) (by decide!))
        (parsePrecedenceLoop_diverges_call _ 1 .binary (by decide!)
          (ok_returned (advance 1 _) (by decide!)) (by decide!)
          (callRule_diverges_binary (binary_diverges
            (parsePrecedence_diverges_advance _
              (advance_diverges_exhausted (by decide!)))))))) fuel

/-- C4 (the code departs from it). The claim is that compiling `-1 + 2` into
an empty chunk returns success with the code `CONSTANT 1, NEGATE, CONSTANT 2,
ADD, RETURN`. In the code the operand `-1` is compiled, and then the call does
not return at any fuel: the `advance` that takes `2` as the right operand of
`+` scans `TOKEN_EOF` and never leaves its loop. -/
theorem compile_unary_source_diverges (fuel : Nat) :
    compile fuel "-1 + 2".toList initChunk = .error .outOfFuel :=
  compile_diverges_expression _ _ 1 (ok_returned (advance 1 _) (by decide!))
    (expression_diverges
      (parsePrecedence_diverges_loop _ 1 20 .unary (ok_returned (advance 1 _) (by decide!))
        (by decide!) (ok_returned (callRule 20 _ _) (by decide!))
        (parsePrecedenceLoop_diverges_call _ 1 .binary (by decide!)
          (ok_returned (advance 1 _) (by decide!)) (by decide!)
          (callRule_diverges_binary (binary_diverges
            (parsePrecedence_diverges_advance _
              (advance_diverges_exhausted (by decide!)))))))) fuel

/-- With a token of precedence `PREC_NONE` after them (here a newline), the
same two expressions compile to the code the claims C3 and C4 give. -/
theorem compile_grouping_unary_with_newline :
    (compile 40 "(1 + 2) * 3\n".toList initChunk).toOption.map
        (fun r => (r.1, r.2.compilingChunk.code, r.2.compilingChunk.constants)) =
      some (true,
        [.op OP_CONSTANT, .operand 0, .op OP_CONSTANT, .operand 1, .op OP_ADD,
          .op OP_CONSTANT, .operand 2, .op OP_MULTIPLY, .op OP_RETURN],
        [⟨['1']⟩, ⟨['2']⟩, ⟨['3']⟩]) ∧
    (compile 40 "-1 + 2\n".toList initChunk).toOption.map
        (fun r => (r.1, r.2.compilingChunk.code, r.2.compilingChunk.constants)) =
      some (true,
        [.op OP_CONSTANT, .operand 0, .op OP_NEGATE, .op OP_CONSTANT, .operand 1, .op OP_ADD,
          .op OP_RETURN],
        [⟨['1']⟩, ⟨['2']⟩]) := by
  decide!

/-! ## C5: error tokens reach the parser -/

/-- C5 (the code departs from it). The claim is that `parser.current` is never
a `TOKEN_ERROR` after `advance`, each error token being reported with its own
message and the next token requested. In the code the loop of `advance` is
left on every token that is not `TOKEN_EOF`: when the scanner returns a
`TOKEN_ERROR`, `advance` returns with that token as `parser.current`, nothing
is written to `stderr` and neither flag changes. -/
theorem advance_exposes_error_token (fuel : Nat) (st : State)
    (h : (scanToken st.parser.scanner).1.type = TOKEN_ERROR) :
    ∃ st1, advance (fuel + 1) st = .ok st1 ∧
      st1.parser.current = (scanToken st.parser.scanner).1 ∧
      st1.parser.current.type = TOKEN_ERROR ∧
      st1.stderr = st.stderr ∧
      st1.parser.hadError = st.parser.hadError ∧
      st1.parser.panicMode = st.parser.panicMode := by
  refine ⟨{ st with parser :=
      { st.parser with previous := st.parser.current,
                       current := (scanToken st.parser.scanner).1,
                       scanner := (scanToken st.parser.scanner).2 } }, ?_, rfl, h, rfl, rfl, rfl⟩
  simp only [advance, advanceLoop_succ]
  rw [if_pos (by rw [h]; decide)]

/-- C5, at the source `@`: the first `advance` of `compile` leaves the error
token for the unexpected character as `parser.current`. -/
theorem advance_exposes_error_token_witness :
    (scanToken (compileStart ['@'] initChunk).parser.scanner).1.type = TOKEN_ERROR ∧
    ∃ st1, advance (0 + 1) (compileStart ['@'] initChunk) = .ok st1 ∧
      st1.parser.current = (scanToken (compileStart ['@'] initChunk).parser.scanner).1 ∧
      st1.parser.current.type = TOKEN_ERROR ∧
      st1.stderr = (compileStart ['@'] initChunk).stderr ∧
      st1.parser.hadError = (compileStart ['@'] initChunk).parser.hadError ∧
      st1.parser.panicMode = (compileStart ['@'] initChunk).parser.panicMode :=
  ⟨by decide, advance_exposes_error_token 0 (compileStart ['@'] initChunk) (by decide)⟩

/-- On `@ 1` the prefix rule of the error token is looked up: it is `NULL`, so
the one diagnostic is "Expect expression." at `1`, and the message of the
error token is never printed. -/
theorem compile_looks_up_rule_of_error_token :
    (compile 10 "@ 1".toList initChunk).toOption.map
        (fun r => (r.1, r.2.parser.previous.type, r.2.stderr)) =
      some (false, TOKEN_ERROR, ["SyntaxError at ".toList ++ [SQUOTE, '1', SQUOTE] ++ ": Expect expression.\n".toList]) := by
  decide!

/-! ## C6: one diagnostic for two unrecognized characters -/

/-- C6, counterexample. On `@ $`, a source with two unrecognized characters,
`compile` returns `false` having written one diagnostic, not two, and that one
names neither character. -/
theorem compile_two_bad_characters_one_diagnostic :
    (compile 10 "@ $".toList initChunk).toOption.map (fun r => (r.1, r.2.stderr)) =
      some (false, ["SyntaxError: Expect expression.\n".toList]) := by
  decide!

namespace Compiler

theorem errorAt_keeps (st : State) (t : Token) (m : List Char) (h : OneDiagnostic st) :
    OneDiagnostic (errorAt st t m) := by
  unfold errorAt
  split
  · exact h
  · rename_i hp
    have he : st.stderr = [] := h.2 (by simpa using hp)
    refine ⟨?_, ?_⟩
    · simp [he]
    · intro hc; simp at hc

theorem advanceLoop_keeps (n : Nat) : ∀ st st1 : State,
    advanceLoop n st = .ok st1 → OneDiagnostic st → OneDiagnostic st1 := by
  induction n with
  | zero => intro st st1 h; cases h
  | succ n ih =>
    intro st st1 h hi
    rw [advanceLoop_succ] at h
    split at h
    · cases h; exact hi
    · exact ih _ _ h (errorAt_keeps _ _ _ hi)

theorem advance_keeps (n : Nat) (st st1 : State) (h : advance n st = .ok st1)
    (hi : OneDiagnostic st) : OneDiagnostic st1 :=
  advanceLoop_keeps n _ _ h hi

end Compiler

/-- C6, amended. Whenever `compile` returns, it has written at most one
diagnostic: `errorAt` writes nothing once `panicMode` is set, the first
diagnostic sets it, and nothing clears it. -/
theorem compile_at_most_one_diagnostic (fuel : Nat) (source : List Char) (chunk : Chunk)
    (r : Bool × State) (h : compile fuel source chunk = .ok r) : r.2.stderr.length ≤ 1 := by
  unfold compile at h
  simp only at h
  cases ha : advance fuel (compileStart source chunk) with
  | error e => rw [ha] at h; cases h
  | ok sa =>
    simp only [ha] at h
    cases he : expression fuel sa with
    | error e => rw [he] at h; cases h
    | ok sb =>
      simp only [he] at h
      cases h
      have h0 : OneDiagnostic (compileStart source chunk) := ⟨by simp [compileStart], fun _ => rfl⟩
      exact ((preserves OneDiagnostic errorAt_keeps (fun _ _ hi => hi) advance_keeps
        fuel).2.2.2.2.2.2 sa sb he (advance_keeps fuel _ sa ha h0)).1


/-- C6 amended, at the source `@ $`. -/
theorem compile_at_most_one_diagnostic_witness :
    (compile 10 "@ $".toList initChunk).toBool = true ∧
      ∃ r, compile 10 "@ $".toList initChunk = .ok r ∧ r.2.stderr.length ≤ 1 :=
  ⟨by decide!,
    Exists.elim (ok_of_toBool (compile 10 "@ $".toList initChunk) (by decide!))
      (fun r hr => ⟨r, hr, compile_at_most_one_diagnostic 10 "@ $".toList initChunk r hr⟩)⟩

/-! ## C8: the depth of nested interpolation -/

/-- At an unescaped `${` inside a string, the scanner pushes the quote and
returns `TOKEN_INTERPOLATION` exactly when
`interpolatingCount - 1 < MAX_INTERPOLATION_NESTING`, that is when
`interpolatingCount` is at most 8 (a depth `interpolatingCount + 1` of at
most 9); it returns the error token otherwise. -/
theorem stringLoop_at_interpolation (n : Nat) (quote : Char) (s : Scanner)
    (hq : quote ≠ '$') (h1 : s.current_ = '$') (h2 : s.next = LBRACE)
    (h3 : s.previous ≠ BSLASH) :
    Scanner.stringLoop (n + 1) quote s =
      if s.interpolatingCount ≤ 8 then
        (some { type := TOKEN_INTERPOLATION, start := .src s.start,
                length := s.current + 1 - s.start, line := s.line },
          { (Scanner.writeInterpolating
              { s with interpolatingCount := s.interpolatingCount + 1 }
              (s.interpolatingCount + 1) (quote.toNat : Int)) with current := s.current + 2 })
      else
        (some (s.errorToken
          ("maximum interpolation nesting of ".toList
            ++ Scanner.fmtInt 8 ++ " exceeded by ".toList
            ++ Scanner.fmtInt (8 - s.interpolatingCount + 1))), s) := by
  have hne : (('$' : Char) != quote) = true := by
    simpa using fun h => hq h.symm
  have hend : s.isAtEnd = false := by
    simp [Scanner.isAtEnd, h1, NUL]
  have h3b : (s.previous != BSLASH) = true := by simpa using h3
  rw [Scanner.stringLoop]
  simp only [hne, hend, h1, h2, h3b, beq_self_eq_true, Bool.not_false, Bool.and_self, if_true,
    MAX_INTERPOLATION_NESTING]
  by_cases hc : s.interpolatingCount ≤ 8
  · have : s.interpolatingCount - 1 < ((8 : Nat) : Int) := by omega
    rw [if_pos this, if_pos hc]
    simp only [Scanner.writeInterpolating, Scanner.makeToken]
    split <;> rfl
  · have : ¬ s.interpolatingCount - 1 < ((8 : Nat) : Int) := by omega
    rw [if_neg this, if_neg hc]
    rfl

/-- C8 (the code departs from it). The claim is that `${` pushes exactly when
the depth is below 8, so that the depth never exceeds 8, every index into the
8-slot `interpolating` is in bounds and the `${` of a 9th level is an error.
In the code, on nine nested openings `"${`, the first eight tokens are
`TOKEN_INTERPOLATION` with `interpolatingCount = 7` and every index in bounds;
the ninth is a `TOKEN_INTERPOLATION` too, leaves `interpolatingCount = 8` and
has written `interpolating[8]`, outside the array. The error token comes only
at the eleventh level, and its message gives the excess as 0. -/
theorem ninth_nested_interpolation_is_accepted :
    ((scanTokens 8 (initScanner (nestedInterpolation 9))).1.map (fun t => t.type) =
        List.replicate 8 TOKEN_INTERPOLATION ∧
      (scanTokens 8 (initScanner (nestedInterpolation 9))).2.interpolatingCount = 7 ∧
      (scanTokens 8 (initScanner (nestedInterpolation 9))).2.outOfBounds = false) ∧
    ((scanToken (scanTokens 8 (initScanner (nestedInterpolation 9))).2).1.type =
        TOKEN_INTERPOLATION ∧
      (scanToken (scanTokens 8 (initScanner (nestedInterpolation 9))).2).2.interpolatingCount = 8 ∧
      (scanToken (scanTokens 8 (initScanner (nestedInterpolation 9))).2).2.outOfBounds = true) ∧
    ((scanTokens 11 (initScanner (nestedInterpolation 11))).1.map
        (fun t => (t.type, t.text (nestedInterpolation 11))) =
      List.replicate 10 (TOKEN_INTERPOLATION, [DQUOTE, '$']) ++
        [(TOKEN_ERROR, "maximum interpolation nesting of 8 exceeded by 0".toList)]) := by
  decide!

/-! ## The scanner on a buffer given by its parts -/

theorem getD_append_length (pre rest : List Char) (d : Char) :
    (pre ++ rest).getD pre.length d = rest.headD d := by
  induction pre with
  | nil => cases rest <;> simp
  | cons a pre ih => simpa using ih

theorem getD_append_length_succ (pre : List Char) (c : Char) (rest : List Char) (d : Char) :
    (pre ++ c :: rest).getD (pre.length + 1) d = rest.headD d := by
  have := getD_append_length (pre ++ [c]) rest d
  simpa using this

namespace Scanner

theorem At.current_eq {s : Scanner} {pre rest : List Char} (h : s.At pre rest) :
    s.current_ = rest.headD NUL := by
  obtain ⟨hs, hc⟩ := h
  unfold current_ charAt
  rw [hs, hc, getD_append_length]

theorem At.next_eq {s : Scanner} {pre : List Char} {c : Char} {rest : List Char}
    (h : s.At pre (c :: rest)) (hc : c ≠ NUL) : s.next = rest.headD NUL := by
  have h0 := h.current_eq
  obtain ⟨hs, hcur⟩ := h
  unfold next isAtEnd
  rw [h0]
  have : ((c :: rest).headD NUL == NUL) = false := by simpa using hc
  rw [this]
  simp only [Bool.false_eq_true, if_false]
  unfold charAt
  rw [hs, hcur, getD_append_length_succ]

theorem At.length_le {s : Scanner} {pre rest : List Char} (h : s.At pre rest) :
    pre.length + rest.length = s.source.length := by
  rw [h.1]; simp

theorem advance_eq (s : Scanner) :
    s.advance = (s.current_,
      if s.current_ == LF then { s with current := s.current + 1, line := s.line + 1 }
      else { s with current := s.current + 1 }) := by
  unfold advance current_ charAt
  simp

theorem At.advance {s : Scanner} {pre : List Char} {c : Char} {rest : List Char}
    (h : s.At pre (c :: rest)) : (s.advance).2.At (pre ++ [c]) rest := by
  obtain ⟨hs, hc⟩ := h
  rw [advance_eq]
  refine ⟨?_, ?_⟩
  · simp only; split <;> simp [hs]
  · simp only; split <;> simp [hc]

theorem isDigit_ne_LF {c : Char} (h : isDigit c = true) : (c == LF) = false := by
  have : c ≠ LF := by rintro rfl; revert h; decide
  simpa using this

theorem advance_digit {s : Scanner} (h : isDigit s.current_ = true) :
    (s.advance).2 = { s with current := s.current + 1 } := by
  rw [advance_eq]
  simp only [isDigit_ne_LF h, Bool.false_eq_true, if_false]

/-- The digit loop runs to the end of a run of digits and changes nothing but
the cursor. -/
theorem skipDigits_run (ds : List Char) : ∀ (fuel : Nat) (s : Scanner) (pre rest : List Char),
    s.At pre (ds ++ rest) → (∀ c ∈ ds, isDigit c = true) → isDigit (rest.headD NUL) = false →
    ds.length ≤ fuel → skipDigits fuel s = { s with current := s.current + ds.length } := by
  induction ds with
  | nil =>
    intro fuel s pre rest h _ hr _
    cases fuel with
    | zero => rfl
    | succ n =>
      have hc : isDigit s.current_ = false := by rw [h.current_eq]; exact hr
      simp [skipDigits, hc]
  | cons d ds ih =>
    intro fuel s pre rest h hd hr hf
    cases fuel with
    | zero => simp at hf
    | succ n =>
      have hdd : isDigit d = true := hd d (List.mem_cons_self _ _)
      have hc : isDigit s.current_ = true := by rw [h.current_eq]; exact hdd
      rw [skipDigits, if_pos hc]
      have h2 : (s.advance).2.At (pre ++ [d]) (ds ++ rest) := At.advance h
      rw [ih n _ _ rest h2 (fun c hc => hd c (List.mem_cons_of_mem _ hc)) hr
        (by simpa using hf)]
      rw [advance_digit hc]
      simp only [List.length_cons]
      congr 1
      omega

theorem skipWhitespace_of_not_blank {s : Scanner}
    (h : (s.current_ == ' ' || s.current_ == CR || s.current_ == TAB) = false)
    (h2 : (s.current_ == '#') = false) : s.skipWhitespace = s := by
  unfold skipWhitespace
  cases s.source.length with
  | zero => rfl
  | succ n =>
    rw [skipWhitespaceLoop]
    simp only [h, h2, Bool.false_eq_true, if_false]

theorem matchChar_of_ne {s : Scanner} {c : Char} (h : s.current_ ≠ c) :
    s.matchChar c = (false, s) := by
  unfold matchChar
  split
  · rfl
  · have : (s.current_ != c) = true := by simpa using h
    rw [if_pos this]

/-- After the digits of a numeral, when neither a fraction nor an exponent
follows, `number` returns a `TOKEN_NUMBER` and leaves the cursor after the
digits: a `.` is taken only if a digit follows it. -/
theorem number_integer (ds : List Char) (s : Scanner) (pre rest : List Char)
    (h : s.At pre (ds ++ rest)) (hd : ∀ c ∈ ds, isDigit c = true)
    (hr : isDigit (rest.headD NUL) = false)
    (hdot : rest.headD NUL = '.' → isDigit (rest.tail.headD NUL) = false)
    (he : rest.headD NUL ≠ 'e') (hE : rest.headD NUL ≠ 'E') :
    s.number =
      (({ s with current := s.current + ds.length } : Scanner).makeToken TOKEN_NUMBER,
        { s with current := s.current + ds.length }) := by
  have hlen : ds.length ≤ s.source.length := by
    have := h.length_le; simp at this; omega
  have h1 : skipDigits s.source.length s = { s with current := s.current + ds.length } :=
    skipDigits_run ds _ s pre rest h hd hr hlen
  have hat : ({ s with current := s.current + ds.length } : Scanner).At (pre ++ ds) rest := by
    refine ⟨?_, ?_⟩
    · simp [h.1]
    · simp [h.2]
  have hcur : ({ s with current := s.current + ds.length } : Scanner).current_ = rest.headD NUL :=
    hat.current_eq
  have hfrac : (({ s with current := s.current + ds.length } : Scanner).current_ == '.' &&
      isDigit ({ s with current := s.current + ds.length } : Scanner).next) = false := by
    rw [hcur]
    by_cases hp : rest.headD NUL = '.'
    · cases rest with
      | nil => simp [NUL] at hp
      | cons c r =>
        have hc : c = '.' := by simpa using hp
        subst hc
        rw [At.next_eq hat (by decide)]
        have := hdot hp
        simp only [List.tail_cons] at this
        rw [this]
        simp
    · have : (rest.headD NUL == '.') = false := by simpa using hp
      rw [this]
      rfl
  unfold number
  simp only [h1, hfrac, Bool.false_eq_true, if_false]
  rw [matchChar_of_ne (by rw [hcur]; exact he), matchChar_of_ne (by rw [hcur]; exact hE)]
  simp


theorem isDigit_not_blank {c : Char} (h : isDigit c = true) :
    (c == ' ' || c == CR || c == TAB) = false ∧ (c == '#') = false ∧ (c == NUL) = false := by
  refine ⟨?_, ?_, ?_⟩
  · have h1 : c ≠ ' ' := by rintro rfl; revert h; decide
    have h2 : c ≠ CR := by rintro rfl; revert h; decide
    have h3 : c ≠ TAB := by rintro rfl; revert h; decide
    simp [h1, h2, h3]
  · have h1 : c ≠ '#' := by rintro rfl; revert h; decide
    simpa using h1
  · have h1 : c ≠ NUL := by rintro rfl; revert h; decide
    simpa using h1

end Scanner

open Scanner in
/-- The token of a numeral that has neither fraction nor exponent: its first
digit `d`, the digits `ds` after it, and then `rest`. -/
theorem scanToken_integer (d : Char) (ds : List Char) (s : Scanner) (pre rest : List Char)
    (h : s.At pre (d :: ds ++ rest)) (hd0 : isDigit d = true)
    (hd : ∀ c ∈ ds, isDigit c = true)
    (hr : isDigit (rest.headD NUL) = false)
    (hdot : rest.headD NUL = '.' → isDigit (rest.tail.headD NUL) = false)
    (he : rest.headD NUL ≠ 'e') (hE : rest.headD NUL ≠ 'E') :
    scanToken s =
      ({ type := TOKEN_NUMBER, start := .src s.current, length := 1 + ds.length, line := s.line },
        { s with start := s.current, current := s.current + 1 + ds.length }) := by
  have hc : s.current_ = d := by rw [h.current_eq]; rfl
  obtain ⟨hb1, hb2, hb3⟩ := isDigit_not_blank hd0
  have hws : s.skipWhitespace = s := skipWhitespace_of_not_blank (by rw [hc]; exact hb1)
    (by rw [hc]; exact hb2)
  have hc2 : ({ s with start := s.current } : Scanner).current_ = d := hc
  have hend : ({ s with start := s.current } : Scanner).isAtEnd = false := by
    unfold isAtEnd; rw [hc2]; exact hb3
  have hat : ({ s with start := s.current, current := s.current + 1 } : Scanner).At
      (pre ++ [d]) (ds ++ rest) := by
    refine ⟨?_, ?_⟩
    · simp [h.1]
    · simp [h.2]
  have hnum := number_integer ds _ _ rest hat hd hr hdot he hE
  unfold scanToken
  simp only [hws, hend, Bool.false_eq_true, if_false, advance_eq, hc2, isDigit_ne_LF hd0, hd0,
    if_true]
  rw [hnum]
  clear hnum hat hend hc2
  simp only [makeToken, Prod.mk.injEq, Token.mk.injEq, true_and]
  refine ⟨⟨by omega, trivial⟩, trivial⟩

open Scanner in
/-- The token of a `+` that is not followed by `=`. -/
theorem scanToken_plus (s : Scanner) (pre rest : List Char)
    (h : s.At pre ('+' :: rest)) (hr : rest.headD NUL ≠ '=') :
    scanToken s =
      ({ type := TOKEN_PLUS, start := .src s.current, length := 1, line := s.line },
        { s with start := s.current, current := s.current + 1 }) := by
  have hc : s.current_ = '+' := by rw [h.current_eq]; rfl
  have hws : s.skipWhitespace = s :=
    skipWhitespace_of_not_blank (by rw [hc]; decide) (by rw [hc]; decide)
  have hc2 : ({ s with start := s.current } : Scanner).current_ = '+' := hc
  have hend : ({ s with start := s.current } : Scanner).isAtEnd = false := by
    unfold isAtEnd; rw [hc2]; decide
  have hat : ({ s with start := s.current, current := s.current + 1 } : Scanner).At
      (pre ++ ['+']) rest := by
    refine ⟨?_, ?_⟩
    · simp [h.1]
    · simp [h.2]
  have hm : ({ s with start := s.current, current := s.current + 1 } : Scanner).matchChar '=' =
      (false, { s with start := s.current, current := s.current + 1 }) :=
    matchChar_of_ne (by rw [hat.current_eq]; exact hr)
  unfold scanToken
  simp only [hws, hend, Bool.false_eq_true, if_false, advance_eq, hc2]
  simp [isDigit, isAlpha, LBRACE, RBRACE, LF, hm, makeToken]

open Scanner in
/-- The token of a `.`: `TOKEN_DOT`, or `TOKEN_DOT_DOT` when a second `.`
follows; in both cases it starts at that `.`. -/
theorem scanToken_dot (s : Scanner) (pre rest : List Char) (h : s.At pre ('.' :: rest)) :
    (scanToken s).1.start = .src s.current ∧
      ((scanToken s).1.type = TOKEN_DOT ∨ (scanToken s).1.type = TOKEN_DOT_DOT) ∧
      (rest.headD NUL ≠ '.' → (scanToken s).1.type = TOKEN_DOT ∧ (scanToken s).1.length = 1) := by
  have hc : s.current_ = '.' := by rw [h.current_eq]; rfl
  have hws : s.skipWhitespace = s :=
    skipWhitespace_of_not_blank (by rw [hc]; decide) (by rw [hc]; decide)
  have hc2 : ({ s with start := s.current } : Scanner).current_ = '.' := hc
  have hend : ({ s with start := s.current } : Scanner).isAtEnd = false := by
    unfold isAtEnd; rw [hc2]; decide
  have hat : ({ s with start := s.current, current := s.current + 1 } : Scanner).At
      (pre ++ ['.']) rest := by
    refine ⟨?_, ?_⟩
    · simp [h.1]
    · simp [h.2]
  have hsc : scanToken s =
      ((({ s with start := s.current, current := s.current + 1 } : Scanner).matchChar '.').2.makeToken
          (if (({ s with start := s.current, current := s.current + 1 } : Scanner).matchChar '.').1
            then TOKEN_DOT_DOT else TOKEN_DOT),
        (({ s with start := s.current, current := s.current + 1 } : Scanner).matchChar '.').2) := by
    unfold scanToken
    simp only [hws, hend, Bool.false_eq_true, if_false, advance_eq, hc2]
    simp [isDigit, isAlpha, LBRACE, RBRACE, LF]
  rw [hsc]
  refine ⟨?_, ?_, ?_⟩
  · unfold matchChar makeToken
    split
    · rfl
    · split
      · rfl
      · simp only; split <;> rfl
  · cases (({ s with start := s.current, current := s.current + 1 } : Scanner).matchChar '.').1
    · left; rfl
    · right; rfl
  · intro hne
    rw [matchChar_of_ne (by rw [hat.current_eq]; exact hne)]
    simp [makeToken]


/-! ## The counters of the scanner loops suffice -/

namespace Scanner

theorem current_of_le {s : Scanner} (h : s.source.length ≤ s.current) : s.current_ = NUL := by
  unfold current_ charAt
  simp [List.getD, List.getElem?_eq_none h]

theorem advance_source (s : Scanner) : (s.advance).2.source = s.source ∧
    (s.advance).2.current = s.current + 1 := by
  rw [advance_eq]
  simp only
  split <;> exact ⟨rfl, rfl⟩

/-- The counter of the digit loop suffices: the loop stops on a character
that is not a digit. -/
theorem skipDigits_stops (fuel : Nat) : ∀ s : Scanner, s.source.length - s.current ≤ fuel →
    isDigit (skipDigits fuel s).current_ = false := by
  induction fuel with
  | zero =>
    intro s h
    rw [skipDigits, current_of_le (by omega)]
    decide
  | succ n ih =>
    intro s h
    rw [skipDigits]
    split
    · apply ih
      obtain ⟨h1, h2⟩ := advance_source s
      rw [h1, h2]; omega
    · rename_i hc
      simpa using hc

/-- The counter of the identifier loop suffices: the loop stops on a character
that is neither a letter, an underscore nor a digit. -/
theorem skipAlnum_stops (fuel : Nat) : ∀ s : Scanner, s.source.length - s.current ≤ fuel →
    (isAlpha (skipAlnum fuel s).current_ || isDigit (skipAlnum fuel s).current_) = false := by
  induction fuel with
  | zero =>
    intro s h
    rw [skipAlnum, current_of_le (by omega)]
    decide
  | succ n ih =>
    intro s h
    rw [skipAlnum]
    split
    · apply ih
      obtain ⟨h1, h2⟩ := advance_source s
      rw [h1, h2]; omega
    · rename_i hc
      simpa using hc

/-- The counter of the comment loop suffices: the loop stops on a line feed or
at the end of the buffer. -/
theorem skipComment_stops (fuel : Nat) : ∀ s : Scanner, s.source.length - s.current ≤ fuel →
    ((skipComment fuel s).current_ != LF && !(skipComment fuel s).isAtEnd) = false := by
  induction fuel with
  | zero =>
    intro s h
    rw [skipComment]
    unfold isAtEnd
    rw [current_of_le (by omega)]
    decide
  | succ n ih =>
    intro s h
    rw [skipComment]
    split
    · apply ih
      obtain ⟨h1, h2⟩ := advance_source s
      rw [h1, h2]; omega
    · rename_i hc
      simpa using hc

theorem skipComment_source (fuel : Nat) : ∀ s : Scanner,
    (skipComment fuel s).source = s.source ∧ s.current ≤ (skipComment fuel s).current := by
  induction fuel with
  | zero => intro s; exact ⟨rfl, Nat.le_refl _⟩
  | succ n ih =>
    intro s
    rw [skipComment]
    split
    · obtain ⟨h1, h2⟩ := advance_source s
      obtain ⟨h3, h4⟩ := ih (s.advance).2
      exact ⟨h3.trans h1, by omega⟩
    · exact ⟨rfl, Nat.le_refl _⟩

theorem skipComment_moves (fuel : Nat) (s : Scanner) (h : s.current_ = '#') :
    s.current + 1 ≤ (skipComment (fuel + 1) s).current := by
  rw [skipComment]
  have hc : (s.current_ != LF && !s.isAtEnd) = true := by
    unfold isAtEnd; rw [h]; decide
  rw [if_pos hc]
  obtain ⟨_, h2⟩ := advance_source s
  obtain ⟨_, h4⟩ := skipComment_source fuel (s.advance).2
  omega

/-- The counter of the loop of `skipWhitespace` suffices: the loop stops on a
character that is neither a blank nor the start of a comment. -/
theorem skipWhitespaceLoop_stops (fuel : Nat) : ∀ s : Scanner,
    s.source.length - s.current ≤ fuel →
    ((skipWhitespaceLoop fuel s).current_ == ' ' || (skipWhitespaceLoop fuel s).current_ == CR
      || (skipWhitespaceLoop fuel s).current_ == TAB) = false ∧
    ((skipWhitespaceLoop fuel s).current_ == '#') = false := by
  induction fuel with
  | zero =>
    intro s h
    rw [skipWhitespaceLoop, current_of_le (by omega)]
    decide
  | succ n ih =>
    intro s h
    rw [skipWhitespaceLoop]
    split
    · apply ih
      obtain ⟨h1, h2⟩ := advance_source s
      rw [h1, h2]; omega
    · rename_i hb
      split
      · rename_i hh
        have hc : s.current_ = '#' := by simpa using hh
        have hlen : 0 < s.source.length := by
          by_contra hcon
          have := @current_of_le s (by omega)
          rw [this] at hc
          exact absurd hc (by decide)
        obtain ⟨k, hk⟩ : ∃ k, s.source.length = k + 1 := ⟨s.source.length - 1, by omega⟩
        apply ih
        have hm := skipComment_moves k s hc
        rw [← hk] at hm
        rw [(skipComment_source _ s).1]
        omega
      · rename_i hh
        exact ⟨by simpa using hb, by simpa using hh⟩


/-- The counter of `skipWhitespace` suffices. -/
theorem skipWhitespace_stops (s : Scanner) :
    (s.skipWhitespace.current_ == ' ' || s.skipWhitespace.current_ == CR
      || s.skipWhitespace.current_ == TAB) = false ∧
    (s.skipWhitespace.current_ == '#') = false :=
  skipWhitespaceLoop_stops s.source.length s (Nat.sub_le _ _)

/-- The counter of the loop of `string` suffices: when the loop ends without
returning a token, it has stopped on the quote or at the end of the buffer. -/
theorem stringLoop_stops (quote : Char) (fuel : Nat) : ∀ s : Scanner,
    s.source.length - s.current ≤ fuel → (stringLoop fuel quote s).1 = none →
    ((stringLoop fuel quote s).2.current_ != quote && !(stringLoop fuel quote s).2.isAtEnd)
      = false := by
  induction fuel with
  | zero =>
    intro s h _
    rw [stringLoop]
    show (s.current_ != quote && !s.isAtEnd) = false
    unfold isAtEnd
    rw [current_of_le (by omega)]
    simp
  | succ n ih =>
    intro s h hn
    rw [stringLoop] at hn ⊢
    split at hn
    · rename_i hc
      rw [if_pos hc]
      split at hn
      · rename_i hi
        split at hn <;> cases hn
      · rename_i hi
        rw [if_neg hi]
        apply ih _ _ hn
        obtain ⟨h1, h2⟩ := advance_source
          (if (s.current_ == BSLASH && (s.next == quote || s.next == BSLASH)) = true
            then (s.advance).2 else s)
        rw [h1, h2]
        split
        · obtain ⟨h3, h4⟩ := advance_source s
          rw [h3, h4]; omega
        · omega
    · rename_i hc
      rw [if_neg hc]
      simpa using hc

end Scanner

/-! ## Strings and words -/

namespace Scanner

theorem At.previous_eq {s : Scanner} {p : List Char} {c : Char} {rest : List Char}
    (h : s.At (p ++ [c]) rest) : s.previous = c := by
  obtain ⟨hs, hc⟩ := h
  unfold previous charAt
  rw [hs, hc]
  have : (p ++ [c]).length - 1 = p.length := by simp
  rw [this, List.append_assoc, getD_append_length]
  simp

/-- The loop of `string` walks over a plain segment: it moves the cursor and
counts the line feeds, and does nothing else. -/
theorem stringLoop_plain (quote : Char) (seg : List Char) :
    ∀ (fuel : Nat) (s : Scanner) (pre rest : List Char),
    s.At pre (seg ++ rest) → (∀ c ∈ seg, plain quote c = true) → seg.length ≤ fuel →
    stringLoop fuel quote s =
      stringLoop (fuel - seg.length) quote
        { s with current := s.current + seg.length, line := s.line + seg.count LF } := by
  induction seg with
  | nil => intro fuel s pre rest _ _ _; simp
  | cons c seg ih =>
    intro fuel s pre rest h hp hf
    cases fuel with
    | zero => simp at hf
    | succ n =>
      have hpc : plain quote c = true := hp c (List.mem_cons_self _ _)
      simp only [plain, Bool.and_eq_true, bne_iff_ne, ne_eq] at hpc
      obtain ⟨⟨⟨hq, hn⟩, hd⟩, hb⟩ := hpc
      have hc : s.current_ = c := by rw [h.current_eq]; rfl
      have hend : s.isAtEnd = false := by unfold isAtEnd; rw [hc]; simpa using hn
      have h1 : (s.current_ != quote) = true := by rw [hc]; simpa using hq
      have h2 : (s.current_ == '$') = false := by rw [hc]; simpa using hd
      have h3 : (s.current_ == BSLASH) = false := by rw [hc]; simpa using hb
      rw [stringLoop]
      simp only [h1, hend, h2, h3, Bool.not_false, Bool.and_self, Bool.false_and, if_true,
        Bool.false_eq_true, if_false]
      have hat : (s.advance).2.At (pre ++ [c]) (seg ++ rest) := At.advance h
      rw [ih n _ _ rest hat (fun c hc => hp c (List.mem_cons_of_mem _ hc)) (by simpa using hf)]
      rw [advance_eq, hc]
      simp only [List.length_cons, Nat.add_sub_add_right]
      congr 1
      by_cases hl : c = LF
      · subst hl
        simp only [beq_self_eq_true, if_true, List.count_cons_self]
        simp only [Scanner.mk.injEq, true_and, and_true]
        constructor <;> omega
      · have : (c == LF) = false := by simpa using hl
        simp only [this, Bool.false_eq_true, if_false]
        rw [List.count_cons_of_ne (Ne.symm hl)]
        simp only [Scanner.mk.injEq, true_and, and_true]
        omega


/-- A plain segment followed by an unescaped `${`: `string` returns the
`TOKEN_INTERPOLATION` that ends after the `$`, pushes the quote and leaves the
cursor after the brace. -/
theorem string_interpolation (quote : Char) (seg : List Char) (s : Scanner)
    (p : List Char) (c0 : Char) (rest : List Char)
    (h : s.At (p ++ [c0]) (seg ++ '$' :: LBRACE :: rest)) (hb : c0 ≠ BSLASH)
    (hp : ∀ c ∈ seg, plain quote c = true) (hq : quote ≠ '$')
    (hcount : s.interpolatingCount ≤ 8) :
    s.string quote =
      ({ type := TOKEN_INTERPOLATION, start := .src s.start,
         length := s.current + seg.length + 1 - s.start, line := s.line + seg.count LF },
        { (writeInterpolating
            { s with current := s.current + seg.length, line := s.line + seg.count LF,
                     interpolatingCount := s.interpolatingCount + 1 }
            (s.interpolatingCount + 1) (quote.toNat : Int))
          with current := s.current + seg.length + 2 }) := by
  have hlen : seg.length + 1 ≤ s.source.length := by
    have := h.length_le; simp at this; omega
  obtain ⟨k, hk⟩ : ∃ k, s.source.length - seg.length = k + 1 := ⟨s.source.length - seg.length - 1, by omega⟩
  have hat : ({ s with current := s.current + seg.length, line := s.line + seg.count LF } :
      Scanner).At (p ++ [c0] ++ seg) ('$' :: LBRACE :: rest) := by
    refine ⟨?_, ?_⟩
    · simp [h.1]
    · simp [h.2]; omega
  have hprev : ({ s with current := s.current + seg.length, line := s.line + seg.count LF } :
      Scanner).previous ≠ BSLASH := by
    rcases List.eq_nil_or_concat seg with hnil | ⟨seg1, c1, hseg⟩
    · subst hnil
      rw [@At.previous_eq _ p c0 ('$' :: LBRACE :: rest)
        ⟨by simpa using hat.1, by simpa using hat.2⟩]
      exact hb
    · have hseg2 : seg = seg1 ++ [c1] := by simpa using hseg
      have hmem : c1 ∈ seg := by rw [hseg2]; simp
      rw [@At.previous_eq _ (p ++ [c0] ++ seg1) c1 ('$' :: LBRACE :: rest)
        ⟨by rw [hat.1, hseg2]; simp, by rw [hat.2, hseg2]; simp⟩]
      have := hp _ hmem
      simp only [plain, Bool.and_eq_true, bne_iff_ne, ne_eq] at this
      exact this.2
  unfold string
  rw [stringLoop_plain quote seg _ s (p ++ [c0]) _ h hp (by omega), hk,
    stringLoop_at_interpolation k quote _ hq (by rw [hat.current_eq]; rfl)
      (by rw [hat.next_eq (by decide)]; rfl) hprev]
  rw [if_pos (by exact hcount)]

/-- A plain segment followed by the closing quote: `string` returns the
`TOKEN_STRING` that ends after the quote. -/
theorem string_closed (quote : Char) (seg : List Char) (s : Scanner)
    (pre rest : List Char) (h : s.At pre (seg ++ quote :: rest))
    (hp : ∀ c ∈ seg, plain quote c = true) (hqn : quote ≠ NUL) (hql : quote ≠ LF) :
    s.string quote =
      ({ type := TOKEN_STRING, start := .src s.start,
         length := s.current + seg.length + 1 - s.start, line := s.line + seg.count LF },
        { s with current := s.current + seg.length + 1, line := s.line + seg.count LF }) := by
  have hlen : seg.length + 1 ≤ s.source.length := by
    have := h.length_le; simp at this; omega
  obtain ⟨k, hk⟩ : ∃ k, s.source.length - seg.length = k + 1 := ⟨s.source.length - seg.length - 1, by omega⟩
  have hat : ({ s with current := s.current + seg.length, line := s.line + seg.count LF } :
      Scanner).At (pre ++ seg) (quote :: rest) := by
    refine ⟨?_, ?_⟩
    · simp [h.1]
    · simp [h.2]
  have hc : ({ s with current := s.current + seg.length, line := s.line + seg.count LF } :
      Scanner).current_ = quote := by rw [hat.current_eq]; rfl
  have hend : ({ s with current := s.current + seg.length, line := s.line + seg.count LF } :
      Scanner).isAtEnd = false := by unfold isAtEnd; rw [hc]; simpa using hqn
  have hl : (quote == LF) = false := by simpa using hql
  unfold string
  rw [stringLoop_plain quote seg _ s pre _ h hp (by omega), hk, stringLoop]
  simp only [hc, bne_self_eq_false, Bool.false_and, Bool.false_eq_true, if_false, hend]
  unfold matchChar
  simp only [hend, hc, bne_self_eq_false, Bool.false_eq_true, if_false]
  unfold charAt
  simp only [Nat.add_sub_cancel]
  have hch : s.source.getD (s.current + seg.length) NUL = quote := hc
  simp only [hch, hl, Bool.false_eq_true, if_false, makeToken]


theorem char_le_iff (a b : Char) : a ≤ b ↔ a.toNat ≤ b.toNat := by
  rfl

theorem isAlpha_not_digit {c : Char} (h : isAlpha c = true) : isDigit c = false := by
  unfold isAlpha at h
  unfold isDigit
  simp only [Bool.or_eq_true, Bool.and_eq_true, decide_eq_true_eq, beq_iff_eq, char_le_iff] at h
  simp only [Bool.and_eq_false_imp, decide_eq_true_eq, decide_eq_false_iff_not, char_le_iff]
  intro h0
  have e1 : ('a' : Char).toNat = 97 := rfl
  have e2 : ('9' : Char).toNat = 57 := rfl
  have e3 : ('A' : Char).toNat = 65 := rfl
  have e4 : ('_' : Char).toNat = 95 := rfl
  rcases h with (⟨h1, h2⟩ | ⟨h1, h2⟩) | h1
  · omega
  · omega
  · subst h1; omega

theorem isAlnum_ne_LF {c : Char} (h : (isAlpha c || isDigit c) = true) : (c == LF) = false := by
  have : c ≠ LF := by rintro rfl; revert h; decide
  simpa using this

theorem isAlpha_not_blank {c : Char} (h : isAlpha c = true) :
    (c == ' ' || c == CR || c == TAB) = false ∧ (c == '#') = false ∧ (c == NUL) = false := by
  refine ⟨?_, ?_, ?_⟩
  · have h1 : c ≠ ' ' := by rintro rfl; revert h; decide
    have h2 : c ≠ CR := by rintro rfl; revert h; decide
    have h3 : c ≠ TAB := by rintro rfl; revert h; decide
    simp [h1, h2, h3]
  · have h1 : c ≠ '#' := by rintro rfl; revert h; decide
    simpa using h1
  · have h1 : c ≠ NUL := by rintro rfl; revert h; decide
    simpa using h1

/-- The identifier loop runs to the end of a run of letters, digits and
underscores and changes nothing but the cursor. -/
theorem skipAlnum_run (xs : List Char) : ∀ (fuel : Nat) (s : Scanner) (pre rest : List Char),
    s.At pre (xs ++ rest) → (∀ c ∈ xs, (isAlpha c || isDigit c) = true) →
    (isAlpha (rest.headD NUL) || isDigit (rest.headD NUL)) = false →
    xs.length ≤ fuel → skipAlnum fuel s = { s with current := s.current + xs.length } := by
  induction xs with
  | nil =>
    intro fuel s pre rest h _ hr _
    cases fuel with
    | zero => rfl
    | succ n =>
      have hc : (isAlpha s.current_ || isDigit s.current_) = false := by
        rw [h.current_eq]; exact hr
      simp [skipAlnum, hc]
  | cons d xs ih =>
    intro fuel s pre rest h hd hr hf
    cases fuel with
    | zero => simp at hf
    | succ n =>
      have hdd := hd d (List.mem_cons_self _ _)
      have hc : (isAlpha s.current_ || isDigit s.current_) = true := by
        rw [h.current_eq]; exact hdd
      have hc0 : s.current_ = d := by rw [h.current_eq]; rfl
      rw [skipAlnum, if_pos hc]
      have h2 : (s.advance).2.At (pre ++ [d]) (xs ++ rest) := At.advance h
      rw [ih n _ _ rest h2 (fun c hc => hd c (List.mem_cons_of_mem _ hc)) hr
        (by simpa using hf)]
      rw [advance_eq, hc0]
      simp only [isAlnum_ne_LF hdd, Bool.false_eq_true, if_false, List.length_cons]
      congr 1
      omega

/-- A word that is the spelling of no row of the table is an identifier. -/
theorem keywordType_of_not_keyword (w : List Char) :
    ∀ ks : List Keyword, (∀ k ∈ ks, k.length = k.identifier.length) →
      (∀ k ∈ ks, k.identifier ≠ w) → keywordType w ks = TOKEN_IDENTIFIER := by
  intro ks
  induction ks with
  | nil => intro _ _; rfl
  | cons k ks ih =>
    intro hl hn
    have hk := hn k (List.mem_cons_self _ _)
    have hkl := hl k (List.mem_cons_self _ _)
    rw [keywordType]
    have : (decide (w.length = k.length) && w == k.identifier.take w.length) = false := by
      by_cases hwl : w.length = k.length
      · have : k.identifier.take w.length = k.identifier := by
          rw [hwl, hkl]; exact List.take_length _
        rw [this]
        have : (w == k.identifier) = false := by simpa using fun h => hk h.symm
        simp [this]
      · simp [hwl]
    rw [if_neg (by rw [this]; simp)]
    exact ih (fun k hk => hl k (List.mem_cons_of_mem _ hk))
      (fun k hk => hn k (List.mem_cons_of_mem _ hk))

theorem keywords_length : ∀ k ∈ keywords, k.length = k.identifier.length := by
  decide

end Scanner

open Scanner in
/-- The token of a word: its first character `a`, a letter or an underscore,
the letters, digits and underscores `xs` after it, and then `rest`. -/
theorem scanToken_word (a : Char) (xs : List Char) (s : Scanner) (pre rest : List Char)
    (h : s.At pre (a :: xs ++ rest)) (ha : isAlpha a = true)
    (hx : ∀ c ∈ xs, (isAlpha c || isDigit c) = true)
    (hr : (isAlpha (rest.headD NUL) || isDigit (rest.headD NUL)) = false) :
    scanToken s =
      ({ type := keywordType (a :: xs) keywords, start := .src s.current,
         length := 1 + xs.length, line := s.line },
        { s with start := s.current, current := s.current + 1 + xs.length }) := by
  have hc : s.current_ = a := by rw [h.current_eq]; rfl
  obtain ⟨hb1, hb2, hb3⟩ := isAlpha_not_blank ha
  have hws : s.skipWhitespace = s := skipWhitespace_of_not_blank (by rw [hc]; exact hb1)
    (by rw [hc]; exact hb2)
  have hc2 : ({ s with start := s.current } : Scanner).current_ = a := hc
  have hend : ({ s with start := s.current } : Scanner).isAtEnd = false := by
    unfold isAtEnd; rw [hc2]; exact hb3
  have hat : ({ s with start := s.current, current := s.current + 1 } : Scanner).At
      (pre ++ [a]) (xs ++ rest) := by
    refine ⟨?_, ?_⟩
    · simp [h.1]
    · simp [h.2]
  have hlen : xs.length ≤ s.source.length := by
    have := h.length_le; simp at this; omega
  have hrun := skipAlnum_run xs s.source.length _ _ rest hat hx hr hlen
  have htext : List.take (s.current + 1 + xs.length - s.current) (List.drop s.current s.source)
      = a :: xs := by
    rw [h.1, h.2]
    simp only [List.drop_left, List.cons_append]
    have : pre.length + 1 + xs.length - pre.length = xs.length + 1 := by omega
    rw [this, List.take_succ_cons, List.take_left]
  unfold scanToken
  simp only [hws, hend, Bool.false_eq_true, if_false, advance_eq, hc2,
    isAlnum_ne_LF (by rw [ha]; rfl : (isAlpha a || isDigit a) = true), isAlpha_not_digit ha, ha,
    if_true]
  unfold identifier
  simp only [hrun, makeToken, htext, Prod.mk.injEq, Token.mk.injEq, true_and, and_true]
  omega


open Scanner in
/-- A quote starts `string` with that quote. -/
theorem scanToken_quote (quote : Char) (s : Scanner) (pre rest : List Char)
    (h : s.At pre (quote :: rest)) (hq : quote = DQUOTE ∨ quote = SQUOTE) :
    scanToken s =
      ({ s with start := s.current, current := s.current + 1 } : Scanner).string quote := by
  have hc : s.current_ = quote := by rw [h.current_eq]; rfl
  have hc2 : ({ s with start := s.current } : Scanner).current_ = quote := hc
  rcases hq with rfl | rfl
  · have hws : s.skipWhitespace = s :=
      skipWhitespace_of_not_blank (by rw [hc]; decide) (by rw [hc]; decide)
    have hend : ({ s with start := s.current } : Scanner).isAtEnd = false := by
      unfold isAtEnd; rw [hc2]; decide
    unfold scanToken
    simp only [hws, hend, Bool.false_eq_true, if_false, advance_eq, hc2]
    simp [isDigit, isAlpha, DQUOTE, LBRACE, RBRACE, LF]
  · have hws : s.skipWhitespace = s :=
      skipWhitespace_of_not_blank (by rw [hc]; decide) (by rw [hc]; decide)
    have hend : ({ s with start := s.current } : Scanner).isAtEnd = false := by
      unfold isAtEnd; rw [hc2]; decide
    unfold scanToken
    simp only [hws, hend, Bool.false_eq_true, if_false, advance_eq, hc2]
    simp [isDigit, isAlpha, DQUOTE, SQUOTE, LBRACE, RBRACE, LF]

open Scanner in
/-- A right brace inside an interpolation resumes `string` with the quote on
top of the stack and pops it. -/
theorem scanToken_rbrace (s : Scanner) (pre rest : List Char)
    (h : s.At pre (RBRACE :: rest)) (hi : s.interpolatingCount > -1) :
    scanToken s =
      ((((({ s with start := s.current, current := s.current + 1 } : Scanner).readInterpolating
            s.interpolatingCount).2.string
          (Char.ofNat
            ((({ s with start := s.current, current := s.current + 1 } : Scanner).readInterpolating
              s.interpolatingCount).1 % 256).toNat)).1),
        { ((({ s with start := s.current, current := s.current + 1 } : Scanner).readInterpolating
            s.interpolatingCount).2.string
          (Char.ofNat
            ((({ s with start := s.current, current := s.current + 1 } : Scanner).readInterpolating
              s.interpolatingCount).1 % 256).toNat)).2 with
          interpolatingCount :=
            ((({ s with start := s.current, current := s.current + 1 } : Scanner).readInterpolating
              s.interpolatingCount).2.string
            (Char.ofNat
              ((({ s with start := s.current, current := s.current + 1 } : Scanner).readInterpolating
                s.interpolatingCount).1 % 256).toNat)).2.interpolatingCount - 1 }) := by
  have hc : s.current_ = RBRACE := by rw [h.current_eq]; rfl
  have hc2 : ({ s with start := s.current } : Scanner).current_ = RBRACE := hc
  have hws : s.skipWhitespace = s :=
    skipWhitespace_of_not_blank (by rw [hc]; decide) (by rw [hc]; decide)
  have hend : ({ s with start := s.current } : Scanner).isAtEnd = false := by
    unfold isAtEnd; rw [hc2]; decide
  unfold scanToken
  simp only [hws, hend, Bool.false_eq_true, if_false, advance_eq, hc2]
  simp [isDigit, isAlpha, LBRACE, RBRACE, LF, hi]

open Scanner in
/-- The first token of an interpolated string at depth 0. -/
theorem scanToken_open_interpolation (quote : Char) (seg rest : List Char) (s : Scanner)
    (pre : List Char) (h : s.At pre (quote :: seg ++ '$' :: LBRACE :: rest))
    (hq : quote = DQUOTE ∨ quote = SQUOTE) (hp : ∀ c ∈ seg, plain quote c = true)
    (hc : s.interpolatingCount = -1) (hl : 0 < s.interpolating.length) :
    (scanToken s).1.type = TOKEN_INTERPOLATION ∧
      (scanToken s).1.text s.source = quote :: seg ++ ['$'] ∧
      (scanToken s).2.At (pre ++ quote :: seg ++ ['$', LBRACE]) rest ∧
      (scanToken s).2.interpolatingCount = 0 ∧
      (scanToken s).2.interpolating.getD 0 0 = (quote.toNat : Int) ∧
      (scanToken s).2.outOfBounds = s.outOfBounds := by
  have hqb : quote ≠ BSLASH := by rcases hq with rfl | rfl <;> decide
  have hqd : quote ≠ '$' := by rcases hq with rfl | rfl <;> decide
  have hat : ({ s with start := s.current, current := s.current + 1 } : Scanner).At
      (pre ++ [quote]) (seg ++ '$' :: LBRACE :: rest) := by
    refine ⟨?_, ?_⟩
    · simp [h.1]
    · simp [h.2]
  rw [scanToken_quote quote s pre _ h hq,
    string_interpolation quote seg _ pre quote rest hat hqb hp hqd (by simp [hc])]
  have hw : inBounds (s.interpolatingCount + 1) = true := by rw [hc]; decide
  simp only [writeInterpolating, hw, if_true, Token.text]
  refine ⟨trivial, ?_, ⟨?_, ?_⟩, ?_, ?_, trivial⟩
  · rw [h.1, h.2]
    simp only [List.drop_left, List.cons_append]
    have : pre.length + 1 + seg.length + 1 - pre.length = (seg.length + 1) + 1 := by omega
    rw [this, List.take_succ_cons]
    congr 1
    rw [show seg.length + 1 = (seg ++ ['$']).length by simp]
    rw [show seg ++ '$' :: LBRACE :: rest = (seg ++ ['$']) ++ LBRACE :: rest by simp]
    rw [List.take_left]
  · simp [h.1]
  · simp [h.2]; omega
  · simp [hc]
  · rw [hc]
    simp only [Int.reduceNeg, Int.reduceAdd, Int.toNat_zero]
    cases hi : s.interpolating with
    | nil => rw [hi] at hl; simp at hl
    | cons a l => simp

open Scanner in
/-- The token that closes an interpolation of depth 1 and the string with
it. -/
theorem scanToken_close_interpolation (quote : Char) (seg rest : List Char) (s : Scanner)
    (pre : List Char) (h : s.At pre (RBRACE :: seg ++ quote :: rest))
    (hq : quote = DQUOTE ∨ quote = SQUOTE) (hp : ∀ c ∈ seg, plain quote c = true)
    (hc : s.interpolatingCount = 0) (hv : s.interpolating.getD 0 0 = (quote.toNat : Int)) :
    (scanToken s).1.type = TOKEN_STRING ∧
      (scanToken s).1.text s.source = RBRACE :: seg ++ [quote] ∧
      (scanToken s).2.At (pre ++ RBRACE :: seg ++ [quote]) rest ∧
      (scanToken s).2.interpolatingCount = -1 ∧
      (scanToken s).2.outOfBounds = s.outOfBounds := by
  have hqn : quote ≠ NUL := by rcases hq with rfl | rfl <;> decide
  have hql : quote ≠ LF := by rcases hq with rfl | rfl <;> decide
  have hcast : Char.ofNat (((quote.toNat : Int) % 256).toNat) = quote := by
    rcases hq with rfl | rfl <;> decide
  have hat : ({ s with start := s.current, current := s.current + 1 } : Scanner).At
      (pre ++ [RBRACE]) (seg ++ quote :: rest) := by
    refine ⟨?_, ?_⟩
    · simp [h.1]
    · simp [h.2]
  have hread : ({ s with start := s.current, current := s.current + 1 } : Scanner).readInterpolating
      s.interpolatingCount =
        ((quote.toNat : Int), { s with start := s.current, current := s.current + 1 }) := by
    unfold readInterpolating
    rw [hc]
    simp only [show inBounds 0 = true by decide, if_true, Int.toNat_zero, hv]
  rw [scanToken_rbrace s pre _ h (by rw [hc]; decide), hread]
  simp only [hcast]
  rw [string_closed quote seg _ (pre ++ [RBRACE]) rest hat hp hqn hql]
  simp only [Token.text]
  refine ⟨trivial, ?_, ⟨?_, ?_⟩, ?_, trivial⟩
  · rw [h.1, h.2]
    simp only [List.drop_left, List.cons_append]
    have : pre.length + 1 + seg.length + 1 - pre.length = (seg.length + 1) + 1 := by omega
    rw [this, List.take_succ_cons]
    congr 1
    rw [show seg.length + 1 = (seg ++ [quote]).length by simp]
    rw [show seg ++ quote :: rest = (seg ++ [quote]) ++ rest by simp]
    rw [List.take_left]
  · simp [h.1]
  · simp [h.2]; omega
  · simp [hc]

open Scanner in
/-- At the end of the buffer `scanToken` returns `TOKEN_EOF` with an empty
text and changes only `start`. -/
theorem scanToken_at_end (s : Scanner) (pre : List Char) (h : s.At pre []) :
    scanToken s = ({ type := TOKEN_EOF, start := .src s.current, length := 0, line := s.line },
      { s with start := s.current }) := by
  have hc : s.current_ = NUL := by rw [h.current_eq]; rfl
  have hend : s.isAtEnd = true := by unfold isAtEnd; rw [hc]; decide
  have hex : s.exhausted = true := by
    unfold exhausted; rw [skipWhitespace_atEnd s hend]; exact hend
  rw [scanToken_exhausted s hex]
  unfold atEof
  rw [skipWhitespace_atEnd s hend]
  simp [makeToken]


/-! ## C9: the tokens of an interpolated string -/

/-- C9, counterexample. On `"a${b}c"` the kinds of the four tokens are those
the claim gives, and the texts are not: the `TOKEN_INTERPOLATION` has the text
`"a$` and the `TOKEN_STRING` the text `}c"`, each with one delimiter character
on either side of the segment. -/
theorem interpolation_token_text_has_delimiters :
    (scanTokens 4 (initScanner [DQUOTE, 'a', '$', LBRACE, 'b', RBRACE, 'c', DQUOTE])).1.map
        (fun t => (t.type, t.text [DQUOTE, 'a', '$', LBRACE, 'b', RBRACE, 'c', DQUOTE])) =
      [(TOKEN_INTERPOLATION, [DQUOTE, 'a', '$']), (TOKEN_IDENTIFIER, ['b']),
        (TOKEN_STRING, [RBRACE, 'c', DQUOTE]), (TOKEN_EOF, [])] ∧
    (scanToken (initScanner [DQUOTE, 'a', '$', LBRACE, 'b', RBRACE, 'c', DQUOTE])).1.text
        [DQUOTE, 'a', '$', LBRACE, 'b', RBRACE, 'c', DQUOTE] ≠ ['a'] := by
  decide!

open Scanner in
/-- C9, amended. For a string `q s1 ${ x } s2 q` with `q` a double or a single
quote, `s1` and `s2` plain segments and `x = a :: xs` a word that is not
reserved, four calls of `scanToken` return a `TOKEN_INTERPOLATION` whose text
is `q s1 $`, a `TOKEN_IDENTIFIER` whose text is `x`, a `TOKEN_STRING` whose
text is `} s2 q`, and `TOKEN_EOF`; the nesting stack is empty again at the end
and no index into `interpolating` was out of bounds. -/
theorem interpolated_string_tokens (quote a : Char) (s1 xs s2 : List Char)
    (hq : quote = DQUOTE ∨ quote = SQUOTE)
    (h1 : ∀ c ∈ s1, plain quote c = true) (h2 : ∀ c ∈ s2, plain quote c = true)
    (ha : isAlpha a = true) (hxs : ∀ c ∈ xs, (isAlpha c || isDigit c) = true)
    (hk : ∀ k ∈ keywords, k.identifier ≠ a :: xs) :
    (scanTokens 4
        (initScanner (quote :: s1 ++ '$' :: LBRACE :: a :: xs ++ RBRACE :: s2 ++ [quote]))).1.map
        (fun t => (t.type,
          t.text (quote :: s1 ++ '$' :: LBRACE :: a :: xs ++ RBRACE :: s2 ++ [quote]))) =
      [(TOKEN_INTERPOLATION, quote :: s1 ++ ['$']), (TOKEN_IDENTIFIER, a :: xs),
        (TOKEN_STRING, RBRACE :: s2 ++ [quote]), (TOKEN_EOF, [])] ∧
    (scanTokens 4
        (initScanner
          (quote :: s1 ++ '$' :: LBRACE :: a :: xs ++ RBRACE :: s2 ++ [quote]))).2.interpolatingCount
      = -1 ∧
    (scanTokens 4
        (initScanner
          (quote :: s1 ++ '$' :: LBRACE :: a :: xs ++ RBRACE :: s2 ++ [quote]))).2.outOfBounds
      = false := by
  generalize hsrc : quote :: s1 ++ '$' :: LBRACE :: a :: xs ++ RBRACE :: s2 ++ [quote] = src
  have hA := scanToken_open_interpolation quote s1 (a :: xs ++ RBRACE :: s2 ++ [quote])
    (initScanner src) [] ⟨by rw [← hsrc]; simp [initScanner], rfl⟩ hq h1 rfl
    (show 0 < (List.replicate MAX_INTERPOLATION_NESTING (0 : Int)).length by decide)
  obtain ⟨hA1, hA2, hA3, hA4, hA5, hA6⟩ := hA
  have hB := scanToken_word a xs (scanToken (initScanner src)).2 _ (RBRACE :: s2 ++ [quote])
    (by simpa using hA3) ha hxs (show (isAlpha RBRACE || isDigit RBRACE) = false by decide)
  have hBat : (scanToken (scanToken (initScanner src)).2).2.At
      ([] ++ quote :: s1 ++ ['$', LBRACE] ++ a :: xs) (RBRACE :: s2 ++ [quote] ++ []) := by
    rw [hB]
    refine ⟨?_, ?_⟩
    · simp [hA3.1]
    · simp [hA3.2]; omega
  have hC := scanToken_close_interpolation quote s2 [] (scanToken (scanToken (initScanner src)).2).2
    _ (by simpa using hBat) hq h2 (by rw [hB]; exact hA4) (by rw [hB]; exact hA5)
  obtain ⟨hC1, hC2, hC3, hC4, hC5⟩ := hC
  have hD := scanToken_at_end (scanToken (scanToken (scanToken (initScanner src)).2).2).2 _ hC3
  have hs0 : (initScanner src).source = src := rfl
  have hs1 : (scanToken (initScanner src)).2.source = src := by
    rw [hA3.1, ← hsrc]; simp
  have hs2 : (scanToken (scanToken (initScanner src)).2).2.source = src := by
    rw [hBat.1, ← hsrc]; simp
  have hs3 : (scanToken (scanToken (scanToken (initScanner src)).2).2).2.source = src := by
    rw [hC3.1, ← hsrc]; simp
  have hkw : keywordType (a :: xs) keywords = TOKEN_IDENTIFIER :=
    keywordType_of_not_keyword _ keywords keywords_length hk
  have hB1 : (scanToken (scanToken (initScanner src)).2).1.type = TOKEN_IDENTIFIER := by
    rw [hB]; exact hkw
  have hB2 : (scanToken (scanToken (initScanner src)).2).1.text src = a :: xs := by
    have hsplit : src = ([] ++ quote :: s1 ++ ['$', LBRACE]) ++
        (a :: xs ++ RBRACE :: s2 ++ [quote]) := by rw [← hsrc]; simp
    rw [hB]
    simp only [Token.text]
    rw [hA3.2, hsplit]
    simp only [List.drop_left, List.cons_append]
    rw [Nat.add_comm, List.take_succ_cons]
    simp
  have hA2b : (scanToken (initScanner src)).1.text src = quote :: s1 ++ ['$'] := hA2
  have hC2b : (scanToken (scanToken (scanToken (initScanner src)).2).2).1.text src =
      RBRACE :: s2 ++ [quote] :=
    (congrArg (fun l => Token.text l (scanToken (scanToken (scanToken (initScanner src)).2).2).1)
      hs2).symm.trans hC2
  simp only [scanTokens, List.map]
  refine ⟨?_, ?_, ?_⟩
  · rw [hA1, hA2b, hB1, hB2, hC1, hC2b, hD]
    simp [Token.text]
  · have hD2 : (scanToken (scanToken (scanToken (scanToken (initScanner src)).2).2).2).2.interpolatingCount
        = (scanToken (scanToken (scanToken (initScanner src)).2).2).2.interpolatingCount := by
      rw [hD]
    rw [hD2, hC4]
  · have hD3 : (scanToken (scanToken (scanToken (scanToken (initScanner src)).2).2).2).2.outOfBounds
        = (scanToken (scanToken (scanToken (initScanner src)).2).2).2.outOfBounds := by
      rw [hD]
    have hB3 : (scanToken (scanToken (initScanner src)).2).2.outOfBounds
        = (scanToken (initScanner src)).2.outOfBounds := by
      rw [hB]
    rw [hD3, hC5, hB3, hA6]
    rfl

/-- C9 amended, at the source `"a${b}c"`. -/
theorem interpolated_string_tokens_witness :
    (DQUOTE = DQUOTE ∨ DQUOTE = SQUOTE) ∧ Scanner.isAlpha 'b' = true ∧
    ((scanTokens 4
        (initScanner (DQUOTE :: ['a'] ++ '$' :: LBRACE :: 'b' :: [] ++ RBRACE :: ['c']
          ++ [DQUOTE]))).1.map
        (fun t => (t.type,
          t.text (DQUOTE :: ['a'] ++ '$' :: LBRACE :: 'b' :: [] ++ RBRACE :: ['c'] ++ [DQUOTE]))) =
      [(TOKEN_INTERPOLATION, DQUOTE :: ['a'] ++ ['$']), (TOKEN_IDENTIFIER, 'b' :: []),
        (TOKEN_STRING, RBRACE :: ['c'] ++ [DQUOTE]), (TOKEN_EOF, [])] ∧
    (scanTokens 4
        (initScanner (DQUOTE :: ['a'] ++ '$' :: LBRACE :: 'b' :: [] ++ RBRACE :: ['c']
          ++ [DQUOTE]))).2.interpolatingCount = -1 ∧
    (scanTokens 4
        (initScanner (DQUOTE :: ['a'] ++ '$' :: LBRACE :: 'b' :: [] ++ RBRACE :: ['c']
          ++ [DQUOTE]))).2.outOfBounds = false) :=
  ⟨Or.inl rfl, by decide,
    interpolated_string_tokens DQUOTE 'b' ['a'] [] ['c'] (Or.inl rfl) (by decide) (by decide)
      (by decide) (by decide) (by decide!)⟩

/-! ## C10: a `.` that no digit follows is not part of the numeral -/

open Scanner in
/-- C10. When the cursor stands at a run of digits `d :: ds` that is followed by
a `.` which is not followed by a digit, `scanToken` returns a `TOKEN_NUMBER`
whose text is the run of digits, leaves the cursor on the `.`, and the next
`scanToken` returns a token that starts at that `.`: a `TOKEN_DOT`, unless a
second `.` follows, which makes it a `TOKEN_DOT_DOT`. -/
theorem number_stops_before_bare_dot (d : Char) (ds rest pre : List Char) (s : Scanner)
    (h : s.At pre (d :: ds ++ '.' :: rest)) (hd0 : isDigit d = true)
    (hd : ∀ c ∈ ds, isDigit c = true) (hr : isDigit (rest.headD NUL) = false) :
    (scanToken s).1.type = TOKEN_NUMBER ∧
      (scanToken s).1.text s.source = d :: ds ∧
      (scanToken s).2.At (pre ++ d :: ds) ('.' :: rest) ∧
      (scanToken (scanToken s).2).1.start = .src (pre ++ d :: ds).length ∧
      ((scanToken (scanToken s).2).1.type = TOKEN_DOT ∨
        (scanToken (scanToken s).2).1.type = TOKEN_DOT_DOT) ∧
      (rest.headD NUL ≠ '.' →
        (scanToken (scanToken s).2).1.type = TOKEN_DOT ∧
          (scanToken (scanToken s).2).1.length = 1) := by
  have h1 := scanToken_integer d ds s pre ('.' :: rest) h hd0 hd
    (show isDigit '.' = false by decide) (fun _ => by simpa using hr)
    (show ('.' : Char) ≠ 'e' by decide) (show ('.' : Char) ≠ 'E' by decide)
  have hat : (scanToken s).2.At (pre ++ d :: ds) ('.' :: rest) := by
    rw [h1]
    refine ⟨?_, ?_⟩
    · simp [h.1]
    · simp [h.2]; omega
  have h2 := scanToken_dot (scanToken s).2 (pre ++ d :: ds) rest hat
  have hcur : (scanToken s).2.current = (pre ++ d :: ds).length := hat.2
  refine ⟨by rw [h1], ?_, hat, ?_, h2.2.1, h2.2.2⟩
  · rw [h1]
    simp only [Token.text]
    rw [h.1, h.2]
    simp only [List.append_assoc, List.drop_left, List.cons_append]
    rw [Nat.add_comm, List.take_succ_cons, List.take_left]
  · rw [h2.1, hcur]

/-- C10, at the source `3.`: a `TOKEN_NUMBER` with text `3`, then a
`TOKEN_DOT` that starts at offset 1. -/
theorem number_stops_before_bare_dot_witness :
    (initScanner ['3', '.']).At [] ('3' :: [] ++ '.' :: []) ∧
      Scanner.isDigit '3' = true ∧ (∀ c ∈ ([] : List Char), Scanner.isDigit c = true) ∧
      Scanner.isDigit (([] : List Char).headD NUL) = false ∧
      ((scanToken (initScanner ['3', '.'])).1.type = TOKEN_NUMBER ∧
        (scanToken (initScanner ['3', '.'])).1.text (initScanner ['3', '.']).source = ['3'] ∧
        (scanToken (initScanner ['3', '.'])).2.At ([] ++ ['3']) ['.'] ∧
        (scanToken (scanToken (initScanner ['3', '.'])).2).1.start = .src ([] ++ ['3']).length ∧
        ((scanToken (scanToken (initScanner ['3', '.'])).2).1.type = TOKEN_DOT ∨
          (scanToken (scanToken (initScanner ['3', '.'])).2).1.type = TOKEN_DOT_DOT) ∧
        ((([] : List Char).headD NUL ≠ '.') →
          (scanToken (scanToken (initScanner ['3', '.'])).2).1.type = TOKEN_DOT ∧
            (scanToken (scanToken (initScanner ['3', '.'])).2).1.length = 1)) :=
  ⟨⟨rfl, rfl⟩, by decide, by simp, by decide,
    number_stops_before_bare_dot '3' [] [] [] (initScanner ['3', '.']) ⟨rfl, rfl⟩ (by decide)
      (by simp) (by decide)⟩

/-! ## C7: 257 literals -/

theorem literalSum_head (k : Nat) : ∃ rest, literalSum k = '1' :: rest ∧
    (rest = [] ∨ ∃ r, rest = '+' :: '1' :: r) := by
  cases k with
  | zero => exact ⟨[], rfl, Or.inl rfl⟩
  | succ k =>
    cases k with
    | zero => exact ⟨_, rfl, Or.inr ⟨[], rfl⟩⟩
    | succ k => exact ⟨_, rfl, Or.inr ⟨_, rfl⟩⟩

/-- The token of a literal `1` that ends the source or is followed by `+`. -/
theorem scanToken_one (sc : Scanner) (pre rest : List Char) (h : sc.At pre ('1' :: rest))
    (hr : rest = [] ∨ ∃ r, rest = '+' :: r) :
    scanToken sc =
      ({ type := TOKEN_NUMBER, start := .src sc.current, length := 1, line := sc.line },
        { sc with start := sc.current, current := sc.current + 1 }) := by
  have h1 : Scanner.isDigit (rest.headD NUL) = false := by
    rcases hr with rfl | ⟨r, rfl⟩
    · decide
    · show Scanner.isDigit '+' = false; decide
  have h2 : rest.headD NUL ≠ '.' := by
    rcases hr with rfl | ⟨r, rfl⟩
    · decide
    · show ('+' : Char) ≠ '.'; decide
  have h3 : rest.headD NUL ≠ 'e' := by
    rcases hr with rfl | ⟨r, rfl⟩
    · decide
    · show ('+' : Char) ≠ 'e'; decide
  have h4 : rest.headD NUL ≠ 'E' := by
    rcases hr with rfl | ⟨r, rfl⟩
    · decide
    · show ('+' : Char) ≠ 'E'; decide
  have hscan := scanToken_integer '1' [] sc pre rest (by simpa using h) (by decide) (by simp)
    h1 (fun hh => absurd hh h2) h3 h4
  rw [hscan]
  rfl

namespace Compiler

/-- One turn of the loop of `advance` on a token that is not `TOKEN_EOF`. -/
theorem advance_one (st : State) (tok : Token) (sc : Scanner)
    (h : scanToken st.parser.scanner = (tok, sc)) (ht : tok.type ≠ TOKEN_EOF) :
    advance 1 st = .ok { st with parser :=
      { st.parser with previous := st.parser.current, current := tok, scanner := sc } } := by
  simp only [advance, advanceLoop_succ, h]
  rw [if_pos ht]

theorem number_lookahead (st st1 : State) (h : number st = .ok st1) :
    st1.parser.current = st.parser.current ∧
      st1.parser.previous = st.parser.previous ∧
      st1.parser.scanner = st.parser.scanner ∧
      st1.compilingChunk.constants.length = st.compilingChunk.constants.length + 1 := by
  obtain ⟨k, rfl⟩ := number_ok st st1 h
  refine ⟨rfl, rfl, rfl, ?_⟩
  simp [emitBytes, emitByte, writeChunk, addConstant]

/-- What `advance` leaves when the next token is not `TOKEN_EOF`. -/
theorem advance_next (st : State) (tok : Token) (sc : Scanner)
    (h : scanToken st.parser.scanner = (tok, sc)) (ht : tok.type ≠ TOKEN_EOF) :
    ∃ st1, advance 1 st = .ok st1 ∧ st1.parser.previous = st.parser.current ∧
      st1.parser.current = tok ∧ st1.parser.scanner = sc :=
  ⟨_, advance_one st tok sc h ht, rfl, rfl, rfl⟩

/-- The infix loop runs out of every fuel when the current token is a `+` and
the last literal `1` of the source follows it: the `advance` that takes the
literal scans `TOKEN_EOF`. -/
theorem parsePrecedenceLoop_diverges_last (st : State) (pre : List Char)
    (hcur : st.parser.current.type = TOKEN_PLUS)
    (hat : st.parser.scanner.At pre (literalSum 0)) :
    Diverges (fun f => parsePrecedenceLoop f PREC_ASSIGNMENT.toNat st) := by
  have hscan := scanToken_one st.parser.scanner pre [] hat (Or.inl rfl)
  obtain ⟨st1, hadv, hp1, hc1, hs1⟩ :=
    advance_next st _ _ hscan (show TOKEN_NUMBER ≠ TOKEN_EOF by decide)
  refine parsePrecedenceLoop_diverges_call _ 1 .binary (by rw [hcur]; decide) hadv
    (by rw [hp1, hcur]; rfl) ?_
  refine callRule_diverges_binary (binary_diverges (parsePrecedence_diverges_advance _
    (advance_diverges_exhausted ?_)))
  rw [hs1]
  have hat2 : (Scanner.mk st.parser.scanner.source st.parser.scanner.current
      (st.parser.scanner.current + 1) st.parser.scanner.line
      st.parser.scanner.interpolatingCount st.parser.scanner.interpolating
      st.parser.scanner.outOfBounds).At (pre ++ ['1']) [] := by
    refine ⟨?_, ?_⟩
    · simp [hat.1, literalSum]
    · simp [hat.2]
  have hend2 : Scanner.isAtEnd (Scanner.mk st.parser.scanner.source st.parser.scanner.current
      (st.parser.scanner.current + 1) st.parser.scanner.line
      st.parser.scanner.interpolatingCount st.parser.scanner.interpolating
      st.parser.scanner.outOfBounds) = true := by
    unfold Scanner.isAtEnd; rw [hat2.current_eq]; decide
  show Scanner.exhausted _ = true
  unfold Scanner.exhausted
  rw [Scanner.skipWhitespace_atEnd _ hend2]
  exact hend2

/-- The infix loop runs out of every fuel on the rest `1+1...+1` of a sum that
ends the source, when the current token is the `+` before it and the pool has
room for all its literals but the last. -/
theorem parsePrecedenceLoop_diverges_literalSum (k : Nat) : ∀ (st : State) (pre : List Char),
    st.parser.current.type = TOKEN_PLUS → st.parser.scanner.At pre (literalSum k) →
    st.compilingChunk.constants.length + k ≤ UINT8_MAX + 1 →
    Diverges (fun f => parsePrecedenceLoop f PREC_ASSIGNMENT.toNat st) := by
  induction k with
  | zero =>
    intro st pre hcur hat _
    exact parsePrecedenceLoop_diverges_last st pre hcur hat
  | succ k ih =>
    intro st pre hcur hat hroom
    obtain ⟨rest, hrest, _⟩ := literalSum_head k
    have hscan := scanToken_one st.parser.scanner pre ('+' :: literalSum k) hat
      (Or.inr ⟨_, rfl⟩)
    obtain ⟨st1, hadv, hp1, hc1, hs1⟩ :=
      advance_next st _ _ hscan (show TOKEN_NUMBER ≠ TOKEN_EOF by decide)
    have hat1 : st1.parser.scanner.At (pre ++ ['1']) ('+' :: literalSum k) := by
      rw [hs1]
      refine ⟨?_, ?_⟩
      · simp [hat.1, literalSum]
      · simp [hat.2]
    have hscan2 := scanToken_plus _ (pre ++ ['1']) (literalSum k) hat1
      (by rw [hrest]; show ('1' : Char) ≠ '='; decide)
    obtain ⟨st2, hadv2, hp2, hc2, hs2⟩ :=
      advance_next st1 _ _ hscan2 (show TOKEN_PLUS ≠ TOKEN_EOF by decide)
    have hat2 : st2.parser.scanner.At (pre ++ ['1', '+']) (literalSum k) := by
      rw [hs2]
      refine ⟨?_, ?_⟩
      · simp [hat1.1]
      · simp [hat1.2]
    have hch2 : st2.compilingChunk = st.compilingChunk :=
      (advance_chunk 1 st1 st2 hadv2).trans (advance_chunk 1 st st1 hadv)
    obtain ⟨st3, hn⟩ : ∃ st3, number st2 = .ok st3 :=
      ⟨_, number_room st2 (by rw [hch2]; omega)⟩
    obtain ⟨hn1, hn2, hn3, hn4⟩ := number_lookahead st2 st3 hn
    have hcall : callRule 4 .binary st1 = .ok (emitByte st3 (.op OP_ADD)) := by
      have hprev : st1.parser.previous.type = TOKEN_PLUS := by rw [hp1, hcur]
      have hpre2 : (getRule st2.parser.previous.type).prefixRule = some .number := by
        rw [hp2, hc1]; rfl
      have hloop : parsePrecedenceLoop 1 (PREC_TERM.toNat + 1) st3 = .ok st3 := by
        rw [parsePrecedenceLoop_succ, if_neg]
        rw [hn1, hc2]
        show ¬ (PREC_TERM.toNat + 1 ≤ (getRule TOKEN_PLUS).precedence.toNat)
        decide
      simp only [callRule]
      rw [binary_succ, hprev]
      show (match parsePrecedence 2 (PREC_TERM.toNat + 1) st1 with
        | Except.error e => Except.error e
        | Except.ok s => Except.ok (emitByte s (CodeByte.op OP_ADD))) = _
      rw [parsePrecedence_succ, hadv2]
      simp only [hpre2, callRule, hn, hloop]
    refine parsePrecedenceLoop_diverges_loop _ 1 4 .binary (by rw [hcur]; decide) hadv
      (by rw [hp1, hcur]; rfl) hcall (ih _ (pre ++ ['1', '+']) ?_ ?_ ?_)
    · show st3.parser.current.type = TOKEN_PLUS
      rw [hn1, hc2]
    · show st3.parser.scanner.At _ _
      rw [hn3]; exact hat2
    · show (emitByte st3 (.op OP_ADD)).compilingChunk.constants.length + k ≤ UINT8_MAX + 1
      have : (emitByte st3 (.op OP_ADD)).compilingChunk.constants.length =
          st3.compilingChunk.constants.length := rfl
      rw [this, hn4, hch2]
      omega

/-- The infix loop returns at no fuel on the rest `1+1...+1` of a sum that ends
the source, whatever the pool holds: `number` returns for each literal but the
last, or stops the run. -/
theorem parsePrecedenceLoop_neverReturns_literalSum (k : Nat) :
    ∀ (st : State) (pre : List Char),
    st.parser.current.type = TOKEN_PLUS → st.parser.scanner.At pre (literalSum k) →
    NeverReturns (fun f => parsePrecedenceLoop f PREC_ASSIGNMENT.toNat st) := by
  induction k with
  | zero =>
    intro st pre hcur hat
    exact neverReturns_of_diverges (parsePrecedenceLoop_diverges_last st pre hcur hat)
  | succ k ih =>
    intro st pre hcur hat
    obtain ⟨rest, hrest, _⟩ := literalSum_head k
    have hscan := scanToken_one st.parser.scanner pre ('+' :: literalSum k) hat
      (Or.inr ⟨_, rfl⟩)
    obtain ⟨st1, hadv, hp1, hc1, hs1⟩ :=
      advance_next st _ _ hscan (show TOKEN_NUMBER ≠ TOKEN_EOF by decide)
    have hat1 : st1.parser.scanner.At (pre ++ ['1']) ('+' :: literalSum k) := by
      rw [hs1]
      refine ⟨?_, ?_⟩
      · simp [hat.1, literalSum]
      · simp [hat.2]
    have hscan2 := scanToken_plus _ (pre ++ ['1']) (literalSum k) hat1
      (by rw [hrest]; show ('1' : Char) ≠ '='; decide)
    obtain ⟨st2, hadv2, hp2, hc2, hs2⟩ :=
      advance_next st1 _ _ hscan2 (show TOKEN_PLUS ≠ TOKEN_EOF by decide)
    have hat2 : st2.parser.scanner.At (pre ++ ['1', '+']) (literalSum k) := by
      rw [hs2]
      refine ⟨?_, ?_⟩
      · simp [hat1.1]
      · simp [hat1.2]
    have hprev : st1.parser.previous.type = TOKEN_PLUS := by rw [hp1, hcur]
    have hpre2 : (getRule st2.parser.previous.type).prefixRule = some .number := by
      rw [hp2, hc1]; rfl
    cases hn : number st2 with
    | error e =>
      exact parsePrecedenceLoop_neverReturns_call _ 1 .binary (by rw [hcur]; decide) hadv
        (by rw [hp1, hcur]; rfl)
        (callRule_binary_neverReturns (binary_neverReturns
          (parsePrecedence_neverReturns_call _ 1 .number hadv2 hpre2
            (callRule_number_neverReturns e hn))))
    | ok st3 =>
      obtain ⟨hn1, hn2, hn3, hn4⟩ := number_lookahead st2 st3 hn
      have hcall : callRule 4 .binary st1 = .ok (emitByte st3 (.op OP_ADD)) := by
        have hloop : parsePrecedenceLoop 1 (PREC_TERM.toNat + 1) st3 = .ok st3 := by
          rw [parsePrecedenceLoop_succ, if_neg]
          rw [hn1, hc2]
          show ¬ (PREC_TERM.toNat + 1 ≤ (getRule TOKEN_PLUS).precedence.toNat)
          decide
        simp only [callRule]
        rw [binary_succ, hprev]
        show (match parsePrecedence 2 (PREC_TERM.toNat + 1) st1 with
          | Except.error e => Except.error e
          | Except.ok s => Except.ok (emitByte s (CodeByte.op OP_ADD))) = _
        rw [parsePrecedence_succ, hadv2]
        simp only [hpre2, callRule, hn, hloop]
      refine parsePrecedenceLoop_neverReturns_loop _ 1 4 .binary (by rw [hcur]; decide) hadv
        (by rw [hp1, hcur]; rfl) hcall (ih _ (pre ++ ['1', '+']) ?_ ?_)
      · show st3.parser.current.type = TOKEN_PLUS
        rw [hn1, hc2]
      · show st3.parser.scanner.At _ _
        rw [hn3]; exact hat2

end Compiler

/-- On a sum `1+1+...+1` of `k + 1` literals, with room in the pool for the
first `k` of them, `compile` runs out of every fuel: the `advance` that takes
the last literal scans `TOKEN_EOF` and never leaves its loop. -/
theorem compile_literalSum_room (k : Nat) (chunk : Chunk) (fuel : Nat)
    (hroom : chunk.constants.length + k ≤ UINT8_MAX + 1) :
    compile fuel (literalSum k) chunk = .error .outOfFuel := by
  cases k with
  | zero =>
    have hat0 : (compileStart (literalSum 0) chunk).parser.scanner.At [] ['1'] := ⟨rfl, rfl⟩
    have hscan := scanToken_one _ [] [] hat0 (Or.inl rfl)
    obtain ⟨st1, hadv, _, _, hs1⟩ :=
      advance_next _ _ _ hscan (show TOKEN_NUMBER ≠ TOKEN_EOF by decide)
    refine compile_diverges_expression _ chunk 1 hadv (expression_diverges
      (parsePrecedence_diverges_advance _ (advance_diverges_exhausted ?_))) fuel
    rw [hs1]
    rfl
  | succ k =>
    obtain ⟨rest, hrest, _⟩ := literalSum_head k
    have hat0 : (compileStart (literalSum (k + 1)) chunk).parser.scanner.At []
        ('1' :: '+' :: literalSum k) := ⟨rfl, rfl⟩
    have hscan := scanToken_one _ [] ('+' :: literalSum k) hat0 (Or.inr ⟨_, rfl⟩)
    obtain ⟨st1, hadv, hp1, hc1, hs1⟩ :=
      advance_next _ _ _ hscan (show TOKEN_NUMBER ≠ TOKEN_EOF by decide)
    have hat1 : st1.parser.scanner.At ([] ++ ['1']) ('+' :: literalSum k) := by
      rw [hs1]; exact ⟨rfl, rfl⟩
    have hscan2 := scanToken_plus _ ([] ++ ['1']) (literalSum k) hat1
      (by rw [hrest]; show ('1' : Char) ≠ '='; decide)
    obtain ⟨st2, hadv2, hp2, hc2, hs2⟩ :=
      advance_next st1 _ _ hscan2 (show TOKEN_PLUS ≠ TOKEN_EOF by decide)
    have hat2 : st2.parser.scanner.At (['1', '+']) (literalSum k) := by
      rw [hs2]
      refine ⟨?_, ?_⟩
      · simp [hat1.1]
      · simp [hat1.2]
    have hch2 : st2.compilingChunk = chunk :=
      (advance_chunk 1 st1 st2 hadv2).trans (advance_chunk 1 _ st1 hadv)
    obtain ⟨st3, hn⟩ : ∃ st3, number st2 = .ok st3 :=
      ⟨_, number_room st2 (by rw [hch2]; omega)⟩
    obtain ⟨hn1, hn2, hn3, hn4⟩ := number_lookahead st2 st3 hn
    refine compile_diverges_expression _ chunk 1 hadv (expression_diverges
      (parsePrecedence_diverges_loop _ 1 1 .number hadv2 (by rw [hp2, hc1]; rfl)
        (show callRule 1 .number st2 = .ok st3 from hn)
        (parsePrecedenceLoop_diverges_literalSum k _ ['1', '+'] ?_ ?_ ?_))) fuel
    · rw [hn1, hc2]
    · rw [hn3]; exact hat2
    · rw [hn4, hch2]
      omega

/-- On a sum `1+1+...+1` of any number of literals, whatever the pool holds,
`compile` returns at no fuel. -/
theorem compile_literalSum_neverReturns (k : Nat) (chunk : Chunk) :
    NeverReturns (fun f => compile f (literalSum k) chunk) := by
  cases k with
  | zero =>
    intro fuel
    show (compile fuel (literalSum 0) chunk).toOption = none
    have hat0 : (compileStart (literalSum 0) chunk).parser.scanner.At [] ['1'] := ⟨rfl, rfl⟩
    have hscan := scanToken_one _ [] [] hat0 (Or.inl rfl)
    obtain ⟨st1, hadv, _, _, hs1⟩ :=
      advance_next _ _ _ hscan (show TOKEN_NUMBER ≠ TOKEN_EOF by decide)
    have hd : compile fuel (literalSum 0) chunk = .error .outOfFuel :=
      compile_diverges_expression _ chunk 1 hadv (expression_diverges
        (parsePrecedence_diverges_advance _
          (advance_diverges_exhausted (by rw [hs1]; rfl)))) fuel
    rw [hd]
    rfl
  | succ k =>
    obtain ⟨rest, hrest, _⟩ := literalSum_head k
    have hat0 : (compileStart (literalSum (k + 1)) chunk).parser.scanner.At []
        ('1' :: '+' :: literalSum k) := ⟨rfl, rfl⟩
    have hscan := scanToken_one _ [] ('+' :: literalSum k) hat0 (Or.inr ⟨_, rfl⟩)
    obtain ⟨st1, hadv, hp1, hc1, hs1⟩ :=
      advance_next _ _ _ hscan (show TOKEN_NUMBER ≠ TOKEN_EOF by decide)
    have hat1 : st1.parser.scanner.At ([] ++ ['1']) ('+' :: literalSum k) := by
      rw [hs1]; exact ⟨rfl, rfl⟩
    have hscan2 := scanToken_plus _ ([] ++ ['1']) (literalSum k) hat1
      (by rw [hrest]; show ('1' : Char) ≠ '='; decide)
    obtain ⟨st2, hadv2, hp2, hc2, hs2⟩ :=
      advance_next st1 _ _ hscan2 (show TOKEN_PLUS ≠ TOKEN_EOF by decide)
    have hat2 : st2.parser.scanner.At (['1', '+']) (literalSum k) := by
      rw [hs2]
      refine ⟨?_, ?_⟩
      · simp [hat1.1]
      · simp [hat1.2]
    have hpre2 : (getRule st2.parser.previous.type).prefixRule = some .number := by
      rw [hp2, hc1]; rfl
    cases hn : number st2 with
    | error e =>
      exact compile_neverReturns_expression _ chunk 1 hadv (expression_neverReturns
        (parsePrecedence_neverReturns_call _ 1 .number hadv2 hpre2
          (callRule_number_neverReturns e hn)))
    | ok st3 =>
      obtain ⟨hn1, hn2, hn3, hn4⟩ := number_lookahead st2 st3 hn
      refine compile_neverReturns_expression _ chunk 1 hadv (expression_neverReturns
        (parsePrecedence_neverReturns_loop _ 1 1 .number hadv2 hpre2
          (show callRule 1 .number st2 = .ok st3 from hn)
          (parsePrecedenceLoop_neverReturns_literalSum k _ ['1', '+'] ?_ ?_)))
      · rw [hn1, hc2]
      · rw [hn3]; exact hat2

/-- C7 (the code departs from it). The claim is that compiling an expression
with 257 numeric literals reports "Too many constants in one chunk." at the
257th literal and returns `false`. In the code `compile` returns at no fuel on
a sum `1+1+...+1` of any number of literals, whatever the chunk holds, the sum
of 257 literals (`literalSum 256`) compiled into an empty chunk included. When
the pool has room for all the literals but the last, as it has there, the run
never leaves `advance`: the `advance` that takes the last literal scans
`TOKEN_EOF` and loops, so `number` is never called for that literal and
nothing is reported for it. -/
theorem compile_literalSum_diverges (k : Nat) (chunk : Chunk) (fuel : Nat) :
    (compile fuel (literalSum k) chunk).toOption = none ∧
      (chunk.constants.length + k ≤ UINT8_MAX + 1 →
        compile fuel (literalSum k) chunk = .error .outOfFuel) :=
  ⟨compile_literalSum_neverReturns k chunk fuel, compile_literalSum_room k chunk fuel⟩

/-- C7, at the claim's input: 257 literals `1` compiled into an empty chunk. -/
theorem compile_literalSum_diverges_witness :
    initChunk.constants.length + 256 ≤ UINT8_MAX + 1 ∧
      compile 1000 (literalSum 256) initChunk = .error .outOfFuel :=
  ⟨by decide, (compile_literalSum_diverges 256 initChunk 1000).2 (by decide)⟩

/-- With a newline after the expression and a pool that already holds 255
constants, `1+1` takes the last free slot for its first literal; for the
second, `makeConstant` calls `error`, which hands `errorAt` a null `va_list`,
and the run stops there: `compile` does not return, and the diagnostic "Too
many constants in one chunk." is not completed. -/
theorem compile_into_full_pool :
    faultOf (compile 40 "1+1\n".toList
        { code := [], lines := [], constants := List.replicate 255 ⟨['0']⟩ }) =
      some .nullVaList := by
  decide!

/-! ## C11: the exponent of a numeral -/

namespace Scanner

theorem matchChar_of_eq {s : Scanner} {pre : List Char} {c : Char} {rest : List Char}
    (h : s.At pre (c :: rest)) (h0 : c ≠ NUL) (hl : c ≠ LF) :
    s.matchChar c = (true, { s with current := s.current + 1 }) := by
  have hc : s.current_ = c := by rw [h.current_eq]; rfl
  have hend : s.isAtEnd = false := by unfold isAtEnd; rw [hc]; simpa using h0
  have hlf : (c == LF) = false := by simpa using hl
  unfold matchChar
  simp only [hend, Bool.false_eq_true, if_false, hc, bne_self_eq_false]
  have : ({ s with current := s.current + 1 } : Scanner).charAt (s.current + 1 - 1) = c := by
    simpa [current_, charAt] using hc
  simp only [this, hlf, Bool.false_eq_true, if_false]

theorem At.move {s : Scanner} {pre : List Char} (mid : List Char) {rest : List Char}
    (h : s.At pre (mid ++ rest)) :
    ({ s with current := s.current + mid.length } : Scanner).At (pre ++ mid) rest := by
  refine ⟨?_, ?_⟩
  · simp [h.1]
  · simp [h.2]

/-- The exponent of a numeral: with the cursor of `number` after the digits
and the fraction (`s2`), at a marker `m` that a sign `sign` and the digits
`es` follow. -/
theorem number_exponent (s s2 : Scanner)
    (hs2 : (if (skipDigits s.source.length s).current_ == '.' &&
          isDigit (skipDigits s.source.length s).next then
        skipDigits (skipDigits s.source.length s).source.length
          ((skipDigits s.source.length s).advance).2
      else skipDigits s.source.length s) = s2)
    (pre2 : List Char) (m : Char) (sign es rest : List Char)
    (h2 : s2.At pre2 (m :: (sign ++ (es ++ rest))))
    (hm : m = 'e' ∨ m = 'E')
    (hsign : sign = [] ∨ sign = ['+'] ∨ sign = ['-'])
    (hes : ∀ c ∈ es, isDigit c = true)
    (hr : isDigit (rest.headD NUL) = false)
    (hplain : sign = [] → es = [] → rest.headD NUL ≠ '+' ∧ rest.headD NUL ≠ '-') :
    s.number =
      if es = [] then
        (({ s2 with current := s2.current + 1 + sign.length } : Scanner).errorToken
            "unterminated scientific notation".toList,
          { s2 with current := s2.current + 1 + sign.length })
      else
        (({ s2 with current := s2.current + 1 + sign.length + es.length } : Scanner).makeToken
            TOKEN_NUMBER,
          { s2 with current := s2.current + 1 + sign.length + es.length }) := by
  -- the marker
  have hmk : (if (s2.matchChar 'e').1 then s2.matchChar 'e' else s2.matchChar 'E') =
      (true, { s2 with current := s2.current + 1 }) := by
    rcases hm with rfl | rfl
    · rw [matchChar_of_eq h2 (by decide) (by decide)]; rfl
    · rw [matchChar_of_ne (by rw [h2.current_eq]; exact (show ('E' : Char) ≠ 'e' by decide)), matchChar_of_eq h2 (by decide) (by decide)]
      rfl
  have h3 : ({ s2 with current := s2.current + 1 } : Scanner).At (pre2 ++ [m])
      (sign ++ (es ++ rest)) := by
    have := At.move [m] (show s2.At pre2 ([m] ++ (sign ++ (es ++ rest))) from h2)
    simpa using this
  -- the sign
  have hsg : (if !(({ s2 with current := s2.current + 1 } : Scanner).matchChar '+').1 then
        ((({ s2 with current := s2.current + 1 } : Scanner).matchChar '+').2.matchChar '-').2
      else (({ s2 with current := s2.current + 1 } : Scanner).matchChar '+').2) =
      { s2 with current := s2.current + 1 + sign.length } := by
    rcases hsign with rfl | rfl | rfl
    · have hne : (es ++ rest).headD NUL ≠ '+' ∧ (es ++ rest).headD NUL ≠ '-' := by
        cases es with
        | nil => exact hplain rfl rfl
        | cons e es =>
          have he := hes e (List.mem_cons_self _ _)
          constructor
          · show e ≠ '+'; rintro rfl; revert he; decide
          · show e ≠ '-'; rintro rfl; revert he; decide
      rw [matchChar_of_ne (by rw [h3.current_eq]; exact hne.1)]
      simp only [Bool.not_false, if_true]
      rw [matchChar_of_ne (by rw [h3.current_eq]; exact hne.2)]
      rfl
    · rw [matchChar_of_eq h3 (by decide) (by decide)]
      rfl
    · rw [matchChar_of_ne (by rw [h3.current_eq]; exact (show ('-' : Char) ≠ '+' by decide))]
      simp only [Bool.not_false, if_true]
      rw [matchChar_of_eq h3 (by decide) (by decide)]
      rfl
  have h4 : ({ s2 with current := s2.current + 1 + sign.length } : Scanner).At
      (pre2 ++ [m] ++ sign) (es ++ rest) := by
    have := At.move sign h3
    simpa [Nat.add_assoc] using this
  unfold number
  simp only [hs2, hmk, if_true, hsg]
  by_cases he : es = []
  · subst he
    have hc : isDigit ({ s2 with current := s2.current + 1 + sign.length } : Scanner).current_ =
        false := by rw [h4.current_eq]; simpa using hr
    simp only [hc, Bool.not_false, if_true]
  · have hc : isDigit ({ s2 with current := s2.current + 1 + sign.length } : Scanner).current_ =
        true := by
      rw [h4.current_eq]
      cases es with
      | nil => exact absurd rfl he
      | cons e es => exact hes e (List.mem_cons_self _ _)
    have hlen : es.length ≤ s2.source.length := by
      have := h2.length_le; simp at this; omega
    have hrun := skipDigits_run es s2.source.length _ _ rest h4 hes hr hlen
    simp only [hc, Bool.not_true, Bool.false_eq_true, if_false, he]
    rw [show ({ s2 with current := s2.current + 1 + sign.length } : Scanner).source.length =
      s2.source.length from rfl, hrun]


/-- The digit loops of `number`: after the digits `ds` and the fraction
`frac`, which is empty or a `.` with at least one digit. -/
theorem number_mantissa (s : Scanner) (pre ds frac rest : List Char)
    (h : s.At pre (ds ++ (frac ++ rest))) (hd : ∀ c ∈ ds, isDigit c = true)
    (hfrac : frac = [] ∨ ∃ f fs, frac = '.' :: f :: fs ∧ isDigit f = true ∧
      ∀ c ∈ fs, isDigit c = true)
    (hr : isDigit (rest.headD NUL) = false)
    (hdot : frac = [] → rest.headD NUL = '.' → isDigit (rest.tail.headD NUL) = false) :
    (if (skipDigits s.source.length s).current_ == '.' &&
          isDigit (skipDigits s.source.length s).next then
        skipDigits (skipDigits s.source.length s).source.length
          ((skipDigits s.source.length s).advance).2
      else skipDigits s.source.length s) =
      { s with current := s.current + ds.length + frac.length } := by
  have hlen : ds.length + frac.length ≤ s.source.length := by
    have := h.length_le; simp at this; omega
  have hr1 : isDigit ((frac ++ rest).headD NUL) = false := by
    rcases hfrac with rfl | ⟨f, fs, rfl, -, -⟩
    · simpa using hr
    · rfl
  have h1 : skipDigits s.source.length s = { s with current := s.current + ds.length } :=
    skipDigits_run ds _ s pre _ h hd hr1 (by omega)
  have hat : ({ s with current := s.current + ds.length } : Scanner).At (pre ++ ds)
      (frac ++ rest) := At.move ds h
  rw [h1]
  rcases hfrac with rfl | ⟨f, fs, rfl, hf, hfs⟩
  · have hcur := hat.current_eq
    simp only [List.nil_append] at hcur hat
    have hc : (({ s with current := s.current + ds.length } : Scanner).current_ == '.' &&
        isDigit ({ s with current := s.current + ds.length } : Scanner).next) = false := by
      rw [hcur]
      by_cases hp : rest.headD NUL = '.'
      · cases rest with
        | nil => simp [NUL] at hp
        | cons c r =>
          have hc : c = '.' := by simpa using hp
          subst hc
          rw [At.next_eq hat (by decide)]
          have := hdot rfl hp
          simp only [List.tail_cons] at this
          rw [this]
          simp
      · have : (rest.headD NUL == '.') = false := by simpa using hp
        rw [this]
        rfl
    simp only [hc, Bool.false_eq_true, if_false, List.length_nil, Nat.add_zero]
  · have hat2 : ({ s with current := s.current + ds.length } : Scanner).At (pre ++ ds)
        ('.' :: ((f :: fs) ++ rest)) := by simpa using hat
    have hcur : ({ s with current := s.current + ds.length } : Scanner).current_ = '.' := by
      rw [hat2.current_eq]; rfl
    have hnext : ({ s with current := s.current + ds.length } : Scanner).next = f := by
      rw [At.next_eq hat2 (by decide)]; rfl
    have hadv : (({ s with current := s.current + ds.length } : Scanner).advance).2 =
        { s with current := s.current + ds.length + 1 } := by
      rw [advance_eq, hcur]; rfl
    have hat3 : ({ s with current := s.current + ds.length + 1 } : Scanner).At (pre ++ ds ++ ['.'])
        ((f :: fs) ++ rest) := by
      have := At.move ['.'] (show ({ s with current := s.current + ds.length } : Scanner).At
        (pre ++ ds) (['.'] ++ ((f :: fs) ++ rest)) from hat2)
      simpa using this
    have hrun := skipDigits_run (f :: fs) s.source.length _ _ rest hat3
      (by intro c hc; rcases List.mem_cons.1 hc with rfl | hc; exacts [hf, hfs c hc]) hr
      (by simp at hlen ⊢; omega)
    simp only [hcur, hnext, hf, beq_self_eq_true, Bool.and_self, if_true, hadv]
    rw [show ({ s with current := s.current + ds.length } : Scanner).source.length =
      s.source.length from rfl, hrun]
    simp only [List.length_cons]
    congr 1
    omega

end Scanner

open Scanner in
/-- A call of `scanToken` at a digit is the call of `number` after that
digit. -/
theorem scanToken_digit (d : Char) (s : Scanner) (pre rest : List Char)
    (h : s.At pre (d :: rest)) (hd0 : isDigit d = true) :
    scanToken s = ({ s with start := s.current, current := s.current + 1 } : Scanner).number := by
  have hc : s.current_ = d := by rw [h.current_eq]; rfl
  obtain ⟨hb1, hb2, hb3⟩ := isDigit_not_blank hd0
  have hws : s.skipWhitespace = s := skipWhitespace_of_not_blank (by rw [hc]; exact hb1)
    (by rw [hc]; exact hb2)
  have hc2 : ({ s with start := s.current } : Scanner).current_ = d := hc
  have hend : ({ s with start := s.current } : Scanner).isAtEnd = false := by
    unfold isAtEnd; rw [hc2]; exact hb3
  unfold scanToken
  simp only [hws, hend, Bool.false_eq_true, if_false, advance_eq, hc2, isDigit_ne_LF hd0, hd0,
    if_true]

open Scanner in
/-- The token of a numeral with an exponent. -/
theorem scanToken_exponent (d : Char) (ds frac : List Char) (m : Char) (sign es rest : List Char)
    (s : Scanner) (pre : List Char)
    (h : s.At pre (d :: ds ++ frac ++ m :: sign ++ es ++ rest))
    (hd0 : isDigit d = true) (hd : ∀ c ∈ ds, isDigit c = true)
    (hfrac : frac = [] ∨ ∃ f fs, frac = '.' :: f :: fs ∧ isDigit f = true ∧
      ∀ c ∈ fs, isDigit c = true)
    (hm : m = 'e' ∨ m = 'E')
    (hsign : sign = [] ∨ sign = ['+'] ∨ sign = ['-'])
    (hes : ∀ c ∈ es, isDigit c = true)
    (hr : isDigit (rest.headD NUL) = false)
    (hplain : sign = [] → es = [] → rest.headD NUL ≠ '+' ∧ rest.headD NUL ≠ '-') :
    scanToken s =
      if es = [] then
        (({ s with start := s.current,
                   current := s.current + 1 + ds.length + frac.length + 1 + sign.length }
            : Scanner).errorToken "unterminated scientific notation".toList,
          { s with start := s.current,
                   current := s.current + 1 + ds.length + frac.length + 1 + sign.length })
      else
        ({ type := TOKEN_NUMBER, start := .src s.current,
           length := 1 + ds.length + frac.length + 1 + sign.length + es.length, line := s.line },
          { s with start := s.current,
                   current := s.current + 1 + ds.length + frac.length + 1 + sign.length
                     + es.length }) := by
  have h' : s.At pre (d :: (ds ++ (frac ++ (m :: (sign ++ (es ++ rest)))))) := by
    simpa using h
  have hat : ({ s with start := s.current, current := s.current + 1 } : Scanner).At
      (pre ++ [d]) (ds ++ (frac ++ (m :: (sign ++ (es ++ rest))))) := by
    refine ⟨?_, ?_⟩
    · simp [h'.1]
    · simp [h'.2]
  have hmd : isDigit m = false := by rcases hm with rfl | rfl <;> decide
  have hmdot : m ≠ '.' := by rcases hm with rfl | rfl <;> decide
  have hman := number_mantissa _ _ ds frac _ hat hd hfrac (by simpa using hmd)
    (fun _ h => absurd (by simpa using h) hmdot)
  have hat2 := At.move frac (At.move ds hat)
  rw [scanToken_digit d s pre _ h' hd0,
    number_exponent _ _ hman _ m sign es rest hat2 hm hsign hes hr hplain]
  by_cases he : es = []
  · simp only [he, if_true]
  · simp only [he, if_false, makeToken, Prod.mk.injEq, Token.mk.injEq, true_and, and_true]
    omega

theorem take_eq_of_append {l w rest : List Char} {n : Nat} (hl : l = w ++ rest)
    (hn : n = w.length) : l.take n = w := by
  subst hl hn
  simp

open Scanner in
/-- C11. At a numeral made of a digit `d`, digits `ds`, a fraction `frac`
(empty, or a `.` and at least one digit), a marker `m` (`e` or `E`) and a sign
`sign` (empty, `+` or `-`): when the digits `es` that follow are at least one,
`scanToken` returns one `TOKEN_NUMBER` whose text is the whole numeral and
leaves the cursor after it; when no digit follows, it returns a `TOKEN_ERROR`
whose message is `unterminated scientific notation`. -/
theorem exponent_needs_a_digit (d : Char) (ds frac : List Char) (m : Char)
    (sign es rest : List Char) (s : Scanner) (pre : List Char)
    (h : s.At pre (d :: ds ++ frac ++ m :: sign ++ es ++ rest))
    (hd0 : isDigit d = true) (hd : ∀ c ∈ ds, isDigit c = true)
    (hfrac : frac = [] ∨ ∃ f fs, frac = '.' :: f :: fs ∧ isDigit f = true ∧
      ∀ c ∈ fs, isDigit c = true)
    (hm : m = 'e' ∨ m = 'E')
    (hsign : sign = [] ∨ sign = ['+'] ∨ sign = ['-'])
    (hes : ∀ c ∈ es, isDigit c = true)
    (hr : isDigit (rest.headD NUL) = false)
    (hplain : sign = [] → es = [] → rest.headD NUL ≠ '+' ∧ rest.headD NUL ≠ '-') :
    (es ≠ [] →
      (scanToken s).1.type = TOKEN_NUMBER ∧
        (scanToken s).1.text s.source = d :: ds ++ frac ++ m :: sign ++ es ∧
        (scanToken s).2.At (pre ++ (d :: ds ++ frac ++ m :: sign ++ es)) rest) ∧
    (es = [] →
      (scanToken s).1.type = TOKEN_ERROR ∧
        (scanToken s).1.text s.source = "unterminated scientific notation".toList) := by
  have h1 := scanToken_exponent d ds frac m sign es rest s pre h hd0 hd hfrac hm hsign hes hr hplain
  constructor
  · intro he
    rw [h1, if_neg he]
    refine ⟨rfl, ?_, ?_, ?_⟩
    · simp only [Token.text]
      rw [h.1, h.2, List.drop_left]
      exact @take_eq_of_append _ _ rest _ (by simp) (by simp; omega)
    · simp [h.1]
    · simp [h.2]; omega
  · intro he
    rw [h1, if_pos he]
    exact ⟨rfl, by simp [Token.text, errorToken]⟩

/-- C11, at the sources `1e-5`, `1E+5`, `1e5` and `1e`. -/
theorem exponent_needs_a_digit_witness :
    ((scanToken (initScanner ['1', 'e', '-', '5'])).1.type = TOKEN_NUMBER ∧
      (scanToken (initScanner ['1', 'e', '-', '5'])).1.text ['1', 'e', '-', '5'] =
        ['1', 'e', '-', '5']) ∧
    ((scanToken (initScanner ['1', 'E', '+', '5'])).1.type = TOKEN_NUMBER ∧
      (scanToken (initScanner ['1', 'E', '+', '5'])).1.text ['1', 'E', '+', '5'] =
        ['1', 'E', '+', '5']) ∧
    ((scanToken (initScanner ['1', 'e', '5'])).1.type = TOKEN_NUMBER ∧
      (scanToken (initScanner ['1', 'e', '5'])).1.text ['1', 'e', '5'] = ['1', 'e', '5']) ∧
    ((scanToken (initScanner ['1', 'e'])).1.type = TOKEN_ERROR ∧
      (scanToken (initScanner ['1', 'e'])).1.text ['1', 'e'] =
        "unterminated scientific notation".toList) :=
  ⟨(fun r => ⟨r.1, r.2.1⟩) ((exponent_needs_a_digit '1' [] [] 'e' ['-'] ['5'] [] (initScanner ['1', 'e', '-', '5'])
      [] ⟨rfl, rfl⟩ (by decide) (by simp) (Or.inl rfl) (Or.inl rfl) (Or.inr (Or.inr rfl))
      (by decide) (by decide) (by simp)).1 (by simp)),
   (fun r => ⟨r.1, r.2.1⟩) ((exponent_needs_a_digit '1' [] [] 'E' ['+'] ['5'] [] (initScanner ['1', 'E', '+', '5'])
      [] ⟨rfl, rfl⟩ (by decide) (by simp) (Or.inl rfl) (Or.inr rfl) (Or.inr (Or.inl rfl))
      (by decide) (by decide) (by simp)).1 (by simp)),
   (fun r => ⟨r.1, r.2.1⟩) ((exponent_needs_a_digit '1' [] [] 'e' [] ['5'] [] (initScanner ['1', 'e', '5'])
      [] ⟨rfl, rfl⟩ (by decide) (by simp) (Or.inl rfl) (Or.inl rfl) (Or.inl rfl)
      (by decide) (by decide) (by simp)).1 (by simp)),
   (exponent_needs_a_digit '1' [] [] 'e' [] [] [] (initScanner ['1', 'e'])
      [] ⟨rfl, rfl⟩ (by decide) (by simp) (Or.inl rfl) (Or.inl rfl) (Or.inl rfl)
      (by simp) (by decide) (fun _ _ => by decide)).2 rfl⟩

/-! ## How the scanner moves its cursor -/

theorem newlinesBefore_succ (source : List Char) (n : Nat) :
    newlinesBefore source (n + 1) =
      newlinesBefore source n + if source.getD n NUL == LF then 1 else 0 := by
  unfold newlinesBefore
  induction source generalizing n with
  | nil => simp [NUL, LF]
  | cons a l ih =>
    cases n with
    | zero =>
      by_cases h : a = LF
      · simp [h]
      · have : (a == LF) = false := by simpa using h
        simp [this, List.count_cons, h]
    | succ n =>
      have := ih n
      simp only [List.take_succ_cons, List.count_cons, List.getD_cons_succ] at this ⊢
      omega

namespace Scanner

theorem lt_of_current_ne {s : Scanner} (hc : s.current_ ≠ NUL) :
    s.current < s.source.length := by
  by_contra hlt
  exact hc (current_of_le (by omega))

theorem Within.current_ne {s : Scanner} (h : s.Within) (hlt : s.current < s.source.length) :
    s.current_ ≠ NUL := by
  intro hc
  apply h.1
  unfold current_ charAt at hc
  rw [List.getD_eq_getElem _ _ hlt] at hc
  rw [← hc]
  exact List.getElem_mem _

theorem Moves.rfl_moves (s : Scanner) : s.Moves s := ⟨rfl, rfl, Nat.le_refl _, rfl⟩

theorem Moves.trans_moves {s t u : Scanner} (h1 : s.Moves t) (h2 : t.Moves u) : s.Moves u := by
  obtain ⟨a1, b1, c1, d1⟩ := h1
  obtain ⟨a2, b2, c2, d2⟩ := h2
  rw [a1] at d2
  exact ⟨a2.trans a1, b2.trans b1, Nat.le_trans c1 c2, by omega⟩

theorem Walks.rfl_walks (s : Scanner) : s.Walks s := ⟨Moves.rfl_moves s, rfl, rfl, rfl, id⟩

theorem Walks.trans_walks {s t u : Scanner} (h1 : s.Walks t) (h2 : t.Walks u) : s.Walks u := by
  obtain ⟨m1, a1, b1, c1, d1⟩ := h1
  obtain ⟨m2, a2, b2, c2, d2⟩ := h2
  exact ⟨m1.trans_moves m2, a2.trans a1, b2.trans b1, c2.trans c1, fun h => d2 (d1 h)⟩

/-- One step of the cursor over a character that is not the terminator. -/
theorem advance_walks (s : Scanner) (hc : s.current_ ≠ NUL) :
    s.Walks (s.advance).2 ∧ (s.advance).2.current = s.current + 1 ∧
      (s.current_ ≠ LF → (s.advance).2.line = s.line) := by
  rw [advance_eq]
  have hnl := newlinesBefore_succ s.source s.current
  by_cases hl : s.current_ = LF
  · have hl2 : (s.source.getD s.current NUL == LF) = true := by simpa [current_, charAt] using hl
    rw [hl2] at hnl
    rw [if_pos (by simpa using hl)]
    refine ⟨⟨⟨rfl, rfl, Nat.le_succ _, ?_⟩, rfl, rfl, rfl, ?_⟩, rfl, fun h => absurd hl h⟩
    · simp only [hnl]; push_cast; omega
    · intro hw; exact ⟨hw.1, lt_of_current_ne hc⟩
  · have hl1 : (s.current_ == LF) = false := by simpa using hl
    have hl2 : (s.source.getD s.current NUL == LF) = false := by simpa [current_, charAt] using hl
    rw [hl2] at hnl
    rw [if_neg (by simpa using hl)]
    refine ⟨⟨⟨rfl, rfl, Nat.le_succ _, ?_⟩, rfl, rfl, rfl, ?_⟩, rfl, fun _ => rfl⟩
    · simp only [hnl]; push_cast; omega
    · intro hw; exact ⟨hw.1, lt_of_current_ne hc⟩

theorem matchChar_eq (s : Scanner) (e : Char) :
    s.matchChar e = (false, s) ∨
      (s.current_ = e ∧ e ≠ NUL ∧ s.matchChar e = (true, (s.advance).2)) := by
  unfold matchChar
  by_cases hend : s.isAtEnd = true
  · left; rw [if_pos hend]
  · rw [if_neg hend]
    by_cases hne : (s.current_ != e) = true
    · left; rw [if_pos hne]
    · right
      rw [if_neg hne]
      have hce : s.current_ = e := by simpa using hne
      have h0 : e ≠ NUL := by
        rw [← hce]; simpa [isAtEnd] using hend
      exact ⟨hce, h0, rfl⟩

theorem matchChar_walks (s : Scanner) (e : Char) :
    s.Walks (s.matchChar e).2 ∧ (e ≠ LF → (s.matchChar e).2.line = s.line) := by
  rcases matchChar_eq s e with h | ⟨hce, h0, h⟩
  · rw [h]; exact ⟨Walks.rfl_walks s, fun _ => rfl⟩
  · rw [h]
    have := advance_walks s (by rw [hce]; exact h0)
    exact ⟨this.1, fun hl => this.2.2 (by rw [hce]; exact hl)⟩

theorem Matched.walks {s t : Scanner} (h : s.Matched t) : s.Walks t ∧ t.line = s.line := by
  induction h with
  | refl => exact ⟨Walks.rfl_walks s, rfl⟩
  | step t e _ he ih =>
    have := matchChar_walks t e
    exact ⟨ih.1.trans_walks this.1, (this.2 he).trans ih.2⟩


theorem isDigit_ne_NUL {c : Char} (h : isDigit c = true) : c ≠ NUL := by
  rintro rfl; revert h; decide

theorem isAlnum_ne_NUL {c : Char} (h : (isAlpha c || isDigit c) = true) : c ≠ NUL := by
  rintro rfl; revert h; decide

theorem skipDigits_walks (fuel : Nat) : ∀ s : Scanner,
    s.Walks (skipDigits fuel s) ∧ (skipDigits fuel s).line = s.line := by
  induction fuel with
  | zero => intro s; exact ⟨Walks.rfl_walks s, rfl⟩
  | succ n ih =>
    intro s
    rw [skipDigits]
    by_cases hd : isDigit s.current_ = true
    · rw [if_pos hd]
      have ha := advance_walks s (isDigit_ne_NUL hd)
      have hl : s.current_ ≠ LF := by simpa using isDigit_ne_LF hd
      have := ih (s.advance).2
      exact ⟨ha.1.trans_walks this.1, this.2.trans (ha.2.2 hl)⟩
    · rw [if_neg hd]; exact ⟨Walks.rfl_walks s, rfl⟩

theorem skipAlnum_walks (fuel : Nat) : ∀ s : Scanner,
    s.Walks (skipAlnum fuel s) ∧ (skipAlnum fuel s).line = s.line := by
  induction fuel with
  | zero => intro s; exact ⟨Walks.rfl_walks s, rfl⟩
  | succ n ih =>
    intro s
    rw [skipAlnum]
    by_cases hd : (isAlpha s.current_ || isDigit s.current_) = true
    · rw [if_pos hd]
      have ha := advance_walks s (isAlnum_ne_NUL hd)
      have hl : s.current_ ≠ LF := by simpa using isAlnum_ne_LF hd
      have := ih (s.advance).2
      exact ⟨ha.1.trans_walks this.1, this.2.trans (ha.2.2 hl)⟩
    · rw [if_neg hd]; exact ⟨Walks.rfl_walks s, rfl⟩

theorem skipComment_walks (fuel : Nat) : ∀ s : Scanner, s.Walks (skipComment fuel s) := by
  induction fuel with
  | zero => intro s; exact Walks.rfl_walks s
  | succ n ih =>
    intro s
    rw [skipComment]
    by_cases hd : (s.current_ != LF && !s.isAtEnd) = true
    · rw [if_pos hd]
      have h0 : s.current_ ≠ NUL := by
        simp only [Bool.and_eq_true, isAtEnd] at hd
        simpa using hd.2
      exact (advance_walks s h0).1.trans_walks (ih _)
    · rw [if_neg hd]; exact Walks.rfl_walks s

theorem skipWhitespaceLoop_walks (fuel : Nat) : ∀ s : Scanner,
    s.Walks (skipWhitespaceLoop fuel s) := by
  induction fuel with
  | zero => intro s; exact Walks.rfl_walks s
  | succ n ih =>
    intro s
    rw [skipWhitespaceLoop]
    by_cases hb : (s.current_ == ' ' || s.current_ == CR || s.current_ == TAB) = true
    · rw [if_pos hb]
      have h0 : s.current_ ≠ NUL := by
        intro h; rw [h] at hb; revert hb; decide
      exact (advance_walks s h0).1.trans_walks (ih _)
    · rw [if_neg hb]
      by_cases hh : (s.current_ == '#') = true
      · rw [if_pos hh]
        exact (skipComment_walks _ s).trans_walks (ih _)
      · rw [if_neg hh]; exact Walks.rfl_walks s

theorem skipWhitespace_walks (s : Scanner) : s.Walks s.skipWhitespace :=
  skipWhitespaceLoop_walks _ s

end Scanner

open Scanner in
/-- The branches of `scanToken`: a property holds of what it returns when it
holds of what each branch returns. -/
theorem scanToken_cases (s : Scanner) (P : Token × Scanner → Prop)
    (hEof : s.atEof.isAtEnd = true → P (s.atEof.makeToken TOKEN_EOF, s.atEof))
    (hNum : ∀ c sA, s.atEof.isAtEnd = false → s.atEof.advance = (c, sA) → isDigit c = true →
      P sA.number)
    (hId : ∀ c sA, s.atEof.isAtEnd = false → s.atEof.advance = (c, sA) → isAlpha c = true →
      P sA.identifier)
    (hOp : ∀ c sA t ty, s.atEof.isAtEnd = false → s.atEof.advance = (c, sA) → c ≠ LF →
      Matched sA t → ty ≠ TOKEN_NEWLINE → ty ≠ TOKEN_INTERPOLATION → ty ≠ TOKEN_ERROR →
      ty ≠ TOKEN_STRING → ty ≠ TOKEN_NUMBER → P (t.makeToken ty, t))
    (hRes : ∀ sA, s.atEof.isAtEnd = false → s.atEof.advance = (RBRACE, sA) →
      sA.interpolatingCount > -1 →
      P (((sA.readInterpolating sA.interpolatingCount).2.string
            (Char.ofNat ((sA.readInterpolating sA.interpolatingCount).1 % 256).toNat)).1,
          { ((sA.readInterpolating sA.interpolatingCount).2.string
              (Char.ofNat ((sA.readInterpolating sA.interpolatingCount).1 % 256).toNat)).2 with
            interpolatingCount :=
              ((sA.readInterpolating sA.interpolatingCount).2.string
                (Char.ofNat ((sA.readInterpolating sA.interpolatingCount).1 % 256).toNat)).2.interpolatingCount
                - 1 }))
    (hStr : ∀ c sA, s.atEof.isAtEnd = false → s.atEof.advance = (c, sA) →
      c = DQUOTE ∨ c = SQUOTE → P (sA.string c))
    (hNl : ∀ sA, s.atEof.isAtEnd = false → s.atEof.advance = (LF, sA) →
      P (sA.makeToken TOKEN_NEWLINE, sA))
    (hErr : ∀ c sA, s.atEof.isAtEnd = false → s.atEof.advance = (c, sA) → c ≠ LF →
      P (sA.errorToken ("unexpected character ".toList ++ [c]), sA)) :
    P (scanToken s) := by
  unfold scanToken
  show P (if s.atEof.isAtEnd = true then _ else _)
  by_cases hend : s.atEof.isAtEnd = true
  · rw [if_pos hend]; exact hEof hend
  rw [if_neg hend]
  have hend : s.atEof.isAtEnd = false := by simpa using hend
  rcases h0 : Scanner.advance { s.skipWhitespace with start := s.skipWhitespace.current }
    with ⟨c, sA⟩
  have h : s.atEof.advance = (c, sA) := h0
  clear h0
  simp only []
  by_cases hk : isDigit c = true
  · rw [if_pos hk]; exact hNum c sA hend h hk
  rw [if_neg hk]
  clear hk
  by_cases hk : isAlpha c = true
  · rw [if_pos hk]; exact hId c sA hend h hk
  rw [if_neg hk]
  clear hk
  by_cases hk : (c == '(') = true
  · rw [if_pos hk]
    exact hOp c sA _ _ hend h (by rintro rfl; exact absurd hk (by decide)) .refl
      (by decide) (by decide) (by decide) (by decide) (by decide)
  rw [if_neg hk]
  clear hk
  by_cases hk : (c == ')') = true
  · rw [if_pos hk]
    exact hOp c sA _ _ hend h (by rintro rfl; exact absurd hk (by decide)) .refl
      (by decide) (by decide) (by decide) (by decide) (by decide)
  rw [if_neg hk]
  clear hk
  by_cases hk : (c == '[') = true
  · rw [if_pos hk]
    exact hOp c sA _ _ hend h (by rintro rfl; exact absurd hk (by decide)) .refl
      (by decide) (by decide) (by decide) (by decide) (by decide)
  rw [if_neg hk]
  clear hk
  by_cases hk : (c == ']') = true
  · rw [if_pos hk]
    exact hOp c sA _ _ hend h (by rintro rfl; exact absurd hk (by decide)) .refl
      (by decide) (by decide) (by decide) (by decide) (by decide)
  rw [if_neg hk]
  clear hk
  by_cases hk : (c == LBRACE) = true
  · rw [if_pos hk]
    exact hOp c sA _ _ hend h (by rintro rfl; exact absurd hk (by decide)) .refl
      (by decide) (by decide) (by decide) (by decide) (by decide)
  rw [if_neg hk]
  clear hk
  by_cases hk : (c == RBRACE) = true
  · rw [if_pos hk]
    have hc : c = RBRACE := by simpa using hk
    subst hc
    by_cases hi : sA.interpolatingCount > -1
    · rw [if_pos hi]
      exact hRes sA hend h hi
    · rw [if_neg hi]
      exact hOp RBRACE sA _ _ hend h (by decide) .refl
        (by decide) (by decide) (by decide) (by decide) (by decide)
  rw [if_neg hk]
  clear hk
  by_cases hk : (c == ',') = true
  · rw [if_pos hk]
    exact hOp c sA _ _ hend h (by rintro rfl; exact absurd hk (by decide)) .refl
      (by decide) (by decide) (by decide) (by decide) (by decide)
  rw [if_neg hk]
  clear hk
  by_cases hk : (c == ':') = true
  · rw [if_pos hk]
    exact hOp c sA _ _ hend h (by rintro rfl; exact absurd hk (by decide)) .refl
      (by decide) (by decide) (by decide) (by decide) (by decide)
  rw [if_neg hk]
  clear hk
  by_cases hk : (c == '.') = true
  · rw [if_pos hk]
    have hc : c ≠ LF := by rintro rfl; exact absurd hk (by decide)
    by_cases hm : (sA.matchChar '.').1 = true
    · simp only [hm, if_true]
      exact hOp c sA _ _ hend h hc (.step sA '.' .refl (by decide))
        (by decide) (by decide) (by decide) (by decide) (by decide)
    · simp only [hm, if_false]
      exact hOp c sA _ _ hend h hc (.step sA '.' .refl (by decide))
        (by decide) (by decide) (by decide) (by decide) (by decide)
  rw [if_neg hk]
  clear hk
  by_cases hk : (c == '+') = true
  · rw [if_pos hk]
    have hc : c ≠ LF := by rintro rfl; exact absurd hk (by decide)
    by_cases hm : (sA.matchChar '=').1 = true
    · simp only [hm, if_true]
      exact hOp c sA _ _ hend h hc (.step sA '=' .refl (by decide))
        (by decide) (by decide) (by decide) (by decide) (by decide)
    · simp only [hm, if_false]
      exact hOp c sA _ _ hend h hc (.step sA '=' .refl (by decide))
        (by decide) (by decide) (by decide) (by decide) (by decide)
  rw [if_neg hk]
  clear hk
  by_cases hk : (c == '-') = true
  · rw [if_pos hk]
    have hc : c ≠ LF := by rintro rfl; exact absurd hk (by decide)
    by_cases hm : (sA.matchChar '=').1 = true
    · simp only [hm, if_true]
      exact hOp c sA _ _ hend h hc (.step sA '=' .refl (by decide))
        (by decide) (by decide) (by decide) (by decide) (by decide)
    · simp only [hm, if_false]
      exact hOp c sA _ _ hend h hc (.step sA '=' .refl (by decide))
        (by decide) (by decide) (by decide) (by decide) (by decide)
  rw [if_neg hk]
  clear hk
  by_cases hk : (c == '*') = true
  · rw [if_pos hk]
    have hc : c ≠ LF := by rintro rfl; exact absurd hk (by decide)
    by_cases hm : (sA.matchChar '*').1 = true
    · simp only [hm, if_true]
      by_cases hm2 : ((sA.matchChar '*').2.matchChar '=').1 = true
      · simp only [hm2, if_true]
        exact hOp c sA _ _ hend h hc (.step _ '=' (.step sA '*' .refl (by decide)) (by decide))
          (by decide) (by decide) (by decide) (by decide) (by decide)
      · simp only [hm2, if_false]
        exact hOp c sA _ _ hend h hc (.step _ '=' (.step sA '*' .refl (by decide)) (by decide))
          (by decide) (by decide) (by decide) (by decide) (by decide)
    · simp only [hm, if_false]
      by_cases hm2 : ((sA.matchChar '*').2.matchChar '=').1 = true
      · simp only [hm2, if_true]
        exact hOp c sA _ _ hend h hc (.step _ '=' (.step sA '*' .refl (by decide)) (by decide))
          (by decide) (by decide) (by decide) (by decide) (by decide)
      · simp only [hm2, if_false]
        exact hOp c sA _ _ hend h hc (.step _ '=' (.step sA '*' .refl (by decide)) (by decide))
          (by decide) (by decide) (by decide) (by decide) (by decide)
  rw [if_neg hk]
  clear hk
  by_cases hk : (c == '/') = true
  · rw [if_pos hk]
    have hc : c ≠ LF := by rintro rfl; exact absurd hk (by decide)
    by_cases hm : (sA.matchChar '/').1 = true
    · simp only [hm, if_true]
      by_cases hm2 : ((sA.matchChar '/').2.matchChar '=').1 = true
      · simp only [hm2, if_true]
        exact hOp c sA _ _ hend h hc (.step _ '=' (.step sA '/' .refl (by decide)) (by decide))
          (by decide) (by decide) (by decide) (by decide) (by decide)
      · simp only [hm2, if_false]
        exact hOp c sA _ _ hend h hc (.step _ '=' (.step sA '/' .refl (by decide)) (by decide))
          (by decide) (by decide) (by decide) (by decide) (by decide)
    · simp only [hm, if_false]
      by_cases hm2 : ((sA.matchChar '/').2.matchChar '=').1 = true
      · simp only [hm2, if_true]
        exact hOp c sA _ _ hend h hc (.step _ '=' (.step sA '/' .refl (by decide)) (by decide))
          (by decide) (by decide) (by decide) (by decide) (by decide)
      · simp only [hm2, if_false]
        exact hOp c sA _ _ hend h hc (.step _ '=' (.step sA '/' .refl (by decide)) (by decide))
          (by decide) (by decide) (by decide) (by decide) (by decide)
  rw [if_neg hk]
  clear hk
  by_cases hk : (c == '%') = true
  · rw [if_pos hk]
    have hc : c ≠ LF := by rintro rfl; exact absurd hk (by decide)
    by_cases hm : (sA.matchChar '=').1 = true
    · simp only [hm, if_true]
      exact hOp c sA _ _ hend h hc (.step sA '=' .refl (by decide))
        (by decide) (by decide) (by decide) (by decide) (by decide)
    · simp only [hm, if_false]
      exact hOp c sA _ _ hend h hc (.step sA '=' .refl (by decide))
        (by decide) (by decide) (by decide) (by decide) (by decide)
  rw [if_neg hk]
  clear hk
  by_cases hk : (c == '=') = true
  · rw [if_pos hk]
    have hc : c ≠ LF := by rintro rfl; exact absurd hk (by decide)
    by_cases hm : (sA.matchChar '=').1 = true
    · simp only [hm, if_true]
      exact hOp c sA _ _ hend h hc (.step sA '=' .refl (by decide))
        (by decide) (by decide) (by decide) (by decide) (by decide)
    · simp only [hm, if_false]
      exact hOp c sA _ _ hend h hc (.step sA '=' .refl (by decide))
        (by decide) (by decide) (by decide) (by decide) (by decide)
  rw [if_neg hk]
  clear hk
  by_cases hk : (c == '>') = true
  · rw [if_pos hk]
    have hc : c ≠ LF := by rintro rfl; exact absurd hk (by decide)
    by_cases hm : (sA.matchChar '=').1 = true
    · simp only [hm, if_true]
      exact hOp c sA _ _ hend h hc (.step sA '=' .refl (by decide))
        (by decide) (by decide) (by decide) (by decide) (by decide)
    · simp only [hm, if_false]
      exact hOp c sA _ _ hend h hc (.step sA '=' .refl (by decide))
        (by decide) (by decide) (by decide) (by decide) (by decide)
  rw [if_neg hk]
  clear hk
  by_cases hk : (c == '<') = true
  · rw [if_pos hk]
    have hc : c ≠ LF := by rintro rfl; exact absurd hk (by decide)
    by_cases hm : (sA.matchChar '=').1 = true
    · simp only [hm, if_true]
      exact hOp c sA _ _ hend h hc (.step sA '=' .refl (by decide))
        (by decide) (by decide) (by decide) (by decide) (by decide)
    · simp only [hm, if_false]
      exact hOp c sA _ _ hend h hc (.step sA '=' .refl (by decide))
        (by decide) (by decide) (by decide) (by decide) (by decide)
  rw [if_neg hk]
  clear hk
  by_cases hk : (c == '!') = true
  · rw [if_pos hk]
    have hc : c ≠ LF := by rintro rfl; exact absurd hk (by decide)
    by_cases hm : (sA.matchChar '=').1 = true
    · simp only [hm, if_true]
      exact hOp c sA _ _ hend h hc (.step sA '=' .refl (by decide))
        (by decide) (by decide) (by decide) (by decide) (by decide)
    · simp only [hm, if_false]
      exact hOp c sA _ _ hend h hc (.step sA '=' .refl (by decide))
        (by decide) (by decide) (by decide) (by decide) (by decide)
  rw [if_neg hk]
  clear hk
  by_cases hk : (c == '~') = true
  · rw [if_pos hk]
    have hc : c ≠ LF := by rintro rfl; exact absurd hk (by decide)
    by_cases hm : (sA.matchChar '=').1 = true
    · simp only [hm, if_true]
      exact hOp c sA _ _ hend h hc (.step sA '=' .refl (by decide))
        (by decide) (by decide) (by decide) (by decide) (by decide)
    · simp only [hm, if_false]
      exact hOp c sA _ _ hend h hc (.step sA '=' .refl (by decide))
        (by decide) (by decide) (by decide) (by decide) (by decide)
  rw [if_neg hk]
  clear hk
  by_cases hk : (c == '|') = true
  · rw [if_pos hk]
    have hc : c ≠ LF := by rintro rfl; exact absurd hk (by decide)
    by_cases hm : (sA.matchChar '=').1 = true
    · simp only [hm, if_true]
      exact hOp c sA _ _ hend h hc (.step sA '=' .refl (by decide))
        (by decide) (by decide) (by decide) (by decide) (by decide)
    · simp only [hm, if_false]
      exact hOp c sA _ _ hend h hc (.step sA '=' .refl (by decide))
        (by decide) (by decide) (by decide) (by decide) (by decide)
  rw [if_neg hk]
  clear hk
  by_cases hk : (c == '&') = true
  · rw [if_pos hk]
    have hc : c ≠ LF := by rintro rfl; exact absurd hk (by decide)
    by_cases hm : (sA.matchChar '=').1 = true
    · simp only [hm, if_true]
      exact hOp c sA _ _ hend h hc (.step sA '=' .refl (by decide))
        (by decide) (by decide) (by decide) (by decide) (by decide)
    · simp only [hm, if_false]
      exact hOp c sA _ _ hend h hc (.step sA '=' .refl (by decide))
        (by decide) (by decide) (by decide) (by decide) (by decide)
  rw [if_neg hk]
  clear hk
  by_cases hk : (c == '^') = true
  · rw [if_pos hk]
    have hc : c ≠ LF := by rintro rfl; exact absurd hk (by decide)
    by_cases hm : (sA.matchChar '=').1 = true
    · simp only [hm, if_true]
      exact hOp c sA _ _ hend h hc (.step sA '=' .refl (by decide))
        (by decide) (by decide) (by decide) (by decide) (by decide)
    · simp only [hm, if_false]
      exact hOp c sA _ _ hend h hc (.step sA '=' .refl (by decide))
        (by decide) (by decide) (by decide) (by decide) (by decide)
  rw [if_neg hk]
  clear hk
  by_cases hLF : (c == LF) = true
  · rw [if_pos hLF]
    have hc : c = LF := by simpa using hLF
    subst hc
    exact hNl sA hend h
  rw [if_neg hLF]
  by_cases hk : (c == DQUOTE) = true
  · rw [if_pos hk]
    have hc : c = DQUOTE := by simpa using hk
    subst hc
    exact hStr DQUOTE sA hend h (Or.inl rfl)
  rw [if_neg hk]
  clear hk
  by_cases hk : (c == SQUOTE) = true
  · rw [if_pos hk]
    have hc : c = SQUOTE := by simpa using hk
    subst hc
    exact hStr SQUOTE sA hend h (Or.inr rfl)
  rw [if_neg hk]
  exact hErr c sA hend h (by simpa using hLF)

namespace Scanner

theorem made_makeToken (t : Scanner) (ty : TokenType) (h : t.start ≤ t.current)
    (hty : ty ≠ TOKEN_INTERPOLATION) : t.Made (t.makeToken ty) := by
  refine ⟨rfl, fun _ => ⟨rfl, ?_⟩⟩
  show t.start + (t.current - t.start) + (if ty = TOKEN_INTERPOLATION then 1 else 0) = t.current
  rw [if_neg hty]
  omega

theorem made_errorToken (t : Scanner) (message : List Char) :
    t.Made (t.errorToken message) :=
  ⟨rfl, fun h => absurd rfl h⟩

/-- The branches of `number`: it returns an error token or a `TOKEN_NUMBER`,
made where the cursor then stands, on the line it started on. -/
theorem number_cases (s : Scanner) (P : Token × Scanner → Prop)
    (hErr : ∀ t, s.Walks t → t.line = s.line →
      P (t.errorToken "unterminated scientific notation".toList, t))
    (hNum : ∀ t, s.Walks t → t.line = s.line → P (t.makeToken TOKEN_NUMBER, t)) :
    P s.number := by
  unfold number
  lift_lets
  intro s1
  have h1 : s.Walks s1 ∧ s1.line = s.line := skipDigits_walks _ s
  clear_value s1
  intro s2
  have h2 : s.Walks s2 ∧ s2.line = s.line := by
    show s.Walks (if _ then _ else _) ∧ (if _ then _ else _ : Scanner).line = s.line
    split
    · rename_i hc
      have hdot : s1.current_ = '.' := by
        simp only [Bool.and_eq_true, beq_iff_eq] at hc
        exact hc.1
      have ha := advance_walks s1 (by rw [hdot]; decide)
      have hd := skipDigits_walks s1.source.length (s1.advance).2
      exact ⟨h1.1.trans_walks (ha.1.trans_walks hd.1),
        hd.2.trans ((ha.2.2 (by rw [hdot]; decide)).trans h1.2)⟩
    · exact h1
  clear_value s2
  intro m
  have hm : s.Walks m.2 ∧ m.2.line = s.line := by
    show s.Walks (if _ then _ else _ : Bool × Scanner).2 ∧
      (if _ then _ else _ : Bool × Scanner).2.line = s.line
    split
    · have := matchChar_walks s2 'e'
      exact ⟨h2.1.trans_walks this.1, (this.2 (by decide)).trans h2.2⟩
    · have := matchChar_walks s2 'E'
      exact ⟨h2.1.trans_walks this.1, (this.2 (by decide)).trans h2.2⟩
  clear_value m
  intro p
  have hp : s.Walks p.2 ∧ p.2.line = s.line := by
    have := matchChar_walks m.2 '+'
    exact ⟨hm.1.trans_walks this.1, (this.2 (by decide)).trans hm.2⟩
  clear_value p
  intro s3
  have h3 : s.Walks s3 ∧ s3.line = s.line := by
    show s.Walks (if _ then _ else _) ∧ (if _ then _ else _ : Scanner).line = s.line
    split
    · have := matchChar_walks p.2 '-'
      exact ⟨hp.1.trans_walks this.1, (this.2 (by decide)).trans hp.2⟩
    · exact hp
  clear_value s3
  intro s4
  have h4 : s.Walks s4 ∧ s4.line = s.line := by
    have := skipDigits_walks s3.source.length s3
    exact ⟨h3.1.trans_walks this.1, this.2.trans h3.2⟩
  clear_value s4
  by_cases hm1 : m.1 = true
  · rw [if_pos hm1]
    by_cases hd : (!isDigit s3.current_) = true
    · rw [if_pos hd]
      exact hErr s3 h3.1 h3.2
    · rw [if_neg hd]
      exact hNum _ h4.1 h4.2
  · rw [if_neg hm1]
    exact hNum _ hm.1 hm.2

/-- The types of the keyword table. -/
theorem keywordType_mem (w : List Char) : ∀ ks : List Keyword,
    keywordType w ks = TOKEN_IDENTIFIER ∨ keywordType w ks ∈ ks.map (fun k => k.tokenType) := by
  intro ks
  induction ks with
  | nil => left; rfl
  | cons k ks ih =>
    rw [keywordType]
    split
    · right; simp
    · rcases ih with h | h
      · left; exact h
      · right; simp only [List.map_cons, List.mem_cons]; right; exact h

theorem keywordType_ordinary (w : List Char) :
    keywordType w keywords ≠ TOKEN_NEWLINE ∧ keywordType w keywords ≠ TOKEN_INTERPOLATION ∧
      keywordType w keywords ≠ TOKEN_ERROR ∧ keywordType w keywords ≠ TOKEN_STRING ∧
      keywordType w keywords ≠ TOKEN_NUMBER := by
  have key : ∀ ty, ty = TOKEN_IDENTIFIER ∨ ty ∈ keywords.map (fun k => k.tokenType) →
      ty ≠ TOKEN_NEWLINE ∧ ty ≠ TOKEN_INTERPOLATION ∧ ty ≠ TOKEN_ERROR ∧ ty ≠ TOKEN_STRING ∧
        ty ≠ TOKEN_NUMBER := by
    intro ty h
    rcases h with rfl | h
    · decide
    · revert ty
      decide
  exact key _ (keywordType_mem w keywords)

/-- What `identifier` returns. -/
theorem identifier_walks (s : Scanner) :
    s.Walks s.identifier.2 ∧ s.identifier.2.line = s.line ∧
      s.identifier.1 = s.identifier.2.makeToken s.identifier.1.type ∧
      s.identifier.1.type ≠ TOKEN_NEWLINE ∧ s.identifier.1.type ≠ TOKEN_INTERPOLATION ∧
      s.identifier.1.type ≠ TOKEN_ERROR ∧ s.identifier.1.type ≠ TOKEN_STRING ∧
      s.identifier.1.type ≠ TOKEN_NUMBER := by
  have h := skipAlnum_walks s.source.length s
  exact ⟨h.1, h.2, rfl, keywordType_ordinary _⟩

end Scanner

namespace Scanner

/-- An assignment that stays clear of `outOfBounds` was in bounds, and the flag
was clear before. -/
theorem writeInterpolating_flag (s : Scanner) (i v : Int)
    (h : (s.writeInterpolating i v).outOfBounds = false) :
    inBounds i = true ∧ s.outOfBounds = false := by
  unfold writeInterpolating at h
  by_cases hb : inBounds i = true
  · rw [if_pos hb] at h
    exact ⟨hb, h⟩
  · rw [if_neg hb] at h
    cases h

theorem writeInterpolating_spec (s : Scanner) (i : Nat) (v : Int)
    (hl : MAX_INTERPOLATION_NESTING ≤ s.interpolating.length)
    (hb : inBounds (i : Int) = true) :
    (s.writeInterpolating i v).source = s.source ∧
      (s.writeInterpolating i v).start = s.start ∧
      (s.writeInterpolating i v).current = s.current ∧
      (s.writeInterpolating i v).line = s.line ∧
      (s.writeInterpolating i v).interpolatingCount = s.interpolatingCount ∧
      MAX_INTERPOLATION_NESTING ≤ (s.writeInterpolating i v).interpolating.length ∧
      (s.writeInterpolating i v).outOfBounds = s.outOfBounds ∧
      ∀ j, (s.writeInterpolating i v).interpolating.getD j 0 =
        if j = i then v else s.interpolating.getD j 0 := by
  unfold writeInterpolating
  rw [if_pos hb]
  refine ⟨rfl, rfl, rfl, rfl, rfl, by simpa using hl, rfl, fun j => ?_⟩
  have hi : i < s.interpolating.length := by
    simp [inBounds] at hb
    omega
  show (s.interpolating.set (i : Int).toNat v).getD j 0 = _
  simp only [Int.toNat_ofNat, List.getD_eq_getElem?_getD, List.getElem?_set]
  by_cases hji : j = i
  · subst hji
    simp [hi]
  · rw [if_neg (Ne.symm hji), if_neg hji]

end Scanner

/-! ## Strings and the interpolation stack -/

namespace Scanner

theorem Walks.stackOK {s t : Scanner} (h : s.Walks t) (hs : s.StackOK) : t.StackOK := by
  obtain ⟨_, a, b, c, _⟩ := h
  unfold StackOK
  rw [a, b, c]
  exact hs

theorem Moves.start_le {s t : Scanner} (h : s.Moves t) (hs : s.start ≤ s.current) :
    t.start ≤ t.current := by
  obtain ⟨_, a, b, _⟩ := h
  omega

theorem advance_current_ (s : Scanner) : (s.advance).2.current_ = s.charAt (s.current + 1) := by
  rw [advance_eq]
  simp only
  split <;> rfl

theorem writeInterpolating_frame (s : Scanner) (i v : Int) :
    (s.writeInterpolating i v).source = s.source ∧
      (s.writeInterpolating i v).start = s.start ∧
      (s.writeInterpolating i v).current = s.current ∧
      (s.writeInterpolating i v).line = s.line ∧
      (s.writeInterpolating i v).interpolatingCount = s.interpolatingCount := by
  unfold writeInterpolating
  split <;> exact ⟨rfl, rfl, rfl, rfl, rfl⟩

/-- The state `string` leaves at an opening `${`. -/
theorem push_spec (quote : Char) (s : Scanner) (h1 : s.current_ = '$') (h2 : s.next = LBRACE) :
    s.Moves { (writeInterpolating { s with interpolatingCount := s.interpolatingCount + 1 }
        (s.interpolatingCount + 1) (quote.toNat : Int)) with current := s.current + 2 } ∧
      (s.Within → Within { (writeInterpolating
        { s with interpolatingCount := s.interpolatingCount + 1 }
        (s.interpolatingCount + 1) (quote.toNat : Int)) with current := s.current + 2 }) ∧
      (s.StackOK → (quote = DQUOTE ∨ quote = SQUOTE) →
        (writeInterpolating { s with interpolatingCount := s.interpolatingCount + 1 }
          (s.interpolatingCount + 1) (quote.toNat : Int)).outOfBounds = false →
        StackOK { (writeInterpolating
          { s with interpolatingCount := s.interpolatingCount + 1 }
          (s.interpolatingCount + 1) (quote.toNat : Int)) with current := s.current + 2 }) := by
  obtain ⟨f1, f2, f3, f4, f5⟩ := writeInterpolating_frame
    { s with interpolatingCount := s.interpolatingCount + 1 } (s.interpolatingCount + 1)
    (quote.toNat : Int)
  have hend : s.isAtEnd = false := by simp [isAtEnd, h1, NUL]
  have hn : s.charAt (s.current + 1) = LBRACE := by
    rw [← h2]; unfold next; rw [hend]; rfl
  have hlt : s.current + 1 < s.source.length := by
    by_contra hge
    have : s.charAt (s.current + 1) = NUL := by
      unfold charAt
      simp [List.getD, List.getElem?_eq_none (by omega : s.source.length ≤ s.current + 1)]
    rw [this] at hn
    revert hn; decide
  refine ⟨⟨f1, f2, by simp, ?_⟩, fun hw => ⟨by rw [show _ = s.source from f1]; exact hw.1, ?_⟩, ?_⟩
  · have e1 := newlinesBefore_succ s.source s.current
    have e2 := newlinesBefore_succ s.source (s.current + 1)
    have c1 : (s.source.getD s.current NUL == LF) = false := by
      have : s.source.getD s.current NUL = '$' := h1
      rw [this]; decide
    have c2 : (s.source.getD (s.current + 1) NUL == LF) = false := by
      have : s.source.getD (s.current + 1) NUL = LBRACE := hn
      rw [this]; decide
    rw [c1] at e1
    rw [c2] at e2
    show (writeInterpolating _ _ _).line + _ = s.line + (newlinesBefore s.source (s.current + 2) : Int)
    rw [f4, show s.current + 2 = s.current + 1 + 1 from rfl, e2, e1]
    simp
  · show s.current + 2 ≤ (writeInterpolating _ _ _).source.length
    rw [f1]
    exact hlt
  · intro hs hq hflag
    obtain ⟨l1, l2, l3, l4, l5⟩ := hs
    obtain ⟨hb, -⟩ := writeInterpolating_flag _ _ _ hflag
    have hi : s.interpolatingCount + 1 = (((s.interpolatingCount + 1).toNat : Nat) : Int) := by
      omega
    have hlt : s.interpolatingCount + 1 < MAX_INTERPOLATION_NESTING := by
      simp only [inBounds, Bool.and_eq_true, decide_eq_true_eq] at hb
      exact hb.2
    rw [hi] at hb
    have hw := writeInterpolating_spec { s with interpolatingCount := s.interpolatingCount + 1 }
      (s.interpolatingCount + 1).toNat (quote.toNat : Int) l1 hb
    rw [← hi] at hw
    obtain ⟨-, -, -, -, w5, w6, w8, w7⟩ := hw
    refine ⟨w6, ?_, ?_, ?_, ?_⟩
    · show -1 ≤ (writeInterpolating _ _ _).interpolatingCount
      rw [w5]
      show -1 ≤ s.interpolatingCount + 1
      omega
    rotate_left
    · show (writeInterpolating _ _ _).interpolatingCount < _
      rw [w5]
      exact hlt
    · exact hflag
    · intro i hi2
      show (writeInterpolating _ _ _).interpolating.getD i 0 = _ ∨ _
      rw [w7 i]
      have hi3 : (i : Int) ≤ s.interpolatingCount + 1 := by
        have : (writeInterpolating { s with interpolatingCount := s.interpolatingCount + 1 }
          (s.interpolatingCount + 1) (quote.toNat : Int)).interpolatingCount =
            s.interpolatingCount + 1 := w5
        rw [← this]; exact hi2
      by_cases hik : i = (s.interpolatingCount + 1).toNat
      · rw [if_pos hik]
        rcases hq with rfl | rfl
        · left; rfl
        · right; rfl
      · rw [if_neg hik]
        exact l3 i (by omega)

/-- What the loop of `string` returns, for a quote that is not the
terminator. -/
theorem stringLoop_spec (quote : Char) (hq : quote ≠ NUL) (n : Nat) : ∀ s : Scanner,
    s.Moves (stringLoop n quote s).2 ∧
      (s.Within → (stringLoop n quote s).2.Within) ∧
      (s.StackOK → (quote = DQUOTE ∨ quote = SQUOTE) →
        (stringLoop n quote s).2.outOfBounds = false → (stringLoop n quote s).2.StackOK) ∧
      s.interpolatingCount ≤ (stringLoop n quote s).2.interpolatingCount ∧
      (∀ tkn, (stringLoop n quote s).1 = some tkn →
        (s.start ≤ s.current → (stringLoop n quote s).2.Made tkn) ∧
          (tkn.type = TOKEN_INTERPOLATION ∨ tkn.type = TOKEN_ERROR)) := by
  induction n with
  | zero =>
    intro s
    exact ⟨Moves.rfl_moves s, id, fun h _ _ => h, Int.le_refl _, fun _ h => by cases h⟩
  | succ n ih =>
    intro s
    by_cases hloop : (s.current_ != quote && !s.isAtEnd) = true
    · have hcq : s.current_ ≠ quote := by
        simp only [Bool.and_eq_true, bne_iff_ne] at hloop; exact hloop.1
      have hend : s.isAtEnd = false := by
        simp only [Bool.and_eq_true, Bool.not_eq_true'] at hloop; exact hloop.2
      have hc0 : s.current_ ≠ NUL := by simpa [isAtEnd] using hend
      by_cases hint : (s.current_ == '$' && s.next == LBRACE && s.previous != BSLASH) = true
      · simp only [Bool.and_eq_true, beq_iff_eq, bne_iff_ne] at hint
        obtain ⟨⟨h1, h2⟩, h3⟩ := hint
        have hq2 : quote ≠ '$' := by rw [← h1]; exact fun h => hcq h.symm
        rw [stringLoop_at_interpolation n quote s hq2 h1 h2 h3]
        by_cases hc : s.interpolatingCount ≤ 8
        · rw [if_pos hc]
          obtain ⟨p1, p2, p3⟩ := push_spec quote s h1 h2
          refine ⟨p1, p2, p3, ?_, fun tkn h => ?_⟩
          · show s.interpolatingCount ≤ (writeInterpolating _ _ _).interpolatingCount
            rw [(writeInterpolating_frame _ _ _).2.2.2.2]
            show s.interpolatingCount ≤ s.interpolatingCount + 1
            omega
          · simp only [Option.some.injEq] at h
            subst h
            refine ⟨fun hs => ⟨?_, fun _ => ⟨?_, ?_⟩⟩, Or.inl rfl⟩
            · show s.line = (writeInterpolating _ _ _).line
              rw [(writeInterpolating_frame _ _ _).2.2.2.1]
            · show TokenStart.src s.start = TokenStart.src (writeInterpolating _ _ _).start
              rw [(writeInterpolating_frame _ _ _).2.1]
            · show (writeInterpolating _ _ _).start + (s.current + 1 - s.start) + 1 = s.current + 2
              rw [(writeInterpolating_frame _ _ _).2.1]
              show s.start + (s.current + 1 - s.start) + 1 = s.current + 2
              omega
        · rw [if_neg hc]
          exact ⟨Moves.rfl_moves s, id, fun h _ _ => h, Int.le_refl _, fun tkn h => by
            simp only [Option.some.injEq] at h
            subst h
            exact ⟨fun _ => made_errorToken _ _, Or.inr rfl⟩⟩
      · rw [stringLoop, if_pos hloop, if_neg hint]
        have hw : s.Walks ((if (s.current_ == BSLASH && (s.next == quote || s.next == BSLASH)) = true
            then (s.advance).2 else s).advance).2 := by
          have ha := advance_walks s hc0
          split
          · rename_i hesc
            simp only [Bool.and_eq_true, Bool.or_eq_true, beq_iff_eq] at hesc
            have hn : s.next = s.charAt (s.current + 1) := by
              unfold next; rw [hend]; rfl
            have h2 : (s.advance).2.current_ ≠ NUL := by
              rw [advance_current_, ← hn]
              rcases hesc.2 with h | h
              · rw [h]; exact hq
              · rw [h]; decide
            exact ha.1.trans_walks (advance_walks _ h2).1
          · exact ha.1
        have hr := ih ((if (s.current_ == BSLASH && (s.next == quote || s.next == BSLASH)) = true
            then (s.advance).2 else s).advance).2
        obtain ⟨r1, r2, r3, r4, r5⟩ := hr
        refine ⟨hw.1.trans_moves r1, fun h => r2 (hw.2.2.2.2 h),
          fun h hq hf => r3 (hw.stackOK h) hq hf, ?_,
          fun tkn h => ⟨fun hs => (r5 tkn h).1 (hw.1.start_le hs), (r5 tkn h).2⟩⟩
        rw [← hw.2.1]
        exact r4
    · rw [stringLoop, if_neg hloop]
      exact ⟨Moves.rfl_moves s, id, fun h _ _ => h, Int.le_refl _, fun _ h => by cases h⟩


/-- What `string` returns, for a quote that is not the terminator. -/
theorem string_spec (quote : Char) (hq : quote ≠ NUL) (s : Scanner) :
    s.Moves (s.string quote).2 ∧
      (s.Within → (s.string quote).2.Within) ∧
      (s.StackOK → (quote = DQUOTE ∨ quote = SQUOTE) → (s.string quote).2.outOfBounds = false →
        (s.string quote).2.StackOK) ∧
      s.interpolatingCount ≤ (s.string quote).2.interpolatingCount ∧
      (s.start ≤ s.current → (s.string quote).2.Made (s.string quote).1) ∧
      ((s.string quote).1.type = TOKEN_STRING ∨ (s.string quote).1.type = TOKEN_INTERPOLATION ∨
        (s.string quote).1.type = TOKEN_ERROR) := by
  have hr := stringLoop_spec quote hq s.source.length s
  unfold string
  rcases hsl : stringLoop s.source.length quote s with ⟨o, s1⟩
  rw [hsl] at hr
  obtain ⟨r1, r2, r3, r4, r5⟩ := hr
  cases o with
  | some tkn =>
    have := r5 tkn rfl
    exact ⟨r1, r2, r3, r4, this.1, this.2.elim (fun h => Or.inr (Or.inl h))
      (fun h => Or.inr (Or.inr h))⟩
  | none =>
    show s.Moves (if _ then _ else _ : Token × Scanner).2 ∧ _
    by_cases hend : s1.isAtEnd = true
    · simp only [hend, if_true]
      exact ⟨r1, r2, r3, r4, fun _ => made_errorToken _ _, Or.inr (Or.inr rfl)⟩
    · simp only [hend, if_false]
      have hm := (matchChar_walks s1 quote).1
      refine ⟨r1.trans_moves hm.1, fun h => hm.2.2.2.2 (r2 h),
        fun h hq hf => hm.stackOK (r3 h hq (hm.2.2.2.1.symm.trans hf)), ?_,
        fun hs => made_makeToken _ _ (hm.1.start_le (r1.start_le hs)) (by decide), Or.inl rfl⟩
      show s.interpolatingCount ≤ (s1.matchChar quote).2.interpolatingCount
      rw [hm.2.1]
      exact r4

end Scanner

/-! ## What one call of `scanToken` does -/

namespace Scanner

theorem atEof_walks (s : Scanner) :
    s.atEof.source = s.source ∧ s.atEof.start = s.atEof.current ∧
      s.atEof.current = s.skipWhitespace.current ∧ s.atEof.line = s.skipWhitespace.line ∧
      s.current ≤ s.atEof.current ∧
      s.atEof.line + (newlinesBefore s.source s.current : Int) =
        s.line + (newlinesBefore s.source s.atEof.current : Int) ∧
      (s.StackOK → s.atEof.StackOK) ∧ (s.Within → s.atEof.Within) := by
  obtain ⟨⟨a, _, c, d⟩, e, f, g, w⟩ := skipWhitespace_walks s
  refine ⟨a, rfl, rfl, rfl, c, d, fun h => ?_, fun h => ?_⟩
  · unfold StackOK atEof
    simp only [e, f, g]
    exact h
  · have := w h
    exact ⟨this.1, this.2⟩

/-- A branch of `scanToken` that consumes the character at the cursor and then
moves on to `t`. -/
theorem scans_of_moves (s2 sA t : Scanner) (c : Char) (tok : Token)
    (hend : s2.isAtEnd = false) (hadv : s2.advance = (c, sA)) (hst : s2.start = s2.current)
    (hs2 : s2.StackOK)
    (hm : sA.Moves t) (hw : sA.Within → t.Within)
    (hs : sA.StackOK → t.outOfBounds = false → t.StackOK)
    (hmade : sA.start ≤ sA.current → t.Made tok)
    (hflat : tok.type ≠ TOKEN_STRING → tok.type ≠ TOKEN_INTERPOLATION → tok.type ≠ TOKEN_NUMBER →
      tok.type ≠ TOKEN_ERROR → tok.type ≠ TOKEN_NEWLINE → t.line = s2.line)
    (hnl : tok.type = TOKEN_NEWLINE → t.line = s2.line + 1) :
    s2.Scans (tok, t) := by
  have hc0 : s2.current_ ≠ NUL := by simpa [isAtEnd] using hend
  have ha := advance_walks s2 hc0
  rw [hadv] at ha
  obtain ⟨ha1, ha2, -⟩ := ha
  have hsA : sA.start ≤ sA.current := by
    have := ha1.1.2.1
    simp only at this ha2
    omega
  refine ⟨ha1.1.trans_moves hm, hmade hsA, hs (ha1.stackOK hs2), fun h => hw (ha1.2.2.2.2 h),
    fun _ => ?_, hflat, hnl⟩
  have := hm.2.2.1
  simp only at ha2 ⊢
  omega

theorem advance_line {s sA : Scanner} {c : Char} (h : s.advance = (c, sA)) :
    (c ≠ LF → sA.line = s.line) ∧ (c = LF → sA.line = s.line + 1) ∧ c = s.current_ := by
  rw [advance_eq] at h
  simp only [Prod.mk.injEq] at h
  obtain ⟨h1, h2⟩ := h
  subst h1
  refine ⟨fun hc => ?_, fun hc => ?_, rfl⟩
  · rw [if_neg (by simpa using hc)] at h2
    rw [← h2]
  · rw [if_pos (by simpa using hc)] at h2
    rw [← h2]

theorem readInterpolating_spec (s : Scanner) (i : Nat) (hb : inBounds (i : Int) = true) :
    (s.readInterpolating i).1 = s.interpolating.getD i 0 ∧
      s.Moves (s.readInterpolating i).2 ∧
      (s.Within → (s.readInterpolating i).2.Within) ∧
      (s.StackOK → (s.readInterpolating i).2.StackOK) ∧
      (s.readInterpolating i).2.interpolatingCount = s.interpolatingCount := by
  unfold readInterpolating
  rw [if_pos hb]
  exact ⟨by simp, Moves.rfl_moves s, id, id, rfl⟩

theorem quote_of_code (q : Int)
    (h : q = (DQUOTE.toNat : Int) ∨ q = (SQUOTE.toNat : Int)) :
    Char.ofNat (q % 256).toNat = DQUOTE ∨ Char.ofNat (q % 256).toNat = SQUOTE := by
  rcases h with rfl | rfl
  · left; decide
  · right; decide

/-- The scanner after `interpolatingCount--`. -/
theorem pop_spec (s u : Scanner) (tok : Token) :
    (s.Moves u → s.Moves { u with interpolatingCount := u.interpolatingCount - 1 }) ∧
      (u.Within → Within { u with interpolatingCount := u.interpolatingCount - 1 }) ∧
      (u.StackOK → 0 ≤ u.interpolatingCount →
        StackOK { u with interpolatingCount := u.interpolatingCount - 1 }) ∧
      (u.Made tok → Made { u with interpolatingCount := u.interpolatingCount - 1 } tok) := by
  refine ⟨fun h => h, fun h => h,
    fun h h0 => ⟨h.1, ?_, fun i hi => h.2.2.1 i ?_, ?_, h.2.2.2.2⟩, fun h => h⟩
  · show -1 ≤ u.interpolatingCount - 1
    omega
  · have : (i : Int) ≤ u.interpolatingCount - 1 := hi
    omega
  · have := h.2.2.2.1
    show u.interpolatingCount - 1 < _
    omega

end Scanner

open Scanner in
/-- What a call of `scanToken` does, from a scanner whose stack is in order. -/
theorem scanToken_scans (s : Scanner) (hs : s.StackOK) : s.atEof.Scans (scanToken s) := by
  obtain ⟨e1, e2, e3, e4, e5, e6, e7, e8⟩ := atEof_walks s
  have hs2 := e7 hs
  apply scanToken_cases s
  · intro hend
    refine ⟨Moves.rfl_moves _, made_makeToken _ _ (by show s.atEof.start ≤ s.atEof.current; omega)
      (by decide), fun _ => hs2, id, fun h => ?_, fun _ _ _ _ _ => rfl, fun h => ?_⟩
    · rw [hend] at h; cases h
    · exact absurd h (show (TOKEN_EOF : TokenType) ≠ TOKEN_NEWLINE by decide)
  · intro c sA hend hadv hd
    apply number_cases sA
    · intro t hw hl
      exact scans_of_moves _ sA t c _ hend hadv e2 hs2 hw.1 hw.2.2.2.2
        (fun h _ => hw.stackOK h)
        (fun _ => made_errorToken _ _) (fun _ _ _ h _ => absurd rfl h)
        (fun h => absurd h (show (TOKEN_ERROR : TokenType) ≠ TOKEN_NEWLINE by decide))
    · intro t hw hl
      exact scans_of_moves _ sA t c _ hend hadv e2 hs2 hw.1 hw.2.2.2.2
        (fun h _ => hw.stackOK h)
        (fun h => made_makeToken _ _ (hw.1.start_le h) (by decide))
        (fun _ _ h _ _ => absurd rfl h)
        (fun h => absurd h (show (TOKEN_NUMBER : TokenType) ≠ TOKEN_NEWLINE by decide))
  · intro c sA hend hadv ha
    obtain ⟨hw, hl, htok, n1, n2, n3, n4, n5⟩ := identifier_walks sA
    have hc : c ≠ LF := by
      have := isAlnum_ne_LF (show (isAlpha c || isDigit c) = true by rw [ha]; rfl)
      simpa using this
    refine scans_of_moves _ sA _ c _ hend hadv e2 hs2 hw.1 hw.2.2.2.2
        (fun h _ => hw.stackOK h)
      (fun h => ?_) (fun _ _ _ _ _ => hl.trans ((advance_line hadv).1 hc))
      (fun h => absurd h n1)
    exact made_makeToken _ _ (hw.1.start_le h) n2
  · intro c sA t ty hend hadv hc hmt n1 n2 n3 n4 n5
    obtain ⟨hw, hl⟩ := hmt.walks
    exact scans_of_moves _ sA t c _ hend hadv e2 hs2 hw.1 hw.2.2.2.2
        (fun h _ => hw.stackOK h)
      (fun h => made_makeToken _ _ (hw.1.start_le h) n2)
      (fun _ _ _ _ _ => hl.trans ((advance_line hadv).1 hc))
      (fun h => absurd h n1)
  · intro sA hend hadv hcount
    have hc0 : s.atEof.current_ ≠ NUL := by simpa [isAtEnd] using hend
    have hwA := (advance_walks s.atEof hc0).1
    rw [hadv] at hwA
    have hsA : sA.StackOK := hwA.stackOK hs2
    have hn : sA.interpolatingCount = ((sA.interpolatingCount.toNat : Nat) : Int) := by omega
    have hb : inBounds ((sA.interpolatingCount.toNat : Nat) : Int) = true := by
      rw [← hn]
      have := hsA.2.2.2.1
      simp only [inBounds, Bool.and_eq_true, decide_eq_true_eq]
      exact ⟨by omega, this⟩
    obtain ⟨q1, q2, q3, q4, q5⟩ := readInterpolating_spec sA sA.interpolatingCount.toNat hb
    rw [← hn] at q1 q2 q3 q4 q5
    have hq := quote_of_code _ (hsA.2.2.1 sA.interpolatingCount.toNat (by omega))
    rw [← q1] at hq
    have hq0 : Char.ofNat ((sA.readInterpolating sA.interpolatingCount).1 % 256).toNat ≠ NUL := by
      rcases hq with h | h <;> rw [h] <;> decide
    obtain ⟨r1, r2, r3, r4, r5, r6⟩ := string_spec _ hq0 (sA.readInterpolating sA.interpolatingCount).2
    obtain ⟨p1, p2, p3, p4⟩ := pop_spec sA
      ((sA.readInterpolating sA.interpolatingCount).2.string
        (Char.ofNat ((sA.readInterpolating sA.interpolatingCount).1 % 256).toNat)).2
      ((sA.readInterpolating sA.interpolatingCount).2.string
        (Char.ofNat ((sA.readInterpolating sA.interpolatingCount).1 % 256).toNat)).1
    exact scans_of_moves _ sA _ RBRACE _ hend hadv e2 hs2 (p1 (q2.trans_moves r1))
      (fun h => p2 (r2 (q3 h))) (fun h hf => p3 (r3 (q4 h) hq hf) (by omega))
      (fun h => p4 (r5 (q2.start_le h)))
      (fun h1 h2 _ h4 _ => by rcases r6 with h | h | h; exacts [absurd h h1, absurd h h2, absurd h h4])
      (fun h => by
        rcases r6 with h6 | h6 | h6 <;> exact absurd (h6.symm.trans h) (by decide))
  · intro c sA hend hadv hq
    have hq0 : c ≠ NUL := by rcases hq with rfl | rfl <;> decide
    obtain ⟨r1, r2, r3, r4, r5, r6⟩ := string_spec c hq0 sA
    exact scans_of_moves _ sA _ c _ hend hadv e2 hs2 r1 r2 (fun h hf => r3 h hq hf) r5
      (fun h1 h2 _ h4 _ => by rcases r6 with h | h | h; exacts [absurd h h1, absurd h h2, absurd h h4])
      (fun h => by
        rcases r6 with h6 | h6 | h6 <;> exact absurd (h6.symm.trans h) (by decide))
  · intro sA hend hadv
    exact scans_of_moves _ sA sA LF _ hend hadv e2 hs2 (Moves.rfl_moves _) id (fun h _ => h)
      (fun h => made_makeToken _ _ h (by decide))
      (fun _ _ _ _ h => absurd rfl h)
      (fun _ => (advance_line hadv).2.1 rfl)
  · intro c sA hend hadv hc
    exact scans_of_moves _ sA sA c _ hend hadv e2 hs2 (Moves.rfl_moves _) id (fun h _ => h)
      (fun _ => made_errorToken _ _) (fun _ _ _ h _ => absurd rfl h)
      (fun h => absurd h (show (TOKEN_ERROR : TokenType) ≠ TOKEN_NEWLINE by decide))

/-! ## Accesses outside the array are not undone -/

namespace Scanner

theorem advance_flag (s : Scanner) : (s.advance).2.outOfBounds = s.outOfBounds := by
  rw [advance_eq]
  simp only
  split <;> rfl

theorem readInterpolating_flag (s : Scanner) (i : Int)
    (h : (s.readInterpolating i).2.outOfBounds = false) : s.outOfBounds = false := by
  unfold readInterpolating at h
  split at h
  · exact h
  · cases h

theorem stringLoop_flag (quote : Char) (n : Nat) : ∀ s : Scanner,
    (stringLoop n quote s).2.outOfBounds = false → s.outOfBounds = false := by
  induction n with
  | zero => intro s h; exact h
  | succ n ih =>
    intro s h
    rw [stringLoop] at h
    split at h
    · split at h
      · split at h
        · exact (writeInterpolating_flag _ _ _ h).2
        · exact h
      · have h1 := ih _ h
        rw [advance_flag] at h1
        split at h1
        · rw [advance_flag] at h1; exact h1
        · exact h1
    · exact h

theorem string_flag (quote : Char) (s : Scanner)
    (h : (s.string quote).2.outOfBounds = false) : s.outOfBounds = false := by
  have hl := stringLoop_flag quote s.source.length s
  unfold string at h
  rcases hsl : stringLoop s.source.length quote s with ⟨o, s1⟩
  rw [hsl] at h hl
  cases o with
  | some tkn => exact hl h
  | none =>
    have h2 : (if s1.isAtEnd then (s1.errorToken _, s1)
      else ((s1.matchChar quote).2.makeToken TOKEN_STRING, (s1.matchChar quote).2) :
        Token × Scanner).2.outOfBounds = false := h
    split at h2
    · exact hl h2
    · exact hl ((matchChar_walks s1 quote).1.2.2.2.1.symm.trans h2)

end Scanner

open Scanner in
/-- A call of `scanToken` that leaves `outOfBounds` clear found it clear. -/
theorem scanToken_flag (s : Scanner) (h : (scanToken s).2.outOfBounds = false) :
    s.outOfBounds = false := by
  have h0 : s.atEof.outOfBounds = s.outOfBounds := (skipWhitespace_walks s).2.2.2.1
  have hA : ∀ c sA, s.atEof.advance = (c, sA) → sA.outOfBounds = s.outOfBounds := by
    intro c sA hadv
    have := advance_flag s.atEof
    rw [hadv] at this
    exact this.trans h0
  revert h
  apply scanToken_cases s (fun r => r.2.outOfBounds = false → s.outOfBounds = false)
  · intro _ h
    exact h0.symm.trans h
  · intro c sA _ hadv _
    apply number_cases sA (fun r => r.2.outOfBounds = false → s.outOfBounds = false)
    · intro t hw _ h
      exact (hA c sA hadv).symm.trans (hw.2.2.2.1.symm.trans h)
    · intro t hw _ h
      exact (hA c sA hadv).symm.trans (hw.2.2.2.1.symm.trans h)
  · intro c sA _ hadv _ h
    obtain ⟨hw, -⟩ := identifier_walks sA
    exact (hA c sA hadv).symm.trans (hw.2.2.2.1.symm.trans h)
  · intro c sA t ty _ hadv _ hmt _ _ _ _ _ h
    obtain ⟨hw, -⟩ := hmt.walks
    exact (hA c sA hadv).symm.trans (hw.2.2.2.1.symm.trans h)
  · intro sA _ hadv _ h
    exact (hA _ sA hadv).symm.trans (readInterpolating_flag _ _ (string_flag _ _ h))
  · intro c sA _ hadv _ h
    exact (hA c sA hadv).symm.trans (string_flag _ _ h)
  · intro sA _ hadv h
    exact (hA _ sA hadv).symm.trans h
  · intro c sA _ hadv _ h
    exact (hA c sA hadv).symm.trans h

theorem scanTokens_succ (n : Nat) (s : Scanner) :
    (scanTokens (n + 1) s).2 = (scanTokens n (scanToken s).2).2 := rfl

theorem scanTokens_flag (n : Nat) : ∀ s : Scanner,
    (scanTokens n s).2.outOfBounds = false → s.outOfBounds = false := by
  induction n with
  | zero => intro s h; exact h
  | succ n ih =>
    intro s h
    rw [scanTokens_succ] at h
    exact scanToken_flag s (ih _ h)

/-! ## C12: repeated calls reach the end of input -/

open Scanner in
/-- One call of `scanToken` keeps the buffer and the bounds of the cursor,
keeps the stack in order unless it leaves the array, and moves the cursor
forward unless it stands at the terminator. -/
theorem scanToken_step (s : Scanner) (hw : s.Within) (hs : s.StackOK) :
    (scanToken s).2.source = s.source ∧ (scanToken s).2.Within ∧
      ((scanToken s).2.outOfBounds = false → (scanToken s).2.StackOK) ∧
      s.current ≤ (scanToken s).2.current ∧
      (s.current < s.source.length → s.current < (scanToken s).2.current) := by
  obtain ⟨e1, e2, e3, e4, e5, e6, e7, e8⟩ := atEof_walks s
  obtain ⟨⟨m1, m2, m3, m4⟩, _, k3, k4, k5, _, _⟩ := scanToken_scans s hs
  refine ⟨m1.trans e1, k4 (e8 hw), k3, Nat.le_trans e5 m3, fun hlt => ?_⟩
  by_cases hend : s.atEof.isAtEnd = true
  · have hge : s.source.length ≤ s.atEof.current := by
      by_contra hlt2
      have := Within.current_ne (e8 hw) (by rw [e1]; omega)
      exact this (by simpa [isAtEnd] using hend)
    omega
  · have := k5 (by simpa using hend)
    omega

open Scanner in
theorem scanTokens_inv (n : Nat) : ∀ s : Scanner, s.Within → s.StackOK →
    (scanTokens n s).2.outOfBounds = false →
    (scanTokens n s).2.source = s.source ∧ (scanTokens n s).2.Within ∧
      (scanTokens n s).2.StackOK ∧
      (s.source.length ≤ s.current + n → (scanTokens n s).2.current = s.source.length) := by
  induction n with
  | zero =>
    intro s hw hs _
    exact ⟨rfl, hw, hs, fun h => Nat.le_antisymm hw.2 (by simpa using h)⟩
  | succ n ih =>
    intro s hw hs hf
    rw [scanTokens_succ] at hf
    obtain ⟨a, b, c, d, e⟩ := scanToken_step s hw hs
    obtain ⟨a2, b2, c2, d2⟩ := ih (scanToken s).2 b (c (scanTokens_flag n _ hf)) hf
    rw [scanTokens_succ]
    refine ⟨a2.trans a, b2, c2, fun h => ?_⟩
    rw [← a]
    apply d2
    rw [a]
    by_cases hlt : s.current < s.source.length
    · have := e hlt; omega
    · omega

theorem initScanner_stackOK (source : List Char) : (initScanner source).StackOK := by
  refine ⟨?_, ?_, ?_, ?_, rfl⟩
  · show MAX_INTERPOLATION_NESTING ≤ (List.replicate MAX_INTERPOLATION_NESTING (0 : Int)).length
    simp
  · show (-1 : Int) ≤ -1
    omega
  · intro i hi
    have : (i : Int) ≤ -1 := hi
    omega
  · show (-1 : Int) < MAX_INTERPOLATION_NESTING
    decide

theorem initScanner_ok (source : List Char) (h0 : NUL ∉ source) :
    (initScanner source).Within ∧ (initScanner source).StackOK :=
  ⟨⟨h0, Nat.zero_le _⟩, initScanner_stackOK source⟩

open Scanner in
/-- The line of the token of one call, from a scanner whose line counter is
one more than the number of line feeds behind the cursor. -/
theorem scanToken_line (s : Scanner) (hs : s.StackOK)
    (hl : s.line = 1 + (newlinesBefore s.source s.current : Int)) :
    (scanToken s).2.source = s.source ∧
      ((scanToken s).2.outOfBounds = false → (scanToken s).2.StackOK) ∧
      (scanToken s).2.line =
        1 + (newlinesBefore s.source (scanToken s).2.current : Int) ∧
      (scanToken s).1.line = (scanToken s).2.line ∧
      ((scanToken s).1.type ≠ TOKEN_ERROR →
        (scanToken s).1.start = .src s.skipWhitespace.current) ∧
      ((scanToken s).1.type ≠ TOKEN_STRING → (scanToken s).1.type ≠ TOKEN_INTERPOLATION →
        (scanToken s).1.type ≠ TOKEN_NUMBER → (scanToken s).1.type ≠ TOKEN_ERROR →
        (scanToken s).1.type ≠ TOKEN_NEWLINE →
        (scanToken s).1.line = 1 + (newlinesBefore s.source s.skipWhitespace.current : Int)) ∧
      ((scanToken s).1.type = TOKEN_NEWLINE →
        (scanToken s).1.line = 2 + (newlinesBefore s.source s.skipWhitespace.current : Int)) := by
  obtain ⟨e1, e2, e3, e4, e5, e6, e7, e8⟩ := atEof_walks s
  obtain ⟨⟨m1, m2, m3, m4⟩, ⟨k1, k2⟩, k3, k4, k5, k6, k7⟩ := scanToken_scans s hs
  rw [e1] at m4
  rw [← e3]
  refine ⟨m1.trans e1, k3, by omega, k1, fun h => ?_, fun h1 h2 h3 h4 h5 => ?_, fun h => ?_⟩
  · rw [(k2 h).1, m2, e2]
  · rw [k1, k6 h1 h2 h3 h4 h5]; omega
  · rw [k1, k7 h]; omega

open Scanner in
theorem scanTokens_line (n : Nat) : ∀ s : Scanner, s.StackOK →
    s.line = 1 + (newlinesBefore s.source s.current : Int) →
    (scanTokens n s).2.outOfBounds = false →
    (scanTokens n s).2.source = s.source ∧ (scanTokens n s).2.StackOK ∧
      (scanTokens n s).2.line =
        1 + (newlinesBefore s.source (scanTokens n s).2.current : Int) := by
  induction n with
  | zero => intro s hs hl _; exact ⟨rfl, hs, hl⟩
  | succ n ih =>
    intro s hs hl hf
    rw [scanTokens_succ] at hf
    obtain ⟨a, b, c, -⟩ := scanToken_line s hs hl
    rw [← a] at c
    obtain ⟨a2, b2, c2⟩ := ih (scanToken s).2 (b (scanTokens_flag n _ hf)) c hf
    rw [scanTokens_succ]
    rw [a] at c2
    exact ⟨a2.trans a, b2, c2⟩

/-- C14 as it stands fails on the first line: the token of the source `a`
starts at offset 0, which no line feed precedes, and its line is 1; the
`TOKEN_NEWLINE` of a source that is one line feed is on line 2. -/
theorem first_line_token_has_line_one :
    ((scanToken (initScanner ['a'])).1.type = TOKEN_IDENTIFIER ∧
      (scanToken (initScanner ['a'])).1.start = .src 0 ∧
      newlinesBefore ['a'] 0 = 0 ∧
      (scanToken (initScanner ['a'])).1.line = 1) ∧
    ((scanToken (initScanner [LF])).1.type = TOKEN_NEWLINE ∧
      (scanToken (initScanner [LF])).1.start = .src 0 ∧
      newlinesBefore [LF] 0 = 0 ∧
      (scanToken (initScanner [LF])).1.line = 2) := by
  decide

/-- C14, amended. For the token of a call of `scanToken` in a run from the
initial scanner over any source, in which no access outside the array
`interpolating` is made up to and including that call: its line is one more
than the number of line feeds of the source before the cursor that the call
leaves; when its kind is none of STRING, INTERPOLATION, NUMBER, ERROR and
NEWLINE, its line is one more than the number of line feeds before its first
character; when it is a `TOKEN_NEWLINE`, two more. -/
theorem token_line_is_one_based (source : List Char) (n : Nat)
    (hin : (scanToken (scanTokens n (initScanner source)).2).2.outOfBounds = false) :
    (scanToken (scanTokens n (initScanner source)).2).1.line =
        1 + (newlinesBefore source
          (scanToken (scanTokens n (initScanner source)).2).2.current : Int) ∧
      ((scanToken (scanTokens n (initScanner source)).2).1.type ≠ TOKEN_STRING →
        (scanToken (scanTokens n (initScanner source)).2).1.type ≠ TOKEN_INTERPOLATION →
        (scanToken (scanTokens n (initScanner source)).2).1.type ≠ TOKEN_NUMBER →
        (scanToken (scanTokens n (initScanner source)).2).1.type ≠ TOKEN_ERROR →
        (scanToken (scanTokens n (initScanner source)).2).1.type ≠ TOKEN_NEWLINE →
        ∃ k, (scanToken (scanTokens n (initScanner source)).2).1.start = .src k ∧
          (scanToken (scanTokens n (initScanner source)).2).1.line =
            1 + (newlinesBefore source k : Int)) ∧
      ((scanToken (scanTokens n (initScanner source)).2).1.type = TOKEN_NEWLINE →
        ∃ k, (scanToken (scanTokens n (initScanner source)).2).1.start = .src k ∧
          (scanToken (scanTokens n (initScanner source)).2).1.line =
            2 + (newlinesBefore source k : Int)) := by
  obtain ⟨a, b, c⟩ := scanTokens_line n (initScanner source) (initScanner_stackOK source) rfl
    (scanToken_flag _ hin)
  have a' : (scanTokens n (initScanner source)).2.source = source := a
  have c' : (scanTokens n (initScanner source)).2.line =
      1 + (newlinesBefore (scanTokens n (initScanner source)).2.source
        (scanTokens n (initScanner source)).2.current : Int) := by
    rw [a']; exact c
  clear c
  obtain ⟨d1, d2, d3, d4, d5, d6, d7⟩ := scanToken_line _ b c'
  rw [a'] at d3 d6 d7
  refine ⟨d4.trans d3, fun h1 h2 h3 h4 h5 => ⟨_, d5 h4, d6 h1 h2 h3 h4 h5⟩,
    fun h => ⟨_, d5 (by rw [h]; decide), d7 h⟩⟩

/-- C14, amended, at the source `a`, line feed, `b`: no call leaves the array;
the third token, `b`, is on line 2, and the second, the `TOKEN_NEWLINE`, is on
line 2 as well. -/
theorem token_line_is_one_based_witness :
    (scanToken (scanTokens 2 (initScanner ['a', LF, 'b'])).2).2.outOfBounds = false ∧
      (scanToken (scanTokens 2 (initScanner ['a', LF, 'b'])).2).1.line =
        1 + (newlinesBefore ['a', LF, 'b']
          (scanToken (scanTokens 2 (initScanner ['a', LF, 'b'])).2).2.current : Int) ∧
      (∃ k, (scanToken (scanTokens 2 (initScanner ['a', LF, 'b'])).2).1.start = .src k ∧
        (scanToken (scanTokens 2 (initScanner ['a', LF, 'b'])).2).1.line =
          1 + (newlinesBefore ['a', LF, 'b'] k : Int)) ∧
      (∃ k, (scanToken (scanTokens 1 (initScanner ['a', LF, 'b'])).2).1.start = .src k ∧
        (scanToken (scanTokens 1 (initScanner ['a', LF, 'b'])).2).1.line =
          2 + (newlinesBefore ['a', LF, 'b'] k : Int)) :=
  ⟨by decide, (token_line_is_one_based ['a', LF, 'b'] 2 (by decide)).1,
    (token_line_is_one_based ['a', LF, 'b'] 2 (by decide)).2.1 (by decide) (by decide)
      (by decide) (by decide) (by decide),
    (token_line_is_one_based ['a', LF, 'b'] 1 (by decide)).2.2 (by decide)⟩

/-! ## C15: the text of a token -/

/-- C15 as it stands fails for `TOKEN_INTERPOLATION`: the first token of the
source `"a${` has the text `"a$`, three characters from offset 0, and the call
leaves the cursor at offset 4, after the `{`. -/
theorem interpolation_token_ends_before_cursor :
    (scanToken (initScanner [DQUOTE, 'a', '$', LBRACE])).1.type = TOKEN_INTERPOLATION ∧
      (scanToken (initScanner [DQUOTE, 'a', '$', LBRACE])).1.start = .src 0 ∧
      (scanToken (initScanner [DQUOTE, 'a', '$', LBRACE])).1.length = 3 ∧
      (scanToken (initScanner [DQUOTE, 'a', '$', LBRACE])).1.text [DQUOTE, 'a', '$', LBRACE] =
        [DQUOTE, 'a', '$'] ∧
      (scanToken (initScanner [DQUOTE, 'a', '$', LBRACE])).2.current = 4 := by
  decide

open Scanner in
/-- C15, amended. For the token of a call of `scanToken` in a run from the
initial scanner over a source without NUL, in which no access outside the
array `interpolating` is made up to and including that call, unless the token
is a `TOKEN_ERROR`: its text starts in the source at the first character after
the whitespace and comments the call skipped, it is the part of the source
from there to its end, the call leaves the cursor within the source, and the
text ends at that cursor, except that a `TOKEN_INTERPOLATION` ends one
character before it. -/
theorem token_text_is_matched_substring (source : List Char) (h0 : NUL ∉ source) (n : Nat)
    (hin : (scanToken (scanTokens n (initScanner source)).2).2.outOfBounds = false) :
    (scanToken (scanTokens n (initScanner source)).2).1.type ≠ TOKEN_ERROR →
      ∃ k, (scanToken (scanTokens n (initScanner source)).2).1.start = .src k ∧
        k = (scanTokens n (initScanner source)).2.skipWhitespace.current ∧
        (scanToken (scanTokens n (initScanner source)).2).1.text source =
          (source.take (k + (scanToken (scanTokens n (initScanner source)).2).1.length)).drop k ∧
        (scanToken (scanTokens n (initScanner source)).2).2.current ≤ source.length ∧
        ((scanToken (scanTokens n (initScanner source)).2).1.type ≠ TOKEN_INTERPOLATION →
          k + (scanToken (scanTokens n (initScanner source)).2).1.length =
            (scanToken (scanTokens n (initScanner source)).2).2.current) ∧
        ((scanToken (scanTokens n (initScanner source)).2).1.type = TOKEN_INTERPOLATION →
          k + (scanToken (scanTokens n (initScanner source)).2).1.length + 1 =
            (scanToken (scanTokens n (initScanner source)).2).2.current) := by
  intro hne
  obtain ⟨hw0, hs0⟩ := initScanner_ok source h0
  obtain ⟨a, b, c, -⟩ := scanTokens_inv n (initScanner source) hw0 hs0 (scanToken_flag _ hin)
  have a' : (scanTokens n (initScanner source)).2.source = source := a
  obtain ⟨e1, e2, e3, e4, e5, e6, e7, e8⟩ := atEof_walks (scanTokens n (initScanner source)).2
  obtain ⟨⟨m1, m2, m3, m4⟩, ⟨k1, k2⟩, k3, k4, k5, k6, k7⟩ := scanToken_scans _ c
  obtain ⟨t1, t2⟩ := k2 hne
  have hst : (scanToken (scanTokens n (initScanner source)).2).2.start =
      (scanTokens n (initScanner source)).2.skipWhitespace.current := by
    rw [m2, e2, e3]
  have hin2 := (k4 (e8 b)).2
  rw [m1, e1, a'] at hin2
  refine ⟨_, t1, hst, ?_, hin2, fun h => ?_, fun h => ?_⟩
  · unfold Token.text
    rw [t1]
    simp only [List.drop_take, Nat.add_sub_cancel_left]
  · rw [if_neg h] at t2; exact t2
  · rw [if_pos h] at t2; exact t2

/-- C15, amended, at the source `"a${`: the call stays within the array, the
text of the first token is `"a$`, from offset 0, and the cursor is left at
offset 4. -/
theorem token_text_is_matched_substring_witness :
    NUL ∉ [DQUOTE, 'a', '$', LBRACE] ∧
      (scanToken (scanTokens 0 (initScanner [DQUOTE, 'a', '$', LBRACE])).2).2.outOfBounds =
        false ∧
      ∃ k, (scanToken (scanTokens 0 (initScanner [DQUOTE, 'a', '$', LBRACE])).2).1.start =
          .src k ∧
        k = (scanTokens 0 (initScanner [DQUOTE, 'a', '$', LBRACE])).2.skipWhitespace.current ∧
        (scanToken (scanTokens 0 (initScanner [DQUOTE, 'a', '$', LBRACE])).2).1.text
            [DQUOTE, 'a', '$', LBRACE] =
          ([DQUOTE, 'a', '$', LBRACE].take
            (k + (scanToken (scanTokens 0 (initScanner [DQUOTE, 'a', '$', LBRACE])).2).1.length)).drop
              k ∧
        (scanToken (scanTokens 0 (initScanner [DQUOTE, 'a', '$', LBRACE])).2).2.current ≤
          [DQUOTE, 'a', '$', LBRACE].length ∧
        ((scanToken (scanTokens 0 (initScanner [DQUOTE, 'a', '$', LBRACE])).2).1.type ≠
            TOKEN_INTERPOLATION →
          k + (scanToken (scanTokens 0 (initScanner [DQUOTE, 'a', '$', LBRACE])).2).1.length =
            (scanToken (scanTokens 0 (initScanner [DQUOTE, 'a', '$', LBRACE])).2).2.current) ∧
        ((scanToken (scanTokens 0 (initScanner [DQUOTE, 'a', '$', LBRACE])).2).1.type =
            TOKEN_INTERPOLATION →
          k + (scanToken (scanTokens 0 (initScanner [DQUOTE, 'a', '$', LBRACE])).2).1.length + 1 =
            (scanToken (scanTokens 0 (initScanner [DQUOTE, 'a', '$', LBRACE])).2).2.current) :=
  ⟨by decide, by decide,
    token_text_is_matched_substring [DQUOTE, 'a', '$', LBRACE] (by decide) 0 (by decide)
      (by decide)⟩

/-! ## C16: keywords and identifiers -/

namespace Scanner

/-- The loop over the keyword table returns the type of a row that spells the
lexeme, and `TOKEN_IDENTIFIER` when no row does. -/
theorem keywordType_spec (w : List Char) :
    ∀ ks : List Keyword, (∀ k ∈ ks, k.length = k.identifier.length) →
      (keywordType w ks = TOKEN_IDENTIFIER ∧ ∀ k ∈ ks, k.identifier ≠ w) ∨
        ∃ k ∈ ks, k.identifier = w ∧ keywordType w ks = k.tokenType := by
  intro ks
  induction ks with
  | nil => intro _; left; exact ⟨rfl, fun _ h => by cases h⟩
  | cons k ks ih =>
    intro hl
    have hkl := hl k (List.mem_cons_self _ _)
    rw [keywordType]
    by_cases hm : (decide (w.length = k.length) && w == k.identifier.take w.length) = true
    · rw [if_pos hm]
      right
      simp only [Bool.and_eq_true, decide_eq_true_eq, beq_iff_eq] at hm
      refine ⟨k, List.mem_cons_self _ _, ?_, rfl⟩
      have : k.identifier.take w.length = k.identifier := by
        rw [hm.1, hkl]; exact List.take_length _
      rw [← this]; exact hm.2.symm
    · rw [if_neg hm]
      have hne : k.identifier ≠ w := by
        intro h
        apply hm
        subst h
        simp [hkl]
      rcases ih (fun k hk => hl k (List.mem_cons_of_mem _ hk)) with ⟨h1, h2⟩ | ⟨k', hk', h1, h2⟩
      · left
        refine ⟨h1, fun k'' hk'' => ?_⟩
        rcases List.mem_cons.1 hk'' with rfl | h
        · exact hne
        · exact h2 _ h
      · right
        exact ⟨k', List.mem_cons_of_mem _ hk', h1, h2⟩

theorem keywords_types_distinct :
    (keywords.map (fun k => k.tokenType)).Nodup ∧ (keywords.map (fun k => k.identifier)).Nodup ∧
      TOKEN_IDENTIFIER ∉ keywords.map (fun k => k.tokenType) ∧ keywords.length = 20 := by
  decide

/-- The type the keyword table gives a lexeme. -/
theorem keywordType_iff (w : List Char) :
    (∀ k ∈ keywords, (keywordType w keywords = k.tokenType ↔ w = k.identifier)) ∧
      (keywordType w keywords = TOKEN_IDENTIFIER ↔ ∀ k ∈ keywords, w ≠ k.identifier) := by
  obtain ⟨d1, d2, d3, -⟩ := keywords_types_distinct
  have i1 := List.inj_on_of_nodup_map d1
  have i2 := List.inj_on_of_nodup_map d2
  have d3' : ∀ k ∈ keywords, k.tokenType ≠ TOKEN_IDENTIFIER := by
    intro k hk h
    exact d3 (List.mem_map.2 ⟨k, hk, h⟩)
  rcases keywordType_spec w keywords keywords_length with ⟨h1, h2⟩ | ⟨k', hk', h1, h2⟩
  · refine ⟨fun k hk => ⟨fun h => ?_, fun h => ?_⟩,
      ⟨fun _ => fun k hk h => h2 k hk h.symm, fun _ => h1⟩⟩
    · exact absurd (h.symm.trans h1) (d3' k hk)
    · exact absurd h.symm (h2 k hk)
  · refine ⟨fun k hk => ⟨fun h => ?_, fun h => ?_⟩, ⟨fun h => ?_, fun h => ?_⟩⟩
    · have := i1 hk' hk (h2.symm.trans h)
      rw [← this]; exact h1.symm
    · have := i2 hk' hk (h1.trans h)
      rw [← this]; exact h2
    · exact absurd (h2.symm.trans h) (d3' k' hk')
    · exact absurd h1.symm (h k' hk')

end Scanner

/-- No spelling of the keyword table starts another. -/
theorem keywords_prefix_free :
    ∀ k ∈ keywords, ∀ j ∈ keywords,
      (j.identifier <+: k.identifier ∨ k.identifier <+: j.identifier) → j = k := by
  decide!

open Scanner in
/-- C16. At a word: a letter or underscore `a`, then letters, digits and
underscores `xs`, then a character that is none of these. `scanToken` returns
one token whose text is the word and leaves the cursor after it; its type is
that of a row of the keyword table, which has 20 rows, exactly when the word
is the spelling of that row, and it is `TOKEN_IDENTIFIER` exactly when the
word is the spelling of no row, as is every word that starts a keyword or
starts with one without being that keyword. -/
theorem word_is_keyword_or_identifier (a : Char) (xs : List Char) (s : Scanner)
    (pre rest : List Char) (h : s.At pre (a :: xs ++ rest)) (ha : isAlpha a = true)
    (hx : ∀ c ∈ xs, (isAlpha c || isDigit c) = true)
    (hr : (isAlpha (rest.headD NUL) || isDigit (rest.headD NUL)) = false) :
    (scanToken s).1.text s.source = a :: xs ∧
      (scanToken s).2.At (pre ++ a :: xs) rest ∧
      (∀ k ∈ keywords, ((scanToken s).1.type = k.tokenType ↔ a :: xs = k.identifier)) ∧
      ((scanToken s).1.type = TOKEN_IDENTIFIER ↔ ∀ k ∈ keywords, a :: xs ≠ k.identifier) ∧
      keywords.length = 20 ∧
      (∀ k ∈ keywords, (a :: xs <+: k.identifier ∨ k.identifier <+: a :: xs) →
        a :: xs ≠ k.identifier → (scanToken s).1.type = TOKEN_IDENTIFIER) := by
  have h1 := scanToken_word a xs s pre rest h ha hx hr
  have hk := keywordType_iff (a :: xs)
  have hext : ∀ k ∈ keywords, (a :: xs <+: k.identifier ∨ k.identifier <+: a :: xs) →
      a :: xs ≠ k.identifier → keywordType (a :: xs) keywords = TOKEN_IDENTIFIER := by
    intro k hkm hpre hne
    apply hk.2.2
    intro j hj hw
    apply hne
    have := keywords_prefix_free k hkm j hj (by rw [← hw]; exact hpre)
    rw [hw, this]
  rw [h1]
  refine ⟨?_, ⟨by simp [h.1], by simp [h.2]; omega⟩, hk.1, hk.2, rfl, hext⟩
  simp only [Token.text]
  rw [h.1, h.2, List.drop_left]
  exact @take_eq_of_append _ _ rest _ (by simp) (by simp; omega)

/-- C16, at the words `i`, `iff`, `whiles` and `while`, each followed by the
end of the source: three identifiers and a keyword. -/
theorem word_is_keyword_or_identifier_witness :
    (scanToken (initScanner ['i'])).1.type = TOKEN_IDENTIFIER ∧
      (scanToken (initScanner ['i', 'f', 'f'])).1.type = TOKEN_IDENTIFIER ∧
      (scanToken (initScanner ['w', 'h', 'i', 'l', 'e', 's'])).1.type = TOKEN_IDENTIFIER ∧
      (scanToken (initScanner ['w', 'h', 'i', 'l', 'e'])).1.type = TOKEN_WHILE :=
  ⟨(word_is_keyword_or_identifier 'i' [] (initScanner ['i']) [] [] ⟨rfl, rfl⟩ (by decide)
      (by simp) (by decide)).2.2.2.1.2 (by decide),
    (word_is_keyword_or_identifier 'i' ['f', 'f'] (initScanner ['i', 'f', 'f']) [] []
      ⟨rfl, rfl⟩ (by decide) (by decide) (by decide)).2.2.2.1.2 (by decide),
    (word_is_keyword_or_identifier 'w' ['h', 'i', 'l', 'e', 's']
      (initScanner ['w', 'h', 'i', 'l', 'e', 's']) [] []
      ⟨rfl, rfl⟩ (by decide) (by decide) (by decide)).2.2.2.1.2 (by decide),
    ((word_is_keyword_or_identifier 'w' ['h', 'i', 'l', 'e']
      (initScanner ['w', 'h', 'i', 'l', 'e']) [] []
      ⟨rfl, rfl⟩ (by decide) (by decide) (by decide)).2.2.1
        ⟨['w', 'h', 'i', 'l', 'e'], 5, TOKEN_WHILE⟩ (by decide)).2 rfl⟩

/-! ## Punctuation and operators -/

namespace Scanner

/-- A call of `match` for a character that is neither the terminator nor a
line feed. -/
theorem matchChar_headD (s : Scanner) (pre r : List Char) (e : Char) (h : s.At pre r)
    (he0 : e ≠ NUL) (hel : e ≠ LF) :
    s.matchChar e =
      if r.headD NUL = e then (true, { s with current := s.current + 1 }) else (false, s) := by
  by_cases hh : r.headD NUL = e
  · rw [if_pos hh]
    cases r with
    | nil => exact absurd hh (fun h => he0 h.symm)
    | cons x r1 =>
      have : x = e := hh
      subst this
      exact matchChar_of_eq h he0 hel
  · rw [if_neg hh]
    exact matchChar_of_ne (by rw [h.current_eq]; exact hh)

/-- The start of a call of `scanToken` at a character that is not skipped and
is neither the terminator nor a line feed. -/
theorem scanToken_start (s : Scanner) (pre : List Char) (c : Char) (r : List Char)
    (h : s.At pre (c :: r))
    (hb : (c == ' ' || c == CR || c == TAB) = false) (hh : (c == '#') = false)
    (h0 : (c == NUL) = false) (hl : (c == LF) = false) :
    s.skipWhitespace = s ∧ ({ s with start := s.current } : Scanner).isAtEnd = false ∧
      ({ s with start := s.current } : Scanner).advance =
        (c, { s with start := s.current, current := s.current + 1 }) ∧
      ({ s with start := s.current, current := s.current + 1 } : Scanner).At (pre ++ [c]) r := by
  have hc : s.current_ = c := by rw [h.current_eq]; rfl
  have hc2 : ({ s with start := s.current } : Scanner).current_ = c := hc
  refine ⟨skipWhitespace_of_not_blank (by rw [hc]; exact hb) (by rw [hc]; exact hh), ?_, ?_, ?_⟩
  · unfold isAtEnd; rw [hc2]; exact h0
  · rw [advance_eq, hc2, hl]; rfl
  · exact ⟨by simp [h.1], by simp [h.2]⟩

end Scanner

open Scanner in
/-- The token of a punctuation character that the scanner looks no further
than. -/
theorem scanToken_single (c : Char) (ty : TokenType)
    (hmem : (c, ty) ∈ [('(', TOKEN_LEFT_PAREN), (')', TOKEN_RIGHT_PAREN),
      ('[', TOKEN_LEFT_BRACKET), (']', TOKEN_RIGHT_BRACKET), (LBRACE, TOKEN_LEFT_BRACE),
      (',', TOKEN_COMMA), (':', TOKEN_COLON)])
    (s : Scanner) (pre r : List Char) (h : s.At pre (c :: r)) :
    scanToken s =
      ({ type := ty, start := .src s.current, length := 1, line := s.line },
        { s with start := s.current, current := s.current + 1 }) := by
  simp only [List.mem_cons, Prod.mk.injEq, List.mem_singleton, List.not_mem_nil, or_false] at hmem
  rcases hmem with h1 | h1 | h1 | h1 | h1 | h1 | h1
  all_goals
    obtain ⟨rfl, rfl⟩ := h1
    obtain ⟨hws, hend, hadv, -⟩ := scanToken_start s pre _ r h (by decide) (by decide) (by decide)
      (by decide)
    unfold scanToken
    rw [hws]
    simp only [hend, Bool.false_eq_true, if_false]
    rw [hadv]
    simp [isDigit, isAlpha, LBRACE, RBRACE, LF, makeToken]

open Scanner in
/-- The token of a `}` outside interpolation. -/
theorem scanToken_rbrace_outside (s : Scanner) (pre r : List Char) (h : s.At pre (RBRACE :: r))
    (hout : s.interpolatingCount ≤ -1) :
    scanToken s =
      ({ type := TOKEN_RIGHT_BRACE, start := .src s.current, length := 1, line := s.line },
        { s with start := s.current, current := s.current + 1 }) := by
  obtain ⟨hws, hend, hadv, -⟩ := scanToken_start s pre _ r h (by decide) (by decide) (by decide)
    (by decide)
  have hc : ¬ s.interpolatingCount > -1 := by omega
  unfold scanToken
  rw [hws]
  simp only [hend, Bool.false_eq_true, if_false]
  rw [hadv]
  simp [isDigit, isAlpha, LBRACE, RBRACE, LF, makeToken, hc]

set_option maxHeartbeats 4000000 in
open Scanner in
/-- The token of an operator character that the scanner looks one character
past. -/
theorem scanToken_lookahead (c e : Char) (ty1 ty2 : TokenType)
    (hmem : (c, e, ty1, ty2) ∈ [('.', '.', TOKEN_DOT, TOKEN_DOT_DOT),
      ('+', '=', TOKEN_PLUS, TOKEN_PLUS_EQUAL), ('-', '=', TOKEN_MINUS, TOKEN_MINUS_EQUAL),
      ('%', '=', TOKEN_PERCENT, TOKEN_PERCENT_EQUAL), ('=', '=', TOKEN_EQUAL, TOKEN_EQUAL_EQUAL),
      ('>', '=', TOKEN_GREATER_THAN, TOKEN_GREATER_EQUAL),
      ('<', '=', TOKEN_LESS_THAN, TOKEN_LESS_EQUAL), ('!', '=', TOKEN_BANG, TOKEN_BANG_EQUAL),
      ('~', '=', TOKEN_TILDE, TOKEN_TILDE_EQUAL), ('|', '=', TOKEN_PIPE, TOKEN_PIPE_EQUAL),
      ('&', '=', TOKEN_AMP, TOKEN_AMP_EQUAL), ('^', '=', TOKEN_CARET, TOKEN_CARET_EQUAL)])
    (s : Scanner) (pre r : List Char) (h : s.At pre (c :: r)) :
    scanToken s =
      if r.headD NUL = e then
        ({ type := ty2, start := .src s.current, length := 2, line := s.line },
          { s with start := s.current, current := s.current + 2 })
      else
        ({ type := ty1, start := .src s.current, length := 1, line := s.line },
          { s with start := s.current, current := s.current + 1 }) := by
  simp only [List.mem_cons, Prod.mk.injEq, List.mem_singleton, List.not_mem_nil, or_false] at hmem
  rcases hmem with h1 | h1 | h1 | h1 | h1 | h1 | h1 | h1 | h1 | h1 | h1 | h1
  all_goals
    obtain ⟨hc, he, rfl, rfl⟩ := h1
    obtain ⟨hws, hend, hadv, hat⟩ := scanToken_start s pre c r h (by rw [hc]; decide)
      (by rw [hc]; decide) (by rw [hc]; decide) (by rw [hc]; decide)
    have hm : ({ s with start := s.current, current := s.current + 1 } : Scanner).matchChar e =
        if r.headD NUL = e then (true, { s with start := s.current, current := s.current + 2 })
        else (false, { s with start := s.current, current := s.current + 1 }) :=
      matchChar_headD _ _ r e hat (by rw [he]; decide) (by rw [he]; decide)
    by_cases hh : r.headD NUL = e
    · rw [if_pos hh] at hm ⊢
      subst hc he
      unfold scanToken
      rw [hws]
      simp only [hend, Bool.false_eq_true, if_false]
      rw [hadv]
      simp [isDigit, isAlpha, LBRACE, RBRACE, LF, hm, makeToken]
    · rw [if_neg hh] at hm ⊢
      subst hc he
      unfold scanToken
      rw [hws]
      simp only [hend, Bool.false_eq_true, if_false]
      rw [hadv]
      simp [isDigit, isAlpha, LBRACE, RBRACE, LF, hm, makeToken]

theorem eq_cons_of_headD {r : List Char} {c : Char} (h : r.headD NUL = c) (hc : c ≠ NUL) :
    r = c :: r.tail := by
  cases r with
  | nil => exact absurd h (fun h => hc h.symm)
  | cons x r1 =>
    have : x = c := h
    rw [this]; rfl

set_option maxHeartbeats 4000000 in
open Scanner in
/-- The token of `*` and of `/`, after which the scanner looks two characters
ahead. -/
theorem scanToken_lookahead2 (c : Char) (ty1 ty2 ty3 ty4 : TokenType)
    (hmem : (c, ty1, ty2, ty3, ty4) ∈
      [('*', TOKEN_STAR, TOKEN_STAR_EQUAL, TOKEN_STAR_STAR, TOKEN_STAR_STAR_EQUAL),
       ('/', TOKEN_SLASH, TOKEN_SLASH_EQUAL, TOKEN_SLASH_SLASH, TOKEN_SLASH_SLASH_EQUAL)])
    (s : Scanner) (pre r : List Char) (h : s.At pre (c :: r)) :
    scanToken s =
      if r.headD NUL = c then
        if r.tail.headD NUL = '=' then
          ({ type := ty4, start := .src s.current, length := 3, line := s.line },
            { s with start := s.current, current := s.current + 3 })
        else
          ({ type := ty3, start := .src s.current, length := 2, line := s.line },
            { s with start := s.current, current := s.current + 2 })
      else
        if r.headD NUL = '=' then
          ({ type := ty2, start := .src s.current, length := 2, line := s.line },
            { s with start := s.current, current := s.current + 2 })
        else
          ({ type := ty1, start := .src s.current, length := 1, line := s.line },
            { s with start := s.current, current := s.current + 1 }) := by
  simp only [List.mem_cons, Prod.mk.injEq, List.mem_singleton, List.not_mem_nil, or_false] at hmem
  rcases hmem with ⟨hc, rfl, rfl, rfl, rfl⟩ | ⟨hc, rfl, rfl, rfl, rfl⟩
  all_goals
    obtain ⟨hws, hend, hadv, hat⟩ := scanToken_start s pre c r h (by rw [hc]; decide)
      (by rw [hc]; decide) (by rw [hc]; decide) (by rw [hc]; decide)
    have hc0 : c ≠ NUL := by rw [hc]; decide
    have hm : ({ s with start := s.current, current := s.current + 1 } : Scanner).matchChar c =
        if r.headD NUL = c then (true, { s with start := s.current, current := s.current + 2 })
        else (false, { s with start := s.current, current := s.current + 1 }) :=
      matchChar_headD _ _ r c hat hc0 (by rw [hc]; decide)
    by_cases hh : r.headD NUL = c
    · have hr := eq_cons_of_headD hh hc0
      have hat2 : ({ s with start := s.current, current := s.current + 2 } : Scanner).At
          (pre ++ [c, c]) r.tail := by
        refine ⟨?_, ?_⟩
        · show s.source = pre ++ [c, c] ++ r.tail
          rw [h.1]; nth_rewrite 1 [hr]; simp
        · show s.current + 2 = (pre ++ [c, c]).length
          rw [h.2]; simp
      have hm2 : ({ s with start := s.current, current := s.current + 2 } : Scanner).matchChar '=' =
          if r.tail.headD NUL = '=' then
            (true, { s with start := s.current, current := s.current + 3 })
          else (false, { s with start := s.current, current := s.current + 2 }) :=
        matchChar_headD _ _ r.tail '=' hat2 (by decide) (by decide)
      rw [if_pos hh] at hm ⊢
      by_cases hh2 : r.tail.headD NUL = '='
      · rw [if_pos hh2] at hm2 ⊢
        subst hc
        unfold scanToken
        rw [hws]
        simp only [hend, Bool.false_eq_true, if_false]
        rw [hadv]
        simp [isDigit, isAlpha, LBRACE, RBRACE, LF, hm, hm2, makeToken]
      · rw [if_neg hh2] at hm2 ⊢
        subst hc
        unfold scanToken
        rw [hws]
        simp only [hend, Bool.false_eq_true, if_false]
        rw [hadv]
        simp [isDigit, isAlpha, LBRACE, RBRACE, LF, hm, hm2, makeToken]
    · have hm2 : ({ s with start := s.current, current := s.current + 1 } : Scanner).matchChar '=' =
          if r.headD NUL = '=' then
            (true, { s with start := s.current, current := s.current + 2 })
          else (false, { s with start := s.current, current := s.current + 1 }) :=
        matchChar_headD _ _ r '=' hat (by decide) (by decide)
      rw [if_neg hh] at hm ⊢
      by_cases hh2 : r.headD NUL = '='
      · rw [if_pos hh2] at hm2 ⊢
        subst hc
        unfold scanToken
        rw [hws]
        simp only [hend, Bool.false_eq_true, if_false]
        rw [hadv]
        simp [isDigit, isAlpha, LBRACE, RBRACE, LF, hm, hm2, makeToken]
      · rw [if_neg hh2] at hm2 ⊢
        subst hc
        unfold scanToken
        rw [hws]
        simp only [hend, Bool.false_eq_true, if_false]
        rw [hadv]
        simp [isDigit, isAlpha, LBRACE, RBRACE, LF, hm, hm2, makeToken]

/-! ## C17: operators by maximal munch -/

open Scanner in
/-- C17. At a cursor before `rest`, when `sp` is a spelling of the list of
punctuation and operators that `rest` starts with and no spelling of the list
that `rest` starts with is longer, `scanToken` returns the token of the type
of `sp`, whose text is `sp`, and moves the cursor over `sp` and no further.
This is outside interpolation: a `}` while `interpolatingCount` is above -1
resumes a string instead. -/
theorem operator_maximal_munch (s : Scanner) (pre rest : List Char) (h : s.At pre rest)
    (sp : List Char) (ty : TokenType) (hmem : (sp, ty) ∈ specOperators) (hpre : sp <+: rest)
    (hmax : ∀ e ∈ specOperators, e.1 <+: rest → e.1.length ≤ sp.length)
    (hout : s.interpolatingCount ≤ -1 ∨ sp ≠ [RBRACE]) :
    scanToken s =
      ({ type := ty, start := .src s.current, length := sp.length, line := s.line },
        { s with start := s.current, current := s.current + sp.length }) := by
  have key : ∀ (p : List Char) (x : Char) (ty2 : TokenType) (t : List Char),
      (p ++ [x], ty2) ∈ specOperators → rest = p ++ t → x ≠ NUL →
      sp.length < (p ++ [x]).length → t.headD NUL ≠ x := by
    intro p x ty2 t hm hr hx hlen hh
    have ht := eq_cons_of_headD hh hx
    have hp : (p ++ [x]) <+: rest := ⟨t.tail, by rw [hr]; nth_rewrite 2 [ht]; simp⟩
    have : (p ++ [x]).length ≤ sp.length := hmax _ hm hp
    omega
  obtain ⟨t, ht⟩ := hpre
  simp only [specOperators, List.mem_cons, Prod.mk.injEq, List.mem_singleton, List.not_mem_nil,
    or_false] at hmem
  rcases hmem with h1 | h2 | h3 | h4 | h5 | h6 | h7 | h8 | h9 | h10 | h11 | h12 | h13 | h14 |
    h15 | h16 | h17 | h18 | h19 | h20 | h21 | h22 | h23 | h24 | h25 | h26 | h27 | h28 | h29 |
    h30 | h31 | h32 | h33 | h34 | h35 | h36 | h37 | h38 | h39 | h40
  · obtain ⟨rfl, rfl⟩ := h1
    have hat : s.At pre ('(' :: t) := by rw [← ht] at h; exact h
    exact scanToken_single '(' TOKEN_LEFT_PAREN (by decide) s pre t hat
  · obtain ⟨rfl, rfl⟩ := h2
    have hat : s.At pre (')' :: t) := by rw [← ht] at h; exact h
    exact scanToken_single ')' TOKEN_RIGHT_PAREN (by decide) s pre t hat
  · obtain ⟨rfl, rfl⟩ := h3
    have hat : s.At pre ('[' :: t) := by rw [← ht] at h; exact h
    exact scanToken_single '[' TOKEN_LEFT_BRACKET (by decide) s pre t hat
  · obtain ⟨rfl, rfl⟩ := h4
    have hat : s.At pre (']' :: t) := by rw [← ht] at h; exact h
    exact scanToken_single ']' TOKEN_RIGHT_BRACKET (by decide) s pre t hat
  · obtain ⟨rfl, rfl⟩ := h5
    have hat : s.At pre (LBRACE :: t) := by rw [← ht] at h; exact h
    exact scanToken_single LBRACE TOKEN_LEFT_BRACE (by decide) s pre t hat
  · obtain ⟨rfl, rfl⟩ := h6
    have hat : s.At pre (RBRACE :: t) := by rw [← ht] at h; exact h
    exact scanToken_rbrace_outside s pre t hat (hout.resolve_right (fun hn => hn rfl))
  · obtain ⟨rfl, rfl⟩ := h7
    have hat : s.At pre (',' :: t) := by rw [← ht] at h; exact h
    exact scanToken_single ',' TOKEN_COMMA (by decide) s pre t hat
  · obtain ⟨rfl, rfl⟩ := h8
    have hat : s.At pre (':' :: t) := by rw [← ht] at h; exact h
    exact scanToken_single ':' TOKEN_COLON (by decide) s pre t hat
  · obtain ⟨rfl, rfl⟩ := h9
    have hat : s.At pre ('.' :: t) := by rw [← ht] at h; exact h
    have hne := key ['.'] '.' TOKEN_DOT_DOT t (by decide) ht.symm (by decide) (by decide)
    rw [scanToken_lookahead '.' '.' TOKEN_DOT TOKEN_DOT_DOT (by decide) s pre t hat, if_neg hne]
    rfl
  · obtain ⟨rfl, rfl⟩ := h10
    have hat : s.At pre ('.' :: '.' :: t) := by rw [← ht] at h; exact h
    rw [scanToken_lookahead '.' '.' TOKEN_DOT TOKEN_DOT_DOT (by decide) s pre ('.' :: t) hat,
      if_pos (show ('.' :: t).headD NUL = '.' from rfl)]
    rfl
  · obtain ⟨rfl, rfl⟩ := h11
    have hat : s.At pre ('+' :: t) := by rw [← ht] at h; exact h
    have hne := key ['+'] '=' TOKEN_PLUS_EQUAL t (by decide) ht.symm (by decide) (by decide)
    rw [scanToken_lookahead '+' '=' TOKEN_PLUS TOKEN_PLUS_EQUAL (by decide) s pre t hat, if_neg hne]
    rfl
  · obtain ⟨rfl, rfl⟩ := h12
    have hat : s.At pre ('+' :: '=' :: t) := by rw [← ht] at h; exact h
    rw [scanToken_lookahead '+' '=' TOKEN_PLUS TOKEN_PLUS_EQUAL (by decide) s pre ('=' :: t) hat,
      if_pos (show ('=' :: t).headD NUL = '=' from rfl)]
    rfl
  · obtain ⟨rfl, rfl⟩ := h13
    have hat : s.At pre ('-' :: t) := by rw [← ht] at h; exact h
    have hne := key ['-'] '=' TOKEN_MINUS_EQUAL t (by decide) ht.symm (by decide) (by decide)
    rw [scanToken_lookahead '-' '=' TOKEN_MINUS TOKEN_MINUS_EQUAL (by decide) s pre t hat, if_neg hne]
    rfl
  · obtain ⟨rfl, rfl⟩ := h14
    have hat : s.At pre ('-' :: '=' :: t) := by rw [← ht] at h; exact h
    rw [scanToken_lookahead '-' '=' TOKEN_MINUS TOKEN_MINUS_EQUAL (by decide) s pre ('=' :: t) hat,
      if_pos (show ('=' :: t).headD NUL = '=' from rfl)]
    rfl
  · obtain ⟨rfl, rfl⟩ := h15
    have hat : s.At pre ('*' :: t) := by rw [← ht] at h; exact h
    have hne := key ['*'] '*' TOKEN_STAR_STAR t (by decide) ht.symm (by decide) (by decide)
    have hne2 := key ['*'] '=' TOKEN_STAR_EQUAL t (by decide) ht.symm (by decide) (by decide)
    rw [scanToken_lookahead2 '*' TOKEN_STAR TOKEN_STAR_EQUAL TOKEN_STAR_STAR TOKEN_STAR_STAR_EQUAL (by decide) s pre t hat,
      if_neg hne, if_neg hne2]
    rfl
  · obtain ⟨rfl, rfl⟩ := h16
    have hat : s.At pre ('*' :: '=' :: t) := by rw [← ht] at h; exact h
    rw [scanToken_lookahead2 '*' TOKEN_STAR TOKEN_STAR_EQUAL TOKEN_STAR_STAR TOKEN_STAR_STAR_EQUAL (by decide) s pre
      ('=' :: t) hat,
      if_neg (show ¬ ('=' :: t).headD NUL = '*' from (show ('=' : Char) ≠ '*' by decide)),
      if_pos (show ('=' :: t).headD NUL = '=' from rfl)]
    rfl
  · obtain ⟨rfl, rfl⟩ := h17
    have hat : s.At pre ('*' :: '*' :: t) := by rw [← ht] at h; exact h
    have hne := key ['*', '*'] '=' TOKEN_STAR_STAR_EQUAL t (by decide) ht.symm (by decide) (by decide)
    rw [scanToken_lookahead2 '*' TOKEN_STAR TOKEN_STAR_EQUAL TOKEN_STAR_STAR TOKEN_STAR_STAR_EQUAL (by decide) s pre
      ('*' :: t) hat, if_pos (show ('*' :: t).headD NUL = '*' from rfl),
      if_neg (show ¬ ('*' :: t).tail.headD NUL = '=' from hne)]
    rfl
  · obtain ⟨rfl, rfl⟩ := h18
    have hat : s.At pre ('*' :: '*' :: '=' :: t) := by rw [← ht] at h; exact h
    rw [scanToken_lookahead2 '*' TOKEN_STAR TOKEN_STAR_EQUAL TOKEN_STAR_STAR TOKEN_STAR_STAR_EQUAL (by decide) s pre
      ('*' :: '=' :: t) hat,
      if_pos (show ('*' :: '=' :: t).headD NUL = '*' from rfl),
      if_pos (show ('*' :: '=' :: t).tail.headD NUL = '=' from rfl)]
    rfl
  · obtain ⟨rfl, rfl⟩ := h19
    have hat : s.At pre ('/' :: t) := by rw [← ht] at h; exact h
    have hne := key ['/'] '/' TOKEN_SLASH_SLASH t (by decide) ht.symm (by decide) (by decide)
    have hne2 := key ['/'] '=' TOKEN_SLASH_EQUAL t (by decide) ht.symm (by decide) (by decide)
    rw [scanToken_lookahead2 '/' TOKEN_SLASH TOKEN_SLASH_EQUAL TOKEN_SLASH_SLASH TOKEN_SLASH_SLASH_EQUAL (by decide) s pre t hat,
      if_neg hne, if_neg hne2]
    rfl
  · obtain ⟨rfl, rfl⟩ := h20
    have hat : s.At pre ('/' :: '=' :: t) := by rw [← ht] at h; exact h
    rw [scanToken_lookahead2 '/' TOKEN_SLASH TOKEN_SLASH_EQUAL TOKEN_SLASH_SLASH TOKEN_SLASH_SLASH_EQUAL (by decide) s pre
      ('=' :: t) hat,
      if_neg (show ¬ ('=' :: t).headD NUL = '/' from (show ('=' : Char) ≠ '/' by decide)),
      if_pos (show ('=' :: t).headD NUL = '=' from rfl)]
    rfl
  · obtain ⟨rfl, rfl⟩ := h21
    have hat : s.At pre ('/' :: '/' :: t) := by rw [← ht] at h; exact h
    have hne := key ['/', '/'] '=' TOKEN_SLASH_SLASH_EQUAL t (by decide) ht.symm (by decide) (by decide)
    rw [scanToken_lookahead2 '/' TOKEN_SLASH TOKEN_SLASH_EQUAL TOKEN_SLASH_SLASH TOKEN_SLASH_SLASH_EQUAL (by decide) s pre
      ('/' :: t) hat, if_pos (show ('/' :: t).headD NUL = '/' from rfl),
      if_neg (show ¬ ('/' :: t).tail.headD NUL = '=' from hne)]
    rfl
  · obtain ⟨rfl, rfl⟩ := h22
    have hat : s.At pre ('/' :: '/' :: '=' :: t) := by rw [← ht] at h; exact h
    rw [scanToken_lookahead2 '/' TOKEN_SLASH TOKEN_SLASH_EQUAL TOKEN_SLASH_SLASH TOKEN_SLASH_SLASH_EQUAL (by decide) s pre
      ('/' :: '=' :: t) hat,
      if_pos (show ('/' :: '=' :: t).headD NUL = '/' from rfl),
      if_pos (show ('/' :: '=' :: t).tail.headD NUL = '=' from rfl)]
    rfl
  · obtain ⟨rfl, rfl⟩ := h23
    have hat : s.At pre ('%' :: t) := by rw [← ht] at h; exact h
    have hne := key ['%'] '=' TOKEN_PERCENT_EQUAL t (by decide) ht.symm (by decide) (by decide)
    rw [scanToken_lookahead '%' '=' TOKEN_PERCENT TOKEN_PERCENT_EQUAL (by decide) s pre t hat, if_neg hne]
    rfl
  · obtain ⟨rfl, rfl⟩ := h24
    have hat : s.At pre ('%' :: '=' :: t) := by rw [← ht] at h; exact h
    rw [scanToken_lookahead '%' '=' TOKEN_PERCENT TOKEN_PERCENT_EQUAL (by decide) s pre ('=' :: t) hat,
      if_pos (show ('=' :: t).headD NUL = '=' from rfl)]
    rfl
  · obtain ⟨rfl, rfl⟩ := h25
    have hat : s.At pre ('=' :: t) := by rw [← ht] at h; exact h
    have hne := key ['='] '=' TOKEN_EQUAL_EQUAL t (by decide) ht.symm (by decide) (by decide)
    rw [scanToken_lookahead '=' '=' TOKEN_EQUAL TOKEN_EQUAL_EQUAL (by decide) s pre t hat, if_neg hne]
    rfl
  · obtain ⟨rfl, rfl⟩ := h26
    have hat : s.At pre ('=' :: '=' :: t) := by rw [← ht] at h; exact h
    rw [scanToken_lookahead '=' '=' TOKEN_EQUAL TOKEN_EQUAL_EQUAL (by decide) s pre ('=' :: t) hat,
      if_pos (show ('=' :: t).headD NUL = '=' from rfl)]
    rfl
  · obtain ⟨rfl, rfl⟩ := h27
    have hat : s.At pre ('>' :: t) := by rw [← ht] at h; exact h
    have hne := key ['>'] '=' TOKEN_GREATER_EQUAL t (by decide) ht.symm (by decide) (by decide)
    rw [scanToken_lookahead '>' '=' TOKEN_GREATER_THAN TOKEN_GREATER_EQUAL (by decide) s pre t hat, if_neg hne]
    rfl
  · obtain ⟨rfl, rfl⟩ := h28
    have hat : s.At pre ('>' :: '=' :: t) := by rw [← ht] at h; exact h
    rw [scanToken_lookahead '>' '=' TOKEN_GREATER_THAN TOKEN_GREATER_EQUAL (by decide) s pre ('=' :: t) hat,
      if_pos (show ('=' :: t).headD NUL = '=' from rfl)]
    rfl
  · obtain ⟨rfl, rfl⟩ := h29
    have hat : s.At pre ('<' :: t) := by rw [← ht] at h; exact h
    have hne := key ['<'] '=' TOKEN_LESS_EQUAL t (by decide) ht.symm (by decide) (by decide)
    rw [scanToken_lookahead '<' '=' TOKEN_LESS_THAN TOKEN_LESS_EQUAL (by decide) s pre t hat, if_neg hne]
    rfl
  · obtain ⟨rfl, rfl⟩ := h30
    have hat : s.At pre ('<' :: '=' :: t) := by rw [← ht] at h; exact h
    rw [scanToken_lookahead '<' '=' TOKEN_LESS_THAN TOKEN_LESS_EQUAL (by decide) s pre ('=' :: t) hat,
      if_pos (show ('=' :: t).headD NUL = '=' from rfl)]
    rfl
  · obtain ⟨rfl, rfl⟩ := h31
    have hat : s.At pre ('!' :: t) := by rw [← ht] at h; exact h
    have hne := key ['!'] '=' TOKEN_BANG_EQUAL t (by decide) ht.symm (by decide) (by decide)
    rw [scanToken_lookahead '!' '=' TOKEN_BANG TOKEN_BANG_EQUAL (by decide) s pre t hat, if_neg hne]
    rfl
  · obtain ⟨rfl, rfl⟩ := h32
    have hat : s.At pre ('!' :: '=' :: t) := by rw [← ht] at h; exact h
    rw [scanToken_lookahead '!' '=' TOKEN_BANG TOKEN_BANG_EQUAL (by decide) s pre ('=' :: t) hat,
      if_pos (show ('=' :: t).headD NUL = '=' from rfl)]
    rfl
  · obtain ⟨rfl, rfl⟩ := h33
    have hat : s.At pre ('~' :: t) := by rw [← ht] at h; exact h
    have hne := key ['~'] '=' TOKEN_TILDE_EQUAL t (by decide) ht.symm (by decide) (by decide)
    rw [scanToken_lookahead '~' '=' TOKEN_TILDE TOKEN_TILDE_EQUAL (by decide) s pre t hat, if_neg hne]
    rfl
  · obtain ⟨rfl, rfl⟩ := h34
    have hat : s.At pre ('~' :: '=' :: t) := by rw [← ht] at h; exact h
    rw [scanToken_lookahead '~' '=' TOKEN_TILDE TOKEN_TILDE_EQUAL (by decide) s pre ('=' :: t) hat,
      if_pos (show ('=' :: t).headD NUL = '=' from rfl)]
    rfl
  · obtain ⟨rfl, rfl⟩ := h35
    have hat : s.At pre ('|' :: t) := by rw [← ht] at h; exact h
    have hne := key ['|'] '=' TOKEN_PIPE_EQUAL t (by decide) ht.symm (by decide) (by decide)
    rw [scanToken_lookahead '|' '=' TOKEN_PIPE TOKEN_PIPE_EQUAL (by decide) s pre t hat, if_neg hne]
    rfl
  · obtain ⟨rfl, rfl⟩ := h36
    have hat : s.At pre ('|' :: '=' :: t) := by rw [← ht] at h; exact h
    rw [scanToken_lookahead '|' '=' TOKEN_PIPE TOKEN_PIPE_EQUAL (by decide) s pre ('=' :: t) hat,
      if_pos (show ('=' :: t).headD NUL = '=' from rfl)]
    rfl
  · obtain ⟨rfl, rfl⟩ := h37
    have hat : s.At pre ('&' :: t) := by rw [← ht] at h; exact h
    have hne := key ['&'] '=' TOKEN_AMP_EQUAL t (by decide) ht.symm (by decide) (by decide)
    rw [scanToken_lookahead '&' '=' TOKEN_AMP TOKEN_AMP_EQUAL (by decide) s pre t hat, if_neg hne]
    rfl
  · obtain ⟨rfl, rfl⟩ := h38
    have hat : s.At pre ('&' :: '=' :: t) := by rw [← ht] at h; exact h
    rw [scanToken_lookahead '&' '=' TOKEN_AMP TOKEN_AMP_EQUAL (by decide) s pre ('=' :: t) hat,
      if_pos (show ('=' :: t).headD NUL = '=' from rfl)]
    rfl
  · obtain ⟨rfl, rfl⟩ := h39
    have hat : s.At pre ('^' :: t) := by rw [← ht] at h; exact h
    have hne := key ['^'] '=' TOKEN_CARET_EQUAL t (by decide) ht.symm (by decide) (by decide)
    rw [scanToken_lookahead '^' '=' TOKEN_CARET TOKEN_CARET_EQUAL (by decide) s pre t hat, if_neg hne]
    rfl
  · obtain ⟨rfl, rfl⟩ := h40
    have hat : s.At pre ('^' :: '=' :: t) := by rw [← ht] at h; exact h
    rw [scanToken_lookahead '^' '=' TOKEN_CARET TOKEN_CARET_EQUAL (by decide) s pre ('=' :: t) hat,
      if_pos (show ('=' :: t).headD NUL = '=' from rfl)]
    rfl

/-- C17, at the sources `**=`, `**` and `*=`: one token each, of three, two
and two characters. -/
theorem operator_maximal_munch_witness :
    (scanToken (initScanner ['*', '*', '='])).1 =
        { type := TOKEN_STAR_STAR_EQUAL, start := .src 0, length := 3, line := 1 } ∧
      (scanToken (initScanner ['*', '*'])).1 =
        { type := TOKEN_STAR_STAR, start := .src 0, length := 2, line := 1 } ∧
      (scanToken (initScanner ['*', '='])).1 =
        { type := TOKEN_STAR_EQUAL, start := .src 0, length := 2, line := 1 } :=
  ⟨congrArg Prod.fst (operator_maximal_munch (initScanner ['*', '*', '=']) [] ['*', '*', '=']
      ⟨rfl, rfl⟩ ['*', '*', '='] TOKEN_STAR_STAR_EQUAL (by decide) (by decide) (by decide)
      (Or.inl (by decide))),
    congrArg Prod.fst (operator_maximal_munch (initScanner ['*', '*']) [] ['*', '*']
      ⟨rfl, rfl⟩ ['*', '*'] TOKEN_STAR_STAR (by decide) (by decide) (by decide)
      (Or.inl (by decide))),
    congrArg Prod.fst (operator_maximal_munch (initScanner ['*', '=']) [] ['*', '=']
      ⟨rfl, rfl⟩ ['*', '='] TOKEN_STAR_EQUAL (by decide) (by decide) (by decide)
      (Or.inl (by decide)))⟩

/-! ## C13: the result of `compile` and `hadError` -/

namespace Compiler

/-- A property of the error flag and of what was written to `stderr` that
`errorAt` keeps is kept by every returning `advance`. -/
theorem advanceLoop_keeps_flags (Q : Bool → List (List Char) → Prop)
    (hErr : ∀ st t m, Q st.parser.hadError st.stderr →
      Q (errorAt st t m).parser.hadError (errorAt st t m).stderr) (n : Nat) :
    ∀ st st1 : State, advanceLoop n st = .ok st1 → Q st.parser.hadError st.stderr →
      Q st1.parser.hadError st1.stderr := by
  induction n with
  | zero => intro st st1 h; cases h
  | succ n ih =>
    intro st st1 h hi
    rw [advanceLoop_succ] at h
    split at h
    · cases h; exact hi
    · exact ih _ _ h (hErr _ _ _ hi)

theorem advance_keeps_flags (Q : Bool → List (List Char) → Prop)
    (hErr : ∀ st t m, Q st.parser.hadError st.stderr →
      Q (errorAt st t m).parser.hadError (errorAt st t m).stderr)
    (n : Nat) (st st1 : State) (h : advance n st = .ok st1)
    (hi : Q st.parser.hadError st.stderr) : Q st1.parser.hadError st1.stderr :=
  advanceLoop_keeps_flags Q hErr n _ _ h hi

theorem errorAt_reports (st : State) (t : Token) (m : List Char)
    (h : st.parser.panicMode = false) :
    (errorAt st t m).parser.hadError = true ∧
      (errorAt st t m).stderr.length = st.stderr.length + 1 := by
  unfold errorAt
  rw [if_neg (by simp [h])]
  exact ⟨rfl, by simp⟩

theorem errorAt_silent (st : State) (t : Token) (m : List Char)
    (h : st.parser.panicMode = true) : errorAt st t m = st := by
  unfold errorAt
  rw [if_pos h]

theorem errorAt_sticky (st : State) (t : Token) (m : List Char)
    (h : st.parser.hadError = true) : (errorAt st t m).parser.hadError = true := by
  unfold errorAt
  split
  · exact h
  · rfl

theorem errorAt_flag_iff (st : State) (t : Token) (m : List Char)
    (h : st.parser.hadError = true ↔ st.stderr ≠ []) :
    (errorAt st t m).parser.hadError = true ↔ (errorAt st t m).stderr ≠ [] := by
  unfold errorAt
  split
  · exact h
  · simp

end Compiler

open Compiler in
/-- C13. Whenever `compile` returns: `hadError` was false when it started, the
flag it returns is the negation of `hadError`, and it is true exactly when
nothing was written to `stderr`. A call of `errorAt` while `panicMode` is
clear writes one diagnostic and sets `hadError`; while `panicMode` is set it
changes nothing; and once `hadError` is set, `errorAt`, `advance`, `consume`
and every returning run of the parser functions leave it set. -/
theorem compile_returns_not_hadError (fuel : Nat) (source : List Char) (chunk : Chunk)
    (r : Bool × State) (h : compile fuel source chunk = .ok r) :
    (compileStart source chunk).parser.hadError = false ∧
      r.1 = !r.2.parser.hadError ∧
      (r.1 = true ↔ r.2.stderr = []) ∧
      (∀ st t m, st.parser.panicMode = false →
        (errorAt st t m).parser.hadError = true ∧
          (errorAt st t m).stderr.length = st.stderr.length + 1) ∧
      (∀ st t m, st.parser.panicMode = true → errorAt st t m = st) ∧
      (∀ st t m, st.parser.hadError = true → (errorAt st t m).parser.hadError = true) ∧
      (∀ n st st1, advance n st = .ok st1 → st.parser.hadError = true →
        st1.parser.hadError = true) ∧
      (∀ n st st1 t m, consume n st t m = .ok st1 → st.parser.hadError = true →
        st1.parser.hadError = true) ∧
      (∀ n, Preserves (fun st => st.parser.hadError = true) n) := by
  have hadv : ∀ n st st1, advance n st = .ok st1 → st.parser.hadError = true →
      st1.parser.hadError = true :=
    fun n st st1 => advance_keeps_flags (fun b _ => b = true) errorAt_sticky n st st1
  refine ⟨rfl, ?_, ?_, errorAt_reports, errorAt_silent, errorAt_sticky, hadv, ?_,
    preserves _ errorAt_sticky (fun _ _ hi => hi) hadv⟩
  · unfold compile at h
    simp only at h
    split at h
    · cases h
    · split at h
      · cases h
      · cases h; rfl
  · unfold compile at h
    simp only at h
    cases ha : advance fuel (compileStart source chunk) with
    | error e => rw [ha] at h; cases h
    | ok sa =>
      simp only [ha] at h
      cases he : expression fuel sa with
      | error e => rw [he] at h; cases h
      | ok sb =>
        simp only [he] at h
        cases h
        have h0 : (compileStart source chunk).parser.hadError = true ↔
            (compileStart source chunk).stderr ≠ [] := by simp [compileStart]
        have h1 := advance_keeps_flags (fun b e => b = true ↔ e ≠ []) errorAt_flag_iff
          fuel _ sa ha h0
        have h2 := (preserves (fun st => st.parser.hadError = true ↔ st.stderr ≠ [])
          errorAt_flag_iff (fun _ _ hi => hi)
          (advance_keeps_flags (fun b e => b = true ↔ e ≠ []) errorAt_flag_iff)
          fuel).2.2.2.2.2.2 sa sb he h1
        have h2 : sb.parser.hadError = true ↔ sb.stderr ≠ [] := h2
        show (!sb.parser.hadError) = true ↔ sb.stderr = []
        cases hb : sb.parser.hadError with
        | false =>
          rw [hb] at h2
          simp only [Bool.false_eq_true, false_iff, ne_eq, not_not] at h2
          simp [h2]
        | true =>
          rw [hb] at h2
          simp only [true_iff] at h2
          simp [h2]
  · intro n st st1 t m hc hi
    unfold consume at hc
    split at hc
    · exact hadv n _ _ hc hi
    · cases hc; exact errorAt_sticky _ _ _ hi

/-- C13, at the source `1`, line feed, on which `compile` returns. -/
theorem compile_returns_not_hadError_witness :
    (compile 10 ['1', LF] initChunk).toBool = true ∧
      ∃ r, compile 10 ['1', LF] initChunk = .ok r ∧ r.1 = (!r.2.parser.hadError) ∧
        (r.1 = true ↔ r.2.stderr = []) :=
  ⟨by decide!,
    Exists.elim (ok_of_toBool (compile 10 ['1', LF] initChunk) (by decide!))
      (fun r hr => ⟨r, hr,
        (compile_returns_not_hadError 10 ['1', LF] initChunk r hr).2.1,
        (compile_returns_not_hadError 10 ['1', LF] initChunk r hr).2.2.1⟩)⟩

/-! ## C18: `compile` does not look at what follows the expression -/

open Compiler in
/-- C18. On the source `1 2`, `compile` returns success with the token `2`
left as `parser.current` after the expression `1`: the chunk holds
`OP_CONSTANT 0`, `OP_RETURN` and the constant pool is `[1]`. And whenever `compile` returns,
the last byte of the chunk is `OP_RETURN`. -/
theorem compile_ignores_rest_of_input :
    ((compile 10 ['1', ' ', '2'] initChunk).toOption.map
        (fun r => (r.1, r.2.compilingChunk.code, r.2.compilingChunk.constants)) =
      some (true, [.op OP_CONSTANT, .operand 0, .op OP_RETURN], [⟨['1']⟩])) ∧
    ((compile 10 ['1', ' ', '2'] initChunk).toOption.map
        (fun r => (r.2.parser.current.type, r.2.parser.current.text ['1', ' ', '2'])) =
      some (TOKEN_NUMBER, ['2'])) ∧
    ∀ (fuel : Nat) (source : List Char) (chunk : Chunk) (r : Bool × State),
      compile fuel source chunk = .ok r →
        r.2.compilingChunk.code.getLast? = some (.op OP_RETURN) := by
  refine ⟨by decide!, by decide!, fun fuel source chunk r h => ?_⟩
  unfold compile at h
  simp only at h
  split at h
  · cases h
  · split at h
    · cases h
    · cases h
      simp [endCompiler, emitReturn, emitByte, writeChunk]

/-- C18, on the source `1 2`: the run returns and the last byte is
`OP_RETURN`. -/
theorem compile_ignores_rest_of_input_witness :
    (compile 10 ['1', ' ', '2'] initChunk).toBool = true ∧
      ∃ r, compile 10 ['1', ' ', '2'] initChunk = .ok r ∧
        r.2.compilingChunk.code.getLast? = some (.op OP_RETURN) :=
  ⟨by decide!,
    Exists.elim (ok_of_toBool (compile 10 ['1', ' ', '2'] initChunk) (by decide!))
      (fun r hr => ⟨r, hr, compile_ignores_rest_of_input.2.2 10 ['1', ' ', '2'] initChunk r hr⟩)⟩

/-! ## C20: `${` after an escaped backslash -/

/-- C20 (the code departs from it). The claim is that a `${` after an escaped
backslash pair starts an interpolation. In the code the test is
`previous(s) != '\\'` on the character before the `$`, whatever that
backslash was: on the source `"\\${x}"` (a quote, two backslashes, `${x}`, a
quote) the first call of `scanToken` returns one `TOKEN_STRING` that is the
whole source, and pushes nothing. On `"\${x}"`, with one backslash, it returns
one `TOKEN_STRING` too, as claimed; without a backslash, on `"${x}"`, it
returns a `TOKEN_INTERPOLATION` and pushes the quote. -/
theorem escaped_backslash_hides_interpolation :
    ((scanToken (initScanner [DQUOTE, BSLASH, BSLASH, '$', LBRACE, 'x', RBRACE, DQUOTE])).1.type =
        TOKEN_STRING ∧
      (scanToken (initScanner [DQUOTE, BSLASH, BSLASH, '$', LBRACE, 'x', RBRACE, DQUOTE])).1.text
          [DQUOTE, BSLASH, BSLASH, '$', LBRACE, 'x', RBRACE, DQUOTE] =
        [DQUOTE, BSLASH, BSLASH, '$', LBRACE, 'x', RBRACE, DQUOTE] ∧
      (scanToken (initScanner
        [DQUOTE, BSLASH, BSLASH, '$', LBRACE, 'x', RBRACE, DQUOTE])).2.interpolatingCount = -1) ∧
    ((scanToken (initScanner [DQUOTE, BSLASH, '$', LBRACE, 'x', RBRACE, DQUOTE])).1.type =
        TOKEN_STRING ∧
      (scanToken (initScanner
        [DQUOTE, BSLASH, '$', LBRACE, 'x', RBRACE, DQUOTE])).2.interpolatingCount = -1) ∧
    ((scanToken (initScanner [DQUOTE, '$', LBRACE, 'x', RBRACE, DQUOTE])).1.type =
        TOKEN_INTERPOLATION ∧
      (scanToken (initScanner
        [DQUOTE, '$', LBRACE, 'x', RBRACE, DQUOTE])).2.interpolatingCount = 0) := by
  decide!

/-! ## Runs of the parser that return -/

namespace Compiler

theorem returns_advance (st : State)
    (h : (scanToken st.parser.scanner).1.type ≠ TOKEN_EOF) :
    Returns (fun n => advance n st)
      { st with parser := { st.parser with
          previous := st.parser.current
          current := (scanToken st.parser.scanner).1
          scanner := (scanToken st.parser.scanner).2 } } := by
  refine ⟨1, fun n hn => ?_⟩
  obtain ⟨m, rfl⟩ : ∃ m, n = m + 1 := ⟨n - 1, by omega⟩
  show advanceLoop (m + 1) _ = _
  rw [advanceLoop_succ]
  simp only
  rw [if_pos h]

theorem returns_parsePrecedence (p : Nat) (st st1 st2 st3 : State) (fn : ParseFn)
    (h1 : Returns (fun n => advance n st) st1)
    (hr : (getRule st1.parser.previous.type).prefixRule = some fn)
    (h2 : Returns (fun n => callRule n fn st1) st2)
    (h3 : Returns (fun n => parsePrecedenceLoop n p st2) st3) :
    Returns (fun n => parsePrecedence n p st) st3 := by
  obtain ⟨N1, h1⟩ := h1
  obtain ⟨N2, h2⟩ := h2
  obtain ⟨N3, h3⟩ := h3
  refine ⟨N1 + N2 + N3 + 1, fun n hn => ?_⟩
  obtain ⟨m, rfl⟩ : ∃ m, n = m + 1 := ⟨n - 1, by omega⟩
  show parsePrecedence (m + 1) p st = _
  rw [parsePrecedence_succ]
  have e1 := h1 m (by omega)
  have e2 := h2 m (by omega)
  have e3 := h3 m (by omega)
  simp only at e1 e2 e3
  simp only [e1, hr, e2, e3]

theorem returns_loop_stop (p : Nat) (st : State)
    (h : ¬ p ≤ (getRule st.parser.current.type).precedence.toNat) :
    Returns (fun n => parsePrecedenceLoop n p st) st := by
  refine ⟨1, fun n hn => ?_⟩
  obtain ⟨m, rfl⟩ : ∃ m, n = m + 1 := ⟨n - 1, by omega⟩
  show parsePrecedenceLoop (m + 1) p st = _
  rw [parsePrecedenceLoop_succ, if_neg h]

theorem returns_loop_step (p : Nat) (st st1 st2 st3 : State) (fn : ParseFn)
    (h : p ≤ (getRule st.parser.current.type).precedence.toNat)
    (h1 : Returns (fun n => advance n st) st1)
    (hr : (getRule st1.parser.previous.type).infixRule = some fn)
    (h2 : Returns (fun n => callRule n fn st1) st2)
    (h3 : Returns (fun n => parsePrecedenceLoop n p st2) st3) :
    Returns (fun n => parsePrecedenceLoop n p st) st3 := by
  obtain ⟨N1, h1⟩ := h1
  obtain ⟨N2, h2⟩ := h2
  obtain ⟨N3, h3⟩ := h3
  refine ⟨N1 + N2 + N3 + 1, fun n hn => ?_⟩
  obtain ⟨m, rfl⟩ : ∃ m, n = m + 1 := ⟨n - 1, by omega⟩
  show parsePrecedenceLoop (m + 1) p st = _
  rw [parsePrecedenceLoop_succ, if_pos h]
  have e1 := h1 m (by omega)
  have e2 := h2 m (by omega)
  have e3 := h3 m (by omega)
  simp only at e1 e2 e3
  simp only [e1, hr, e2, e3]

theorem returns_call_number (st st1 : State) (h : number st = .ok st1) :
    Returns (fun n => callRule n .number st) st1 := by
  refine ⟨1, fun n hn => ?_⟩
  obtain ⟨m, rfl⟩ : ∃ m, n = m + 1 := ⟨n - 1, by omega⟩
  show callRule (m + 1) .number st = _
  simp only [callRule, h]

theorem returns_call_binary (st st1 : State) (h : Returns (fun n => binary n st) st1) :
    Returns (fun n => callRule n .binary st) st1 := by
  obtain ⟨N, h⟩ := h
  refine ⟨N + 1, fun n hn => ?_⟩
  obtain ⟨m, rfl⟩ : ∃ m, n = m + 1 := ⟨n - 1, by omega⟩
  show callRule (m + 1) .binary st = _
  simp only [callRule]
  exact h m (by omega)

theorem returns_call_unary (st st1 : State) (h : Returns (fun n => unary n st) st1) :
    Returns (fun n => callRule n .unary st) st1 := by
  obtain ⟨N, h⟩ := h
  refine ⟨N + 1, fun n hn => ?_⟩
  obtain ⟨m, rfl⟩ : ∃ m, n = m + 1 := ⟨n - 1, by omega⟩
  show callRule (m + 1) .unary st = _
  simp only [callRule]
  exact h m (by omega)

theorem returns_call_grouping (st st1 : State) (h : Returns (fun n => grouping n st) st1) :
    Returns (fun n => callRule n .grouping st) st1 := by
  obtain ⟨N, h⟩ := h
  refine ⟨N + 1, fun n hn => ?_⟩
  obtain ⟨m, rfl⟩ : ∃ m, n = m + 1 := ⟨n - 1, by omega⟩
  show callRule (m + 1) .grouping st = _
  simp only [callRule]
  exact h m (by omega)

theorem returns_binary (st st1 : State) (ty : TokenType) (hty : st.parser.previous.type = ty)
    (hop : ty = TOKEN_PLUS ∨ ty = TOKEN_MINUS ∨ ty = TOKEN_STAR ∨ ty = TOKEN_SLASH)
    (h : Returns (fun n => parsePrecedence n ((getRule ty).precedence.toNat + 1) st) st1) :
    Returns (fun n => binary n st) (emitByte st1 (.op (Expr.opcodeOf ty))) := by
  obtain ⟨N, h⟩ := h
  refine ⟨N + 1, fun n hn => ?_⟩
  obtain ⟨m, rfl⟩ : ∃ m, n = m + 1 := ⟨n - 1, by omega⟩
  show binary (m + 1) st = _
  rw [binary_succ]
  have e := h m (by omega)
  simp only at e
  rw [hty]
  rcases hop with rfl | rfl | rfl | rfl <;> simp only [e] <;> rfl

theorem returns_unary (st st1 : State) (hty : st.parser.previous.type = TOKEN_MINUS)
    (h : Returns (fun n => parsePrecedence n PREC_UNARY.toNat st) st1) :
    Returns (fun n => unary n st) (emitByte st1 (.op OP_NEGATE)) := by
  obtain ⟨N, h⟩ := h
  refine ⟨N + 1, fun n hn => ?_⟩
  obtain ⟨m, rfl⟩ : ∃ m, n = m + 1 := ⟨n - 1, by omega⟩
  show unary (m + 1) st = _
  rw [unary_succ]
  have e := h m (by omega)
  simp only at e
  simp only [e, hty]

theorem returns_grouping (st st1 st2 : State)
    (h : Returns (fun n => parsePrecedence n PREC_ASSIGNMENT.toNat st) st1)
    (hc : st1.parser.current.type = TOKEN_RIGHT_PAREN)
    (h2 : Returns (fun n => advance n st1) st2) :
    Returns (fun n => grouping n st) st2 := by
  obtain ⟨N, h⟩ := h
  obtain ⟨N2, h2⟩ := h2
  refine ⟨N + N2 + 2, fun n hn => ?_⟩
  obtain ⟨m, rfl⟩ : ∃ m, n = m + 2 := ⟨n - 2, by omega⟩
  show grouping (m + 1 + 1) st = _
  rw [grouping_succ, expression_succ]
  have e := h m (by omega)
  have e2 := h2 (m + 1) (by omega)
  simp only at e e2
  simp only [e, consume, hc, if_true, e2]

end Compiler

/-! ## The buffer and the tokens of a run of the scanner -/

namespace Scanner

theorem stringLoop_source (quote : Char) (n : Nat) : ∀ s : Scanner,
    (stringLoop n quote s).2.source = s.source := by
  induction n with
  | zero => intro s; rfl
  | succ n ih =>
    intro s
    rw [stringLoop]
    split
    · split
      · split
        · exact (writeInterpolating_frame _ _ _).1
        · rfl
      · rw [ih]
        split
        · rw [(advance_source _).1, (advance_source _).1]
        · rw [(advance_source _).1]
    · rfl

theorem string_source (quote : Char) (s : Scanner) : (s.string quote).2.source = s.source := by
  have h := stringLoop_source quote s.source.length s
  unfold string
  rcases hsl : stringLoop s.source.length quote s with ⟨o, s1⟩
  rw [hsl] at h
  cases o with
  | some tkn => exact h
  | none =>
    show (if _ then _ else _ : Token × Scanner).2.source = s.source
    split
    · exact h
    · exact ((matchChar_walks s1 quote).1.1.1).trans h

end Scanner

open Scanner in
/-- No call of `scanToken` changes the buffer. -/
theorem scanToken_source (s : Scanner) : (scanToken s).2.source = s.source := by
  obtain ⟨e1, -⟩ := atEof_walks s
  apply scanToken_cases s (fun r => r.2.source = s.source)
  · intro _; exact e1
  · intro c sA _ hadv _
    have ha : sA.source = s.source := by
      have := (advance_source s.atEof).1; rw [hadv] at this; exact this.trans e1
    apply number_cases sA (fun r => r.2.source = s.source)
    · intro t hw _; exact hw.1.1.trans ha
    · intro t hw _; exact hw.1.1.trans ha
  · intro c sA _ hadv _
    have ha : sA.source = s.source := by
      have := (advance_source s.atEof).1; rw [hadv] at this; exact this.trans e1
    exact (identifier_walks sA).1.1.1.trans ha
  · intro c sA t ty _ hadv _ hm _ _ _ _ _
    have ha : sA.source = s.source := by
      have := (advance_source s.atEof).1; rw [hadv] at this; exact this.trans e1
    exact hm.walks.1.1.1.trans ha
  · intro sA _ hadv _
    have ha : sA.source = s.source := by
      have := (advance_source s.atEof).1; rw [hadv] at this; exact this.trans e1
    show (Scanner.string _ _).2.source = s.source
    rw [string_source]
    unfold readInterpolating
    split <;> exact ha
  · intro c sA _ hadv _
    have ha : sA.source = s.source := by
      have := (advance_source s.atEof).1; rw [hadv] at this; exact this.trans e1
    rw [string_source]; exact ha
  · intro sA _ hadv
    have := (advance_source s.atEof).1; rw [hadv] at this; exact this.trans e1
  · intro c sA _ hadv _
    have := (advance_source s.atEof).1; rw [hadv] at this; exact this.trans e1

theorem yields_append (a b : List Token) : ∀ (s t : Scanner),
    Yields s (a ++ b) t ↔ ∃ m, Yields s a m ∧ Yields m b t := by
  induction a with
  | nil =>
    intro s t
    constructor
    · intro h; exact ⟨s, rfl, h⟩
    · rintro ⟨m, hm, h⟩
      have : m = s := hm
      subst this; exact h
  | cons x a ih =>
    intro s t
    constructor
    · rintro ⟨h1, h2⟩
      obtain ⟨m, hm, h⟩ := (ih _ _).1 h2
      exact ⟨m, ⟨h1, hm⟩, h⟩
    · rintro ⟨m, ⟨h1, hm⟩, h⟩
      exact ⟨h1, (ih _ _).2 ⟨m, hm, h⟩⟩

theorem yields_source (a : List Token) : ∀ (s t : Scanner), Yields s a t → t.source = s.source := by
  induction a with
  | nil => intro s t h; rw [show t = s from h]
  | cons x a ih =>
    intro s t h
    rw [ih _ _ h.2, scanToken_source]

/-! ## The parser on an expression of the usual grammar -/

theorem precedence_le (ty : TokenType) : (getRule ty).precedence.toNat ≤ 11 := by
  cases ty <;> decide

namespace Expr

theorem tier_ge (e : Expr) (h : e.ok = true) : 10 ≤ e.tier := by
  cases e with
  | lit t => exact (show 10 ≤ PREC_UNARY.toNat by decide)
  | neg op e => exact (show 10 ≤ PREC_UNARY.toNat by decide)
  | paren lp e rp => exact (show 10 ≤ PREC_UNARY.toNat by decide)
  | bin l op r =>
    simp only [ok, Bool.and_eq_true, Bool.or_eq_true, beq_iff_eq] at h
    obtain ⟨⟨⟨⟨hop, -⟩, -⟩, -⟩, -⟩ := h
    show 10 ≤ (getRule op.type).precedence.toNat
    rcases hop with ((h | h) | h) | h <;> rw [h] <;> decide

theorem first_type (e : Expr) (h : e.ok = true) :
    e.first.type = TOKEN_NUMBER ∨ e.first.type = TOKEN_MINUS ∨
      e.first.type = TOKEN_LEFT_PAREN := by
  induction e with
  | lit t => left; simpa [ok] using h
  | neg op e _ =>
    simp only [ok, Bool.and_eq_true, beq_iff_eq] at h
    right; left; exact h.1.1
  | paren lp e rp _ =>
    simp only [ok, Bool.and_eq_true, beq_iff_eq] at h
    right; right; exact h.1.1
  | bin l op r ihl _ =>
    simp only [ok, Bool.and_eq_true] at h
    exact ihl h.1.1.1.2

theorem first_ne_eof (e : Expr) (h : e.ok = true) : e.first.type ≠ TOKEN_EOF := by
  rcases first_type e h with h | h | h <;> rw [h] <;> decide

theorem values_length (source : List Char) (e : Expr) : (e.values source).length = e.lits := by
  induction e with
  | lit t => rfl
  | neg op e ih => exact ih
  | paren lp e rp ih => exact ih
  | bin l op r ihl ihr => simp [values, lits, ihl, ihr]

end Expr

open Compiler in
/-- The state `advance` leaves when the scanner returns a token that is not
`TOKEN_EOF`. -/
theorem returns_advance_to (st : State) (tok : Token) (s1 : Scanner)
    (h1 : (scanToken st.parser.scanner).1 = tok) (h2 : (scanToken st.parser.scanner).2 = s1)
    (h : tok.type ≠ TOKEN_EOF) :
    Returns (fun n => advance n st)
      { st with parser := { st.parser with
          previous := st.parser.current, current := tok, scanner := s1 } } := by
  subst h1 h2
  exact returns_advance st h

open Compiler in
theorem number_afterExpr (st : State) (t f : Token) (s1 : Scanner)
    (ht : st.parser.current = t) (hsrc : s1.source = st.parser.scanner.source)
    (hcap : st.compilingChunk.constants.length + 1 ≤ 256) :
    number { st with parser := { st.parser with
        previous := st.parser.current, current := f, scanner := s1 } } =
      .ok (afterExpr (.lit t) f s1 st) := by
  subst ht
  rw [number_room _ (by show st.compilingChunk.constants.length ≤ UINT8_MAX; unfold UINT8_MAX; omega)]
  simp only [addConstant, emitBytes, emitByte, writeChunk, afterExpr,
    Expr.postorder, Expr.codeLines, Expr.values, Expr.last, hsrc, Token.chars,
    List.append_assoc, List.singleton_append]

theorem afterExpr_advanced (e : Expr) (f a b : Token) (s1 s2 : Scanner) (st : State)
    (hsrc : s2.source = st.parser.scanner.source) :
    afterExpr e f s1 { st with parser := { st.parser with
        previous := a, current := b, scanner := s2 } } = afterExpr e f s1 st := by
  simp only [afterExpr, hsrc]

open Compiler in
theorem negate_afterExpr (op : Token) (e : Expr) (f : Token) (s1 : Scanner) (st : State) :
    emitByte (afterExpr e f s1 st) (.op OP_NEGATE) = afterExpr (.neg op e) f s1 st := by
  simp only [afterExpr, emitByte, writeChunk, Expr.postorder, Expr.codeLines, Expr.values,
    Expr.last, List.append_assoc]

theorem paren_afterExpr (lp rp : Token) (e : Expr) (f : Token) (m s1 : Scanner) (st : State) :
    ({ afterExpr e rp m st with parser := { (afterExpr e rp m st).parser with
        previous := (afterExpr e rp m st).parser.current, current := f, scanner := s1 } } : State) =
      afterExpr (.paren lp e rp) f s1 st := by
  simp only [afterExpr, Expr.postorder, Expr.codeLines, Expr.values, Expr.last]

open Compiler in
theorem bin_afterExpr (l r : Expr) (op f a b : Token) (m s1 s2 : Scanner) (st : State)
    (hsrc : s2.source = st.parser.scanner.source) :
    emitByte (afterExpr r f s1 { afterExpr l op m st with parser :=
        { (afterExpr l op m st).parser with previous := a, current := b, scanner := s2 } })
        (.op (Expr.opcodeOf op.type)) =
      afterExpr (.bin l op r) f s1 st := by
  simp only [afterExpr, emitByte, writeChunk, Expr.postorder, Expr.codeLines, Expr.values,
    Expr.last, List.append_assoc, List.length_append, Expr.values_length, hsrc]

open Compiler in
/-- The run of `parsePrecedence` over an expression of the usual grammar: it
is the run of its loop from the state after the expression. -/
theorem parsePrecedence_expr (e : Expr) : ∀ (p : Nat) (f : Token) (st : State) (s1 : Scanner)
    (st3 : State), e.ok = true → p ≤ e.tier →
    (getRule f.type).precedence.toNat ≤ e.tier → f.type ≠ TOKEN_EOF →
    st.parser.current = e.first → Yields st.parser.scanner (e.rest ++ [f]) s1 →
    st.compilingChunk.constants.length + e.lits ≤ 256 →
    Returns (fun n => parsePrecedenceLoop n p (afterExpr e f s1 st)) st3 →
    Returns (fun n => parsePrecedence n p st) st3 := by
  induction e with
  | lit t =>
    intro p f st s1 st3 hok hp hf hfe hcur hy hcap h3
    obtain ⟨y1, y2⟩ := hy
    have y2 : s1 = (scanToken st.parser.scanner).2 := y2
    have hty : t.type = TOKEN_NUMBER := by simpa [Expr.ok] using hok
    have hsrc : s1.source = st.parser.scanner.source := by rw [y2, scanToken_source]
    refine returns_parsePrecedence p st _ _ st3 .number
      (returns_advance_to st f s1 y1 y2.symm hfe) ?_
      (returns_call_number _ _ (number_afterExpr st t f s1 hcur hsrc hcap)) h3
    show (getRule st.parser.current.type).prefixRule = some .number
    rw [hcur]
    show (getRule t.type).prefixRule = some .number
    rw [hty]; rfl
  | neg op e ih =>
    intro p f st s1 st3 hok hp hf hfe hcur hy hcap h3
    simp only [Expr.ok, Bool.and_eq_true, beq_iff_eq, decide_eq_true_eq] at hok
    obtain ⟨⟨hop, hoke⟩, hte⟩ := hok
    obtain ⟨y1, y2⟩ : (scanToken st.parser.scanner).1 = e.first ∧
        Yields (scanToken st.parser.scanner).2 (e.rest ++ [f]) s1 := hy
    have hpf := precedence_le f.type
    have hsub := ih PREC_UNARY.toNat f
      { st with parser := { st.parser with
          previous := st.parser.current, current := e.first,
          scanner := (scanToken st.parser.scanner).2 } } s1 _ hoke hte
      (by have : (12 : Nat) ≤ e.tier := hte
          omega) hfe rfl y2 hcap
      (returns_loop_stop _ _ (by
        show ¬ PREC_UNARY.toNat ≤ (getRule f.type).precedence.toNat
        have : PREC_UNARY.toNat = 12 := rfl
        omega))
    rw [afterExpr_advanced e f _ _ s1 _ st (scanToken_source _)] at hsub
    refine returns_parsePrecedence p st _ _ st3 .unary
      (returns_advance_to st e.first _ y1 rfl (Expr.first_ne_eof e hoke)) ?_
      (returns_call_unary _ _ (returns_unary _ _ ?_ hsub)) ?_
    · show (getRule st.parser.current.type).prefixRule = some .unary
      rw [hcur]
      show (getRule op.type).prefixRule = some .unary
      rw [hop]; rfl
    · show st.parser.current.type = TOKEN_MINUS
      rw [hcur]; exact hop
    · rw [negate_afterExpr op e f s1 st]
      exact h3
  | paren lp e rp ih =>
    intro p f st s1 st3 hok hp hf hfe hcur hy hcap h3
    simp only [Expr.ok, Bool.and_eq_true, beq_iff_eq] at hok
    obtain ⟨⟨hlp, hrp⟩, hoke⟩ := hok
    obtain ⟨y1, y2⟩ : (scanToken st.parser.scanner).1 = e.first ∧
        Yields (scanToken st.parser.scanner).2 ((e.rest ++ [rp]) ++ [f]) s1 := hy
    obtain ⟨m, y3, y4, y5⟩ := (yields_append _ _ _ _).1 y2
    have y5 : s1 = (scanToken m).2 := y5
    have hrpe : rp.type ≠ TOKEN_EOF := by rw [hrp]; decide
    have hsub := ih PREC_ASSIGNMENT.toNat rp
      { st with parser := { st.parser with
          previous := st.parser.current, current := e.first,
          scanner := (scanToken st.parser.scanner).2 } } m _ hoke
      (by have := Expr.tier_ge e hoke
          have : PREC_ASSIGNMENT.toNat = 1 := rfl
          omega)
      (by rw [hrp]; exact Nat.zero_le _) hrpe rfl y3 hcap
      (returns_loop_stop _ _ (by
        show ¬ PREC_ASSIGNMENT.toNat ≤ (getRule rp.type).precedence.toNat
        rw [hrp]; decide))
    rw [afterExpr_advanced e rp _ _ m _ st (scanToken_source _)] at hsub
    have hadv2 := returns_advance_to (afterExpr e rp m st) f s1 y4 y5.symm hfe
    rw [paren_afterExpr lp rp e f m s1 st] at hadv2
    refine returns_parsePrecedence p st _ _ st3 .grouping
      (returns_advance_to st e.first _ y1 rfl (Expr.first_ne_eof e hoke)) ?_
      (returns_call_grouping _ _ (returns_grouping _ _ _ hsub hrp hadv2)) h3
    show (getRule st.parser.current.type).prefixRule = some .grouping
    rw [hcur]
    show (getRule lp.type).prefixRule = some .grouping
    rw [hlp]; rfl
  | bin l op r ihl ihr =>
    intro p f st s1 st3 hok hp hf hfe hcur hy hcap h3
    simp only [Expr.ok, Bool.and_eq_true, Bool.or_eq_true, beq_iff_eq, decide_eq_true_eq] at hok
    obtain ⟨⟨⟨⟨hop, hokl⟩, hokr⟩, htl⟩, htr⟩ := hok
    have hop4 : op.type = TOKEN_PLUS ∨ op.type = TOKEN_MINUS ∨ op.type = TOKEN_STAR ∨
        op.type = TOKEN_SLASH := by
      rcases hop with ((h | h) | h) | h
      · exact Or.inl h
      · exact Or.inr (Or.inl h)
      · exact Or.inr (Or.inr (Or.inl h))
      · exact Or.inr (Or.inr (Or.inr h))
    have hp : p ≤ (getRule op.type).precedence.toNat := hp
    have hf : (getRule f.type).precedence.toNat ≤ (getRule op.type).precedence.toNat := hf
    have hcap : st.compilingChunk.constants.length + (l.lits + r.lits) ≤ 256 := hcap
    have hope : op.type ≠ TOKEN_EOF := by
      rcases hop4 with h | h | h | h <;> rw [h] <;> decide
    have hinfix : (getRule op.type).infixRule = some .binary := by
      rcases hop4 with h | h | h | h <;> rw [h] <;> rfl
    have hy2 : Yields st.parser.scanner ((l.rest ++ [op]) ++ (r.first :: (r.rest ++ [f]))) s1 := by
      have : (l.rest ++ [op]) ++ (r.first :: (r.rest ++ [f])) =
          (l.rest ++ op :: r.first :: r.rest) ++ [f] := by simp
      rw [this]; exact hy
    obtain ⟨m, yl, y3, y4⟩ := (yields_append _ _ _ _).1 hy2
    have hsrc : (scanToken m).2.source = st.parser.scanner.source := by
      rw [scanToken_source, yields_source _ _ _ yl]
    have hsubR := ihr ((getRule op.type).precedence.toNat + 1) f
      { afterExpr l op m st with parser := { (afterExpr l op m st).parser with
          previous := (afterExpr l op m st).parser.current, current := r.first,
          scanner := (scanToken m).2 } } s1 _ hokr htr (by omega) hfe rfl y4
      (by
        show (st.compilingChunk.constants ++ l.values st.parser.scanner.source).length + r.lits
          ≤ 256
        rw [List.length_append, Expr.values_length]; omega)
      (returns_loop_stop _ _ (by
        show ¬ (getRule op.type).precedence.toNat + 1 ≤ (getRule f.type).precedence.toNat
        omega))
    apply ihl p op st m st3 hokl (by omega) htl hope hcur yl (by omega)
    refine returns_loop_step p _ _ _ st3 .binary hp
      (returns_advance_to (afterExpr l op m st) r.first _ y3 rfl (Expr.first_ne_eof r hokr))
      hinfix (returns_call_binary _ _ (returns_binary _ _ op.type rfl hop4 hsubR)) ?_
    rw [bin_afterExpr l r op f _ _ m s1 _ st hsrc]
    exact h3

/-! ## C19: the code of an arithmetic expression -/


theorem operands_append (a b : List CodeByte) : operands (a ++ b) = operands a ++ operands b := by
  induction a with
  | nil => rfl
  | cons x a ih =>
    cases x with
    | op c => simpa [operands] using ih
    | operand i => simp [operands, ih]

theorem operatorCount_append (a b : List CodeByte) :
    operatorCount (a ++ b) = operatorCount a + operatorCount b := by
  induction a with
  | nil => simp [operatorCount]
  | cons x a ih =>
    cases x with
    | op c => simp [operatorCount, ih]; omega
    | operand i => simpa [operatorCount] using ih

namespace Expr

theorem opcodeOf_ne (ty : TokenType) : opcodeOf ty ≠ OP_CONSTANT := by
  cases ty <;> decide

/-- The post-order traversal has one `OP_CONSTANT` for each literal, with the
indices `base`, `base + 1`, ... in source order, and one other opcode for each
operator. -/
theorem postorder_counts (e : Expr) : ∀ base : Nat,
    operands (e.postorder base) = List.range' base e.lits ∧
      operatorCount (e.postorder base) = e.operators := by
  induction e with
  | lit t => intro base; exact ⟨rfl, rfl⟩
  | neg op e ih =>
    intro base
    obtain ⟨h1, h2⟩ := ih base
    refine ⟨?_, ?_⟩
    · simp [postorder, lits, operands_append, h1, operands]
    · simp [postorder, operators, operatorCount_append, h2, operatorCount]
  | paren lp e rp ih => intro base; exact ih base
  | bin l op r ihl ihr =>
    intro base
    obtain ⟨h1, h2⟩ := ihl base
    obtain ⟨h3, h4⟩ := ihr (base + l.lits)
    refine ⟨?_, ?_⟩
    · simp [postorder, lits, operands_append, h1, h3, operands, List.range'_append]
      omega
    · simp [postorder, operators, operatorCount_append, h2, h4, operatorCount, opcodeOf_ne]
      omega

end Expr

/-- A run that stops in `error` at some fuel returns at no fuel. -/
theorem stopped_never_returns {α : Type} (g : Nat → Except Fault α)
    (step : ∀ n, g n ≠ .error .outOfFuel → g (n + 1) = g n)
    (N : Nat) (h : faultOf (g N) = some .nullVaList) (fuel : Nat) :
    (g fuel).toOption = none := by
  have up : ∀ n, g n ≠ .error .outOfFuel → ∀ k, g (n + k) = g n := by
    intro n hn k
    induction k with
    | zero => rfl
    | succ k ih =>
      have : g (n + k) ≠ .error .outOfFuel := by rw [ih]; exact hn
      rw [← Nat.add_assoc, step _ this, ih]
  have hN : (g N).toOption = none ∧ g N ≠ .error .outOfFuel := by
    cases hg : g N with
    | error e =>
      rw [hg] at h
      refine ⟨rfl, fun hh => ?_⟩
      cases hh
      cases h
    | ok a => rw [hg] at h; cases h
  by_cases hf : g fuel = .error .outOfFuel
  · rw [hf]; rfl
  · rcases Nat.le_total fuel N with hle | hle
    · obtain ⟨k, rfl⟩ := Nat.exists_eq_add_of_le hle
      rw [← up fuel hf k]
      exact hN.1
    · obtain ⟨k, rfl⟩ := Nat.exists_eq_add_of_le hle
      rw [up N hN.2 k]
      exact hN.1

open Compiler in
/-- C19 as it stands fails when the constant pool is full. With 256 constants
already in the chunk, on the source `1`, line feed, the parser is at the
literal `1`, and the `TOKEN_NEWLINE` that follows is not `TOKEN_EOF` and has
the precedence `PREC_NONE`. With `panicMode` clear, `parsePrecedence` returns
at no fuel: `makeConstant` calls `error`, and the run stops at the null
`va_list`. With `panicMode` set, as it is after an earlier diagnostic, `error`
returns at once and `parsePrecedence` returns with nothing written to
`stderr`, but the operand it has emitted is the placeholder 0, the index of
another constant, while the value of the literal is the constant 256, which no
operand byte can name. The source `()+(1)`, line feed, compiled into the same
chunk, passes through that state: `compile` returns with the code
`CONSTANT 0, ADD, RETURN` and 257 constants. -/
theorem parsePrecedence_at_full_pool :
    (fullPoolStart.parser.current.type = TOKEN_NUMBER ∧
      (scanToken fullPoolStart.parser.scanner).1.type = TOKEN_NEWLINE ∧
      (getRule TOKEN_NEWLINE).precedence = PREC_NONE ∧
      fullPoolStart.compilingChunk.constants.length = 256 ∧
      fullPoolStart.parser.panicMode = false) ∧
    (faultOf (parsePrecedence 10 PREC_ASSIGNMENT.toNat fullPoolStart) = some .nullVaList ∧
      ∀ fuel, (parsePrecedence fuel PREC_ASSIGNMENT.toNat fullPoolStart).toOption = none) ∧
    ((parsePrecedence 10 PREC_ASSIGNMENT.toNat
        { fullPoolStart with parser := { fullPoolStart.parser with panicMode := true } }).toOption.map
      (fun st => (st.stderr, st.compilingChunk.code, st.parser.current.type)) =
        some ([], [.op OP_CONSTANT, .operand 0], TOKEN_NEWLINE) ∧
      (parsePrecedence 10 PREC_ASSIGNMENT.toNat
        { fullPoolStart with parser := { fullPoolStart.parser with panicMode := true } }).toOption.map
      (fun st => (st.compilingChunk.constants.length, st.compilingChunk.constants[0]?,
        st.compilingChunk.constants[256]?)) =
        some (257, some ⟨['0']⟩, some ⟨['1']⟩)) ∧
    (compile 40 ['(', ')', '+', '(', '1', ')', LF] fullPool).toOption.map
      (fun r => (r.1, r.2.stderr.length, r.2.compilingChunk.code,
        r.2.compilingChunk.constants.length)) =
      some (false, 1, [.op OP_CONSTANT, .operand 0, .op OP_ADD, .op OP_RETURN], 257) :=
  ⟨by decide!,
    ⟨by decide!, fun fuel =>
      stopped_never_returns (fun n => parsePrecedence n PREC_ASSIGNMENT.toNat fullPoolStart)
        (fun n => (monoAt n).1 _ _) 10 (by decide!) fuel⟩,
    ⟨by decide!, by decide!⟩, by decide!⟩

open Compiler in
/-- C19, amended. Let `e` be a syntax tree of the usual grammar over numeric
literals, binary `+ - * /`, unary minus and parentheses, let the parser stand
at its first token, the scanner return its other tokens and then a token `f`
that is not `TOKEN_EOF` and whose rule has the precedence `PREC_NONE`, and let
the pool have room for the literals of `e` (256 constants in all). Then
`parsePrecedence(PREC_ASSIGNMENT)` returns, at every fuel from some fuel on; it
has appended to the code the post-order traversal of `e`, which has one
`OP_CONSTANT` per literal, with the indices of the pool in source order, and
one other opcode per operator; it has appended the values of the literals to
the pool; it has written nothing to `stderr` and left `hadError` and
`panicMode` as they were; and `f` is `parser.current`. -/
theorem parsePrecedence_emits_postorder (e : Expr) (f : Token) (st : State) (s1 : Scanner)
    (hok : e.ok = true) (hfe : f.type ≠ TOKEN_EOF)
    (hf : (getRule f.type).precedence = PREC_NONE)
    (hcur : st.parser.current = e.first) (hy : Yields st.parser.scanner (e.rest ++ [f]) s1)
    (hcap : st.compilingChunk.constants.length + e.lits ≤ 256) :
    ∃ st1, Returns (fun n => parsePrecedence n PREC_ASSIGNMENT.toNat st) st1 ∧
      st1.compilingChunk.code =
        st.compilingChunk.code ++ e.postorder st.compilingChunk.constants.length ∧
      operands (e.postorder st.compilingChunk.constants.length) =
        List.range' st.compilingChunk.constants.length e.lits ∧
      operatorCount (e.postorder st.compilingChunk.constants.length) = e.operators ∧
      st1.compilingChunk.constants =
        st.compilingChunk.constants ++ e.values st.parser.scanner.source ∧
      st1.stderr = st.stderr ∧ st1.parser.hadError = st.parser.hadError ∧
      st1.parser.panicMode = st.parser.panicMode ∧
      st1.parser.current = f ∧ st1.parser.previous = e.last ∧ st1.parser.scanner = s1 := by
  have hf0 : (getRule f.type).precedence.toNat = 0 := by rw [hf]; rfl
  have ht := Expr.tier_ge e hok
  have h := parsePrecedence_expr e PREC_ASSIGNMENT.toNat f st s1 (afterExpr e f s1 st) hok
    (by have : PREC_ASSIGNMENT.toNat = 1 := rfl
        omega)
    (by omega) hfe hcur hy hcap
    (returns_loop_stop _ _ (by
      show ¬ PREC_ASSIGNMENT.toNat ≤ (getRule f.type).precedence.toNat
      rw [hf0]; decide))
  obtain ⟨c1, c2⟩ := Expr.postorder_counts e st.compilingChunk.constants.length
  exact ⟨_, h, rfl, c1, c2, rfl, rfl, rfl, rfl, rfl, rfl, rfl⟩

open Compiler in
/-- C19, amended, at the source `1 - 2 - 3`, line feed: from the state after
the first `advance` of `compile`, the code is `CONSTANT 0, CONSTANT 1,
SUBTRACT, CONSTANT 2, SUBTRACT`. -/
theorem parsePrecedence_emits_postorder_witness :
    subtractionTree.ok = true ∧
      (advance 3 (compileStart subtractionSource initChunk)).toOption = some subtractionStart ∧
      ∃ st1, Returns (fun n => parsePrecedence n PREC_ASSIGNMENT.toNat subtractionStart) st1 ∧
        st1.compilingChunk.code =
          [.op OP_CONSTANT, .operand 0, .op OP_CONSTANT, .operand 1, .op OP_SUBTRACT,
            .op OP_CONSTANT, .operand 2, .op OP_SUBTRACT] ∧
        st1.compilingChunk.constants = [⟨['1']⟩, ⟨['2']⟩, ⟨['3']⟩] ∧
        st1.stderr = [] ∧ st1.parser.current.type = TOKEN_NEWLINE :=
  ⟨by decide, by decide!,
    Exists.elim
      (parsePrecedence_emits_postorder subtractionTree ⟨TOKEN_NEWLINE, .src 9, 1, 2⟩
        subtractionStart (scanTokens 6 (initScanner subtractionSource)).2 (by decide) (by decide)
        (by decide) (by decide!)
        (show Yields _ [_, _, _, _, _] _ from
          ⟨by decide!, by decide!, by decide!, by decide!, by decide!,
            show (_ : Scanner) = _ by decide!⟩)
        (by decide))
      (fun st1 h => ⟨st1, h.1, h.2.1.trans (by decide!), h.2.2.2.2.1.trans (by decide!),
        h.2.2.2.2.2.1, congrArg Token.type h.2.2.2.2.2.2.2.2.1⟩)⟩

/-! ## C23: the infix handler is never absent -/

theorem rules_lookup (ty : TokenType) : rules.lookup ty = some (getRule ty) := by
  cases ty <;> rfl

theorem rules_designators_nodup : (rules.map Prod.fst).Nodup := by decide

theorem getRule_infix_of_precedence (ty : TokenType)
    (h : PREC_ASSIGNMENT.toNat ≤ (getRule ty).precedence.toNat) :
    (getRule ty).infixRule = some .binary := by
  cases ty <;> first | rfl | exact absurd h (by decide)

theorem getRule_precedence_iff (ty : TokenType) :
    PREC_ASSIGNMENT.toNat ≤ (getRule ty).precedence.toNat ↔
      ty ∈ [TOKEN_PLUS, TOKEN_MINUS, TOKEN_STAR, TOKEN_SLASH] := by
  cases ty <;> decide

theorem getRule_precedence_none (ty : TokenType)
    (h : ty ∉ [TOKEN_PLUS, TOKEN_MINUS, TOKEN_STAR, TOKEN_SLASH]) :
    (getRule ty).precedence = PREC_NONE := by
  cases ty <;> first | rfl | exact absurd h (by decide)


namespace Compiler

theorem errorAt_previous (st : State) (t : Token) (m : List Char) :
    (errorAt st t m).parser.previous = st.parser.previous := by
  unfold errorAt; split <;> rfl

/-- The loop of `advance` never touches `parser.previous`. -/
theorem advanceLoop_previous (n : Nat) : ∀ st st1 : State,
    advanceLoop n st = .ok st1 → st1.parser.previous = st.parser.previous := by
  induction n with
  | zero => intro st st1 h; cases h
  | succ n ih =>
    intro st st1 h
    rw [advanceLoop_succ] at h
    split at h
    · cases h; rfl
    · rw [ih _ _ h, errorAtCurrent, errorAt_previous]

/-- After `advance`, `parser.previous` is the token that was `parser.current`. -/
theorem advance_previous (n : Nat) (st st1 : State) (h : advance n st = .ok st1) :
    st1.parser.previous = st.parser.current := by
  rw [advanceLoop_previous n _ _ h]

/-- The only fault of `advance` is running out of fuel. -/
theorem advanceLoop_fault (n : Nat) : ∀ st : State,
    advanceLoop n st ≠ .error .nullHandler := by
  induction n with
  | zero => intro st h; cases h
  | succ n ih =>
    intro st h
    rw [advanceLoop_succ] at h
    split at h
    · cases h
    · exact ih _ h

theorem advance_fault (n : Nat) (st : State) : advance n st ≠ .error .nullHandler :=
  advanceLoop_fault n _

theorem consume_fault (n : Nat) (st : State) (t : TokenType) (m : List Char) :
    consume n st t m ≠ .error .nullHandler := by
  unfold consume
  split
  · exact advance_fault n st
  · intro h; cases h

end Compiler

namespace Compiler

theorem number_fault (st : State) : number st ≠ .error .nullHandler := by
  rw [number_eq]
  split
  · split <;> exact fun h => nomatch h
  · exact fun h => nomatch h

theorem noNullCall (n : Nat) : NoNullCall n := by
  induction n with
  | zero =>
    refine ⟨?_, ?_, ?_, ?_, ?_, ?_, ?_⟩
    · intro p st _ h; cases h
    · intro p st _ h; cases h
    · intro fn st h; cases h
    · intro st h; cases h
    · intro st h; cases h
    · intro st h; cases h
    · intro st h; cases h
  | succ n ih =>
    obtain ⟨ihP, ihL, ihC, ihB, ihG, ihU, ihE⟩ := ih
    refine ⟨?_, ?_, ?_, ?_, ?_, ?_, ?_⟩
    · intro p st hp h
      rw [parsePrecedence_succ] at h
      cases hadv : advance n st with
      | error e => rw [hadv] at h; cases h; exact advance_fault n st hadv
      | ok sa =>
        simp only [hadv] at h
        cases hr : (getRule sa.parser.previous.type).prefixRule with
        | none => simp only [hr] at h; cases h
        | some fn =>
          simp only [hr] at h
          cases hcall : callRule n fn sa with
          | error e => rw [hcall] at h; cases h; exact ihC fn sa hcall
          | ok sb =>
            simp only [hcall] at h
            exact ihL p sb hp h
    · intro p st hp h
      rw [parsePrecedenceLoop_succ] at h
      split at h
      · rename_i hle
        cases hadv : advance n st with
        | error e => rw [hadv] at h; cases h; exact advance_fault n st hadv
        | ok sa =>
          simp only [hadv] at h
          have hprev := advance_previous n st sa hadv
          have hr : (getRule sa.parser.previous.type).infixRule = some .binary := by
            rw [hprev]
            exact getRule_infix_of_precedence _ (Nat.le_trans hp hle)
          simp only [hr] at h
          cases hcall : callRule n .binary sa with
          | error e => rw [hcall] at h; cases h; exact ihC _ sa hcall
          | ok sb =>
            simp only [hcall] at h
            exact ihL p sb hp h
      · cases h
    · intro fn st h
      cases fn with
      | grouping => simp only [callRule] at h; exact ihG st h
      | unary => simp only [callRule] at h; exact ihU st h
      | binary => simp only [callRule] at h; exact ihB st h
      | number => simp only [callRule] at h; exact number_fault st h
    · intro st h
      rw [binary_succ] at h
      cases hp : parsePrecedence n ((getRule st.parser.previous.type).precedence.toNat + 1) st with
      | error e =>
        rw [hp] at h; cases h
        exact ihP _ st (Nat.le_add_left _ _) hp
      | ok sa =>
        simp only [hp] at h
        split at h <;> cases h
    · intro st h
      rw [grouping_succ] at h
      cases he : expression n st with
      | error e => rw [he] at h; cases h; exact ihE st he
      | ok sa =>
        simp only [he] at h
        exact consume_fault n sa _ _ h
    · intro st h
      rw [unary_succ] at h
      cases hp : parsePrecedence n PREC_UNARY.toNat st with
      | error e => rw [hp] at h; cases h; exact ihP _ st (by decide) hp
      | ok sa =>
        simp only [hp] at h
        split at h <;> cases h
    · intro st h
      rw [expression_succ] at h
      exact ihP _ st (Nat.le_refl _) h

theorem compile_fault (n : Nat) (source : List Char) (chunk : Chunk) :
    compile n source chunk ≠ .error .nullHandler := by
  intro h
  unfold compile at h
  simp only at h
  cases hadv : advance n (compileStart source chunk) with
  | error e => rw [hadv] at h; cases h; exact advance_fault n _ hadv
  | ok sa =>
    simp only [hadv] at h
    cases he : expression n sa with
    | error e => rw [he] at h; cases h; exact (noNullCall n).2.2.2.2.2.2 sa he
    | ok sb => simp only [he] at h; cases h

end Compiler

/-- At `PREC_NONE` the loop of `parsePrecedence` does reach a `NULL` infix
handler: after the first literal of `1 1 1` the next token is a number, whose
row has precedence `PREC_NONE` and no infix handler. -/
theorem parsePrecedence_null_at_none :
    ∃ st, (advance 1 (compileStart ['1', ' ', '1', ' ', '1'] initChunk)).toOption = some st ∧
      parsePrecedence 4 PREC_NONE.toNat st = .error .nullHandler :=
  ⟨{ parser :=
      { scanner := (scanToken (initScanner ['1', ' ', '1', ' ', '1'])).2
        panicMode := false
        hadError := false
        current := (scanToken (initScanner ['1', ' ', '1', ' ', '1'])).1
        previous := uninitialized }
     compilingChunk := initChunk
     stderr := [] }, by decide!, rfl⟩

/-- C23. `parsePrecedence` never calls an absent infix handler. Entered with a
precedence of at least `PREC_ASSIGNMENT`, neither `parsePrecedence` nor its
loop stops at a `NULL` handler, whatever the fuel and the state. The call
sites are `expression` (with `PREC_ASSIGNMENT`), `unary` (with `PREC_UNARY`)
and `binary` (with the precedence of the operator plus one), each of which is
at least `PREC_ASSIGNMENT`, so no parser function and no run of `compile`
stops there. In the rule table the kinds whose precedence is at least
`PREC_ASSIGNMENT` are `TOKEN_PLUS`, `TOKEN_MINUS`, `TOKEN_STAR` and
`TOKEN_SLASH`, each with the infix handler `binary`; every other kind, among
them `TOKEN_EOF` and `TOKEN_ERROR`, has `PREC_NONE`, for which the loop
returns at once; and the initializer `rules` has exactly one row for every
token kind, the row `getRule` returns. -/
theorem parsePrecedence_never_calls_null_handler (fuel precedence : Nat) (st : State)
    (hp : PREC_ASSIGNMENT.toNat ≤ precedence) :
    parsePrecedence fuel precedence st ≠ .error .nullHandler ∧
    parsePrecedenceLoop fuel precedence st ≠ .error .nullHandler ∧
    (expression (fuel + 1) st = parsePrecedence fuel PREC_ASSIGNMENT.toNat st ∧
      unary (fuel + 1) st =
        (parsePrecedence fuel PREC_UNARY.toNat st).bind (fun st1 =>
          match st.parser.previous.type with
          | TOKEN_MINUS => .ok (emitByte st1 (.op OP_NEGATE))
          | _ => .ok st1) ∧
      binary (fuel + 1) st =
        (parsePrecedence fuel ((getRule st.parser.previous.type).precedence.toNat + 1) st).bind
          (fun st1 =>
            match st.parser.previous.type with
            | TOKEN_PLUS => .ok (emitByte st1 (.op OP_ADD))
            | TOKEN_MINUS => .ok (emitByte st1 (.op OP_SUBTRACT))
            | TOKEN_STAR => .ok (emitByte st1 (.op OP_MULTIPLY))
            | TOKEN_SLASH => .ok (emitByte st1 (.op OP_DIVIDE))
            | _ => .ok st1) ∧
      PREC_ASSIGNMENT.toNat ≤ PREC_UNARY.toNat ∧
      ∀ ty, PREC_ASSIGNMENT.toNat ≤ (getRule ty).precedence.toNat + 1) ∧
    ((∀ fn, callRule fuel fn st ≠ .error .nullHandler) ∧
      binary fuel st ≠ .error .nullHandler ∧
      grouping fuel st ≠ .error .nullHandler ∧
      unary fuel st ≠ .error .nullHandler ∧
      expression fuel st ≠ .error .nullHandler ∧
      ∀ source chunk, compile fuel source chunk ≠ .error .nullHandler) ∧
    (∀ ty, PREC_ASSIGNMENT.toNat ≤ (getRule ty).precedence.toNat ↔
      ty ∈ [TOKEN_PLUS, TOKEN_MINUS, TOKEN_STAR, TOKEN_SLASH]) ∧
    (∀ ty, PREC_ASSIGNMENT.toNat ≤ (getRule ty).precedence.toNat →
      (getRule ty).infixRule ≠ none) ∧
    (∀ ty, ty ∉ [TOKEN_PLUS, TOKEN_MINUS, TOKEN_STAR, TOKEN_SLASH] →
      (getRule ty).precedence = PREC_NONE) ∧
    (getRule TOKEN_EOF).precedence = PREC_NONE ∧
    (getRule TOKEN_ERROR).precedence = PREC_NONE ∧
    (∀ st1 : State, (getRule st1.parser.current.type).precedence = PREC_NONE →
      parsePrecedenceLoop (fuel + 1) precedence st1 = .ok st1) ∧
    (∀ ty, rules.lookup ty = some (getRule ty)) ∧
    (rules.map Prod.fst).Nodup := by
  obtain ⟨hP, hL, hC, hB, hG, hU, hE⟩ := noNullCall fuel
  refine ⟨hP _ _ hp, hL _ _ hp, ⟨expression_succ _ _, ?_, ?_, by decide, fun ty => Nat.le_add_left _ _⟩,
    ⟨fun fn => hC fn st, hB st, hG st, hU st, hE st, fun source chunk => compile_fault _ _ _⟩,
    getRule_precedence_iff, ?_, getRule_precedence_none, rfl, rfl, ?_, rules_lookup,
    rules_designators_nodup⟩
  · rw [unary_succ]
    cases parsePrecedence fuel PREC_UNARY.toNat st <;> rfl
  · rw [binary_succ]
    cases parsePrecedence fuel ((getRule st.parser.previous.type).precedence.toNat + 1) st <;> rfl
  · intro ty h
    rw [getRule_infix_of_precedence ty h]
    exact fun h => nomatch h
  · intro st1 h
    rw [parsePrecedenceLoop_succ, h, if_neg]
    exact Nat.not_le.mpr (Nat.lt_of_lt_of_le (by decide) hp)

theorem parsePrecedence_never_calls_null_handler_witness :
    PREC_ASSIGNMENT.toNat ≤ PREC_TERM.toNat + 1 ∧
      parsePrecedence 9 (PREC_TERM.toNat + 1) subtractionStart ≠ .error .nullHandler :=
  ⟨by decide,
    (parsePrecedence_never_calls_null_handler 9 (PREC_TERM.toNat + 1) subtractionStart
      (by decide)).1⟩

/-! ## C22: the constant of a number token -/

open Compiler in
/-- The constant that `number` adds to the pool is what `strtod` converts
from the characters at the token's `start` on; the token's `length` is not
used. -/
theorem number_constants (st st1 : State) (h : number st = .ok st1) :
    st1.compilingChunk.constants =
      st.compilingChunk.constants ++
        [strtod (st.parser.previous.chars st.parser.scanner.source)] := by
  obtain ⟨k, rfl⟩ := number_ok st st1 h
  rfl

/-- C22. The constant of a `TOKEN_NUMBER` is not the value of the token's own
text: `number` hands `strtod` the characters from the token's `start` to the
end of the source, and `strtod` converts the longest numeral it finds there;
that is the constant `number` has appended whenever it returns, as it does
when the pool has room, and in panic mode.
The first token of `1.e5` is the number `1`, as in `1` followed by a newline,
but `compile` puts 100000 in the pool for the first source and 1 for the
second; the first token of `0x10` is the number `0`, as in `0` followed by a
newline, but the constants are 16 and 0. -/
theorem number_constant_reads_past_token :
    ((∀ st st1 : State, Compiler.number st = .ok st1 →
        st1.compilingChunk.constants =
          st.compilingChunk.constants ++
            [strtod (st.parser.previous.chars st.parser.scanner.source)]) ∧
      ∀ st : State,
        st.compilingChunk.constants.length ≤ Compiler.UINT8_MAX ∨ st.parser.panicMode = true →
        ∃ st1, Compiler.number st = .ok st1) ∧
    ((scanToken (initScanner ['1', '.', 'e', '5'])).1 = ⟨TOKEN_NUMBER, .src 0, 1, 1⟩ ∧
      (scanToken (initScanner ['1', LF])).1 = ⟨TOKEN_NUMBER, .src 0, 1, 1⟩ ∧
      Token.text ['1', '.', 'e', '5'] ⟨TOKEN_NUMBER, .src 0, 1, 1⟩ = ['1'] ∧
      Token.text ['1', LF] ⟨TOKEN_NUMBER, .src 0, 1, 1⟩ = ['1']) ∧
    ((compile 5 ['1', '.', 'e', '5'] initChunk).toOption.map
        (fun r => (r.1, r.2.compilingChunk.constants)) = some (true, [⟨['1', '.', 'e', '5']⟩]) ∧
      (compile 5 ['1', LF] initChunk).toOption.map
        (fun r => (r.1, r.2.compilingChunk.constants)) = some (true, [⟨['1']⟩]) ∧
      Value.toRat ⟨['1', '.', 'e', '5']⟩ = 100000 ∧ Value.toRat ⟨['1']⟩ = 1) ∧
    ((scanToken (initScanner ['0', 'x', '1', '0'])).1 = ⟨TOKEN_NUMBER, .src 0, 1, 1⟩ ∧
      (scanToken (initScanner ['0', LF])).1 = ⟨TOKEN_NUMBER, .src 0, 1, 1⟩ ∧
      Token.text ['0', 'x', '1', '0'] ⟨TOKEN_NUMBER, .src 0, 1, 1⟩ = ['0'] ∧
      Token.text ['0', LF] ⟨TOKEN_NUMBER, .src 0, 1, 1⟩ = ['0']) ∧
    ((compile 5 ['0', 'x', '1', '0'] initChunk).toOption.map
        (fun r => (r.1, r.2.compilingChunk.constants)) = some (true, [⟨['0', 'x', '1', '0']⟩]) ∧
      (compile 5 ['0', LF] initChunk).toOption.map
        (fun r => (r.1, r.2.compilingChunk.constants)) = some (true, [⟨['0']⟩]) ∧
      Value.toRat ⟨['0', 'x', '1', '0']⟩ = 16 ∧ Value.toRat ⟨['0']⟩ = 0) :=
  ⟨⟨number_constants, Compiler.number_returns⟩,
    ⟨by decide!, by decide!, by decide!, by decide!⟩,
    ⟨by decide!, by decide!, by decide!, by decide!⟩,
    ⟨by decide!, by decide!, by decide!, by decide!⟩,
    ⟨by decide!, by decide!, by decide!, by decide!⟩⟩

/-! ## C21: strings that are not closed -/

theorem specStringEnd_cons (q : Char) (hq : q ≠ NUL) (escaping : Bool) (c : Char)
    (rest : List Char) :
    specStringEnd q escaping (c :: rest) =
      if c = q then .closed 0
      else if c = '$' ∧ rest.headD NUL = LBRACE ∧ escaping = false then .interpolation 0
      else if c = BSLASH ∧ (rest.headD NUL = q ∨ rest.headD NUL = BSLASH) then
        (specStringEnd q false rest.tail).shift 2
      else (specStringEnd q (c == BSLASH) rest).shift 1 := by
  cases rest with
  | nil =>
    have h1 : ¬ (NUL = LBRACE) := by decide
    have h2 : ¬ (NUL = BSLASH) := by decide
    have h3 : ¬ (NUL = q) := fun h => hq h.symm
    simp only [specStringEnd, List.headD_nil, h1, h2, h3, false_and, and_false, or_self,
      if_false, StringEnd.shift]
  | cons x rest1 => simp only [specStringEnd, List.headD_cons, List.tail_cons]

namespace Scanner

theorem EndsAs.shift {q : Char} {pre : List Char} (front : List Char) {body : List Char}
    {r : Option Token × Scanner} {e : StringEnd}
    (h : EndsAs q (pre ++ front) body r e) :
    EndsAs q pre (front ++ body) r (e.shift front.length) := by
  cases e with
  | unterminated =>
    obtain ⟨h1, h2⟩ := h
    refine ⟨h1, ?_⟩
    rw [← List.append_assoc]
    exact h2
  | closed k =>
    obtain ⟨h1, rest, h2, h3⟩ := h
    refine ⟨h1, rest, ?_, ?_⟩
    · rw [Nat.add_comm, ← List.drop_drop, List.drop_left]
      exact h2
    · have ht : (front ++ body).take (k + front.length) = front ++ body.take k := by
        rw [Nat.add_comm, List.take_append]
      rw [ht, ← List.append_assoc]
      exact h3
  | interpolation k => trivial

/-- One turn of the loop of `string` on a character that is not the quote. -/
theorem stringLoop_turn (q : Char) (n : Nat) (s : Scanner) (pre : List Char) (c : Char)
    (rest : List Char) (h : s.At pre (c :: rest)) (hc : c ≠ NUL) (hcq : c ≠ q)
    (hi : ¬ (c = '$' ∧ rest.headD NUL = LBRACE ∧ s.previous ≠ BSLASH)) :
    stringLoop (n + 1) q s =
      stringLoop n q
        ((if c = BSLASH ∧ (rest.headD NUL = q ∨ rest.headD NUL = BSLASH) then (s.advance).2
          else s).advance).2 := by
  have hcur : s.current_ = c := by rw [h.current_eq]; rfl
  have hnext : s.next = rest.headD NUL := h.next_eq hc
  have hend : s.isAtEnd = false := by
    unfold isAtEnd; rw [hcur]; simpa using hc
  rw [stringLoop]
  have h1 : (s.current_ != q && !s.isAtEnd) = true := by
    rw [hcur, hend]; simpa using hcq
  rw [if_pos h1]
  have h2 : (s.current_ == '$' && s.next == LBRACE && s.previous != BSLASH) = false := by
    rw [hcur, hnext]
    by_contra hne
    apply hi
    simpa using hne
  rw [if_neg (by rw [h2]; decide)]
  simp only [hcur, hnext]
  by_cases he : c = BSLASH ∧ (rest.headD NUL = q ∨ rest.headD NUL = BSLASH)
  · rw [if_pos he, if_pos (by simpa using he)]
  · rw [if_neg he, if_neg (by simpa using he)]

/-- The loop of `string` ends where the spec's words say the body ends, unless
they say it ends at an interpolation. -/
theorem stringLoop_endsAs (q : Char) (hq : q ≠ NUL) :
    ∀ (n : Nat) (body : List Char) (s : Scanner) (pre : List Char) (escaping : Bool),
      s.At pre body → NUL ∉ body → body.length ≤ n →
      (escaping = true → s.previous = BSLASH) →
      EndsAs q pre body (stringLoop n q s) (specStringEnd q escaping body) := by
  intro n
  induction n with
  | zero =>
    intro body s pre escaping h h0 hn _
    have hb : body = [] := List.length_eq_zero.mp (Nat.le_zero.mp hn)
    subst hb
    exact ⟨rfl, by simpa using h⟩
  | succ n ih =>
    intro body s pre escaping h h0 hn hesc
    cases body with
    | nil =>
      have hcur : s.current_ = NUL := by rw [h.current_eq]; rfl
      have hstop : stringLoop (n + 1) q s = (none, s) := by
        rw [stringLoop, if_neg]
        unfold isAtEnd
        rw [hcur]
        simp
      rw [hstop]
      exact ⟨rfl, by simpa using h⟩
    | cons c rest =>
      have hc : c ≠ NUL := fun hc => h0 (by rw [hc]; exact List.mem_cons_self _ _)
      have h0r : NUL ∉ rest := fun hm => h0 (List.mem_cons_of_mem _ hm)
      have hcur : s.current_ = c := by rw [h.current_eq]; rfl
      rw [specStringEnd_cons q hq]
      by_cases hcq : c = q
      · rw [if_pos hcq]
        have hstop : stringLoop (n + 1) q s = (none, s) := by
          rw [stringLoop, if_neg]
          rw [hcur, hcq]
          simp
        rw [hstop]
        subst hcq
        exact ⟨rfl, rest, rfl, by simpa using h⟩
      · rw [if_neg hcq]
        by_cases hint : c = '$' ∧ rest.headD NUL = LBRACE ∧ escaping = false
        · rw [if_pos hint]
          trivial
        · rw [if_neg hint]
          have hi : ¬ (c = '$' ∧ rest.headD NUL = LBRACE ∧ s.previous ≠ BSLASH) := by
            rintro ⟨h1, h2, h3⟩
            cases escaping with
            | false => exact hint ⟨h1, h2, rfl⟩
            | true => exact h3 (hesc rfl)
          rw [stringLoop_turn q n s pre c rest h hc hcq hi]
          have hadv : (s.advance).2.At (pre ++ [c]) rest := h.advance
          by_cases he : c = BSLASH ∧ (rest.headD NUL = q ∨ rest.headD NUL = BSLASH)
          · rw [if_pos he, if_pos he]
            cases rest with
            | nil =>
              exfalso
              rcases he.2 with h1 | h1
              · exact hq h1.symm
              · exact absurd h1 (by decide)
            | cons x rest1 =>
              have hadv2 : ((s.advance).2.advance).2.At (pre ++ [c, x]) rest1 := by
                have := hadv.advance
                simpa using this
              have hlen : rest1.length ≤ n := by
                simp only [List.length_cons] at hn
                omega
              have := ih rest1 _ (pre ++ [c, x]) false hadv2
                (fun hm => h0r (List.mem_cons_of_mem _ hm)) hlen (fun hf => nomatch hf)
              exact EndsAs.shift [c, x] this
          · rw [if_neg he, if_neg he]
            have hlen : rest.length ≤ n := by
              simp only [List.length_cons] at hn
              omega
            have := ih rest _ (pre ++ [c]) (c == BSLASH) hadv h0r hlen
              (fun hb => by rw [hadv.previous_eq]; simpa using hb)
            exact EndsAs.shift [c] this

theorem skipWhitespace_idem (s : Scanner) : s.skipWhitespace.skipWhitespace = s.skipWhitespace :=
  skipWhitespace_of_not_blank (skipWhitespace_stops s).1 (skipWhitespace_stops s).2

end Scanner

open Scanner in
/-- The blanks and comments before a token can as well be skipped first. -/
theorem scanToken_skipWhitespace (s : Scanner) : scanToken s.skipWhitespace = scanToken s := by
  rw [scanToken, scanToken, skipWhitespace_idem]

open Scanner in
/-- What `string` returns on a body that the spec's words end at the end of
input, or at a closing quote. -/
theorem string_endsAs (q : Char) (hq : q = DQUOTE ∨ q = SQUOTE) (s0 : Scanner)
    (pre body : List Char) (h : s0.At (pre ++ [q]) body) (h0 : NUL ∉ body)
    (hs : s0.start = pre.length) :
    (specStringEnd q false body = .unterminated →
      (s0.string q).1 =
        ⟨TOKEN_ERROR, .heap "unterminated string (opening quote not matched)".toList, 47,
          (s0.string q).2.line⟩ ∧
      (s0.string q).2.At (pre ++ [q] ++ body) []) ∧
    (∀ k, specStringEnd q false body = .closed k →
      ∃ rest, body = body.take k ++ q :: rest ∧ (body.take k).length = k ∧
        (s0.string q).1 = ⟨TOKEN_STRING, .src pre.length, k + 2, (s0.string q).2.line⟩ ∧
        (s0.string q).2.At (pre ++ [q] ++ body.take k ++ [q]) rest) := by
  have hq0 : q ≠ NUL := by rcases hq with rfl | rfl <;> decide
  have hql : q ≠ LF := by rcases hq with rfl | rfl <;> decide
  have hlen : body.length ≤ s0.source.length := by
    rw [h.1]; simp; omega
  have E := stringLoop_endsAs q hq0 s0.source.length body s0 (pre ++ [q]) false h h0 hlen
    (fun hf => nomatch hf)
  have hmv := (stringLoop_spec q hq0 s0.source.length s0).1
  unfold string
  rcases hsl : stringLoop s0.source.length q s0 with ⟨o, s1⟩
  rw [hsl] at E hmv
  refine ⟨?_, ?_⟩
  · intro hu
    rw [hu] at E
    obtain ⟨ho, hat⟩ := E
    simp only at ho hat
    subst ho
    have hend : s1.isAtEnd = true := by
      unfold isAtEnd; rw [hat.current_eq]; rfl
    simp only [hend, if_true]
    exact ⟨rfl, hat⟩
  · intro k hk
    rw [hk] at E
    obtain ⟨ho, rest, hdrop, hat⟩ := E
    simp only at ho hat
    subst ho
    have hend : s1.isAtEnd = false := by
      unfold isAtEnd; rw [hat.current_eq]; simpa using hq0
    have hbody : body = body.take k ++ q :: rest := by
      rw [← hdrop, List.take_append_drop]
    have hklt : k < body.length := by
      by_contra hge
      rw [List.drop_of_length_le (Nat.le_of_not_lt hge)] at hdrop
      cases hdrop
    have htk : (body.take k).length = k := by
      rw [List.length_take]; omega
    refine ⟨rest, hbody, htk, ?_⟩
    simp only [hend, Bool.false_eq_true, if_false]
    rw [matchChar_of_eq hat hq0 hql]
    have hcur : s1.current = pre.length + 1 + k := by
      rw [hat.2]; simp [htk]; omega
    have hst : s1.start = pre.length := by rw [hmv.2.1, hs]
    refine ⟨?_, ?_⟩
    · simp only [makeToken, hst, hcur]
      congr 1
      omega
    · refine ⟨?_, ?_⟩
      · show s1.source = _
        rw [hat.1]; simp
      · show s1.current + 1 = _
        rw [hcur]; simp [htk]; omega

open Scanner in
/-- C21. Let the next token start with a quote `q`, single or double, followed
by `body` up to the end of input. If, in the spec's words, the body has no `q`
that is not passed through after a backslash and no `${` that starts an
interpolation, `scanToken` returns a `TOKEN_ERROR` whose message is
"unterminated string (opening quote not matched)" and leaves the cursor at the
end of input, so that the call after it returns `TOKEN_EOF`. If instead such a
`q` comes first, `k` characters into the body, `scanToken` returns one
`TOKEN_STRING` that starts at the opening quote and ends at that `q`, and
leaves the cursor right behind it. -/
theorem unterminated_string_is_error (q : Char) (s : Scanner) (pre body : List Char)
    (hq : q = DQUOTE ∨ q = SQUOTE) (h : s.skipWhitespace.At pre (q :: body))
    (h0 : NUL ∉ body) :
    (specStringEnd q false body = .unterminated →
      (scanToken s).1.type = TOKEN_ERROR ∧
      (scanToken s).1.start = .heap "unterminated string (opening quote not matched)".toList ∧
      (scanToken s).1.cString s.source =
        "unterminated string (opening quote not matched)".toList ∧
      (scanToken s).2.source = s.source ∧
      (scanToken s).2.current = s.source.length ∧
      (scanToken s).2.isAtEnd = true ∧
      (scanToken (scanToken s).2).1.type = TOKEN_EOF) ∧
    (∀ k, specStringEnd q false body = .closed k →
      (scanToken s).1.type = TOKEN_STRING ∧
      (scanToken s).1.start = .src pre.length ∧
      (scanToken s).1.length = k + 2 ∧
      (scanToken s).1.text s.source = q :: body.take k ++ [q] ∧
      (body.drop k).head? = some q ∧
      (scanToken s).2.source = s.source ∧
      (scanToken s).2.current = pre.length + k + 2) := by
  have hsrc : s.skipWhitespace.source = s.source := (skipWhitespace_walks s).1.1
  have hat0 : ({ s.skipWhitespace with
      start := s.skipWhitespace.current, current := s.skipWhitespace.current + 1 } : Scanner).At
      (pre ++ [q]) body := by
    refine ⟨?_, ?_⟩
    · show s.skipWhitespace.source = _
      rw [h.1]; simp
    · show s.skipWhitespace.current + 1 = _
      rw [h.2]; simp
  have hstr := string_endsAs q hq _ pre body hat0 h0 h.2
  rw [← scanToken_skipWhitespace s, scanToken_quote q s.skipWhitespace pre body h hq]
  refine ⟨?_, ?_⟩
  · intro hu
    obtain ⟨htok, hat⟩ := hstr.1 hu
    have hs1 := hat.1
    rw [string_source] at hs1
    change s.skipWhitespace.source = _ at hs1
    refine ⟨?_, ?_, ?_, ?_, ?_, ?_, ?_⟩
    · rw [htok]
    · rw [htok]
    · rw [htok]; rfl
    · rw [string_source]; exact hsrc
    · rw [hat.2, ← hsrc, hs1]; simp
    · unfold isAtEnd; rw [hat.current_eq]; rfl
    · rw [scanToken_at_end _ _ hat]
  · intro k hk
    obtain ⟨rest, hbody, htk, htok, hat⟩ := hstr.2 k hk
    refine ⟨?_, ?_, ?_, ?_, ?_, ?_, ?_⟩
    · rw [htok]
    · rw [htok]
    · rw [htok]
    · rw [htok, ← hsrc, h.1]
      show ((pre ++ q :: body).drop pre.length).take (k + 2) = _
      rw [List.drop_left]
      refine @take_eq_of_append _ _ rest _ ?_ ?_
      · conv_lhs => rw [hbody]
        simp
      · simp [htk]
    · have hd := List.drop_left (body.take k) (q :: rest)
      rw [htk, ← hbody] at hd
      rw [hd]; rfl
    · rw [string_source]; exact hsrc
    · rw [hat.2]; simp [htk]; omega

theorem unterminated_string_is_error_witness :
    ((scanToken (initScanner [' ', DQUOTE, 'a', BSLASH, DQUOTE])).1.type = TOKEN_ERROR ∧
      (scanToken (initScanner [' ', DQUOTE, 'a', BSLASH, DQUOTE])).2.current = 5 ∧
      (scanToken (scanToken (initScanner [' ', DQUOTE, 'a', BSLASH, DQUOTE])).2).1.type =
        TOKEN_EOF) ∧
    ((scanToken (initScanner [SQUOTE, 'a', BSLASH, SQUOTE, 'b', SQUOTE, 'c'])).1.type =
        TOKEN_STRING ∧
      (scanToken (initScanner [SQUOTE, 'a', BSLASH, SQUOTE, 'b', SQUOTE, 'c'])).1.text
          [SQUOTE, 'a', BSLASH, SQUOTE, 'b', SQUOTE, 'c'] =
        [SQUOTE, 'a', BSLASH, SQUOTE, 'b', SQUOTE] ∧
      (scanToken (initScanner [SQUOTE, 'a', BSLASH, SQUOTE, 'b', SQUOTE, 'c'])).2.current = 6) :=
  ⟨(fun r => ⟨r.1, r.2.2.2.2.1, r.2.2.2.2.2.2⟩)
      ((unterminated_string_is_error DQUOTE (initScanner [' ', DQUOTE, 'a', BSLASH, DQUOTE])
        [' '] ['a', BSLASH, DQUOTE] (Or.inl rfl) ⟨by decide!, by decide!⟩ (by decide)).1
        (by decide)),
    (fun r => ⟨r.1, r.2.2.2.1, r.2.2.2.2.2.2⟩)
      ((unterminated_string_is_error SQUOTE
        (initScanner [SQUOTE, 'a', BSLASH, SQUOTE, 'b', SQUOTE, 'c'])
        [] ['a', BSLASH, SQUOTE, 'b', SQUOTE, 'c'] (Or.inr rfl) ⟨by decide!, by decide!⟩
        (by decide)).2 4 (by decide))⟩

/-! ## Sources without interpolation stay within the array -/

namespace Scanner

theorem current_ne_of_not_mem (s : Scanner) (c : Char) (hc : c ≠ NUL) (h : c ∉ s.source) :
    s.current_ ≠ c := by
  unfold current_ charAt
  intro heq
  by_cases hlt : s.current < s.source.length
  · apply h
    rw [← heq, List.getD_eq_getElem _ _ hlt]
    exact List.getElem_mem _
  · rw [List.getD_eq_default _ _ (by omega)] at heq
    exact hc heq.symm

/-- In a buffer without `$` the loop of `string` pushes nothing. -/
theorem stringLoop_plain_source (quote : Char) (n : Nat) : ∀ s : Scanner, '$' ∉ s.source →
    (stringLoop n quote s).2.interpolatingCount = s.interpolatingCount ∧
      (stringLoop n quote s).2.outOfBounds = s.outOfBounds := by
  induction n with
  | zero => intro s _; exact ⟨rfl, rfl⟩
  | succ n ih =>
    intro s h
    have hcur : (s.current_ == '$') = false := by
      simpa using current_ne_of_not_mem s '$' (by decide) h
    rw [stringLoop]
    split
    · rw [if_neg (by rw [hcur]; simp)]
      have hsrc : ((if (s.current_ == BSLASH && (s.next == quote || s.next == BSLASH)) = true
          then (s.advance).2 else s).advance).2.source = s.source := by
        split
        · rw [(advance_source _).1, (advance_source _).1]
        · rw [(advance_source _).1]
      obtain ⟨a, b⟩ := ih _ (by rw [hsrc]; exact h)
      refine ⟨a.trans ?_, b.trans ?_⟩
      · split
        · rw [advance_eq, advance_eq]; simp only; split <;> split <;> rfl
        · rw [advance_eq]; simp only; split <;> rfl
      · rw [advance_flag]
        split
        · rw [advance_flag]
        · rfl
    · exact ⟨rfl, rfl⟩

theorem string_plain_source (quote : Char) (s : Scanner) (h : '$' ∉ s.source) :
    (s.string quote).2.interpolatingCount = s.interpolatingCount ∧
      (s.string quote).2.outOfBounds = s.outOfBounds := by
  have hl := stringLoop_plain_source quote s.source.length s h
  unfold string
  rcases hsl : stringLoop s.source.length quote s with ⟨o, s1⟩
  rw [hsl] at hl
  cases o with
  | some tkn => exact hl
  | none =>
    show (if s1.isAtEnd then (s1.errorToken _, s1)
      else ((s1.matchChar quote).2.makeToken TOKEN_STRING, (s1.matchChar quote).2) :
        Token × Scanner).2.interpolatingCount = _ ∧
      (if s1.isAtEnd then (s1.errorToken _, s1)
      else ((s1.matchChar quote).2.makeToken TOKEN_STRING, (s1.matchChar quote).2) :
        Token × Scanner).2.outOfBounds = _
    split
    · exact hl
    · have hm := (matchChar_walks s1 quote).1
      exact ⟨hm.2.1.trans hl.1, hm.2.2.2.1.trans hl.2⟩

end Scanner

open Scanner in
/-- On a buffer without `$`, a call of `scanToken` outside any interpolation
stays outside and makes no access to the array. -/
theorem scanToken_plain_source (s : Scanner) (h : '$' ∉ s.source)
    (hc : s.interpolatingCount = -1) :
    (scanToken s).2.interpolatingCount = -1 ∧ (scanToken s).2.outOfBounds = s.outOfBounds := by
  obtain ⟨⟨a, -⟩, e, f, g, -⟩ := skipWhitespace_walks s
  have h0 : s.atEof.outOfBounds = s.outOfBounds := g
  have c0 : s.atEof.interpolatingCount = -1 := (show _ = s.interpolatingCount from e).trans hc
  have hA : ∀ c sA, s.atEof.advance = (c, sA) →
      sA.source = s.source ∧ sA.interpolatingCount = -1 ∧ sA.outOfBounds = s.outOfBounds := by
    intro c sA hadv
    have h1 := advance_flag s.atEof
    have h2 := (advance_source s.atEof).1
    have h3 : (s.atEof.advance).2.interpolatingCount = s.atEof.interpolatingCount := by
      rw [advance_eq]; simp only; split <;> rfl
    rw [hadv] at h1 h2 h3
    exact ⟨h2.trans (show s.atEof.source = s.source from a), h3.trans c0, h1.trans h0⟩
  apply scanToken_cases s
    (fun r => r.2.interpolatingCount = -1 ∧ r.2.outOfBounds = s.outOfBounds)
  · intro _
    exact ⟨c0, h0⟩
  · intro c sA _ hadv _
    obtain ⟨-, x2, x3⟩ := hA c sA hadv
    apply number_cases sA
      (fun r => r.2.interpolatingCount = -1 ∧ r.2.outOfBounds = s.outOfBounds)
    · intro t hw _
      exact ⟨hw.2.1.trans x2, hw.2.2.2.1.trans x3⟩
    · intro t hw _
      exact ⟨hw.2.1.trans x2, hw.2.2.2.1.trans x3⟩
  · intro c sA _ hadv _
    obtain ⟨-, x2, x3⟩ := hA c sA hadv
    obtain ⟨hw, -⟩ := identifier_walks sA
    exact ⟨hw.2.1.trans x2, hw.2.2.2.1.trans x3⟩
  · intro c sA t ty _ hadv _ hmt _ _ _ _ _
    obtain ⟨-, x2, x3⟩ := hA c sA hadv
    obtain ⟨hw, -⟩ := hmt.walks
    exact ⟨hw.2.1.trans x2, hw.2.2.2.1.trans x3⟩
  · intro sA _ hadv hcount
    obtain ⟨-, x2, -⟩ := hA _ sA hadv
    rw [x2] at hcount
    exact absurd hcount (by decide)
  · intro c sA _ hadv _
    obtain ⟨x1, x2, x3⟩ := hA c sA hadv
    obtain ⟨y1, y2⟩ := string_plain_source c sA (by rw [x1]; exact h)
    exact ⟨y1.trans x2, y2.trans x3⟩
  · intro sA _ hadv
    obtain ⟨-, x2, x3⟩ := hA _ sA hadv
    exact ⟨x2, x3⟩
  · intro c sA _ hadv _
    obtain ⟨-, x2, x3⟩ := hA c sA hadv
    exact ⟨x2, x3⟩

/-- A source without `$` has no interpolation: no call of a run from the
initial scanner makes an access to the array `interpolating`, in bounds or
out. -/
theorem scanTokens_plain_source (source : List Char) (h : '$' ∉ source) (n : Nat) :
    (scanTokens n (initScanner source)).2.source = source ∧
      (scanTokens n (initScanner source)).2.interpolatingCount = -1 ∧
      (scanTokens n (initScanner source)).2.outOfBounds = false := by
  have key : ∀ n (s : Scanner), '$' ∉ s.source → s.interpolatingCount = -1 →
      (scanTokens n s).2.source = s.source ∧ (scanTokens n s).2.interpolatingCount = -1 ∧
        (scanTokens n s).2.outOfBounds = s.outOfBounds := by
    intro n
    induction n with
    | zero => intro s _ hc; exact ⟨rfl, hc, rfl⟩
    | succ n ih =>
      intro s hs hc
      obtain ⟨a, b⟩ := scanToken_plain_source s hs hc
      have hsrc := scanToken_source s
      obtain ⟨x, y, z⟩ := ih (scanToken s).2 (by rw [hsrc]; exact hs) a
      rw [scanTokens_succ]
      exact ⟨x.trans hsrc, y, z.trans b⟩
  exact key n (initScanner source) h rfl

end Byte
